import Mathlib

/-!
# contractdiff: paragraph alignment and similarity

A shallow embedding of the comparison core of `src/app.js` (text normalisation,
section numbers, bigram similarity, the three-tier paragraph aligner and the
per-pair diff classifier) together with the properties proved about it.

Conventions of the embedding:

* a JavaScript string is the list of its UTF-16 code units (`Str`), so that
  `length` and `substring` count what the engine counts;
* a similarity is the exact rational `|A ∩ B| / |A ∪ B|`; the engine holds the double
  nearest to it, and since rounding is monotone and two different quotients with
  denominators below `2 ^ 26` never round to the same double, every comparison
  made by the code (between two scores, and with the threshold 0.85) has the
  outcome it has on the exact values;
* `toLowerCase` is the default lower-case conversion of the Unicode Standard on the
  code points of the string, context rule for the capital sigma included, with
  the tables of Unicode 14.0;
* a `Set` is the list of its members in insertion order;
* the object a pair refers to is remembered by its index in the input array.
-/

namespace ContractDiff

set_option maxRecDepth 8192

/-! ## Strings -/

/-- A JavaScript string, as the list of its UTF-16 code units. -/
abbrev Str := List Nat

/-- The UTF-16 code units of one Unicode scalar value. -/
def utf16Char (c : Char) : List Nat :=
  if c.toNat < 0x10000 then [c.toNat]
  else [0xD800 + (c.toNat - 0x10000) / 0x400, 0xDC00 + (c.toNat - 0x10000) % 0x400]

/-- The JavaScript string written by a literal. -/
def js (s : String) : Str := s.toList.flatMap utf16Char

/-- The characters matched by `\s` in a regular expression, which are also the
characters removed by `String.prototype.trim`. -/
def isWhiteSpace (c : Nat) : Bool :=
  c == 0x09 || c == 0x0A || c == 0x0B || c == 0x0C || c == 0x0D || c == 0x20 ||
  c == 0xA0 || c == 0x1680 || (0x2000 ≤ c && c ≤ 0x200A) ||
  c == 0x2028 || c == 0x2029 || c == 0x202F || c == 0x205F || c == 0x3000 || c == 0xFEFF

/-- `String.prototype.trim`. -/
def trim (s : Str) : Str :=
  ((s.dropWhile isWhiteSpace).reverse.dropWhile isWhiteSpace).reverse

/-- `s.replace(/[cls]/g, to)` for a character class `cls` and a one-character
replacement `rep`. -/
def replaceClass (cls : Str) (rep : Nat) (s : Str) : Str :=
  s.map (fun c => if c ∈ cls then rep else c)

/-- `s.replace(/[cls]/g, '')` and `s.replace(/\s+/g, '')`: every character of the
class is removed. -/
def removeClass (p : Nat → Bool) (s : Str) : Str :=
  s.filter (fun c => !p c)

/-! ## Lower case

`String.prototype.toLowerCase` is the lower-case conversion of the Unicode Standard
(Default Case Conversion), applied to the code points of the string: the
lower-case mapping of `UnicodeData.txt`, the mapping of U+0130 to U+0069 U+0307 of
`SpecialCasing.txt`, and the rule of `SpecialCasing.txt` that turns the capital
sigma U+03A3 into the final sigma U+03C2 when a cased letter precedes it and none
follows it, case-ignorable characters being skipped (a character that is both
cased and case-ignorable is skipped, as the engines do). The tables are those of
Unicode 14.0. -/

/-- The lower-case mappings of `UnicodeData.txt` that change a code point, as
entries `(lo, hi, step, target)` sorted by `lo`: the code points `lo`,
`lo + step`, …, `hi` are mapped to `target`, `target + step`, … -/
def lowerCaseTable : List (Nat × Nat × Nat × Nat) :=
  [
   (0x41, 0x5A, 1, 0x61), (0xC0, 0xD6, 1, 0xE0), (0xD8, 0xDE, 1, 0xF8), (0x100, 0x12E, 2, 0x101),
   (0x132, 0x136, 2, 0x133), (0x139, 0x147, 2, 0x13A), (0x14A, 0x176, 2, 0x14B), (0x178, 0x178, 1, 0xFF),
   (0x179, 0x17D, 2, 0x17A), (0x181, 0x181, 1, 0x253), (0x182, 0x184, 2, 0x183), (0x186, 0x186, 1, 0x254),
   (0x187, 0x187, 1, 0x188), (0x189, 0x18A, 1, 0x256), (0x18B, 0x18B, 1, 0x18C), (0x18E, 0x18E, 1, 0x1DD),
   (0x18F, 0x18F, 1, 0x259), (0x190, 0x190, 1, 0x25B), (0x191, 0x191, 1, 0x192), (0x193, 0x193, 1, 0x260),
   (0x194, 0x194, 1, 0x263), (0x196, 0x196, 1, 0x269), (0x197, 0x197, 1, 0x268), (0x198, 0x198, 1, 0x199),
   (0x19C, 0x19C, 1, 0x26F), (0x19D, 0x19D, 1, 0x272), (0x19F, 0x19F, 1, 0x275), (0x1A0, 0x1A4, 2, 0x1A1),
   (0x1A6, 0x1A6, 1, 0x280), (0x1A7, 0x1A7, 1, 0x1A8), (0x1A9, 0x1A9, 1, 0x283), (0x1AC, 0x1AC, 1, 0x1AD),
   (0x1AE, 0x1AE, 1, 0x288), (0x1AF, 0x1AF, 1, 0x1B0), (0x1B1, 0x1B2, 1, 0x28A), (0x1B3, 0x1B5, 2, 0x1B4),
   (0x1B7, 0x1B7, 1, 0x292), (0x1B8, 0x1B8, 1, 0x1B9), (0x1BC, 0x1BC, 1, 0x1BD), (0x1C4, 0x1C4, 1, 0x1C6),
   (0x1C5, 0x1C5, 1, 0x1C6), (0x1C7, 0x1C7, 1, 0x1C9), (0x1C8, 0x1C8, 1, 0x1C9), (0x1CA, 0x1CA, 1, 0x1CC),
   (0x1CB, 0x1DB, 2, 0x1CC), (0x1DE, 0x1EE, 2, 0x1DF), (0x1F1, 0x1F1, 1, 0x1F3), (0x1F2, 0x1F4, 2, 0x1F3),
   (0x1F6, 0x1F6, 1, 0x195), (0x1F7, 0x1F7, 1, 0x1BF), (0x1F8, 0x21E, 2, 0x1F9), (0x220, 0x220, 1, 0x19E),
   (0x222, 0x232, 2, 0x223), (0x23A, 0x23A, 1, 0x2C65), (0x23B, 0x23B, 1, 0x23C), (0x23D, 0x23D, 1, 0x19A),
   (0x23E, 0x23E, 1, 0x2C66), (0x241, 0x241, 1, 0x242), (0x243, 0x243, 1, 0x180), (0x244, 0x244, 1, 0x289),
   (0x245, 0x245, 1, 0x28C), (0x246, 0x24E, 2, 0x247), (0x370, 0x372, 2, 0x371), (0x376, 0x376, 1, 0x377),
   (0x37F, 0x37F, 1, 0x3F3), (0x386, 0x386, 1, 0x3AC), (0x388, 0x38A, 1, 0x3AD), (0x38C, 0x38C, 1, 0x3CC),
   (0x38E, 0x38F, 1, 0x3CD), (0x391, 0x3A1, 1, 0x3B1), (0x3A3, 0x3AB, 1, 0x3C3), (0x3CF, 0x3CF, 1, 0x3D7),
   (0x3D8, 0x3EE, 2, 0x3D9), (0x3F4, 0x3F4, 1, 0x3B8), (0x3F7, 0x3F7, 1, 0x3F8), (0x3F9, 0x3F9, 1, 0x3F2),
   (0x3FA, 0x3FA, 1, 0x3FB), (0x3FD, 0x3FF, 1, 0x37B), (0x400, 0x40F, 1, 0x450), (0x410, 0x42F, 1, 0x430),
   (0x460, 0x480, 2, 0x461), (0x48A, 0x4BE, 2, 0x48B), (0x4C0, 0x4C0, 1, 0x4CF), (0x4C1, 0x4CD, 2, 0x4C2),
   (0x4D0, 0x52E, 2, 0x4D1), (0x531, 0x556, 1, 0x561), (0x10A0, 0x10C5, 1, 0x2D00), (0x10C7, 0x10C7, 1, 0x2D27),
   (0x10CD, 0x10CD, 1, 0x2D2D), (0x13A0, 0x13EF, 1, 0xAB70), (0x13F0, 0x13F5, 1, 0x13F8), (0x1C90, 0x1CBA, 1, 0x10D0),
   (0x1CBD, 0x1CBF, 1, 0x10FD), (0x1E00, 0x1E94, 2, 0x1E01), (0x1E9E, 0x1E9E, 1, 0xDF), (0x1EA0, 0x1EFE, 2, 0x1EA1),
   (0x1F08, 0x1F0F, 1, 0x1F00), (0x1F18, 0x1F1D, 1, 0x1F10), (0x1F28, 0x1F2F, 1, 0x1F20), (0x1F38, 0x1F3F, 1, 0x1F30),
   (0x1F48, 0x1F4D, 1, 0x1F40), (0x1F59, 0x1F59, 1, 0x1F51), (0x1F5B, 0x1F5B, 1, 0x1F53), (0x1F5D, 0x1F5D, 1, 0x1F55),
   (0x1F5F, 0x1F5F, 1, 0x1F57), (0x1F68, 0x1F6F, 1, 0x1F60), (0x1F88, 0x1F8F, 1, 0x1F80), (0x1F98, 0x1F9F, 1, 0x1F90),
   (0x1FA8, 0x1FAF, 1, 0x1FA0), (0x1FB8, 0x1FB9, 1, 0x1FB0), (0x1FBA, 0x1FBB, 1, 0x1F70), (0x1FBC, 0x1FBC, 1, 0x1FB3),
   (0x1FC8, 0x1FCB, 1, 0x1F72), (0x1FCC, 0x1FCC, 1, 0x1FC3), (0x1FD8, 0x1FD9, 1, 0x1FD0), (0x1FDA, 0x1FDB, 1, 0x1F76),
   (0x1FE8, 0x1FE9, 1, 0x1FE0), (0x1FEA, 0x1FEB, 1, 0x1F7A), (0x1FEC, 0x1FEC, 1, 0x1FE5), (0x1FF8, 0x1FF9, 1, 0x1F78),
   (0x1FFA, 0x1FFB, 1, 0x1F7C), (0x1FFC, 0x1FFC, 1, 0x1FF3), (0x2126, 0x2126, 1, 0x3C9), (0x212A, 0x212A, 1, 0x6B),
   (0x212B, 0x212B, 1, 0xE5), (0x2132, 0x2132, 1, 0x214E), (0x2160, 0x216F, 1, 0x2170), (0x2183, 0x2183, 1, 0x2184),
   (0x24B6, 0x24CF, 1, 0x24D0), (0x2C00, 0x2C2F, 1, 0x2C30), (0x2C60, 0x2C60, 1, 0x2C61), (0x2C62, 0x2C62, 1, 0x26B),
   (0x2C63, 0x2C63, 1, 0x1D7D), (0x2C64, 0x2C64, 1, 0x27D), (0x2C67, 0x2C6B, 2, 0x2C68), (0x2C6D, 0x2C6D, 1, 0x251),
   (0x2C6E, 0x2C6E, 1, 0x271), (0x2C6F, 0x2C6F, 1, 0x250), (0x2C70, 0x2C70, 1, 0x252), (0x2C72, 0x2C72, 1, 0x2C73),
   (0x2C75, 0x2C75, 1, 0x2C76), (0x2C7E, 0x2C7F, 1, 0x23F), (0x2C80, 0x2CE2, 2, 0x2C81), (0x2CEB, 0x2CED, 2, 0x2CEC),
   (0x2CF2, 0x2CF2, 1, 0x2CF3), (0xA640, 0xA66C, 2, 0xA641), (0xA680, 0xA69A, 2, 0xA681), (0xA722, 0xA72E, 2, 0xA723),
   (0xA732, 0xA76E, 2, 0xA733), (0xA779, 0xA77B, 2, 0xA77A), (0xA77D, 0xA77D, 1, 0x1D79), (0xA77E, 0xA786, 2, 0xA77F),
   (0xA78B, 0xA78B, 1, 0xA78C), (0xA78D, 0xA78D, 1, 0x265), (0xA790, 0xA792, 2, 0xA791), (0xA796, 0xA7A8, 2, 0xA797),
   (0xA7AA, 0xA7AA, 1, 0x266), (0xA7AB, 0xA7AB, 1, 0x25C), (0xA7AC, 0xA7AC, 1, 0x261), (0xA7AD, 0xA7AD, 1, 0x26C),
   (0xA7AE, 0xA7AE, 1, 0x26A), (0xA7B0, 0xA7B0, 1, 0x29E), (0xA7B1, 0xA7B1, 1, 0x287), (0xA7B2, 0xA7B2, 1, 0x29D),
   (0xA7B3, 0xA7B3, 1, 0xAB53), (0xA7B4, 0xA7C2, 2, 0xA7B5), (0xA7C4, 0xA7C4, 1, 0xA794), (0xA7C5, 0xA7C5, 1, 0x282),
   (0xA7C6, 0xA7C6, 1, 0x1D8E), (0xA7C7, 0xA7C9, 2, 0xA7C8), (0xA7D0, 0xA7D0, 1, 0xA7D1), (0xA7D6, 0xA7D8, 2, 0xA7D7),
   (0xA7F5, 0xA7F5, 1, 0xA7F6), (0xFF21, 0xFF3A, 1, 0xFF41), (0x10400, 0x10427, 1, 0x10428), (0x104B0, 0x104D3, 1, 0x104D8),
   (0x10570, 0x1057A, 1, 0x10597), (0x1057C, 0x1058A, 1, 0x105A3), (0x1058C, 0x10592, 1, 0x105B3), (0x10594, 0x10595, 1, 0x105BB),
   (0x10C80, 0x10CB2, 1, 0x10CC0), (0x118A0, 0x118BF, 1, 0x118C0), (0x16E40, 0x16E5F, 1, 0x16E60), (0x1E900, 0x1E921, 1, 0x1E922) ]

/-- The ranges `(lo, hi)` of the code points with the property `Case_Ignorable`, sorted. -/
def caseIgnorableRanges : List (Nat × Nat) :=
  [
   (0x27, 0x27), (0x2E, 0x2E), (0x3A, 0x3A), (0x5E, 0x5E), (0x60, 0x60), (0xA8, 0xA8),
   (0xAD, 0xAD), (0xAF, 0xAF), (0xB4, 0xB4), (0xB7, 0xB8), (0x2B0, 0x36F), (0x374, 0x375),
   (0x37A, 0x37A), (0x384, 0x385), (0x387, 0x387), (0x483, 0x489), (0x559, 0x559), (0x55F, 0x55F),
   (0x591, 0x5BD), (0x5BF, 0x5BF), (0x5C1, 0x5C2), (0x5C4, 0x5C5), (0x5C7, 0x5C7), (0x5F4, 0x5F4),
   (0x600, 0x605), (0x610, 0x61A), (0x61C, 0x61C), (0x640, 0x640), (0x64B, 0x65F), (0x670, 0x670),
   (0x6D6, 0x6DD), (0x6DF, 0x6E8), (0x6EA, 0x6ED), (0x70F, 0x70F), (0x711, 0x711), (0x730, 0x74A),
   (0x7A6, 0x7B0), (0x7EB, 0x7F5), (0x7FA, 0x7FA), (0x7FD, 0x7FD), (0x816, 0x82D), (0x859, 0x85B),
   (0x888, 0x888), (0x890, 0x891), (0x898, 0x89F), (0x8C9, 0x902), (0x93A, 0x93A), (0x93C, 0x93C),
   (0x941, 0x948), (0x94D, 0x94D), (0x951, 0x957), (0x962, 0x963), (0x971, 0x971), (0x981, 0x981),
   (0x9BC, 0x9BC), (0x9C1, 0x9C4), (0x9CD, 0x9CD), (0x9E2, 0x9E3), (0x9FE, 0x9FE), (0xA01, 0xA02),
   (0xA3C, 0xA3C), (0xA41, 0xA42), (0xA47, 0xA48), (0xA4B, 0xA4D), (0xA51, 0xA51), (0xA70, 0xA71),
   (0xA75, 0xA75), (0xA81, 0xA82), (0xABC, 0xABC), (0xAC1, 0xAC5), (0xAC7, 0xAC8), (0xACD, 0xACD),
   (0xAE2, 0xAE3), (0xAFA, 0xAFF), (0xB01, 0xB01), (0xB3C, 0xB3C), (0xB3F, 0xB3F), (0xB41, 0xB44),
   (0xB4D, 0xB4D), (0xB55, 0xB56), (0xB62, 0xB63), (0xB82, 0xB82), (0xBC0, 0xBC0), (0xBCD, 0xBCD),
   (0xC00, 0xC00), (0xC04, 0xC04), (0xC3C, 0xC3C), (0xC3E, 0xC40), (0xC46, 0xC48), (0xC4A, 0xC4D),
   (0xC55, 0xC56), (0xC62, 0xC63), (0xC81, 0xC81), (0xCBC, 0xCBC), (0xCBF, 0xCBF), (0xCC6, 0xCC6),
   (0xCCC, 0xCCD), (0xCE2, 0xCE3), (0xD00, 0xD01), (0xD3B, 0xD3C), (0xD41, 0xD44), (0xD4D, 0xD4D),
   (0xD62, 0xD63), (0xD81, 0xD81), (0xDCA, 0xDCA), (0xDD2, 0xDD4), (0xDD6, 0xDD6), (0xE31, 0xE31),
   (0xE34, 0xE3A), (0xE46, 0xE4E), (0xEB1, 0xEB1), (0xEB4, 0xEBC), (0xEC6, 0xEC6), (0xEC8, 0xECD),
   (0xF18, 0xF19), (0xF35, 0xF35), (0xF37, 0xF37), (0xF39, 0xF39), (0xF71, 0xF7E), (0xF80, 0xF84),
   (0xF86, 0xF87), (0xF8D, 0xF97), (0xF99, 0xFBC), (0xFC6, 0xFC6), (0x102D, 0x1030), (0x1032, 0x1037),
   (0x1039, 0x103A), (0x103D, 0x103E), (0x1058, 0x1059), (0x105E, 0x1060), (0x1071, 0x1074), (0x1082, 0x1082),
   (0x1085, 0x1086), (0x108D, 0x108D), (0x109D, 0x109D), (0x10FC, 0x10FC), (0x135D, 0x135F), (0x1712, 0x1714),
   (0x1732, 0x1733), (0x1752, 0x1753), (0x1772, 0x1773), (0x17B4, 0x17B5), (0x17B7, 0x17BD), (0x17C6, 0x17C6),
   (0x17C9, 0x17D3), (0x17D7, 0x17D7), (0x17DD, 0x17DD), (0x180B, 0x180F), (0x1843, 0x1843), (0x1885, 0x1886),
   (0x18A9, 0x18A9), (0x1920, 0x1922), (0x1927, 0x1928), (0x1932, 0x1932), (0x1939, 0x193B), (0x1A17, 0x1A18),
   (0x1A1B, 0x1A1B), (0x1A56, 0x1A56), (0x1A58, 0x1A5E), (0x1A60, 0x1A60), (0x1A62, 0x1A62), (0x1A65, 0x1A6C),
   (0x1A73, 0x1A7C), (0x1A7F, 0x1A7F), (0x1AA7, 0x1AA7), (0x1AB0, 0x1ACE), (0x1B00, 0x1B03), (0x1B34, 0x1B34),
   (0x1B36, 0x1B3A), (0x1B3C, 0x1B3C), (0x1B42, 0x1B42), (0x1B6B, 0x1B73), (0x1B80, 0x1B81), (0x1BA2, 0x1BA5),
   (0x1BA8, 0x1BA9), (0x1BAB, 0x1BAD), (0x1BE6, 0x1BE6), (0x1BE8, 0x1BE9), (0x1BED, 0x1BED), (0x1BEF, 0x1BF1),
   (0x1C2C, 0x1C33), (0x1C36, 0x1C37), (0x1C78, 0x1C7D), (0x1CD0, 0x1CD2), (0x1CD4, 0x1CE0), (0x1CE2, 0x1CE8),
   (0x1CED, 0x1CED), (0x1CF4, 0x1CF4), (0x1CF8, 0x1CF9), (0x1D2C, 0x1D6A), (0x1D78, 0x1D78), (0x1D9B, 0x1DFF),
   (0x1FBD, 0x1FBD), (0x1FBF, 0x1FC1), (0x1FCD, 0x1FCF), (0x1FDD, 0x1FDF), (0x1FED, 0x1FEF), (0x1FFD, 0x1FFE),
   (0x200B, 0x200F), (0x2018, 0x2019), (0x2024, 0x2024), (0x2027, 0x2027), (0x202A, 0x202E), (0x2060, 0x2064),
   (0x2066, 0x206F), (0x2071, 0x2071), (0x207F, 0x207F), (0x2090, 0x209C), (0x20D0, 0x20F0), (0x2C7C, 0x2C7D),
   (0x2CEF, 0x2CF1), (0x2D6F, 0x2D6F), (0x2D7F, 0x2D7F), (0x2DE0, 0x2DFF), (0x2E2F, 0x2E2F), (0x3005, 0x3005),
   (0x302A, 0x302D), (0x3031, 0x3035), (0x303B, 0x303B), (0x3099, 0x309E), (0x30FC, 0x30FE), (0xA015, 0xA015),
   (0xA4F8, 0xA4FD), (0xA60C, 0xA60C), (0xA66F, 0xA672), (0xA674, 0xA67D), (0xA67F, 0xA67F), (0xA69C, 0xA69F),
   (0xA6F0, 0xA6F1), (0xA700, 0xA721), (0xA770, 0xA770), (0xA788, 0xA78A), (0xA7F2, 0xA7F4), (0xA7F8, 0xA7F9),
   (0xA802, 0xA802), (0xA806, 0xA806), (0xA80B, 0xA80B), (0xA825, 0xA826), (0xA82C, 0xA82C), (0xA8C4, 0xA8C5),
   (0xA8E0, 0xA8F1), (0xA8FF, 0xA8FF), (0xA926, 0xA92D), (0xA947, 0xA951), (0xA980, 0xA982), (0xA9B3, 0xA9B3),
   (0xA9B6, 0xA9B9), (0xA9BC, 0xA9BD), (0xA9CF, 0xA9CF), (0xA9E5, 0xA9E6), (0xAA29, 0xAA2E), (0xAA31, 0xAA32),
   (0xAA35, 0xAA36), (0xAA43, 0xAA43), (0xAA4C, 0xAA4C), (0xAA70, 0xAA70), (0xAA7C, 0xAA7C), (0xAAB0, 0xAAB0),
   (0xAAB2, 0xAAB4), (0xAAB7, 0xAAB8), (0xAABE, 0xAABF), (0xAAC1, 0xAAC1), (0xAADD, 0xAADD), (0xAAEC, 0xAAED),
   (0xAAF3, 0xAAF4), (0xAAF6, 0xAAF6), (0xAB5B, 0xAB5F), (0xAB69, 0xAB6B), (0xABE5, 0xABE5), (0xABE8, 0xABE8),
   (0xABED, 0xABED), (0xFB1E, 0xFB1E), (0xFBB2, 0xFBC2), (0xFE00, 0xFE0F), (0xFE13, 0xFE13), (0xFE20, 0xFE2F),
   (0xFE52, 0xFE52), (0xFE55, 0xFE55), (0xFEFF, 0xFEFF), (0xFF07, 0xFF07), (0xFF0E, 0xFF0E), (0xFF1A, 0xFF1A),
   (0xFF3E, 0xFF3E), (0xFF40, 0xFF40), (0xFF70, 0xFF70), (0xFF9E, 0xFF9F), (0xFFE3, 0xFFE3), (0xFFF9, 0xFFFB),
   (0x101FD, 0x101FD), (0x102E0, 0x102E0), (0x10376, 0x1037A), (0x10780, 0x10785), (0x10787, 0x107B0), (0x107B2, 0x107BA),
   (0x10A01, 0x10A03), (0x10A05, 0x10A06), (0x10A0C, 0x10A0F), (0x10A38, 0x10A3A), (0x10A3F, 0x10A3F), (0x10AE5, 0x10AE6),
   (0x10D24, 0x10D27), (0x10EAB, 0x10EAC), (0x10F46, 0x10F50), (0x10F82, 0x10F85), (0x11001, 0x11001), (0x11038, 0x11046),
   (0x11070, 0x11070), (0x11073, 0x11074), (0x1107F, 0x11081), (0x110B3, 0x110B6), (0x110B9, 0x110BA), (0x110BD, 0x110BD),
   (0x110C2, 0x110C2), (0x110CD, 0x110CD), (0x11100, 0x11102), (0x11127, 0x1112B), (0x1112D, 0x11134), (0x11173, 0x11173),
   (0x11180, 0x11181), (0x111B6, 0x111BE), (0x111C9, 0x111CC), (0x111CF, 0x111CF), (0x1122F, 0x11231), (0x11234, 0x11234),
   (0x11236, 0x11237), (0x1123E, 0x1123E), (0x112DF, 0x112DF), (0x112E3, 0x112EA), (0x11300, 0x11301), (0x1133B, 0x1133C),
   (0x11340, 0x11340), (0x11366, 0x1136C), (0x11370, 0x11374), (0x11438, 0x1143F), (0x11442, 0x11444), (0x11446, 0x11446),
   (0x1145E, 0x1145E), (0x114B3, 0x114B8), (0x114BA, 0x114BA), (0x114BF, 0x114C0), (0x114C2, 0x114C3), (0x115B2, 0x115B5),
   (0x115BC, 0x115BD), (0x115BF, 0x115C0), (0x115DC, 0x115DD), (0x11633, 0x1163A), (0x1163D, 0x1163D), (0x1163F, 0x11640),
   (0x116AB, 0x116AB), (0x116AD, 0x116AD), (0x116B0, 0x116B5), (0x116B7, 0x116B7), (0x1171D, 0x1171F), (0x11722, 0x11725),
   (0x11727, 0x1172B), (0x1182F, 0x11837), (0x11839, 0x1183A), (0x1193B, 0x1193C), (0x1193E, 0x1193E), (0x11943, 0x11943),
   (0x119D4, 0x119D7), (0x119DA, 0x119DB), (0x119E0, 0x119E0), (0x11A01, 0x11A0A), (0x11A33, 0x11A38), (0x11A3B, 0x11A3E),
   (0x11A47, 0x11A47), (0x11A51, 0x11A56), (0x11A59, 0x11A5B), (0x11A8A, 0x11A96), (0x11A98, 0x11A99), (0x11C30, 0x11C36),
   (0x11C38, 0x11C3D), (0x11C3F, 0x11C3F), (0x11C92, 0x11CA7), (0x11CAA, 0x11CB0), (0x11CB2, 0x11CB3), (0x11CB5, 0x11CB6),
   (0x11D31, 0x11D36), (0x11D3A, 0x11D3A), (0x11D3C, 0x11D3D), (0x11D3F, 0x11D45), (0x11D47, 0x11D47), (0x11D90, 0x11D91),
   (0x11D95, 0x11D95), (0x11D97, 0x11D97), (0x11EF3, 0x11EF4), (0x13430, 0x13438), (0x16AF0, 0x16AF4), (0x16B30, 0x16B36),
   (0x16B40, 0x16B43), (0x16F4F, 0x16F4F), (0x16F8F, 0x16F9F), (0x16FE0, 0x16FE1), (0x16FE3, 0x16FE4), (0x1AFF0, 0x1AFF3),
   (0x1AFF5, 0x1AFFB), (0x1AFFD, 0x1AFFE), (0x1BC9D, 0x1BC9E), (0x1BCA0, 0x1BCA3), (0x1CF00, 0x1CF2D), (0x1CF30, 0x1CF46),
   (0x1D167, 0x1D169), (0x1D173, 0x1D182), (0x1D185, 0x1D18B), (0x1D1AA, 0x1D1AD), (0x1D242, 0x1D244), (0x1DA00, 0x1DA36),
   (0x1DA3B, 0x1DA6C), (0x1DA75, 0x1DA75), (0x1DA84, 0x1DA84), (0x1DA9B, 0x1DA9F), (0x1DAA1, 0x1DAAF), (0x1E000, 0x1E006),
   (0x1E008, 0x1E018), (0x1E01B, 0x1E021), (0x1E023, 0x1E024), (0x1E026, 0x1E02A), (0x1E130, 0x1E13D), (0x1E2AE, 0x1E2AE),
   (0x1E2EC, 0x1E2EF), (0x1E8D0, 0x1E8D6), (0x1E944, 0x1E94B), (0x1F3FB, 0x1F3FF), (0xE0001, 0xE0001), (0xE0020, 0xE007F),
   (0xE0100, 0xE01EF) ]

/-- The ranges `(lo, hi)` of the code points with the property `Cased` that are not
`Case_Ignorable`, sorted. -/
def casedRanges : List (Nat × Nat) :=
  [
   (0x41, 0x5A), (0x61, 0x7A), (0xAA, 0xAA), (0xB5, 0xB5), (0xBA, 0xBA), (0xC0, 0xD6),
   (0xD8, 0xF6), (0xF8, 0x1BA), (0x1BC, 0x1BF), (0x1C4, 0x293), (0x295, 0x2AF), (0x370, 0x373),
   (0x376, 0x377), (0x37B, 0x37D), (0x37F, 0x37F), (0x386, 0x386), (0x388, 0x38A), (0x38C, 0x38C),
   (0x38E, 0x3A1), (0x3A3, 0x3F5), (0x3F7, 0x481), (0x48A, 0x52F), (0x531, 0x556), (0x560, 0x588),
   (0x10A0, 0x10C5), (0x10C7, 0x10C7), (0x10CD, 0x10CD), (0x10D0, 0x10FA), (0x10FD, 0x10FF), (0x13A0, 0x13F5),
   (0x13F8, 0x13FD), (0x1C80, 0x1C88), (0x1C90, 0x1CBA), (0x1CBD, 0x1CBF), (0x1D00, 0x1D2B), (0x1D6B, 0x1D77),
   (0x1D79, 0x1D9A), (0x1E00, 0x1F15), (0x1F18, 0x1F1D), (0x1F20, 0x1F45), (0x1F48, 0x1F4D), (0x1F50, 0x1F57),
   (0x1F59, 0x1F59), (0x1F5B, 0x1F5B), (0x1F5D, 0x1F5D), (0x1F5F, 0x1F7D), (0x1F80, 0x1FB4), (0x1FB6, 0x1FBC),
   (0x1FBE, 0x1FBE), (0x1FC2, 0x1FC4), (0x1FC6, 0x1FCC), (0x1FD0, 0x1FD3), (0x1FD6, 0x1FDB), (0x1FE0, 0x1FEC),
   (0x1FF2, 0x1FF4), (0x1FF6, 0x1FFC), (0x2102, 0x2102), (0x2107, 0x2107), (0x210A, 0x2113), (0x2115, 0x2115),
   (0x2119, 0x211D), (0x2124, 0x2124), (0x2126, 0x2126), (0x2128, 0x2128), (0x212A, 0x212D), (0x212F, 0x2134),
   (0x2139, 0x2139), (0x213C, 0x213F), (0x2145, 0x2149), (0x214E, 0x214E), (0x2160, 0x217F), (0x2183, 0x2184),
   (0x24B6, 0x24E9), (0x2C00, 0x2C7B), (0x2C7E, 0x2CE4), (0x2CEB, 0x2CEE), (0x2CF2, 0x2CF3), (0x2D00, 0x2D25),
   (0x2D27, 0x2D27), (0x2D2D, 0x2D2D), (0xA640, 0xA66D), (0xA680, 0xA69B), (0xA722, 0xA76F), (0xA771, 0xA787),
   (0xA78B, 0xA78E), (0xA790, 0xA7CA), (0xA7D0, 0xA7D1), (0xA7D3, 0xA7D3), (0xA7D5, 0xA7D9), (0xA7F5, 0xA7F6),
   (0xA7FA, 0xA7FA), (0xAB30, 0xAB5A), (0xAB60, 0xAB68), (0xAB70, 0xABBF), (0xFB00, 0xFB06), (0xFB13, 0xFB17),
   (0xFF21, 0xFF3A), (0xFF41, 0xFF5A), (0x10400, 0x1044F), (0x104B0, 0x104D3), (0x104D8, 0x104FB), (0x10570, 0x1057A),
   (0x1057C, 0x1058A), (0x1058C, 0x10592), (0x10594, 0x10595), (0x10597, 0x105A1), (0x105A3, 0x105B1), (0x105B3, 0x105B9),
   (0x105BB, 0x105BC), (0x10C80, 0x10CB2), (0x10CC0, 0x10CF2), (0x118A0, 0x118DF), (0x16E40, 0x16E7F), (0x1D400, 0x1D454),
   (0x1D456, 0x1D49C), (0x1D49E, 0x1D49F), (0x1D4A2, 0x1D4A2), (0x1D4A5, 0x1D4A6), (0x1D4A9, 0x1D4AC), (0x1D4AE, 0x1D4B9),
   (0x1D4BB, 0x1D4BB), (0x1D4BD, 0x1D4C3), (0x1D4C5, 0x1D505), (0x1D507, 0x1D50A), (0x1D50D, 0x1D514), (0x1D516, 0x1D51C),
   (0x1D51E, 0x1D539), (0x1D53B, 0x1D53E), (0x1D540, 0x1D544), (0x1D546, 0x1D546), (0x1D54A, 0x1D550), (0x1D552, 0x1D6A5),
   (0x1D6A8, 0x1D6C0), (0x1D6C2, 0x1D6DA), (0x1D6DC, 0x1D6FA), (0x1D6FC, 0x1D714), (0x1D716, 0x1D734), (0x1D736, 0x1D74E),
   (0x1D750, 0x1D76E), (0x1D770, 0x1D788), (0x1D78A, 0x1D7A8), (0x1D7AA, 0x1D7C2), (0x1D7C4, 0x1D7CB), (0x1DF00, 0x1DF09),
   (0x1DF0B, 0x1DF1E), (0x1E900, 0x1E943), (0x1F130, 0x1F149), (0x1F150, 0x1F169), (0x1F170, 0x1F189) ]

/-- The value of a sorted table of mappings at a code point; a code point outside
the table is mapped to itself. -/
def lowerLookup : List (Nat × Nat × Nat × Nat) → Nat → Nat
  | [], c => c
  | e :: rest, c =>
    if c < e.1 then c
    else if c ≤ e.2.1 ∧ (c - e.1) % e.2.2.1 = 0 then e.2.2.2 + (c - e.1)
    else lowerLookup rest c

/-- Membership in a list of ranges. -/
def inRanges (ranges : List (Nat × Nat)) (c : Nat) : Bool :=
  ranges.any (fun r => decide (r.1 ≤ c) && decide (c ≤ r.2))

/-- The simple lower-case mapping of a code point. -/
def simpleLowerCase (c : Nat) : Nat := lowerLookup lowerCaseTable c

/-- The code point is a cased letter that is not case-ignorable. -/
def isCasedLetter (c : Nat) : Bool := inRanges casedRanges c

/-- The code point is case-ignorable; the code points of `casedRanges` are not. -/
def isCaseIgnorable (c : Nat) : Bool := !isCasedLetter c && inRanges caseIgnorableRanges c

/-- The first code point of the list that is not case-ignorable is a cased letter. -/
def nextIsCased (l : List Nat) : Bool :=
  match l.find? (fun c => !isCaseIgnorable c) with
  | some c => isCasedLetter c
  | none => false

/-- The condition `Final_Sigma`: `before` holds the preceding code points, the
nearest first, and `after` the following ones. -/
def isFinalSigma (before after : List Nat) : Bool :=
  nextIsCased before && !nextIsCased after

/-- The lower-case form of one code point in its context. -/
def lowerCodePoint (before after : List Nat) (c : Nat) : List Nat :=
  if c = 0x3A3 then (if isFinalSigma before after then [0x3C2] else [0x3C3])
  else if c = 0x130 then [0x69, 0x307]
  else [simpleLowerCase c]

/-- The lower-case form of a list of code points that follows the code points
`before` (the nearest first). -/
def lowerCodePoints (before : List Nat) : List Nat → List Nat
  | [] => []
  | c :: rest => lowerCodePoint before rest c ++ lowerCodePoints (c :: before) rest

/-- The code points of a string: a high surrogate followed by a low surrogate is one
code point, every other code unit is a code point of its own. -/
def codePoints : Str → List Nat
  | [] => []
  | [x] => [x]
  | x :: y :: rest =>
    if 0xD800 ≤ x ∧ x ≤ 0xDBFF ∧ 0xDC00 ≤ y ∧ y ≤ 0xDFFF then
      (0x10000 + (x - 0xD800) * 0x400 + (y - 0xDC00)) :: codePoints rest
    else x :: codePoints (y :: rest)

/-- The code units of a code point. -/
def codeUnits (c : Nat) : Str :=
  if c < 0x10000 then [c]
  else [0xD800 + (c - 0x10000) / 0x400, 0xDC00 + (c - 0x10000) % 0x400]

/-- `String.prototype.toLowerCase`. -/
def toLowerCase (s : Str) : Str :=
  (lowerCodePoints [] (codePoints s)).flatMap codeUnits

/-- The zero-width characters and the byte-order mark of `app.js:424`. -/
def isZeroWidth (c : Nat) : Bool :=
  c == 0x200B || c == 0x200C || c == 0x200D || c == 0xFEFF

/-- `normalizeText` (`app.js:406`). -/
def normalizeText (text : Str) : Str :=
  if text = [] then []
  else
    text
      |> removeClass isWhiteSpace
      |> replaceClass (js "，,") 0x2C
      |> replaceClass (js "。.") 0x2E
      |> replaceClass (js "：:") 0x3A
      |> replaceClass (js "；;") 0x3B
      |> replaceClass (js "（(") 0x28
      |> replaceClass (js "）)") 0x29
      |> replaceClass [0x22, 0x22, 0x27, 0x27] 0x22
      |> replaceClass (js "【[") 0x5B
      |> replaceClass (js "】]") 0x5D
      |> replaceClass (js "—-") 0x2D
      |> removeClass isZeroWidth
      |> toLowerCase

/-- The steps of `normalizeText` that come before the case conversion
(`app.js:408`-`424`): white space is removed, the punctuation marks are unified and
the zero-width characters are removed. -/
def cleanText (text : Str) : Str :=
  text
    |> removeClass isWhiteSpace
    |> replaceClass (js "，,") 0x2C
    |> replaceClass (js "。.") 0x2E
    |> replaceClass (js "：:") 0x3A
    |> replaceClass (js "；;") 0x3B
    |> replaceClass (js "（(") 0x28
    |> replaceClass (js "）)") 0x29
    |> replaceClass [0x22, 0x22, 0x27, 0x27] 0x22
    |> replaceClass (js "【[") 0x5B
    |> replaceClass (js "】]") 0x5D
    |> replaceClass (js "—-") 0x2D
    |> removeClass isZeroWidth

/-! ## Bigram similarity -/

/-- `Set.prototype.add` on the insertion-ordered list of members. -/
def setAdd {α : Type} [DecidableEq α] (s : List α) (x : α) : List α :=
  if x ∈ s then s else s ++ [x]

/-- `new Set(xs)`. -/
def setOf {α : Type} [DecidableEq α] (xs : List α) : List α := xs.foldl setAdd []

/-- `s.substring(a, b)` for `a ≤ b`. -/
def substring (s : Str) (a b : Nat) : Str := (s.take b).drop a

/-- The set built by `for (let i = 0; i <= s.length - n; i++) set.add(s.substring(i, i + n))`
with `n = 2`: the loop body runs for the first `max 0 (s.length - 2 + 1)` naturals. -/
def ngrams (s : Str) : List Str :=
  (List.range (Int.toNat ((s.length : Int) - 2 + 1))).foldl
    (fun acc i => setAdd acc (substring s i (i + 2))) []

/-- `calculateSimilarity` (`app.js:490`). `mkRat n d` is the exact quotient `n / d`
of the two set sizes. -/
def calculateSimilarity (str1 str2 : Str) : ℚ :=
  let s1 := normalizeText str1
  let s2 := normalizeText str2
  if s1 = s2 then 1
  else if s1 = [] ∨ s2 = [] then 0
  else
    let ngrams1 := ngrams s1
    let ngrams2 := ngrams s2
    if ngrams1.length = 0 ∧ ngrams2.length = 0 then 1
    else
      let intersection := setOf (ngrams1.filter (fun x => decide (x ∈ ngrams2)))
      let union := setOf (ngrams1 ++ ngrams2)
      mkRat intersection.length union.length

/-- `SIMILARITY_THRESHOLD` (`app.js:520`), the number 0.85. -/
def SIMILARITY_THRESHOLD : ℚ := mkRat 85 100

/-! ## Regular expressions

The five section-number patterns are anchored at the start of the string and use
character classes, sequencing, `?`, `*`, `+` and one capture group. They are run
by a backtracking matcher that lists the ways a pattern can match in the
priority order of the language (greedy quantifiers first); the first element of
the list is the match that `String.prototype.match` reports. -/

/-- The regular expressions of the section-number patterns. -/
inductive Re where
  | cls (p : Nat → Bool)
  | seq (a b : Re)
  | opt (a : Re)
  | star (a : Re)
  | plus (a : Re)
  | group (a : Re)

/-- A matcher state: the input still to be read and the text captured by
group 1, if the group has been closed. -/
abbrev MState := Str × Option Str

/-- Greedy iteration of a matcher `step`: one more iteration first, then none.
An iteration that reads nothing is rejected; `fuel` bounds the number of
iterations and the length of the remaining input is always enough. -/
def starRun (step : MState → List MState) : Nat → MState → List MState
  | 0, st => [st]
  | fuel + 1, st =>
    ((step st).filter (fun r => decide (r.1.length < st.1.length))).flatMap
      (starRun step fuel) ++ [st]

/-- All ways for a pattern to match a prefix of the input, in priority order. -/
def Re.run : Re → MState → List MState
  | .cls p, st =>
    match st.1 with
    | [] => []
    | x :: xs => if p x then [(xs, st.2)] else []
  | .seq a b, st => (a.run st).flatMap b.run
  | .opt a, st => a.run st ++ [st]
  | .star a, st => starRun a.run st.1.length st
  | .plus a, st => (a.run st).flatMap (fun st1 => starRun a.run st1.1.length st1)
  | .group a, st =>
    (a.run st).map (fun r => (r.1, some (st.1.take (st.1.length - r.1.length))))

/-- `s.match(/^r/)`: `none` when there is no match, otherwise the content of
capture group 1 (`none` inside when the group took no part in the match). -/
def Re.exec (r : Re) (s : Str) : Option (Option Str) :=
  (r.run (s, none)).head?.map (fun st => st.2)

/-- A character class listing its members. -/
def Re.oneOf (s : Str) : Re := .cls (fun c => decide (c ∈ s))

/-- `\d`. -/
def isDigit (c : Nat) : Bool := decide (0x30 ≤ c) && decide (c ≤ 0x39)

/-- `[a-zA-Z]`. -/
def isAsciiLetter (c : Nat) : Bool :=
  (decide (0x61 ≤ c) && decide (c ≤ 0x7A)) || (decide (0x41 ≤ c) && decide (c ≤ 0x5A))

/-- `[一二三四五六七八九十]`. -/
def chineseDigits : Str := js "一二三四五六七八九十"

/-- The patterns of `extractSectionNumber` (`app.js:440`), in order. -/
def sectionPatterns : List Re :=
  [ -- /^(\d+(?:\.\d+)*)[\.、）\)]\s*/
    .seq (.group (.seq (.plus (.cls isDigit))
            (.star (.seq (Re.oneOf (js ".")) (.plus (.cls isDigit))))))
      (.seq (Re.oneOf (js ".、）)")) (.star (.cls isWhiteSpace))),
    -- /^[（(]?([一二三四五六七八九十]+)[）)、]\s*/
    .seq (.opt (Re.oneOf (js "（(")))
      (.seq (.group (.plus (Re.oneOf chineseDigits)))
        (.seq (Re.oneOf (js "）)、")) (.star (.cls isWhiteSpace)))),
    -- /^第([一二三四五六七八九十\d]+)[条章节款项]\s*/
    .seq (Re.oneOf (js "第"))
      (.seq (.group (.plus (.cls (fun c => decide (c ∈ chineseDigits) || isDigit c))))
        (.seq (Re.oneOf (js "条章节款项")) (.star (.cls isWhiteSpace)))),
    -- /^[（(](\d+)[）)]\s*/
    .seq (Re.oneOf (js "（("))
      (.seq (.group (.plus (.cls isDigit)))
        (.seq (Re.oneOf (js "）)")) (.star (.cls isWhiteSpace)))),
    -- /^([a-zA-Z])[\.）\)]\s*/
    .seq (.group (.cls isAsciiLetter))
      (.seq (Re.oneOf (js ".）)")) (.star (.cls isWhiteSpace))) ]

/-! ## Section numbers -/

/-- `extractSectionNumber` (`app.js:433`): the capture of the first pattern that
matches the trimmed text, `none` for `null`. -/
def extractSectionNumber (text : Str) : Option Str :=
  if text = [] then none
  else (sectionPatterns.findSome? (fun r => r.exec (trim text))).join

/-- What `normalizeNumber` can return: a string, or, for a key that the table
object inherits from `Object.prototype`, the inherited member of that name. -/
inductive NumKey where
  | str (s : Str)
  | inherited (name : Str)
  deriving DecidableEq

/-- The table `chineseNums` of `normalizeNumber` (`app.js:470`). -/
def chineseNums : List (Str × Str) :=
  [ (js "一", js "1"), (js "二", js "2"), (js "三", js "3"), (js "四", js "4"),
    (js "五", js "5"), (js "六", js "6"), (js "七", js "7"), (js "八", js "8"),
    (js "九", js "9"), (js "十", js "10"), (js "十一", js "11"), (js "十二", js "12"),
    (js "十三", js "13"), (js "十四", js "14"), (js "十五", js "15") ]

/-- The property names every object literal inherits from `Object.prototype`;
all of them have a truthy value. -/
def objectPrototypeNames : List Str :=
  [ js "constructor", js "hasOwnProperty", js "isPrototypeOf", js "propertyIsEnumerable",
    js "toLocaleString", js "toString", js "valueOf", js "__proto__",
    js "__defineGetter__", js "__defineSetter__", js "__lookupGetter__",
    js "__lookupSetter__" ]

/-- `normalizeNumber` (`app.js:467`). -/
def normalizeNumber (num : Str) : NumKey :=
  if num = [] then .str []
  else
    match chineseNums.lookup num with
    | some v => .str v
    | none =>
      if num ∈ objectPrototypeNames then .inherited num
      else .str (toLowerCase num)

/-- The key that Tier 1 compares: `normalizeNumber(extractSectionNumber(text))`,
absent when the extracted number is `null` or empty (`if (!num) continue`). -/
def sectionKey (text : Str) : Option NumKey :=
  match extractSectionNumber text with
  | none => none
  | some num => if num = [] then none else some (normalizeNumber num)

/-! ## Paragraphs and aligned pairs -/

/-- A paragraph `{text, type, pageIdx}`; a field the object lacks is `none`. -/
structure Paragraph where
  text : Str
  type : Option Str
  pageIdx : Option Int
  deriving DecidableEq

/-- The pair objects pushed by `smartMatchParagraphs`. `leftIdx` and `rightIdx`
are not fields of the JavaScript object: they record which element of the
input array the side refers to (`none` for the empty placeholder). -/
structure AlignedPair where
  left : Paragraph
  right : Paragraph
  similarity : ℚ
  isMatch : Bool
  matchType : Option Str
  leftIdx : Option Nat
  rightIdx : Option Nat
  deriving DecidableEq

/-- The local state of `smartMatchParagraphs`: the two sets of matched indices
and the array of pairs. -/
structure MatchState where
  matched1 : List Nat
  matched2 : List Nat
  pairs : List AlignedPair

/-- The pair pushed by Tier 1 (`app.js:565`). -/
def numberPair (i : Nat) (p : Paragraph) (j : Nat) (q : Paragraph) : AlignedPair :=
  { left := p, right := q, similarity := calculateSimilarity p.text q.text,
    isMatch := true, matchType := some (js "number"),
    leftIdx := some i, rightIdx := some j }

/-- The pair pushed by Tier 2 (`app.js:601`); it has no `matchType`. -/
def similarityPair (i : Nat) (p : Paragraph) (j : Nat) (q : Paragraph) (bestScore : ℚ) :
    AlignedPair :=
  { left := p, right := q, similarity := bestScore,
    isMatch := decide (bestScore ≥ SIMILARITY_THRESHOLD), matchType := none,
    leftIdx := some i, rightIdx := some j }

/-- The pair pushed for an unmatched left paragraph (`app.js:613`). -/
def leftOnlyPair (i : Nat) (p : Paragraph) : AlignedPair :=
  { left := p, right := { text := [], type := none, pageIdx := p.pageIdx },
    similarity := 0, isMatch := false, matchType := none,
    leftIdx := some i, rightIdx := none }

/-- The pair pushed for an unmatched right paragraph (`app.js:625`). -/
def rightOnlyPair (j : Nat) (q : Paragraph) : AlignedPair :=
  { left := { text := [], type := none, pageIdx := q.pageIdx }, right := q,
    similarity := 0, isMatch := false, matchType := none,
    leftIdx := none, rightIdx := some j }

/-- The test of the inner loop of Tier 1 on `paragraphs2[j]`: not matched yet,
with a number whose normal form is that of the left paragraph. -/
def tier1Candidate (matched2 : List Nat) (key : NumKey) (jq : Nat × Paragraph) : Bool :=
  !decide (jq.1 ∈ matched2) && decide (sectionKey jq.2.text = some key)

/-- One iteration of the outer loop of Tier 1 (`app.js:547`) on `paragraphs1[i]`. -/
def tier1Step (R : List Paragraph) (st : MatchState) (ip : Nat × Paragraph) : MatchState :=
  match sectionKey ip.2.text with
  | none => st
  | some key =>
    match R.enum.find? (tier1Candidate st.matched2 key) with
    | none => st
    | some jq =>
      { matched1 := setAdd st.matched1 ip.1,
        matched2 := setAdd st.matched2 jq.1,
        pairs := st.pairs ++ [numberPair ip.1 ip.2 jq.1 jq.2] }

/-- One iteration of the inner loop of Tier 2 (`app.js:584`): `best` is
`(bestMatch, bestScore)`, with `none` for the initial `-1` and the paragraph
`paragraphs2[bestMatch]` kept next to its index. -/
def tier2Scan (p : Paragraph) (matched2 : List Nat) (best : Option (Nat × Paragraph) × ℚ)
    (jq : Nat × Paragraph) : Option (Nat × Paragraph) × ℚ :=
  if jq.1 ∈ matched2 then best
  else if calculateSimilarity p.text jq.2.text > best.2 then
    (some jq, calculateSimilarity p.text jq.2.text)
  else best

/-- The inner loop of Tier 2 for one left paragraph. -/
def tier2Best (R : List Paragraph) (matched2 : List Nat) (p : Paragraph) :
    Option (Nat × Paragraph) × ℚ :=
  R.enum.foldl (tier2Scan p matched2) (none, SIMILARITY_THRESHOLD)

/-- One iteration of the outer loop of Tier 2 (`app.js:578`) on `paragraphs1[i]`. -/
def tier2Step (R : List Paragraph) (st : MatchState) (ip : Nat × Paragraph) : MatchState :=
  if ip.1 ∈ st.matched1 then st
  else
    match tier2Best R st.matched2 ip.2 with
    | (none, _) => st
    | (some jq, bestScore) =>
      { matched1 := setAdd st.matched1 ip.1,
        matched2 := setAdd st.matched2 jq.1,
        pairs := st.pairs ++ [similarityPair ip.1 ip.2 jq.1 jq.2 bestScore] }

/-- One iteration of the loop over the unmatched left paragraphs (`app.js:611`). -/
def leftoverLeftStep (st : MatchState) (ip : Nat × Paragraph) : MatchState :=
  if ip.1 ∈ st.matched1 then st
  else { st with pairs := st.pairs ++ [leftOnlyPair ip.1 ip.2] }

/-- One iteration of the loop over the unmatched right paragraphs (`app.js:623`). -/
def leftoverRightStep (st : MatchState) (jq : Nat × Paragraph) : MatchState :=
  if jq.1 ∈ st.matched2 then st
  else { st with pairs := st.pairs ++ [rightOnlyPair jq.1 jq.2] }

/-- The state on entry: `matched1`, `matched2` and `pairs` are empty. -/
def MatchState.init : MatchState := { matched1 := [], matched2 := [], pairs := [] }

/-- The state at the start of iteration `i = k` of the Tier 1 loop, that is after
its first `k` iterations. -/
def tier1After (L R : List Paragraph) (k : Nat) : MatchState :=
  (L.enum.take k).foldl (tier1Step R) MatchState.init

/-- The state after Tier 1. -/
def tier1 (L R : List Paragraph) : MatchState :=
  L.enum.foldl (tier1Step R) MatchState.init

/-- The state at the start of iteration `i = k` of the Tier 2 loop. -/
def tier2After (L R : List Paragraph) (k : Nat) : MatchState :=
  (L.enum.take k).foldl (tier2Step R) (tier1 L R)

/-- The state after Tier 2. -/
def tier2 (L R : List Paragraph) : MatchState :=
  L.enum.foldl (tier2Step R) (tier1 L R)

/-- The pairs for the unmatched left paragraphs, in scan order. -/
def leftLeftovers (L : List Paragraph) (matched1 : List Nat) : List AlignedPair :=
  (L.enum.filter (fun ip => !decide (ip.1 ∈ matched1))).map (fun ip => leftOnlyPair ip.1 ip.2)

/-- The pairs for the unmatched right paragraphs, in scan order. -/
def rightLeftovers (R : List Paragraph) (matched2 : List Nat) : List AlignedPair :=
  (R.enum.filter (fun jq => !decide (jq.1 ∈ matched2))).map (fun jq => rightOnlyPair jq.1 jq.2)

/-- The pairs in the order in which they are produced, before the final sort. -/
def producedPairs (L R : List Paragraph) : List AlignedPair :=
  (R.enum.foldl leftoverRightStep (L.enum.foldl leftoverLeftStep (tier2 L R))).pairs

/-- The sort key of the comparator at `app.js:635`:
`Math.max(a.left.pageIdx || 0, a.right.pageIdx || 0)`. -/
def pageKey (a : AlignedPair) : Int :=
  max (a.left.pageIdx.getD 0) (a.right.pageIdx.getD 0)

/-- `smartMatchParagraphs` (`app.js:541`). `Array.prototype.sort` is a stable sort
(ECMAScript 2019); it is run here as an insertion sort on the comparator
`pageA - pageB`, which puts `a` before `b` when `pageKey a ≤ pageKey b`. -/
def smartMatchParagraphs (L R : List Paragraph) : List AlignedPair :=
  (producedPairs L R).insertionSort (fun a b => pageKey a ≤ pageKey b)

/-! ## Per-pair differences -/

/-- One operation of an edit script: `-1` delete, `0` equal, `1` insert, with
its text. -/
abbrev DiffOp := Int × Str

/-- The objects pushed by `computeParagraphDiffs`; the two indices are carried
over from the aligned pair. -/
structure ParagraphDiff where
  left : Paragraph
  right : Paragraph
  diffs : List DiffOp
  hasDiff : Bool
  leftIdx : Option Nat
  rightIdx : Option Nat

/-- The body of the loop of `computeParagraphDiffs` (`app.js:652`) for one pair.
`computeDiff` is the text-diff primitive of the external library. -/
def diffPair (computeDiff : Str → Str → List DiffOp) (pair : AlignedPair) : ParagraphDiff :=
  if normalizeText pair.left.text = normalizeText pair.right.text then
    { left := pair.left, right := pair.right,
      diffs := [(0, if pair.left.text = [] then pair.right.text else pair.left.text)],
      hasDiff := false, leftIdx := pair.leftIdx, rightIdx := pair.rightIdx }
  else
    { left := pair.left, right := pair.right,
      diffs := computeDiff pair.left.text pair.right.text,
      hasDiff := (computeDiff pair.left.text pair.right.text).any
        (fun d => if d.1 = 0 then false else decide ((normalizeText d.2).length > 0)),
      leftIdx := pair.leftIdx, rightIdx := pair.rightIdx }

/-- `computeParagraphDiffs` (`app.js:647`). -/
def computeParagraphDiffs (computeDiff : Str → Str → List DiffOp) (L R : List Paragraph) :
    List ParagraphDiff :=
  (smartMatchParagraphs L R).map (diffPair computeDiff)

/-! ## Reference definition of the similarity -/

/-- All substrings of length 2 of a string, as a set. -/
def bigramSet (s : Str) : Finset Str :=
  ((s.tails.map (List.take 2)).filter (fun t => decide (t.length = 2))).toFinset

/-- The similarity as the specification words it: equal normal forms score 1,
exactly one empty normal form scores 0, two different normal forms of length 1
score 1, and otherwise the score is the Jaccard index of the two bigram sets. -/
def similaritySpec (a b : Str) : ℚ :=
  if normalizeText a = normalizeText b then 1
  else if (normalizeText a = [] ∧ normalizeText b ≠ []) ∨
      (normalizeText a ≠ [] ∧ normalizeText b = []) then 0
  else if (normalizeText a).length = 1 ∧ (normalizeText b).length = 1 then 1
  else
    ((bigramSet (normalizeText a) ∩ bigramSet (normalizeText b)).card : ℚ) /
      ((bigramSet (normalizeText a) ∪ bigramSet (normalizeText b)).card : ℚ)

/-! ## Predicates used to state the properties of the aligner -/

/-- A pair as Tier 1 or Tier 2 makes it: a paragraph of each input, joined either
by their number or by a similarity above the threshold. -/
def MatchedPair (L R : List Paragraph) (pr : AlignedPair) : Prop :=
  ∃ ip ∈ L.enum, ∃ jq ∈ R.enum,
    pr = numberPair ip.1 ip.2 jq.1 jq.2 ∨
    (pr = similarityPair ip.1 ip.2 jq.1 jq.2 (calculateSimilarity ip.2.text jq.2.text) ∧
      calculateSimilarity ip.2.text jq.2.text > SIMILARITY_THRESHOLD)

/-- What the loops of Tier 1 and Tier 2 keep true of their state: the two sets
hold exactly the indices used by the pairs made so far, no index is used twice,
and every pair joins two real paragraphs. -/
structure Good (L R : List Paragraph) (st : MatchState) : Prop where
  m1 : ∀ i, i ∈ st.matched1 ↔ i ∈ st.pairs.filterMap (fun pr => pr.leftIdx)
  m2 : ∀ j, j ∈ st.matched2 ↔ j ∈ st.pairs.filterMap (fun pr => pr.rightIdx)
  nd1 : (st.pairs.filterMap (fun pr => pr.leftIdx)).Nodup
  nd2 : (st.pairs.filterMap (fun pr => pr.rightIdx)).Nodup
  shape : ∀ pr ∈ st.pairs, MatchedPair L R pr

/-- A pair as the aligner produces it: a matched pair, or a leftover of one of
the two inputs next to the empty placeholder. -/
def ProducedPair (L R : List Paragraph) (pr : AlignedPair) : Prop :=
  MatchedPair L R pr ∨ (∃ ip ∈ L.enum, pr = leftOnlyPair ip.1 ip.2) ∨
    (∃ jq ∈ R.enum, pr = rightOnlyPair jq.1 jq.2)

/-- The paragraphs among the first `k` that carry a section number, with their
indices. -/
def numbered (P : List Paragraph) (k : Nat) : List (Nat × Paragraph) :=
  (P.enum.take k).filter (fun ip => (sectionKey ip.2.text).isSome)

/-- The paragraphs among the first `k` that carry no section number, with their
indices. -/
def unnumbered (P : List Paragraph) (k : Nat) : List (Nat × Paragraph) :=
  (P.enum.take k).filter (fun ip => (sectionKey ip.2.text).isNone)

/-- The pattern has no capture group. -/
def Re.groupFree : Re → Bool
  | .cls _ => true
  | .seq a b => a.groupFree && b.groupFree
  | .opt a => a.groupFree
  | .star a => a.groupFree
  | .plus a => a.groupFree
  | .group _ => false

/-- Every match of the pattern reads at least one character. -/
def Re.consuming : Re → Bool
  | .cls _ => true
  | .seq a b => a.consuming || b.consuming
  | .opt _ => false
  | .star _ => false
  | .plus a => a.consuming
  | .group a => a.consuming

/-- Every match of the pattern closes the capture group on a non-empty text. -/
def Re.captures : Re → Bool
  | .cls _ => false
  | .seq a b => (a.captures && b.groupFree) || b.captures
  | .opt _ => false
  | .star _ => false
  | .plus _ => false
  | .group a => a.consuming

/-- The pairs made by Tier 2: those pushed after the pairs of Tier 1. -/
def tier2Pairs (L R : List Paragraph) : List AlignedPair :=
  (tier2 L R).pairs.drop (tier1 L R).pairs.length

/-! ## Sample paragraphs -/

/-- A paragraph of body text on page 0. -/
def para (text : String) : Paragraph :=
  { text := js text, type := some (js "text"), pageIdx := some 0 }

/-- A paragraph of body text on a given page. -/
def paraOn (page : Int) (text : String) : Paragraph :=
  { text := js text, type := some (js "text"), pageIdx := some page }

/-! ## Cross-page merge -/

/-- The class of `sentenceEndingPunctuation` (`app.js:247`). -/
def sentenceEndings : Str := js "。！？.!?；;：:"

/-- The text ends with a sentence-ending mark: `/[。！？.!?；;：:]$/.test(t)`. -/
def endsWithTerminator (t : Str) : Bool :=
  match t.getLast? with
  | some c => decide (c ∈ sentenceEndings)
  | none => false

/-- `endsWithCompleteSentence` (`app.js:243`). -/
def endsWithCompleteSentence (text : Str) : Bool :=
  if text = [] then true else endsWithTerminator (trim text)

/-- `r.test(s)` for a pattern anchored at the start of the string. -/
def Re.test (r : Re) (s : Str) : Bool := !(r.run (s, none)).isEmpty

/-- The patterns of `startsWithSectionNumber` (`app.js:260`), in order. -/
def startPatterns : List Re :=
  [ -- /^\d+(?:\.\d+)*[\.\、）\)]\s*/
    .seq (.seq (.plus (.cls isDigit))
            (.star (.seq (Re.oneOf (js ".")) (.plus (.cls isDigit)))))
      (.seq (Re.oneOf (js ".、）)")) (.star (.cls isWhiteSpace))),
    -- /^[（(]?[一二三四五六七八九十]+[）)、]\s*/
    .seq (.opt (Re.oneOf (js "（(")))
      (.seq (.plus (Re.oneOf chineseDigits))
        (.seq (Re.oneOf (js "）)、")) (.star (.cls isWhiteSpace)))),
    -- /^第[一二三四五六七八九十\d]+[条章节款项]\s*/
    .seq (Re.oneOf (js "第"))
      (.seq (.plus (.cls (fun c => decide (c ∈ chineseDigits) || isDigit c)))
        (.seq (Re.oneOf (js "条章节款项")) (.star (.cls isWhiteSpace)))),
    -- /^[（(]\d+[）)]\s*/
    .seq (Re.oneOf (js "（("))
      (.seq (.plus (.cls isDigit))
        (.seq (Re.oneOf (js "）)")) (.star (.cls isWhiteSpace)))),
    -- /^[a-zA-Z][\.\）\)]\s*/
    .seq (.cls isAsciiLetter)
      (.seq (Re.oneOf (js ".）)")) (.star (.cls isWhiteSpace))) ]

/-- The text begins with a section number: `patterns.some(pattern => pattern.test(t))`. -/
def beginsWithSectionNumber (t : Str) : Bool :=
  startPatterns.any (fun r => r.test t)

/-- `startsWithSectionNumber` (`app.js:256`). -/
def startsWithSectionNumber (text : Str) : Bool :=
  if text = [] then false else beginsWithSectionNumber (trim text)

/-- `shouldMergeParagraphs` (`app.js:281`); both branches of the test on the page
indices return `true`. -/
def shouldMergeParagraphs (prevParagraph currentParagraph : Paragraph) : Bool :=
  if endsWithCompleteSentence prevParagraph.text then false
  else if startsWithSectionNumber currentParagraph.text then false
  else if prevParagraph.pageIdx = currentParagraph.pageIdx then true
  else true

/-- The loops of `mergeCrossPageParagraphs` (`app.js:313`) from the moment `current` is
the paragraph being built and the list holds `paragraphs[i + 1 ..]`: the inner
loop absorbs the next paragraph while the merge test holds; when it fails
`current` is pushed and the outer loop starts again with a copy of the next
paragraph. -/
def mergeFrom (current : Paragraph) : List Paragraph → List Paragraph
  | [] => [current]
  | next :: rest =>
    if shouldMergeParagraphs current next then
      mergeFrom { current with text := current.text ++ next.text } rest
    else current :: mergeFrom next rest

/-- `mergeCrossPageParagraphs` (`app.js:307`). -/
def mergeCrossPageParagraphs (paragraphs : List Paragraph) : List Paragraph :=
  if paragraphs.length ≤ 1 then paragraphs
  else
    match paragraphs with
    | [] => []
    | first :: rest => mergeFrom first rest

/-! ## The document model and the extraction of paragraphs -/

/-- A bounding box `[x1, y1, x2, y2]`. -/
abbrev BBox := List ℚ

/-- A span `{content, bbox}`; a field the object lacks is `none`. -/
structure Span where
  content : Option Str
  bbox : Option BBox

/-- A line `{spans}`. -/
structure Line where
  spans : Option (List Span)

/-- A block nested in another one, with the fields that the code reads of it:
`type`, `bbox` and `lines`. -/
structure SubBlock where
  type : Option Str
  bbox : Option BBox
  lines : Option (List Line)

/-- A block of a page: `{type, bbox, lines, blocks}`. -/
structure Block where
  type : Option Str
  bbox : Option BBox
  lines : Option (List Line)
  blocks : Option (List SubBlock)

/-- A page `{page_idx, page_size, para_blocks}`. -/
structure Page where
  page_idx : Option Int
  page_size : Option (List ℚ)
  para_blocks : Option (List Block)

/-- The parsed document `{pdf_info}`. -/
structure Doc where
  pdf_info : Option (List Page)

/-- `if (span.content) blockText += span.content`. -/
def addSpan (blockText : Str) (span : Span) : Str :=
  match span.content with
  | some c => if c = [] then blockText else blockText ++ c
  | none => blockText

/-- `for (const span of line.spans || [])` over one line. -/
def addLine (blockText : Str) (line : Line) : Str :=
  (line.spans.getD []).foldl addSpan blockText

/-- `for (const line of lines || [])`. -/
def addLines (blockText : Str) (lines : Option (List Line)) : Str :=
  (lines.getD []).foldl addLine blockText

/-- `a || b` on two optional strings. -/
def orElseStr (a b : Option Str) : Option Str :=
  match a with
  | some s => if s = [] then b else some s
  | none => b

/-- The body of the loop over `block.blocks` (`app.js:361`); the state is
`(blockText, paragraphs)`. -/
def subBlockStep (block : Block) (pageIdx : Option Int) (st : Str × List Paragraph)
    (subBlock : SubBlock) : Str × List Paragraph :=
  if addLines st.1 subBlock.lines = [] then (addLines st.1 subBlock.lines, st.2)
  else
    ([], st.2 ++ [{ text := trim (addLines st.1 subBlock.lines),
                    type := orElseStr subBlock.type block.type, pageIdx := pageIdx }])

/-- The body of the loop over the blocks of a page (`app.js:346`). -/
def blockStep (pageIdx : Option Int) (paragraphs : List Paragraph) (block : Block) :
    List Paragraph :=
  match block.blocks with
  | some subBlocks =>
    (subBlocks.foldl (subBlockStep block pageIdx) (addLines [] block.lines, paragraphs)).2
  | none =>
    if addLines [] block.lines = [] then paragraphs
    else paragraphs ++ [{ text := trim (addLines [] block.lines), type := block.type,
                          pageIdx := pageIdx }]

/-- The body of the loop over the pages (`app.js:342`). -/
def pageStep (paragraphs : List Paragraph) (page : Page) : List Paragraph :=
  (page.para_blocks.getD []).foldl (blockStep page.page_idx) paragraphs

/-- The array `paragraphs` of `parseContractJSON` before the merge (`app.js:339`). -/
def extractParagraphs (json : Doc) : List Paragraph :=
  (json.pdf_info.getD []).foldl pageStep []

/-- `parseContractJSON` (`app.js:338`). -/
def parseContractJSON (json : Doc) : List Paragraph :=
  mergeCrossPageParagraphs (extractParagraphs json)

/-- The characters that the punctuation replacements of `normalizeText` read. -/
def punctuationUnits : List Nat :=
  [0xFF0C, 0x2C, 0x3002, 0x2E, 0xFF1A, 0x3A, 0xFF1B, 0x3B, 0xFF08, 0x28, 0xFF09, 0x29,
   0x22, 0x27, 0x3010, 0x5B, 0x3011, 0x5D, 0x2014, 0x2D]

/-- The pairs (full-width form, half-width form) of comma, period, colon,
semicolon, the two parentheses, the two brackets and the dash. -/
def widthPairs : List (Nat × Nat) :=
  [(0xFF0C, 0x2C), (0x3002, 0x2E), (0xFF1A, 0x3A), (0xFF1B, 0x3B), (0xFF08, 0x28),
   (0xFF09, 0x29), (0x3010, 0x5B), (0x3011, 0x5D), (0x2014, 0x2D)]

/-- `FormatVariant a b`: `b` is obtained from `a` by inserting or deleting white
space or zero-width characters, by replacing a letter other than `Σ` (U+03A3) and
`İ` (U+0130) by its lower-case form or back, and by exchanging the full-width and
the half-width form of a punctuation mark of `widthPairs`, any number of times. -/
inductive FormatVariant : Str → Str → Prop where
  | refl (a : Str) : FormatVariant a a
  | symm {a b : Str} : FormatVariant a b → FormatVariant b a
  | trans {a b c : Str} : FormatVariant a b → FormatVariant b c → FormatVariant a c
  | blank (a b : Str) (c : Nat) :
      isWhiteSpace c = true ∨ isZeroWidth c = true → FormatVariant (a ++ b) (a ++ c :: b)
  | letterCase (a b : Str) (c : Nat) :
      c ≠ 0x3A3 → c ≠ 0x130 →
        FormatVariant (a ++ codeUnits c ++ b) (a ++ codeUnits (simpleLowerCase c) ++ b)
  | width (a b : Str) (w : Nat × Nat) :
      w ∈ widthPairs → FormatVariant (a ++ w.1 :: b) (a ++ w.2 :: b)

/-- The paragraph into which a run of consecutive paragraphs is merged: the first
paragraph of the run, with the texts of the others appended to its text. -/
def joinRun (first : Paragraph) (rest : List Paragraph) : Paragraph :=
  { first with text := first.text ++ (rest.map (fun p => p.text)).flatten }

/-- The paragraphs of a run, in order. -/
def runItems (r : Paragraph × List Paragraph) : List Paragraph := r.1 :: r.2

/-- The concatenated span contents of a block: lines in order, spans in order, a
missing content counted as empty. -/
def blockContent (lines : Option (List Line)) : Str :=
  (lines.getD []).flatMap (fun l => (l.spans.getD []).flatMap (fun s => s.content.getD []))

/-- The paragraph of a block without nested blocks, if its content is not empty. -/
def leafParagraph (pageIdx : Option Int) (block : Block) : Option Paragraph :=
  if blockContent block.lines = [] then none
  else some { text := trim (blockContent block.lines), type := block.type, pageIdx := pageIdx }

/-- One paragraph per block with non-empty content, in page order and then in
block order. -/
def leafParagraphs (json : Doc) : List Paragraph :=
  (json.pdf_info.getD []).flatMap
    (fun page => (page.para_blocks.getD []).filterMap (leafParagraph page.page_idx))

/-- A document with one page holding the given blocks. -/
def onePage (blocks : List Block) : Doc :=
  { pdf_info := some [{ page_idx := some 0, page_size := none, para_blocks := some blocks }] }

/-- A line with one span of the given content and bounding box. -/
def lineOf (content : String) (bbox : Option BBox) : Line :=
  { spans := some [{ content := some (js content), bbox := bbox }] }

/-- A block without nested blocks and without bounding box, holding one line. -/
def leafBlock (type content : String) : Block :=
  { type := some (js type), bbox := none, lines := some [lineOf content none], blocks := none }

/-- A document of two pages: a title and an empty block, then a text block. -/
def sampleLeafDoc : Doc :=
  { pdf_info := some
      [{ page_idx := some 0, page_size := none,
         para_blocks := some [leafBlock "title" " 合同 ",
           { type := some (js "text"), bbox := none, lines := some [], blocks := none }] },
       { page_idx := some 1, page_size := none,
         para_blocks := some [leafBlock "text" "甲方"] }] }

/-- A document whose only block has the line `条款` and an empty list of nested
blocks. -/
def sampleEmptyNestedDoc : Doc :=
  onePage [{ type := some (js "text"), bbox := none, lines := some [lineOf "条款" none],
             blocks := some [] }]

/-- The text that an edit script gives to one side: the concatenation of its equal
operations and of its operations of the given kind (`-1` for the left text, `1`
for the right text). -/
def sideText (kind : Int) (script : List DiffOp) : Str :=
  (script.filter (fun d => decide (d.1 = 0) || decide (d.1 = kind))).flatMap (fun d => d.2)

/-- The edit script reconstructs both texts. -/
def Reconstructs (script : List DiffOp) (left right : Str) : Prop :=
  sideText (-1) script = left ∧ sideText 1 script = right

/-- The test of `computeParagraphDiffs` on an edit script (`app.js:668`). -/
def hasRealDiff (script : List DiffOp) : Bool :=
  script.any (fun d => if d.1 = 0 then false else decide ((normalizeText d.2).length > 0))

/-- A document whose only block holds one space. -/
def sampleBlankDoc : Doc := onePage [leafBlock "text" " "]

/-- An edit script for `1. 甲方,乙方` against `1. 甲方乙方`: the comma is deleted. -/
def commaScript : List DiffOp := [(0, js "1. 甲方"), (-1, js ","), (0, js "乙方")]

/-- An edit script for the two payment clauses: `30` is deleted, `60` inserted. -/
def paymentScript : List DiffOp :=
  [(0, js "1. 甲方应于"), (-1, js "30"), (1, js "60"), (0, js "日内付款。")]

/-! ## The character index -/

/-- A span of the character index: `{text, bbox, charStart, charEnd}`. -/
structure IndexSpan where
  text : Str
  bbox : BBox
  charStart : Nat
  charEnd : Nat
  deriving DecidableEq

/-- A block of the character index; `bbox` is `block.bbox || parentBbox`, which may
be missing. -/
structure IndexBlock where
  text : Str
  bbox : Option BBox
  spans : List IndexSpan
  charStart : Nat
  charEnd : Nat
  pageIdx : Option Int
  pageSize : List ℚ
  deriving DecidableEq

/-- A page of the character index. -/
structure IndexPage where
  pageIdx : Option Int
  pageSize : List ℚ
  blocks : List IndexBlock
  deriving DecidableEq

/-- The character index `{pages, totalChars}`. -/
structure CharIndex where
  pages : List IndexPage
  totalChars : Nat
  deriving DecidableEq

/-- `page.page_size || [595, 842]`. -/
def pageSizeOf (page : Page) : List ℚ := page.page_size.getD [595, 842]

/-- The body of the loop over the spans in `processBlock` (`app.js:1443`); the state
is `(blockText, spans)`. A span is taken only if it has a content and a `bbox`. -/
def indexSpanStep (globalCharOffset : Nat) (st : Str × List IndexSpan) (span : Span) :
    Str × List IndexSpan :=
  match span.content, span.bbox with
  | some content, some bbox =>
    if content = [] then st
    else
      (st.1 ++ content,
        st.2 ++ [{ text := content, bbox := bbox,
                   charStart := globalCharOffset + st.1.length,
                   charEnd := globalCharOffset + st.1.length + content.length }])
  | _, _ => st

/-- The two loops over the lines and the spans of a block in `processBlock`. -/
def indexLines (globalCharOffset : Nat) (lines : Option (List Line)) : Str × List IndexSpan :=
  (lines.getD []).foldl
    (fun st line => (line.spans.getD []).foldl (indexSpanStep globalCharOffset) st) ([], [])

/-- `processBlock(block, parentBbox)` (`app.js:1437`) on the lines and the `bbox` of a
block; the state is `(globalCharOffset, pageBlocks)`. -/
def processBlock (pageIdx : Option Int) (pageSize : List ℚ) (lines : Option (List Line))
    (bbox parentBbox : Option BBox) (st : Nat × List IndexBlock) : Nat × List IndexBlock :=
  if (indexLines st.1 lines).1 = [] then st
  else
    (st.1 + (indexLines st.1 lines).1.length,
      st.2 ++ [{ text := (indexLines st.1 lines).1,
                 bbox := bbox.orElse (fun _ => parentBbox),
                 spans := (indexLines st.1 lines).2,
                 charStart := st.1,
                 charEnd := st.1 + (indexLines st.1 lines).1.length,
                 pageIdx := pageIdx, pageSize := pageSize }])

/-- The body of the loop over the blocks of a page in `buildCharacterIndex`
(`app.js:1470`). -/
def indexBlockStep (pageIdx : Option Int) (pageSize : List ℚ) (st : Nat × List IndexBlock)
    (block : Block) : Nat × List IndexBlock :=
  match block.blocks with
  | some subBlocks =>
    subBlocks.foldl
      (fun st subBlock => processBlock pageIdx pageSize subBlock.lines subBlock.bbox block.bbox st)
      st
  | none => processBlock pageIdx pageSize block.lines block.bbox none st

/-- The body of the loop over the pages in `buildCharacterIndex` (`app.js:1432`); the
state is `(globalCharOffset, index.pages)`. -/
def indexPageStep (st : Nat × List IndexPage) (page : Page) : Nat × List IndexPage :=
  ((( page.para_blocks.getD []).foldl (indexBlockStep page.page_idx (pageSizeOf page))
      (st.1, [])).1,
    st.2 ++ [{ pageIdx := page.page_idx, pageSize := pageSizeOf page,
               blocks := ((page.para_blocks.getD []).foldl
                 (indexBlockStep page.page_idx (pageSizeOf page)) (st.1, [])).2 }])

/-- `buildCharacterIndex` (`app.js:1423`). -/
def buildCharacterIndex (json : Doc) : CharIndex :=
  { pages := ((json.pdf_info.getD []).foldl indexPageStep (0, [])).2,
    totalChars := ((json.pdf_info.getD []).foldl indexPageStep (0, [])).1 }

/-- An element of the result of `findBboxForCharRange`: `{bbox, pageIdx, pageSize,
text}`. -/
structure BBoxHit where
  bbox : Option BBox
  pageIdx : Option Int
  pageSize : List ℚ
  text : Str
  deriving DecidableEq

/-- The body of the loop over the spans of a block (`app.js:1509`); the state is
`(results, foundSpan)`. -/
def hitSpanStep (block : IndexBlock) (startChar endChar : Nat) (st : List BBoxHit × Bool)
    (span : IndexSpan) : List BBoxHit × Bool :=
  if span.charEnd ≤ startChar ∨ span.charStart ≥ endChar then st
  else
    (st.1 ++ [{ bbox := some span.bbox, pageIdx := block.pageIdx, pageSize := block.pageSize,
                text := span.text }], true)

/-- The body of the loop over the blocks of a page (`app.js:1503`). -/
def hitBlockStep (startChar endChar : Nat) (results : List BBoxHit) (block : IndexBlock) :
    List BBoxHit :=
  if block.charEnd ≤ startChar ∨ block.charStart ≥ endChar then results
  else
    match (block.spans.foldl (hitSpanStep block startChar endChar) (results, false)),
        block.bbox with
    | (results1, false), some bbox =>
      results1 ++ [{ bbox := some bbox, pageIdx := block.pageIdx, pageSize := block.pageSize,
                     text := block.text }]
    | (results1, _), _ => results1

/-- `findBboxForCharRange` (`app.js:1499`). -/
def findBboxForCharRange (index : CharIndex) (startChar endChar : Nat) : List BBoxHit :=
  index.pages.foldl
    (fun results page => page.blocks.foldl (hitBlockStep startChar endChar) results) []

/-! ## Annotations -/

/-- An annotation `{bbox, pageSize, type, text, pairId}`. `pairId` is the number `n`
of the string `diff_n`, and `none` when the annotation has no `pairId`. -/
structure Annotation where
  bbox : Option BBox
  pageSize : List ℚ
  type : Str
  text : Str
  pairId : Option Nat
  deriving DecidableEq

/-- The objects `leftAnns`, `rightAnns`: the annotations filed by page index, as the
list of the keys with their arrays. -/
abbrev AnnMap := List (Option Int × List Annotation)

/-- `anns[pageIdx]`, with `[]` for a missing key. -/
def annGet (anns : AnnMap) (pageIdx : Option Int) : List Annotation :=
  (anns.lookup pageIdx).getD []

/-- `if (!anns[pageIdx]) anns[pageIdx] = []; anns[pageIdx].push(a)`. -/
def annPush (anns : AnnMap) (pageIdx : Option Int) (a : Annotation) : AnnMap :=
  if anns.any (fun e => decide (e.1 = pageIdx)) then
    anns.map (fun e => if e.1 = pageIdx then (e.1, e.2 ++ [a]) else e)
  else anns ++ [(pageIdx, [a])]

/-- The local state of `mapDiffToBbox`. -/
structure MapState where
  leftAnns : AnnMap
  rightAnns : AnnMap
  leftCharPos : Nat
  rightCharPos : Nat
  pairId : Nat

/-- The body of the loop of `mapDiffToBbox` (`app.js:1551`). -/
def mapDiffStep (leftIndex rightIndex : CharIndex) (st : MapState) (d : DiffOp) : MapState :=
  if d.1 = 0 then
    { st with leftCharPos := st.leftCharPos + d.2.length,
              rightCharPos := st.rightCharPos + d.2.length }
  else if d.1 = -1 then
    { st with
      leftAnns := (findBboxForCharRange leftIndex st.leftCharPos
          (st.leftCharPos + d.2.length)).foldl
        (fun anns item => annPush anns item.pageIdx
          { bbox := item.bbox, pageSize := item.pageSize, type := js "removed", text := d.2,
            pairId := some st.pairId }) st.leftAnns,
      leftCharPos := st.leftCharPos + d.2.length,
      pairId := st.pairId + 1 }
  else if d.1 = 1 then
    { st with
      rightAnns := (findBboxForCharRange rightIndex st.rightCharPos
          (st.rightCharPos + d.2.length)).foldl
        (fun anns item => annPush anns item.pageIdx
          { bbox := item.bbox, pageSize := item.pageSize, type := js "added", text := d.2,
            pairId := some st.pairId }) st.rightAnns,
      rightCharPos := st.rightCharPos + d.2.length,
      pairId := st.pairId + 1 }
  else st

/-- The state on entry to the loop of `mapDiffToBbox`. -/
def MapState.init : MapState :=
  { leftAnns := [], rightAnns := [], leftCharPos := 0, rightCharPos := 0, pairId := 0 }

/-- `mapDiffToBbox` (`app.js:1543`): `(leftAnnotations, rightAnnotations)`. -/
def mapDiffToBbox (diffs : List DiffOp) (leftIndex rightIndex : CharIndex) : AnnMap × AnnMap :=
  ((diffs.foldl (mapDiffStep leftIndex rightIndex) MapState.init).leftAnns,
   (diffs.foldl (mapDiffStep leftIndex rightIndex) MapState.init).rightAnns)

/-! ## The annotations of the paragraph-level display -/

/-- An element of the result of `extractBlocksWithBbox`: `{bbox, text, pageIdx,
pageSize}`. -/
structure BoxedBlock where
  bbox : BBox
  text : Str
  pageIdx : Option Int
  pageSize : List ℚ
  deriving DecidableEq

/-- The body of the loop over `block.blocks` in `extractBlocksWithBbox`
(`app.js:1383`). -/
def boxedSubStep (pageIdx : Option Int) (pageSize : List ℚ) (blocks : List BoxedBlock)
    (subBlock : SubBlock) : List BoxedBlock :=
  match subBlock.bbox with
  | some bbox =>
    if addLines [] subBlock.lines = [] then blocks
    else blocks ++ [{ bbox := bbox, text := trim (addLines [] subBlock.lines),
                      pageIdx := pageIdx, pageSize := pageSize }]
  | none => blocks

/-- The body of the loop over the blocks of a page in `extractBlocksWithBbox`
(`app.js:1367`). -/
def boxedBlockStep (pageIdx : Option Int) (pageSize : List ℚ) (blocks : List BoxedBlock)
    (block : Block) : List BoxedBlock :=
  match block.bbox with
  | none => blocks
  | some bbox =>
    match block.blocks with
    | some subBlocks => subBlocks.foldl (boxedSubStep pageIdx pageSize) blocks
    | none =>
      if addLines [] block.lines = [] then blocks
      else blocks ++ [{ bbox := bbox, text := trim (addLines [] block.lines),
                        pageIdx := pageIdx, pageSize := pageSize }]

/-- `extractBlocksWithBbox` (`app.js:1359`). -/
def extractBlocksWithBbox (json : Doc) : List BoxedBlock :=
  (json.pdf_info.getD []).foldl
    (fun blocks page =>
      (page.para_blocks.getD []).foldl (boxedBlockStep page.page_idx (pageSizeOf page)) blocks)
    []

/-- The `Map` from a normalised text to the blocks that have it, as the list of
its entries. -/
abbrev BlockMap := List (Str × List BoxedBlock)

/-- The body of the loops that fill `leftBlockMap` and `rightBlockMap`
(`app.js:1617`). -/
def blockMapStep (m : BlockMap) (block : BoxedBlock) : BlockMap :=
  if (normalizeText block.text).length > 0 then
    if m.any (fun e => decide (e.1 = normalizeText block.text)) then
      m.map (fun e => if e.1 = normalizeText block.text then (e.1, e.2 ++ [block]) else e)
    else m ++ [(normalizeText block.text, [block])]
  else m

/-- `blockMap.get(normText) || []`. -/
def blockMapGet (m : BlockMap) (normText : Str) : List BoxedBlock :=
  (m.lookup normText).getD []

/-- The annotation text of a pure deletion or addition:
`text.substring(0, 50) + (text.length > 50 ? '...' : '')`. -/
def clippedText (text : Str) : Str :=
  text.take 50 ++ (if text.length > 50 then js "..." else [])

/-- The annotation text of a modification: `'修改: ' + text.substring(0, 40) + '...'`. -/
def modifiedText (text : Str) : Str :=
  js "修改: " ++ text.take 40 ++ js "..."

/-- One of the loops `for (const block of matchingBlocks)` (`app.js:1655`). -/
def pushBlocks (anns : AnnMap) (blocks : List BoxedBlock) (type text : Str) : AnnMap :=
  blocks.foldl
    (fun anns block => annPush anns block.pageIdx
      { bbox := some block.bbox, pageSize := block.pageSize, type := type, text := text,
        pairId := none })
    anns

/-- The body of the loop over `lastParagraphDiffs` (`app.js:1639`); the state is
`(leftAnnotations, rightAnnotations)`. -/
def annotateStep (leftBlockMap rightBlockMap : BlockMap) (st : AnnMap × AnnMap)
    (result : ParagraphDiff) : AnnMap × AnnMap :=
  if result.hasDiff = false then st
  else if (trim result.left.text).length > 0 ∧ ¬ (trim result.right.text).length > 0 then
    (pushBlocks st.1 (blockMapGet leftBlockMap (normalizeText result.left.text))
      (js "removed") (clippedText result.left.text), st.2)
  else if ¬ (trim result.left.text).length > 0 ∧ (trim result.right.text).length > 0 then
    (st.1, pushBlocks st.2 (blockMapGet rightBlockMap (normalizeText result.right.text))
      (js "added") (clippedText result.right.text))
  else if (trim result.left.text).length > 0 ∧ (trim result.right.text).length > 0 then
    (pushBlocks st.1 (blockMapGet leftBlockMap (normalizeText result.left.text))
      (js "removed") (modifiedText result.left.text),
     pushBlocks st.2 (blockMapGet rightBlockMap (normalizeText result.right.text))
      (js "added") (modifiedText result.right.text))
  else st

/-- `prepareAnnotationsEnhanced` (`app.js:1605`) from the moment the two block lists
are extracted: the two maps are filled and the paragraph diffs are walked. -/
def annotatePairs (leftBlocks rightBlocks : List BoxedBlock) (diffs : List ParagraphDiff) :
    AnnMap × AnnMap :=
  diffs.foldl
    (annotateStep (leftBlocks.foldl blockMapStep []) (rightBlocks.foldl blockMapStep []))
    ([], [])

/-- `prepareAnnotationsEnhanced` (`app.js:1605`) as a function of the globals
`leftData`, `rightData` and `lastParagraphDiffs` (`none` when not set); the
result is `(leftAnnotations, rightAnnotations)`. -/
def prepareAnnotationsEnhanced (leftData rightData : Option Doc)
    (lastParagraphDiffs : Option (List ParagraphDiff)) : AnnMap × AnnMap :=
  match leftData, rightData, lastParagraphDiffs with
  | some left, some right, some diffs =>
    annotatePairs (extractBlocksWithBbox left) (extractBlocksWithBbox right) diffs
  | _, _, _ => ([], [])

/-- The blocks are contiguous from offset `o` to offset `o'`: each starts where the
previous one ends, the first at `o`, the last ends at `o'`, and each is as long
as its text, which is not empty. -/
def Contig : Nat → List IndexBlock → Nat → Prop
  | o, [], o' => o' = o
  | o, b :: bs, o' =>
    b.charStart = o ∧ b.charEnd = o + b.text.length ∧ 0 < b.text.length ∧
      Contig b.charEnd bs o'

/-- All the blocks of an index, in traversal order across the pages. -/
def CharIndex.allBlocks (index : CharIndex) : List IndexBlock :=
  index.pages.flatMap (fun page => page.blocks)

/-- A document whose only block has two spans, the second without `bbox`. -/
def sampleNoBboxDoc : Doc :=
  onePage [{ type := some (js "text"), bbox := some [0, 0, 100, 20],
             lines := some [{ spans := some [{ content := some (js "甲方"),
                                               bbox := some [0, 0, 50, 20] },
                                             { content := some (js "乙方"), bbox := none }] }],
             blocks := none }]

/-- The range `[charStart, charEnd)` meets the range `[startChar, endChar)`:
`charStart < endChar` and `charEnd > startChar`. -/
def overlapsRange (charStart charEnd startChar endChar : Nat) : Bool :=
  decide (charStart < endChar ∧ charEnd > startChar)

/-- The entry of a span of a block: the `bbox` and the text of the span, the `pageIdx`
and the `pageSize` of the block. -/
def spanHit (block : IndexBlock) (span : IndexSpan) : BBoxHit :=
  { bbox := some span.bbox, pageIdx := block.pageIdx, pageSize := block.pageSize,
    text := span.text }

/-- The entries of the spans of a block that meet the range, in span order. -/
def spanHits (block : IndexBlock) (startChar endChar : Nat) : List BBoxHit :=
  (block.spans.filter
    (fun span => overlapsRange span.charStart span.charEnd startChar endChar)).map
    (spanHit block)

/-- The entry of a block that has a `bbox`. -/
def blockHit (block : IndexBlock) : List BBoxHit :=
  match block.bbox with
  | some bbox => [{ bbox := some bbox, pageIdx := block.pageIdx, pageSize := block.pageSize,
                    text := block.text }]
  | none => []

/-- The regions of a block for a range, after the description: nothing for a block
that does not meet the range; otherwise the entries of its spans that meet the
range, and the entry of the block itself when no span does. -/
def blockHits (block : IndexBlock) (startChar endChar : Nat) : List BBoxHit :=
  if overlapsRange block.charStart block.charEnd startChar endChar then
    if spanHits block startChar endChar = [] then blockHit block
    else spanHits block startChar endChar
  else []

/-- The left cursor before the op of index `i`, after the description: the total
length of the preceding equal and delete ops. -/
def leftStartSpec (diffs : List DiffOp) (i : Nat) : Nat :=
  (((diffs.take i).filter (fun d => decide (d.1 = 0 ∨ d.1 = -1))).map
    (fun d => d.2.length)).sum

/-- The right cursor before the op of index `i`, after the description: the total
length of the preceding equal and insert ops. -/
def rightStartSpec (diffs : List DiffOp) (i : Nat) : Nat :=
  (((diffs.take i).filter (fun d => decide (d.1 = 0 ∨ d.1 = 1))).map
    (fun d => d.2.length)).sum

/-- The number `n` of the `pairId` `diff_n` of the op of index `i`: the number of the
preceding delete and insert ops. -/
def pairIdSpec (diffs : List DiffOp) (i : Nat) : Nat :=
  ((diffs.take i).filter (fun d => decide (d.1 = -1 ∨ d.1 = 1))).length

/-- The annotations of one op on the page `pageIdx`: one per result of
`findBboxForCharRange(index, start, start + |t|)` with that `pageIdx`, with
the `bbox` and the `pageSize` of the result. -/
def opAnnotations (index : CharIndex) (start : Nat) (type : Str) (d : DiffOp) (pairId : Nat)
    (pageIdx : Option Int) : List Annotation :=
  ((findBboxForCharRange index start (start + d.2.length)).filter
    (fun item => decide (item.pageIdx = pageIdx))).map
    (fun item => { bbox := item.bbox, pageSize := item.pageSize, type := type, text := d.2,
                   pairId := some pairId })

/-- The left annotations of the page `pageIdx`, after the description: those of the
delete ops, in script order. -/
def removedSpec (leftIndex : CharIndex) (diffs : List DiffOp) (pageIdx : Option Int) :
    List Annotation :=
  diffs.enum.flatMap (fun p =>
    if p.2.1 = -1 then
      opAnnotations leftIndex (leftStartSpec diffs p.1) (js "removed") p.2
        (pairIdSpec diffs p.1) pageIdx
    else [])

/-- The right annotations of the page `pageIdx`, after the description: those of the
insert ops, in script order. -/
def addedSpec (rightIndex : CharIndex) (diffs : List DiffOp) (pageIdx : Option Int) :
    List Annotation :=
  diffs.enum.flatMap (fun p =>
    if p.2.1 = 1 then
      opAnnotations rightIndex (rightStartSpec diffs p.1) (js "added") p.2
        (pairIdSpec diffs p.1) pageIdx
    else [])

/-- An index with one block `[0, 15)` on page 2, whose second span has the bbox
`[10, 20, 100, 40]` and covers `[5, 15)`. -/
def sampleSpanIndex : CharIndex :=
  { pages := [{ pageIdx := some 2, pageSize := [595, 842],
                blocks := [{ text := js "abcdefghijklmno", bbox := some [0, 0, 200, 60],
                             spans := [{ text := js "abcde", bbox := [10, 0, 100, 20],
                                         charStart := 0, charEnd := 5 },
                                       { text := js "fghijklmno", bbox := [10, 20, 100, 40],
                                         charStart := 5, charEnd := 15 }],
                             charStart := 0, charEnd := 15, pageIdx := some 2,
                             pageSize := [595, 842] }] }],
    totalChars := 15 }

/-- The blocks that the lookup map holds for a text: those whose normalised text is
not empty and equals the normalised text. -/
def matchingBlocksSpec (blocks : List BoxedBlock) (text : Str) : List BoxedBlock :=
  blocks.filter (fun block =>
    decide (0 < (normalizeText block.text).length ∧
      normalizeText block.text = normalizeText text))

/-- The annotation of a block: its `bbox` and `pageSize`, no `pairId`. -/
def blockAnn (type text : Str) (block : BoxedBlock) : Annotation :=
  { bbox := some block.bbox, pageSize := block.pageSize, type := type, text := text,
    pairId := none }

/-- The left annotations of one pair on the page `pageIdx`, read off the lookup
map. -/
def leftAnnotationsSpec (leftBlocks : List BoxedBlock) (result : ParagraphDiff)
    (pageIdx : Option Int) : List Annotation :=
  if result.hasDiff = true ∧ 0 < (trim result.left.text).length then
    ((matchingBlocksSpec leftBlocks result.left.text).filter
      (fun block => decide (block.pageIdx = pageIdx))).map
      (blockAnn (js "removed")
        (if 0 < (trim result.right.text).length then modifiedText result.left.text
         else clippedText result.left.text))
  else []

/-- The right annotations of one pair on the page `pageIdx`, read off the lookup
map. -/
def rightAnnotationsSpec (rightBlocks : List BoxedBlock) (result : ParagraphDiff)
    (pageIdx : Option Int) : List Annotation :=
  if result.hasDiff = true ∧ 0 < (trim result.right.text).length then
    ((matchingBlocksSpec rightBlocks result.right.text).filter
      (fun block => decide (block.pageIdx = pageIdx))).map
      (blockAnn (js "added")
        (if 0 < (trim result.left.text).length then modifiedText result.right.text
         else clippedText result.right.text))
  else []

/-- The dotted hierarchy `d1.d2.….dk` written out, from `d1` and the list of
`d2`, …, `dk`. -/
def hierarchy (d : Str) (ds : List Str) : Str :=
  d ++ ds.flatMap (fun e => 0x2E :: e)

/-- The regions of a block for a range when the spans are tested without regard to
their block: the entries of the spans that meet the range, and, when no span does,
the entry of the block if the block meets the range. -/
def blockHitsLiteral (block : IndexBlock) (startChar endChar : Nat) : List BBoxHit :=
  if spanHits block startChar endChar = [] then
    if overlapsRange block.charStart block.charEnd startChar endChar then blockHit block
    else []
  else spanHits block startChar endChar

/-- The spans of the block lie inside the range of the block. -/
def SpansInside (block : IndexBlock) : Prop :=
  ∀ span ∈ block.spans, block.charStart ≤ span.charStart ∧ span.charEnd ≤ block.charEnd

/-- A document whose only block has the line `标题` of its own and two nested blocks,
`条款一` and `条款二`; every block and span has a `bbox`. -/
def sampleNestedDoc : Doc :=
  onePage [{ type := some (js "list"), bbox := some [0, 0, 100, 60],
             lines := some [lineOf "标题" (some [0, 0, 100, 20])],
             blocks := some [{ type := some (js "text"), bbox := some [0, 20, 100, 40],
                               lines := some [lineOf "条款一" (some [0, 20, 100, 40])] },
                             { type := some (js "text"), bbox := some [0, 40, 100, 60],
                               lines := some [lineOf "条款二" (some [0, 40, 100, 60])] }] }]

/-- A document whose only block has the line `标题` of its own and one nested block
without text. -/
def sampleNestedEmptyChildDoc : Doc :=
  onePage [{ type := some (js "list"), bbox := some [0, 0, 100, 60],
             lines := some [lineOf "标题" (some [0, 0, 100, 20])],
             blocks := some [{ type := some (js "text"), bbox := some [0, 20, 100, 40],
                               lines := some [] }] }]

/-- The paragraph of a nested block, after the description: none when its own
concatenated span text is empty, otherwise that text trimmed, with the type of
the nested block, or of its parent when it has none. -/
def childParagraph (block : Block) (pageIdx : Option Int) (subBlock : SubBlock) :
    Option Paragraph :=
  if blockContent subBlock.lines = [] then none
  else some { text := trim (blockContent subBlock.lines),
              type := orElseStr subBlock.type block.type, pageIdx := pageIdx }

/-- The text has neither leading nor trailing white space. -/
def NoEdgeSpace (s : Str) : Prop :=
  (∀ c, s.head? = some c → isWhiteSpace c = false) ∧
  (∀ c, s.getLast? = some c → isWhiteSpace c = false)

/-- The pattern without its capture groups. -/
def Re.erase : Re → Re
  | .cls p => .cls p
  | .seq a b => .seq a.erase b.erase
  | .opt a => .opt a.erase
  | .star a => .star a.erase
  | .plus a => .plus a.erase
  | .group a => a.erase

/-- A text-diff primitive that deletes the whole left text and inserts the whole
right text. -/
def replaceAllDiff (left right : Str) : List DiffOp := [(-1, left), (1, right)]

/-- The spans are contiguous from offset `o` to offset `o'`: each starts where the
previous one ends, the first at `o`, the last ends at `o'`, and each is as long
as its text, which is not empty. -/
def SpanContig : Nat → List IndexSpan → Nat → Prop
  | o, [], o' => o' = o
  | o, sp :: sps, o' =>
    sp.charStart = o ∧ sp.charEnd = o + sp.text.length ∧ 0 < sp.text.length ∧
      SpanContig sp.charEnd sps o'

/-- The spans of the block tile the range of the block. -/
def Tiled (block : IndexBlock) : Prop :=
  SpanContig block.charStart block.spans block.charEnd ∧ block.charStart < block.charEnd

/-- A document whose only block has the spans `甲方` and `乙方`, each with a `bbox`. -/
def sampleTwoSpanDoc : Doc :=
  onePage [{ type := some (js "text"), bbox := some [0, 0, 100, 20],
             lines := some [{ spans := some [{ content := some (js "甲方"),
                                               bbox := some [0, 0, 50, 20] },
                                             { content := some (js "乙方"),
                                               bbox := some [50, 0, 100, 20] }] }],
             blocks := none }]

/-- A text block without nested blocks, with one line of one span; the block and the
span have the given bounding box. -/
def boxedLeaf (content : String) (bbox : BBox) : Block :=
  { type := some (js "text"), bbox := some bbox, lines := some [lineOf content (some bbox)],
    blocks := none }

/-- A left document of two pages: `1. 甲方应于30日内` at the bottom of page 0 and `付款。` at
the top of page 1. -/
def sampleSplitDoc : Doc :=
  { pdf_info := some
      [{ page_idx := some 0, page_size := none,
         para_blocks := some [boxedLeaf "1. 甲方应于30日内" [0, 700, 500, 720]] },
       { page_idx := some 1, page_size := none,
         para_blocks := some [boxedLeaf "付款。" [0, 0, 500, 20]] }] }

/-- A right document with the single block `1. 甲方应于60日内付款。`. -/
def sampleWholeDoc : Doc :=
  onePage [boxedLeaf "1. 甲方应于60日内付款。" [0, 700, 500, 720]]

/-- The ranges of the characters that the steps before the case conversion remove
or replace by another one. -/
def dirtyRanges : List (Nat × Nat) :=
  [(0x09, 0x0D), (0x20, 0x20), (0x27, 0x27), (0xA0, 0xA0), (0x1680, 0x1680),
   (0x2000, 0x200D), (0x2014, 0x2014), (0x2028, 0x2029), (0x202F, 0x202F),
   (0x205F, 0x205F), (0x3000, 0x3000), (0x3002, 0x3002), (0x3010, 0x3011),
   (0xFEFF, 0xFEFF), (0xFF08, 0xFF09), (0xFF0C, 0xFF0C), (0xFF1A, 0xFF1B)]

/-- The interval `[a, b]` lies in one of the ranges. -/
def insideRanges (ranges : List (Nat × Nat)) (a b : Nat) : Bool :=
  ranges.any (fun r => decide (r.1 ≤ a) && decide (b ≤ r.2))

/-- The interval `[a, b]` meets none of the ranges. -/
def outsideRanges (ranges : List (Nat × Nat)) (a b : Nat) : Bool :=
  ranges.all (fun r => decide (b < r.1) || decide (r.2 < a))

/-- What the proofs need of one entry of the table: its domain `[lo, hi]` and its
image `[target, target + (hi - lo)]` lie in a range of cased letters, are
untouched by the steps before the case conversion, hold no surrogate and lie on
the same side of U+10000, and the image holds neither U+03A3 nor U+0130. -/
def lowerEntryOk (e : Nat × Nat × Nat × Nat) : Bool :=
  decide (e.1 ≤ e.2.1) && (decide (e.2.2.1 = 1) || decide (e.2.2.1 = 2)) &&
  insideRanges casedRanges e.1 e.2.1 &&
  insideRanges casedRanges e.2.2.2 (e.2.2.2 + (e.2.1 - e.1)) &&
  outsideRanges dirtyRanges e.1 e.2.1 &&
  outsideRanges dirtyRanges e.2.2.2 (e.2.2.2 + (e.2.1 - e.1)) &&
  outsideRanges [(0xD800, 0xDFFF), (0x3A3, 0x3A3), (0x130, 0x130)] e.2.2.2
    (e.2.2.2 + (e.2.1 - e.1)) &&
  outsideRanges [(0xD800, 0xDFFF), (0x130, 0x130)] e.1 e.2.1 &&
  ((decide (e.2.1 < 0x10000) && decide (e.2.2.2 + (e.2.1 - e.1) < 0x10000)) ||
    (decide (0x10000 ≤ e.1) && decide (0x10000 ≤ e.2.2.2) && decide (e.2.1 < 0x110000) &&
      decide (e.2.2.2 + (e.2.1 - e.1) < 0x110000)))

/-- The image of the entry `e` does not meet the domain of the entry `f`. -/
def lowerPairOk (e f : Nat × Nat × Nat × Nat) : Bool :=
  decide (e.2.2.2 + (e.2.1 - e.1) < f.1) || decide (f.2.1 < e.2.2.2) ||
  (decide (f.2.2.1 = 2) && (decide (e.2.2.1 = 2) || decide (e.1 = e.2.1)) &&
    decide ((e.2.2.2 + f.1) % 2 = 1))

/-- The character is one that the steps before the case conversion remove or
replace by another one. -/
def isDirty (u : Nat) : Bool := inRanges dirtyRanges u

/-- The code point is left as it is by the case conversion, in every context. -/
def LowerStable (c : Nat) : Prop :=
  c ≠ 0x3A3 ∧ c ≠ 0x130 ∧ simpleLowerCase c = c

/-- A list of code points below U+110000 in which no high surrogate is followed by a
low surrogate: the code points of a string are such a list. -/
def WellPaired : List Nat → Prop
  | [] => True
  | c :: rest =>
    c < 0x110000 ∧
    (0xD800 ≤ c ∧ c ≤ 0xDBFF → ∀ d, rest.head? = some d → ¬ (0xDC00 ≤ d ∧ d ≤ 0xDFFF)) ∧
    WellPaired rest

/-- Two code points of the same class for the final-sigma rule: both cased or
both not, both case-ignorable or both not. -/
def SameCaseClass (d e : Nat) : Prop :=
  isCasedLetter d = isCasedLetter e ∧ isCaseIgnorable d = isCaseIgnorable e

/-- The characters that some character class of the pattern admits. -/
def Re.accepts : Re → Nat → Bool
  | .cls p, c => p c
  | .seq a b, c => a.accepts c || b.accepts c
  | .opt a, c => a.accepts c
  | .star a, c => a.accepts c
  | .plus a, c => a.accepts c
  | .group a, c => a.accepts c

/-- The characters that some character class inside a capture group of the
pattern admits. -/
def Re.groupAccepts : Re → Nat → Bool
  | .cls _, _ => false
  | .seq a b, c => a.groupAccepts c || b.groupAccepts c
  | .opt a, c => a.groupAccepts c
  | .star a, c => a.groupAccepts c
  | .plus a, c => a.groupAccepts c
  | .group a, c => a.accepts c

/-- The blocks that the description pairs with a text: those whose normalised text
equals the normalised text. -/
def matchingBlocksLiteral (blocks : List BoxedBlock) (text : Str) : List BoxedBlock :=
  blocks.filter (fun block => decide (normalizeText block.text = normalizeText text))

/-- The left annotations of one pair on the page `pageIdx`, as the description words
them. -/
def leftAnnotationsLiteral (leftBlocks : List BoxedBlock) (result : ParagraphDiff)
    (pageIdx : Option Int) : List Annotation :=
  if result.hasDiff = true ∧ 0 < (trim result.left.text).length then
    ((matchingBlocksLiteral leftBlocks result.left.text).filter
      (fun block => decide (block.pageIdx = pageIdx))).map
      (blockAnn (js "removed")
        (if 0 < (trim result.right.text).length then modifiedText result.left.text
         else clippedText result.left.text))
  else []

/-- The right annotations of one pair on the page `pageIdx`, as the description
words them. -/
def rightAnnotationsLiteral (rightBlocks : List BoxedBlock) (result : ParagraphDiff)
    (pageIdx : Option Int) : List Annotation :=
  if result.hasDiff = true ∧ 0 < (trim result.right.text).length then
    ((matchingBlocksLiteral rightBlocks result.right.text).filter
      (fun block => decide (block.pageIdx = pageIdx))).map
      (blockAnn (js "added")
        (if 0 < (trim result.left.text).length then modifiedText result.right.text
         else clippedText result.right.text))
  else []

/-! ## Sets as insertion-ordered lists -/

section SetLemmas

variable {α : Type} [DecidableEq α]

theorem mem_setAdd (s : List α) (x y : α) : y ∈ setAdd s x ↔ y ∈ s ∨ y = x := by
  unfold setAdd
  split
  · constructor
    · intro h; exact Or.inl h
    · rintro (h | h)
      · exact h
      · subst h; assumption
  · simp

theorem nodup_setAdd {s : List α} (x : α) (h : s.Nodup) : (setAdd s x).Nodup := by
  unfold setAdd
  split
  · exact h
  · rename_i hx
    exact List.Nodup.append h (List.nodup_singleton x) (by simpa using hx)

theorem mem_foldl_setAdd (xs : List α) (s : List α) (y : α) :
    y ∈ xs.foldl setAdd s ↔ y ∈ s ∨ y ∈ xs := by
  induction xs generalizing s with
  | nil => simp
  | cons x xs ih =>
    simp only [List.foldl_cons, ih, mem_setAdd, List.mem_cons]
    tauto

theorem nodup_foldl_setAdd (xs : List α) {s : List α} (h : s.Nodup) :
    (xs.foldl setAdd s).Nodup := by
  induction xs generalizing s with
  | nil => simpa using h
  | cons x xs ih => exact ih (nodup_setAdd x h)

theorem mem_setOf (xs : List α) (y : α) : y ∈ setOf xs ↔ y ∈ xs := by
  simp [setOf, mem_foldl_setAdd]

theorem nodup_setOf (xs : List α) : (setOf xs).Nodup :=
  nodup_foldl_setAdd xs List.nodup_nil

theorem toFinset_setOf (xs : List α) : (setOf xs).toFinset = xs.toFinset := by
  ext y
  simp [mem_setOf]

theorem length_setOf (xs : List α) : (setOf xs).length = xs.toFinset.card := by
  rw [← toFinset_setOf, List.toFinset_card_of_nodup (nodup_setOf xs)]

theorem setOf_eq_nil (xs : List α) : setOf xs = [] ↔ xs = [] := by
  constructor
  · intro h
    cases xs with
    | nil => rfl
    | cons x xs =>
      have : x ∈ setOf (x :: xs) := (mem_setOf _ _).2 (List.mem_cons_self _ _)
      rw [h] at this
      exact absurd this (List.not_mem_nil _)
  · intro h
    subst h
    rfl

end SetLemmas

/-! ## The bigrams of a string -/

theorem ngrams_eq (s : Str) :
    ngrams s = setOf ((List.range (s.length - 1)).map (fun i => substring s i (i + 2))) := by
  have h : Int.toNat ((s.length : Int) - 2 + 1) = s.length - 1 := by omega
  unfold ngrams setOf
  rw [h, List.foldl_map]

theorem mem_bigramSet (s t : Str) : t ∈ bigramSet s ↔ t.length = 2 ∧ t <:+: s := by
  unfold bigramSet
  simp only [List.mem_toFinset, List.mem_filter, List.mem_map, List.mem_tails,
    decide_eq_true_eq]
  constructor
  · rintro ⟨⟨tl, htl, rfl⟩, hlen⟩
    exact ⟨hlen, (List.take_prefix 2 tl).isInfix.trans htl.isInfix⟩
  · rintro ⟨hlen, a, b, rfl⟩
    refine ⟨⟨t ++ b, ⟨a, by simp⟩, ?_⟩, hlen⟩
    rw [← hlen, List.take_left]

theorem mem_ngrams (s t : Str) : t ∈ ngrams s ↔ t.length = 2 ∧ t <:+: s := by
  rw [ngrams_eq, mem_setOf]
  simp only [List.mem_map, List.mem_range, substring]
  constructor
  · rintro ⟨i, hi, rfl⟩
    refine ⟨by simp; omega, List.take i s, List.drop (i + 2) s, ?_⟩
    have h1 : List.take i s = List.take i (List.take (i + 2) s) := by
      rw [List.take_take]; congr 1; omega
    rw [h1, List.take_append_drop, List.take_append_drop]
  · rintro ⟨hlen, a, b, rfl⟩
    refine ⟨a.length, by simp; omega, ?_⟩
    have h2 : a.length + 2 = (a ++ t).length := by simp [hlen]
    rw [h2, List.take_left, List.drop_left]

theorem toFinset_ngrams (s : Str) : (ngrams s).toFinset = bigramSet s := by
  ext t
  rw [List.mem_toFinset, mem_ngrams, mem_bigramSet]

theorem ngrams_length_eq_zero (s : Str) : (ngrams s).length = 0 ↔ s.length ≤ 1 := by
  rw [List.length_eq_zero, ngrams_eq, setOf_eq_nil, List.map_eq_nil_iff, List.range_eq_nil]
  omega

/-- The code and the reference definition of the similarity agree. -/
theorem calculateSimilarity_eq_similaritySpec (a b : Str) :
    calculateSimilarity a b = similaritySpec a b := by
  unfold calculateSimilarity similaritySpec
  simp only []
  by_cases h1 : normalizeText a = normalizeText b
  · simp [h1]
  · rw [if_neg h1, if_neg h1]
    by_cases h2 : normalizeText a = [] ∨ normalizeText b = []
    · have h2' : (normalizeText a = [] ∧ normalizeText b ≠ []) ∨
          (normalizeText a ≠ [] ∧ normalizeText b = []) := by
        rcases h2 with h2 | h2
        · exact Or.inl ⟨h2, fun h => h1 (h2.trans h.symm)⟩
        · exact Or.inr ⟨fun h => h1 (h.trans h2.symm), h2⟩
      rw [if_pos h2, if_pos h2']
    · have h2' : ¬ ((normalizeText a = [] ∧ normalizeText b ≠ []) ∨
          (normalizeText a ≠ [] ∧ normalizeText b = [])) := by tauto
      rw [if_neg h2, if_neg h2']
      have ha : (normalizeText a).length ≠ 0 := fun h => h2 (Or.inl (List.length_eq_zero.1 h))
      have hb : (normalizeText b).length ≠ 0 := fun h => h2 (Or.inr (List.length_eq_zero.1 h))
      have hz : ((ngrams (normalizeText a)).length = 0 ∧ (ngrams (normalizeText b)).length = 0) ↔
          ((normalizeText a).length = 1 ∧ (normalizeText b).length = 1) := by
        rw [ngrams_length_eq_zero, ngrams_length_eq_zero]
        omega
      by_cases h3 : (normalizeText a).length = 1 ∧ (normalizeText b).length = 1
      · rw [if_pos h3, if_pos (hz.2 h3)]
      · rw [if_neg h3, if_neg (fun h => h3 (hz.1 h))]
        rw [Rat.mkRat_eq_div, length_setOf, length_setOf, List.toFinset_append,
          toFinset_ngrams, toFinset_ngrams]
        have hi : (List.filter (fun x => decide (x ∈ ngrams (normalizeText b)))
            (ngrams (normalizeText a))).toFinset =
            bigramSet (normalizeText a) ∩ bigramSet (normalizeText b) := by
          ext t
          simp [← toFinset_ngrams]
        rw [hi]
        simp

theorem similaritySpec_comm (a b : Str) : similaritySpec a b = similaritySpec b a := by
  unfold similaritySpec
  by_cases h1 : normalizeText a = normalizeText b
  · rw [if_pos h1, if_pos h1.symm]
  · have h1' : ¬ normalizeText b = normalizeText a := fun h => h1 h.symm
    rw [if_neg h1, if_neg h1']
    by_cases h2 : (normalizeText a = [] ∧ normalizeText b ≠ []) ∨
        (normalizeText a ≠ [] ∧ normalizeText b = [])
    · have h2' : (normalizeText b = [] ∧ normalizeText a ≠ []) ∨
          (normalizeText b ≠ [] ∧ normalizeText a = []) := by tauto
      rw [if_pos h2, if_pos h2']
    · have h2' : ¬ ((normalizeText b = [] ∧ normalizeText a ≠ []) ∨
          (normalizeText b ≠ [] ∧ normalizeText a = [])) := by tauto
      rw [if_neg h2, if_neg h2']
      by_cases h3 : (normalizeText a).length = 1 ∧ (normalizeText b).length = 1
      · rw [if_pos h3, if_pos h3.symm]
      · have h3' : ¬ ((normalizeText b).length = 1 ∧ (normalizeText a).length = 1) :=
          fun h => h3 h.symm
        rw [if_neg h3, if_neg h3', Finset.inter_comm, Finset.union_comm]

theorem similaritySpec_bounds (a b : Str) : 0 ≤ similaritySpec a b ∧ similaritySpec a b ≤ 1 := by
  unfold similaritySpec
  split
  · norm_num
  · split
    · norm_num
    · split
      · norm_num
      · constructor
        · positivity
        · apply div_le_one_of_le₀
          · exact_mod_cast Finset.card_le_card
              (Finset.inter_subset_left.trans Finset.subset_union_left)
          · positivity

theorem calculateSimilarity_bounds (a b : Str) :
    0 ≤ calculateSimilarity a b ∧ calculateSimilarity a b ≤ 1 := by
  rw [calculateSimilarity_eq_similaritySpec]
  exact similaritySpec_bounds a b

theorem calculateSimilarity_self (a : Str) : calculateSimilarity a a = 1 := by
  unfold calculateSimilarity
  simp

/-! ## The loops of the aligner -/

theorem enum_take_succ (L : List Paragraph) (k : Nat) (h : k < L.length) :
    L.enum.take (k + 1) = L.enum.take k ++ [(k, L[k])] := by
  rw [List.take_succ, List.getElem?_enum, List.getElem?_eq_getElem h]
  rfl

theorem mem_enum_take (L : List Paragraph) (k : Nat) (x : Nat × Paragraph) :
    x ∈ L.enum.take k ↔ x.1 < k ∧ L[x.1]? = some x.2 := by
  induction k with
  | zero => simp
  | succ k ih =>
    by_cases h : k < L.length
    · rw [enum_take_succ L k h, List.mem_append, ih, List.mem_singleton]
      constructor
      · rintro (⟨h1, h2⟩ | rfl)
        · exact ⟨by omega, h2⟩
        · exact ⟨by simp, by simp [List.getElem?_eq_getElem h]⟩
      · rintro ⟨h1, h2⟩
        by_cases hk : x.1 = k
        · right
          rw [hk, List.getElem?_eq_getElem h] at h2
          exact Prod.ext hk (Option.some.inj h2).symm
        · left
          exact ⟨by omega, h2⟩
    · have e1 : L.enum.take (k + 1) = L.enum := List.take_of_length_le (by simp; omega)
      have e2 : L.enum.take k = L.enum := List.take_of_length_le (by simp; omega)
      rw [e1, ← e2, ih]
      constructor
      · rintro ⟨h1, h2⟩
        exact ⟨by omega, h2⟩
      · rintro ⟨_, h2⟩
        have := (List.getElem?_eq_some_iff.1 h2).1
        exact ⟨by omega, h2⟩

theorem tier1After_succ (L R : List Paragraph) (k : Nat) (h : k < L.length) :
    tier1After L R (k + 1) = tier1Step R (tier1After L R k) (k, L[k]) := by
  unfold tier1After
  rw [enum_take_succ L k h, List.foldl_append]
  rfl

theorem tier1After_length (L R : List Paragraph) : tier1After L R L.length = tier1 L R := by
  unfold tier1After tier1
  rw [List.take_of_length_le (by simp)]

theorem tier2After_succ (L R : List Paragraph) (k : Nat) (h : k < L.length) :
    tier2After L R (k + 1) = tier2Step R (tier2After L R k) (k, L[k]) := by
  unfold tier2After
  rw [enum_take_succ L k h, List.foldl_append]
  rfl

theorem tier2After_length (L R : List Paragraph) : tier2After L R L.length = tier2 L R := by
  unfold tier2After tier2
  rw [List.take_of_length_le (by simp)]

theorem foldl_leftoverLeftStep (xs : List (Nat × Paragraph)) (st : MatchState) :
    xs.foldl leftoverLeftStep st =
      { st with pairs := (st.pairs ++
          (xs.filter (fun ip => !decide (ip.1 ∈ st.matched1))).map
            (fun ip => leftOnlyPair ip.1 ip.2)) } := by
  induction xs generalizing st with
  | nil => simp
  | cons x xs ih =>
    rw [List.foldl_cons, ih]
    unfold leftoverLeftStep
    by_cases h : x.1 ∈ st.matched1
    · simp [h]
    · simp [h]

theorem foldl_leftoverRightStep (xs : List (Nat × Paragraph)) (st : MatchState) :
    xs.foldl leftoverRightStep st =
      { st with pairs := (st.pairs ++
          (xs.filter (fun jq => !decide (jq.1 ∈ st.matched2))).map
            (fun jq => rightOnlyPair jq.1 jq.2)) } := by
  induction xs generalizing st with
  | nil => simp
  | cons x xs ih =>
    rw [List.foldl_cons, ih]
    unfold leftoverRightStep
    by_cases h : x.1 ∈ st.matched2
    · simp [h]
    · simp [h]

theorem producedPairs_eq (L R : List Paragraph) :
    producedPairs L R =
      (tier2 L R).pairs ++ leftLeftovers L (tier2 L R).matched1 ++
        rightLeftovers R (tier2 L R).matched2 := by
  unfold producedPairs leftLeftovers rightLeftovers
  rw [foldl_leftoverRightStep, foldl_leftoverLeftStep]

/-! ## Invariants of Tier 1 and Tier 2 -/

theorem MatchedPair.leftIdx {L R : List Paragraph} {pr : AlignedPair}
    (h : MatchedPair L R pr) :
    ∃ i, pr.leftIdx = some i ∧ L[i]? = some pr.left := by
  obtain ⟨ip, hip, jq, _, h | ⟨h, _⟩⟩ := h
  · exact ⟨ip.1, by rw [h]; rfl, by rw [h]; exact List.mem_enum_iff_getElem?.1 hip⟩
  · exact ⟨ip.1, by rw [h]; rfl, by rw [h]; exact List.mem_enum_iff_getElem?.1 hip⟩

theorem MatchedPair.rightIdx {L R : List Paragraph} {pr : AlignedPair}
    (h : MatchedPair L R pr) :
    ∃ j, pr.rightIdx = some j ∧ R[j]? = some pr.right := by
  obtain ⟨ip, _, jq, hjq, h | ⟨h, _⟩⟩ := h
  · exact ⟨jq.1, by rw [h]; rfl, by rw [h]; exact List.mem_enum_iff_getElem?.1 hjq⟩
  · exact ⟨jq.1, by rw [h]; rfl, by rw [h]; exact List.mem_enum_iff_getElem?.1 hjq⟩

theorem good_init (L R : List Paragraph) : Good L R MatchState.init where
  m1 := by simp [MatchState.init]
  m2 := by simp [MatchState.init]
  nd1 := by simp [MatchState.init]
  nd2 := by simp [MatchState.init]
  shape := by simp [MatchState.init]

theorem Good.push {L R : List Paragraph} {st : MatchState} (hg : Good L R st)
    (i j : Nat) (pr : AlignedPair) (hi : i ∉ st.matched1) (hj : j ∉ st.matched2)
    (hl : pr.leftIdx = some i) (hr : pr.rightIdx = some j) (hs : MatchedPair L R pr) :
    Good L R { matched1 := setAdd st.matched1 i, matched2 := setAdd st.matched2 j,
               pairs := st.pairs ++ [pr] } where
  m1 := by
    intro x
    simp only [mem_setAdd, List.filterMap_append, List.mem_append, hg.m1 x]
    simp [hl, eq_comm]
  m2 := by
    intro x
    simp only [mem_setAdd, List.filterMap_append, List.mem_append, hg.m2 x]
    simp [hr, eq_comm]
  nd1 := by
    simp only [List.filterMap_append]
    refine List.Nodup.append hg.nd1 (by simp [hl]) ?_
    simp [hl, ← hg.m1, hi]
  nd2 := by
    simp only [List.filterMap_append]
    refine List.Nodup.append hg.nd2 (by simp [hr]) ?_
    simp [hr, ← hg.m2, hj]
  shape := by
    intro q hq
    rcases List.mem_append.1 hq with hq | hq
    · exact hg.shape q hq
    · rw [List.mem_singleton.1 hq]
      exact hs

theorem tier1Step_cases (R : List Paragraph) (st : MatchState) (ip : Nat × Paragraph) :
    tier1Step R st ip = st ∨
    ∃ key jq, sectionKey ip.2.text = some key ∧
      R.enum.find? (tier1Candidate st.matched2 key) = some jq ∧
      tier1Step R st ip =
        { matched1 := setAdd st.matched1 ip.1, matched2 := setAdd st.matched2 jq.1,
          pairs := st.pairs ++ [numberPair ip.1 ip.2 jq.1 jq.2] } := by
  cases hk : sectionKey ip.2.text with
  | none =>
    left
    simp only [tier1Step, hk]
  | some key =>
    cases hf : R.enum.find? (tier1Candidate st.matched2 key) with
    | none =>
      left
      simp only [tier1Step, hk, hf]
    | some jq =>
      right
      exact ⟨key, jq, rfl, hf, by simp only [tier1Step, hk, hf]⟩

theorem tier1Candidate_iff (matched2 : List Nat) (key : NumKey) (jq : Nat × Paragraph) :
    tier1Candidate matched2 key jq = true ↔
      jq.1 ∉ matched2 ∧ sectionKey jq.2.text = some key := by
  simp [tier1Candidate]

theorem tier1After_good (L R : List Paragraph) (k : Nat) (hk : k ≤ L.length) :
    Good L R (tier1After L R k) ∧ ∀ i ∈ (tier1After L R k).matched1, i < k := by
  induction k with
  | zero => exact ⟨good_init L R, by simp [tier1After, MatchState.init]⟩
  | succ k ih =>
    have hlt : k < L.length := hk
    obtain ⟨hg, hb⟩ := ih (Nat.le_of_lt hlt)
    rw [tier1After_succ L R k hlt]
    rcases tier1Step_cases R (tier1After L R k) (k, L[k]) with h | ⟨key, jq, _, hf, h⟩
    · rw [h]
      exact ⟨hg, fun i hi => Nat.lt_succ_of_lt (hb i hi)⟩
    · rw [h]
      have hc := (tier1Candidate_iff _ _ _).1 (List.find?_some hf)
      have hmem : jq ∈ R.enum := List.mem_of_find?_eq_some hf
      have hkm : k ∉ (tier1After L R k).matched1 := fun hin => Nat.lt_irrefl k (hb k hin)
      have hL : (k, L[k]) ∈ L.enum :=
        List.mem_enum_iff_getElem?.2 (List.getElem?_eq_getElem hlt)
      refine ⟨hg.push k jq.1 _ hkm hc.1 rfl rfl ⟨(k, L[k]), hL, jq, hmem, Or.inl rfl⟩, ?_⟩
      intro i hi
      rcases (mem_setAdd _ _ _).1 hi with hi | hi
      · exact Nat.lt_succ_of_lt (hb i hi)
      · rw [hi]
        exact Nat.lt_succ_self k

theorem tier1_good (L R : List Paragraph) : Good L R (tier1 L R) := by
  rw [← tier1After_length]
  exact (tier1After_good L R L.length (Nat.le_refl _)).1

/-! ## The best candidate of Tier 2 -/

theorem foldl_tier2Scan_spec (p : Paragraph) (matched2 : List Nat)
    (xs : List (Nat × Paragraph)) :
    SIMILARITY_THRESHOLD ≤ (xs.foldl (tier2Scan p matched2) (none, SIMILARITY_THRESHOLD)).2 ∧
    (∀ x ∈ xs, x.1 ∉ matched2 → calculateSimilarity p.text x.2.text ≤
      (xs.foldl (tier2Scan p matched2) (none, SIMILARITY_THRESHOLD)).2) ∧
    ((xs.foldl (tier2Scan p matched2) (none, SIMILARITY_THRESHOLD)).1 = none →
      (xs.foldl (tier2Scan p matched2) (none, SIMILARITY_THRESHOLD)).2 = SIMILARITY_THRESHOLD) ∧
    (∀ jq, (xs.foldl (tier2Scan p matched2) (none, SIMILARITY_THRESHOLD)).1 = some jq →
      jq.1 ∉ matched2 ∧
      (xs.foldl (tier2Scan p matched2) (none, SIMILARITY_THRESHOLD)).2 =
        calculateSimilarity p.text jq.2.text ∧
      SIMILARITY_THRESHOLD < calculateSimilarity p.text jq.2.text ∧
      ∃ pre post, xs = pre ++ jq :: post ∧
        ∀ x ∈ pre, x.1 ∉ matched2 →
          calculateSimilarity p.text x.2.text < calculateSimilarity p.text jq.2.text) := by
  induction xs using List.reverseRecOn with
  | nil => simp
  | append_singleton xs x ih =>
    rw [List.foldl_append, List.foldl_cons, List.foldl_nil]
    generalize xs.foldl (tier2Scan p matched2) (none, SIMILARITY_THRESHOLD) = best at ih ⊢
    obtain ⟨h1, h2, h3, h4⟩ := ih
    unfold tier2Scan
    by_cases hm : x.1 ∈ matched2
    · rw [if_pos hm]
      refine ⟨h1, ?_, h3, ?_⟩
      · intro y hy hym
        rcases List.mem_append.1 hy with hy | hy
        · exact h2 y hy hym
        · rw [List.mem_singleton.1 hy] at hym
          exact absurd hm hym
      · intro jq hjq
        obtain ⟨a, b, c, pre, post, e, d⟩ := h4 jq hjq
        exact ⟨a, b, c, pre, post ++ [x], by rw [e]; simp, d⟩
    · rw [if_neg hm]
      by_cases hgt : calculateSimilarity p.text x.2.text > best.2
      · rw [if_pos hgt]
        refine ⟨le_of_lt (lt_of_le_of_lt h1 hgt), ?_, by simp, ?_⟩
        · intro y hy hym
          rcases List.mem_append.1 hy with hy | hy
          · exact le_of_lt (lt_of_le_of_lt (h2 y hy hym) hgt)
          · rw [List.mem_singleton.1 hy]
        · intro jq hjq
          have e : x = jq := by simpa using hjq
          subst e
          refine ⟨hm, rfl, lt_of_le_of_lt h1 hgt, xs, [], rfl, ?_⟩
          intro y hy hym
          exact lt_of_le_of_lt (h2 y hy hym) hgt
      · rw [if_neg hgt]
        refine ⟨h1, ?_, h3, ?_⟩
        · intro y hy hym
          rcases List.mem_append.1 hy with hy | hy
          · exact h2 y hy hym
          · rw [List.mem_singleton.1 hy]
            exact not_lt.1 hgt
        · intro jq hjq
          obtain ⟨a, b, c, pre, post, e, d⟩ := h4 jq hjq
          exact ⟨a, b, c, pre, post ++ [x], by rw [e]; simp, d⟩

theorem enum_split_mem (R : List Paragraph) (pre post : List (Nat × Paragraph))
    (jq : Nat × Paragraph) (h : R.enum = pre ++ jq :: post) (j : Nat) (q : Paragraph)
    (hq : R[j]? = some q) (hlt : j < jq.1) : (j, q) ∈ pre := by
  have hlen : pre.length < R.enum.length := by rw [h]; simp
  have hjq : R.enum[pre.length]? = some jq := by
    rw [h, List.getElem?_append_right (Nat.le_refl _)]
    simp
  rw [List.getElem?_enum] at hjq
  have h1 : jq.1 = pre.length := by
    cases hR : R[pre.length]? with
    | none => rw [hR] at hjq; simp at hjq
    | some a => rw [hR] at hjq; simp at hjq; rw [← hjq]
  have h2 : pre = R.enum.take pre.length := by rw [h]; simp
  rw [h2, mem_enum_take]
  exact ⟨by simpa [h1] using hlt, hq⟩

/-- The inner loop of Tier 2 finds nothing only if no unmatched right paragraph
scores above the threshold. -/
theorem tier2Best_none (R : List Paragraph) (matched2 : List Nat) (p : Paragraph)
    (h : (tier2Best R matched2 p).1 = none) (j : Nat) (q : Paragraph)
    (hq : R[j]? = some q) (hj : j ∉ matched2) :
    calculateSimilarity p.text q.text ≤ SIMILARITY_THRESHOLD := by
  obtain ⟨_, h2, h3, _⟩ := foldl_tier2Scan_spec p matched2 R.enum
  have := h2 (j, q) (List.mem_enum_iff_getElem?.2 hq) hj
  rw [h3 h] at this
  exact this

/-- What the inner loop of Tier 2 finds is an unmatched right paragraph of
maximal score, above the threshold, and the first one with that score. -/
theorem tier2Best_some (R : List Paragraph) (matched2 : List Nat) (p : Paragraph)
    (jq : Nat × Paragraph) (h : (tier2Best R matched2 p).1 = some jq) :
    R[jq.1]? = some jq.2 ∧ jq.1 ∉ matched2 ∧
    (tier2Best R matched2 p).2 = calculateSimilarity p.text jq.2.text ∧
    SIMILARITY_THRESHOLD < calculateSimilarity p.text jq.2.text ∧
    (∀ j q, R[j]? = some q → j ∉ matched2 →
      calculateSimilarity p.text q.text ≤ calculateSimilarity p.text jq.2.text) ∧
    (∀ j q, R[j]? = some q → j ∉ matched2 → j < jq.1 →
      calculateSimilarity p.text q.text < calculateSimilarity p.text jq.2.text) := by
  obtain ⟨_, h2, _, h4⟩ := foldl_tier2Scan_spec p matched2 R.enum
  obtain ⟨a, b, c, pre, post, e, d⟩ := h4 jq h
  have hmem : jq ∈ R.enum := by rw [e]; simp
  refine ⟨List.mem_enum_iff_getElem?.1 hmem, a, b, c, ?_, ?_⟩
  · intro j q hq hj
    have := h2 (j, q) (List.mem_enum_iff_getElem?.2 hq) hj
    rw [← b]
    exact this
  · intro j q hq hj hlt
    exact d (j, q) (enum_split_mem R pre post jq e j q hq hlt) hj

theorem tier2Step_cases (R : List Paragraph) (st : MatchState) (ip : Nat × Paragraph) :
    (tier2Step R st ip = st ∧
      (ip.1 ∈ st.matched1 ∨ (tier2Best R st.matched2 ip.2).1 = none)) ∨
    ∃ jq, ip.1 ∉ st.matched1 ∧ (tier2Best R st.matched2 ip.2).1 = some jq ∧
      tier2Step R st ip =
        { matched1 := setAdd st.matched1 ip.1, matched2 := setAdd st.matched2 jq.1,
          pairs := st.pairs ++
            [similarityPair ip.1 ip.2 jq.1 jq.2 (tier2Best R st.matched2 ip.2).2] } := by
  by_cases hm : ip.1 ∈ st.matched1
  · left
    exact ⟨by simp only [tier2Step, if_pos hm], Or.inl hm⟩
  · rcases hb : tier2Best R st.matched2 ip.2 with ⟨_ | jq, s⟩
    · left
      exact ⟨by simp only [tier2Step, if_neg hm, hb], Or.inr rfl⟩
    · right
      exact ⟨jq, hm, rfl, by simp only [tier2Step, if_neg hm, hb]⟩

theorem tier2Step_good {L R : List Paragraph} {st : MatchState} (hg : Good L R st)
    (ip : Nat × Paragraph) (hip : ip ∈ L.enum) : Good L R (tier2Step R st ip) := by
  rcases tier2Step_cases R st ip with ⟨h, _⟩ | ⟨jq, hm, hb, h⟩
  · rw [h]
    exact hg
  · rw [h]
    obtain ⟨h1, h2, h3, h4, _, _⟩ := tier2Best_some R st.matched2 ip.2 jq hb
    refine hg.push ip.1 jq.1 _ hm h2 rfl rfl
      ⟨ip, hip, jq, List.mem_enum_iff_getElem?.2 h1, Or.inr ⟨?_, h4⟩⟩
    rw [h3]

theorem tier2After_good (L R : List Paragraph) (k : Nat) (hk : k ≤ L.length) :
    Good L R (tier2After L R k) := by
  induction k with
  | zero => exact tier1_good L R
  | succ k ih =>
    have hlt : k < L.length := hk
    rw [tier2After_succ L R k hlt]
    exact tier2Step_good (ih (Nat.le_of_lt hlt)) _
      (List.mem_enum_iff_getElem?.2 (List.getElem?_eq_getElem hlt))

theorem tier2_good (L R : List Paragraph) : Good L R (tier2 L R) := by
  rw [← tier2After_length]
  exact tier2After_good L R L.length (Nat.le_refl _)

/-! ## Coverage -/

theorem filterMap_leftIdx_leftLeftovers (L : List Paragraph) (m : List Nat) :
    (leftLeftovers L m).filterMap (fun pr => pr.leftIdx) =
      (L.enum.filter (fun ip => !decide (ip.1 ∈ m))).map Prod.fst := by
  unfold leftLeftovers
  rw [List.filterMap_map]
  exact congrFun (List.filterMap_eq_map Prod.fst) _

theorem filterMap_rightIdx_leftLeftovers (L : List Paragraph) (m : List Nat) :
    (leftLeftovers L m).filterMap (fun pr => pr.rightIdx) = [] := by
  unfold leftLeftovers
  rw [List.filterMap_map]
  exact List.filterMap_eq_nil_iff.2 (fun _ _ => rfl)

theorem filterMap_rightIdx_rightLeftovers (R : List Paragraph) (m : List Nat) :
    (rightLeftovers R m).filterMap (fun pr => pr.rightIdx) =
      (R.enum.filter (fun jq => !decide (jq.1 ∈ m))).map Prod.fst := by
  unfold rightLeftovers
  rw [List.filterMap_map]
  exact congrFun (List.filterMap_eq_map Prod.fst) _

theorem filterMap_leftIdx_rightLeftovers (R : List Paragraph) (m : List Nat) :
    (rightLeftovers R m).filterMap (fun pr => pr.leftIdx) = [] := by
  unfold rightLeftovers
  rw [List.filterMap_map]
  exact List.filterMap_eq_nil_iff.2 (fun _ _ => rfl)

theorem unmatched_fst_perm (L : List Paragraph) (taken : List Nat) (hnd : taken.Nodup)
    (hlt : ∀ i ∈ taken, i < L.length) :
    (taken ++ (L.enum.filter (fun ip => !decide (ip.1 ∈ taken))).map Prod.fst).Perm
      (List.range L.length) := by
  have hsub : ((L.enum.filter (fun ip => !decide (ip.1 ∈ taken))).map Prod.fst).Sublist
      (List.range L.length) := by
    rw [← List.enum_map_fst]
    exact List.Sublist.map _ (List.filter_sublist _)
  have hnd2 := (List.nodup_range L.length).sublist hsub
  rw [List.perm_ext_iff_of_nodup ?_ (List.nodup_range _)]
  · intro i
    simp only [List.mem_append, List.mem_map, List.mem_filter, List.mem_range,
      Bool.not_eq_true', decide_eq_false_iff_not]
    constructor
    · rintro (h | ⟨x, ⟨hx, _⟩, rfl⟩)
      · exact hlt i h
      · exact List.fst_lt_of_mem_enum hx
    · intro h
      by_cases hi : i ∈ taken
      · exact Or.inl hi
      · exact Or.inr ⟨(i, L[i]),
          ⟨List.mem_enum_iff_getElem?.2 (List.getElem?_eq_getElem h), hi⟩, rfl⟩
  · refine List.Nodup.append hnd hnd2 ?_
    intro i h1 h2
    simp only [List.mem_map, List.mem_filter, Bool.not_eq_true',
      decide_eq_false_iff_not] at h2
    obtain ⟨x, ⟨_, hx⟩, rfl⟩ := h2
    exact hx h1

theorem producedPairs_leftIdx_perm (L R : List Paragraph) :
    ((producedPairs L R).filterMap (fun pr => pr.leftIdx)).Perm (List.range L.length) := by
  rw [producedPairs_eq, List.filterMap_append, List.filterMap_append,
    filterMap_leftIdx_leftLeftovers, filterMap_leftIdx_rightLeftovers, List.append_nil]
  have hg := tier2_good L R
  have h := unmatched_fst_perm L ((tier2 L R).pairs.filterMap (fun pr => pr.leftIdx)) hg.nd1
    (by
      intro i hi
      obtain ⟨pr, hpr, hi⟩ := List.mem_filterMap.1 hi
      obtain ⟨i', h1, h2⟩ := (hg.shape pr hpr).leftIdx
      rw [h1] at hi
      cases hi
      exact (List.getElem?_eq_some_iff.1 h2).1)
  have e : (fun ip : Nat × Paragraph => !decide (ip.1 ∈ (tier2 L R).matched1)) =
      (fun ip => !decide (ip.1 ∈ (tier2 L R).pairs.filterMap (fun pr => pr.leftIdx))) := by
    funext ip
    simp [hg.m1]
  rw [e]
  exact h

theorem producedPairs_rightIdx_perm (L R : List Paragraph) :
    ((producedPairs L R).filterMap (fun pr => pr.rightIdx)).Perm (List.range R.length) := by
  rw [producedPairs_eq, List.filterMap_append, List.filterMap_append,
    filterMap_rightIdx_leftLeftovers, filterMap_rightIdx_rightLeftovers, List.append_nil]
  have hg := tier2_good L R
  have h := unmatched_fst_perm R ((tier2 L R).pairs.filterMap (fun pr => pr.rightIdx)) hg.nd2
    (by
      intro i hi
      obtain ⟨pr, hpr, hi⟩ := List.mem_filterMap.1 hi
      obtain ⟨i', h1, h2⟩ := (hg.shape pr hpr).rightIdx
      rw [h1] at hi
      cases hi
      exact (List.getElem?_eq_some_iff.1 h2).1)
  have e : (fun jq : Nat × Paragraph => !decide (jq.1 ∈ (tier2 L R).matched2)) =
      (fun jq => !decide (jq.1 ∈ (tier2 L R).pairs.filterMap (fun pr => pr.rightIdx))) := by
    funext jq
    simp [hg.m2]
  rw [e]
  exact h

theorem mem_smartMatchParagraphs (L R : List Paragraph) (pr : AlignedPair) :
    pr ∈ smartMatchParagraphs L R ↔ pr ∈ producedPairs L R :=
  List.mem_insertionSort _

theorem smartMatchParagraphs_perm (L R : List Paragraph) :
    (smartMatchParagraphs L R).Perm (producedPairs L R) :=
  List.perm_insertionSort _ _

theorem producedPairs_shape (L R : List Paragraph) (pr : AlignedPair)
    (h : pr ∈ producedPairs L R) : ProducedPair L R pr := by
  rw [producedPairs_eq, List.mem_append, List.mem_append] at h
  rcases h with (h | h) | h
  · exact Or.inl ((tier2_good L R).shape pr h)
  · unfold leftLeftovers at h
    obtain ⟨ip, hip, rfl⟩ := List.mem_map.1 h
    exact Or.inr (Or.inl ⟨ip, (List.mem_filter.1 hip).1, rfl⟩)
  · unfold rightLeftovers at h
    obtain ⟨jq, hjq, rfl⟩ := List.mem_map.1 h
    exact Or.inr (Or.inr ⟨jq, (List.mem_filter.1 hjq).1, rfl⟩)

theorem ProducedPair.sides {L R : List Paragraph} {pr : AlignedPair}
    (h : ProducedPair L R pr) :
    (pr.leftIdx ≠ none ∨ pr.rightIdx ≠ none) ∧
    (∀ i, pr.leftIdx = some i → L[i]? = some pr.left) ∧
    (∀ j, pr.rightIdx = some j → R[j]? = some pr.right) ∧
    (pr.leftIdx = none →
      pr.left = { text := [], type := none, pageIdx := pr.right.pageIdx }) ∧
    (pr.rightIdx = none →
      pr.right = { text := [], type := none, pageIdx := pr.left.pageIdx }) := by
  rcases h with h | ⟨ip, hip, rfl⟩ | ⟨jq, hjq, rfl⟩
  · obtain ⟨i, hi, hL⟩ := h.leftIdx
    obtain ⟨j, hj, hR⟩ := h.rightIdx
    refine ⟨Or.inl (by simp [hi]), ?_, ?_, by simp [hi], by simp [hj]⟩
    · intro i' hi'
      rw [hi] at hi'
      cases hi'
      exact hL
    · intro j' hj'
      rw [hj] at hj'
      cases hj'
      exact hR
  · refine ⟨Or.inl (by simp [leftOnlyPair]), ?_, by simp [leftOnlyPair],
      by simp [leftOnlyPair], by simp [leftOnlyPair]⟩
    intro i hi
    have : ip.1 = i := by simpa [leftOnlyPair] using hi
    rw [← this]
    exact List.mem_enum_iff_getElem?.1 hip
  · refine ⟨Or.inr (by simp [rightOnlyPair]), by simp [rightOnlyPair], ?_,
      by simp [rightOnlyPair], by simp [rightOnlyPair]⟩
    intro j hj
    have : jq.1 = j := by simpa [rightOnlyPair] using hj
    rw [← this]
    exact List.mem_enum_iff_getElem?.1 hjq

theorem ProducedPair.similarity_bounds {L R : List Paragraph} {pr : AlignedPair}
    (h : ProducedPair L R pr) : 0 ≤ pr.similarity ∧ pr.similarity ≤ 1 := by
  rcases h with ⟨ip, _, jq, _, rfl | ⟨rfl, _⟩⟩ | ⟨ip, _, rfl⟩ | ⟨jq, _, rfl⟩
  · exact calculateSimilarity_bounds _ _
  · exact calculateSimilarity_bounds _ _
  · simp [leftOnlyPair]
  · simp [rightOnlyPair]

/-! ## The first fit of Tier 1 -/

theorem tier1Find_some (R : List Paragraph) (m : List Nat) (key : NumKey)
    (jq : Nat × Paragraph) (h : R.enum.find? (tier1Candidate m key) = some jq) :
    R[jq.1]? = some jq.2 ∧ jq.1 ∉ m ∧ sectionKey jq.2.text = some key ∧
    ∀ j q, R[j]? = some q → j < jq.1 → ¬ (j ∉ m ∧ sectionKey q.text = some key) := by
  obtain ⟨hp, pre, post, e, hpre⟩ := List.find?_eq_some.1 h
  have hc := (tier1Candidate_iff _ _ _).1 hp
  have hmem : jq ∈ R.enum := by rw [e]; simp
  refine ⟨List.mem_enum_iff_getElem?.1 hmem, hc.1, hc.2, ?_⟩
  intro j q hq hlt hcand
  have := hpre (j, q) (enum_split_mem R pre post jq e j q hq hlt)
  rw [(tier1Candidate_iff m key (j, q)).2 hcand] at this
  simp at this

theorem tier1Find_none (R : List Paragraph) (m : List Nat) (key : NumKey)
    (h : R.enum.find? (tier1Candidate m key) = none) (j : Nat) (q : Paragraph)
    (hq : R[j]? = some q) : ¬ (j ∉ m ∧ sectionKey q.text = some key) := by
  intro hcand
  have := List.find?_eq_none.1 h (j, q) (List.mem_enum_iff_getElem?.2 hq)
  exact this ((tier1Candidate_iff m key (j, q)).2 hcand)

theorem tier1Find_eq (R : List Paragraph) (m : List Nat) (key : NumKey) (j : Nat)
    (q : Paragraph) (hq : R[j]? = some q) (hj : j ∉ m) (hk : sectionKey q.text = some key)
    (hmin : ∀ j' q', R[j']? = some q' → j' < j →
      ¬ (j' ∉ m ∧ sectionKey q'.text = some key)) :
    R.enum.find? (tier1Candidate m key) = some (j, q) := by
  cases hf : R.enum.find? (tier1Candidate m key) with
  | none => exact absurd ⟨hj, hk⟩ (tier1Find_none R m key hf j q hq)
  | some jq =>
    obtain ⟨h1, h2, h3, h4⟩ := tier1Find_some R m key jq hf
    have hle : ¬ j < jq.1 := fun hlt => h4 j q hq hlt ⟨hj, hk⟩
    have hge : ¬ jq.1 < j := fun hlt => hmin jq.1 jq.2 h1 hlt ⟨h2, h3⟩
    have e : jq.1 = j := by omega
    rw [e, hq] at h1
    congr 1
    exact Prod.ext e (Option.some.inj h1).symm

/-! ## Aligning a list with itself -/

theorem numbered_succ (P : List Paragraph) (k : Nat) (h : k < P.length) :
    numbered P (k + 1) =
      if (sectionKey P[k].text).isSome then numbered P k ++ [(k, P[k])] else numbered P k := by
  unfold numbered
  rw [enum_take_succ P k h, List.filter_append]
  by_cases hs : (sectionKey P[k].text).isSome
  · simp [hs]
  · simp [hs]

theorem unnumbered_succ (P : List Paragraph) (k : Nat) (h : k < P.length) :
    unnumbered P (k + 1) =
      if (sectionKey P[k].text).isNone then unnumbered P k ++ [(k, P[k])]
      else unnumbered P k := by
  unfold unnumbered
  rw [enum_take_succ P k h, List.filter_append]
  by_cases hs : (sectionKey P[k].text).isNone
  · simp [hs]
  · simp [hs]

theorem mem_numbered (P : List Paragraph) (k : Nat) (x : Nat × Paragraph) :
    x ∈ numbered P k ↔ x.1 < k ∧ P[x.1]? = some x.2 ∧ (sectionKey x.2.text).isSome := by
  unfold numbered
  rw [List.mem_filter, mem_enum_take]
  tauto

theorem mem_unnumbered (P : List Paragraph) (k : Nat) (x : Nat × Paragraph) :
    x ∈ unnumbered P k ↔ x.1 < k ∧ P[x.1]? = some x.2 ∧ (sectionKey x.2.text).isNone := by
  unfold unnumbered
  rw [List.mem_filter, mem_enum_take]
  tauto

theorem self_tier1After (P : List Paragraph) (k : Nat) (hk : k ≤ P.length) :
    tier1After P P k =
      { matched1 := (numbered P k).map Prod.fst, matched2 := (numbered P k).map Prod.fst,
        pairs := (numbered P k).map (fun ip => numberPair ip.1 ip.2 ip.1 ip.2) } := by
  induction k with
  | zero => simp [tier1After, numbered, MatchState.init]
  | succ k ih =>
    have hlt : k < P.length := hk
    rw [tier1After_succ P P k hlt, ih (Nat.le_of_lt hlt), numbered_succ P k hlt]
    have hnot : k ∉ (numbered P k).map Prod.fst := by
      intro hin
      obtain ⟨x, hx, e⟩ := List.mem_map.1 hin
      have := ((mem_numbered P k x).1 hx).1
      omega
    cases hs : sectionKey P[k].text with
    | none => simp [tier1Step, hs]
    | some key =>
      have hfind : P.enum.find? (tier1Candidate ((numbered P k).map Prod.fst) key) =
          some (k, P[k]) := by
        apply tier1Find_eq P _ key k P[k] (List.getElem?_eq_getElem hlt) hnot hs
        intro j' q' hq' hlt' hc
        apply hc.1
        exact List.mem_map.2 ⟨(j', q'), (mem_numbered P k (j', q')).2
          ⟨hlt', hq', by simp [hc.2]⟩, rfl⟩
      simp [tier1Step, hs, hfind, setAdd, hnot]

theorem self_tier1 (P : List Paragraph) :
    tier1 P P =
      { matched1 := (numbered P P.length).map Prod.fst,
        matched2 := (numbered P P.length).map Prod.fst,
        pairs := (numbered P P.length).map (fun ip => numberPair ip.1 ip.2 ip.1 ip.2) } := by
  rw [← tier1After_length, self_tier1After P P.length (Nat.le_refl _)]

theorem threshold_lt_one : SIMILARITY_THRESHOLD < 1 := by decide

theorem self_tier2After (P : List Paragraph) (k : Nat) (hk : k ≤ P.length) :
    tier2After P P k =
      { matched1 := (numbered P P.length).map Prod.fst ++ (unnumbered P k).map Prod.fst,
        matched2 := (numbered P P.length).map Prod.fst ++ (unnumbered P k).map Prod.fst,
        pairs := (numbered P P.length).map (fun ip => numberPair ip.1 ip.2 ip.1 ip.2) ++
          (unnumbered P k).map (fun ip => similarityPair ip.1 ip.2 ip.1 ip.2 1) } := by
  induction k with
  | zero => simp [tier2After, unnumbered, self_tier1]
  | succ k ih =>
    have hlt : k < P.length := hk
    have hPk : P[k]? = some P[k] := List.getElem?_eq_getElem hlt
    rw [tier2After_succ P P k hlt, ih (Nat.le_of_lt hlt), unnumbered_succ P k hlt]
    have hnotU : k ∉ (unnumbered P k).map Prod.fst := by
      intro hin
      obtain ⟨x, hx, e⟩ := List.mem_map.1 hin
      have := ((mem_unnumbered P k x).1 hx).1
      omega
    cases hs : sectionKey P[k].text with
    | some key =>
      have hin : k ∈ (numbered P P.length).map Prod.fst ++ (unnumbered P k).map Prod.fst :=
        List.mem_append_left _ (List.mem_map.2 ⟨(k, P[k]),
          (mem_numbered P P.length (k, P[k])).2 ⟨hlt, hPk, by simp [hs]⟩, rfl⟩)
      simp [tier2Step, hin]
    | none =>
      have hnotN : k ∉ (numbered P P.length).map Prod.fst := by
        intro hin
        obtain ⟨x, hx, e⟩ := List.mem_map.1 hin
        obtain ⟨_, h2, h3⟩ := (mem_numbered P P.length x).1 hx
        rw [e, hPk] at h2
        rw [← Option.some.inj h2, hs] at h3
        simp at h3
      have hnot : k ∉ (numbered P P.length).map Prod.fst ++ (unnumbered P k).map Prod.fst :=
        fun h => (List.mem_append.1 h).elim hnotN hnotU
      have hbelow : ∀ j q, P[j]? = some q → j < k →
          j ∈ (numbered P P.length).map Prod.fst ++ (unnumbered P k).map Prod.fst := by
        intro j q hq hj
        cases hsq : sectionKey q.text with
        | some key =>
          exact List.mem_append_left _ (List.mem_map.2 ⟨(j, q),
            (mem_numbered P P.length (j, q)).2 ⟨by omega, hq, by simp [hsq]⟩, rfl⟩)
        | none =>
          exact List.mem_append_right _ (List.mem_map.2 ⟨(j, q),
            (mem_unnumbered P k (j, q)).2 ⟨hj, hq, by simp [hsq]⟩, rfl⟩)
      rcases tier2Step_cases P
        { matched1 := (numbered P P.length).map Prod.fst ++ (unnumbered P k).map Prod.fst,
          matched2 := (numbered P P.length).map Prod.fst ++ (unnumbered P k).map Prod.fst,
          pairs := (numbered P P.length).map (fun ip => numberPair ip.1 ip.2 ip.1 ip.2) ++
            (unnumbered P k).map (fun ip => similarityPair ip.1 ip.2 ip.1 ip.2 1) }
        (k, P[k]) with ⟨_, h | h⟩ | ⟨jq, _, hb, h⟩
      · exact absurd h hnot
      · have := tier2Best_none P _ P[k] h k P[k] hPk hnot
        rw [calculateSimilarity_self] at this
        exact absurd this (not_le.2 threshold_lt_one)
      · obtain ⟨h1, h2, h3, _, h5, h6⟩ := tier2Best_some P _ P[k] jq hb
        have hmax := h5 k P[k] hPk hnot
        rw [calculateSimilarity_self] at hmax
        have hone : calculateSimilarity P[k].text jq.2.text = 1 :=
          le_antisymm (calculateSimilarity_bounds _ _).2 hmax
        have hge : ¬ jq.1 < k := fun hlt' => h2 (hbelow jq.1 jq.2 h1 hlt')
        have hle : ¬ k < jq.1 := by
          intro hlt'
          have := h6 k P[k] hPk hnot hlt'
          rw [calculateSimilarity_self, hone] at this
          exact lt_irrefl _ this
        have e : jq.1 = k := by omega
        have e2 : jq.2 = P[k] := by
          rw [e, hPk] at h1
          exact (Option.some.inj h1).symm
        rw [h]
        simp only [h3, hone, e, e2]
        simp [setAdd, hnot, hs, calculateSimilarity_self]

theorem self_tier2 (P : List Paragraph) :
    tier2 P P =
      { matched1 := (numbered P P.length).map Prod.fst ++
          (unnumbered P P.length).map Prod.fst,
        matched2 := (numbered P P.length).map Prod.fst ++
          (unnumbered P P.length).map Prod.fst,
        pairs := (numbered P P.length).map (fun ip => numberPair ip.1 ip.2 ip.1 ip.2) ++
          (unnumbered P P.length).map (fun ip => similarityPair ip.1 ip.2 ip.1 ip.2 1) } := by
  rw [← tier2After_length, self_tier2After P P.length (Nat.le_refl _)]

theorem self_producedPairs (P : List Paragraph) :
    producedPairs P P =
      (numbered P P.length).map (fun ip => numberPair ip.1 ip.2 ip.1 ip.2) ++
        (unnumbered P P.length).map (fun ip => similarityPair ip.1 ip.2 ip.1 ip.2 1) := by
  have hall : ∀ x ∈ P.enum, x.1 ∈ (numbered P P.length).map Prod.fst ++
      (unnumbered P P.length).map Prod.fst := by
    intro x hx
    have hq := List.mem_enum_iff_getElem?.1 hx
    have hlt := List.fst_lt_of_mem_enum hx
    cases hsq : sectionKey x.2.text with
    | some key =>
      exact List.mem_append_left _ (List.mem_map.2 ⟨x,
        (mem_numbered P P.length x).2 ⟨hlt, hq, by simp [hsq]⟩, rfl⟩)
    | none =>
      exact List.mem_append_right _ (List.mem_map.2 ⟨x,
        (mem_unnumbered P P.length x).2 ⟨hlt, hq, by simp [hsq]⟩, rfl⟩)
  have hnil : P.enum.filter (fun ip => !decide (ip.1 ∈ (numbered P P.length).map Prod.fst ++
      (unnumbered P P.length).map Prod.fst)) = [] := by
    rw [List.filter_eq_nil_iff]
    intro x hx
    simp only [Bool.not_eq_true', decide_eq_false_iff_not, not_not]
    exact hall x hx
  rw [producedPairs_eq, self_tier2]
  simp only [leftLeftovers, rightLeftovers, hnil, List.map_nil, List.append_nil]

theorem length_numbered_add_unnumbered (P : List Paragraph) (k : Nat) (hk : k ≤ P.length) :
    (numbered P k).length + (unnumbered P k).length = k := by
  induction k with
  | zero => simp [numbered, unnumbered]
  | succ k ih =>
    have hlt : k < P.length := hk
    rw [numbered_succ P k hlt, unnumbered_succ P k hlt]
    have := ih (Nat.le_of_lt hlt)
    cases hs : sectionKey P[k].text with
    | some key => simp; omega
    | none => simp; omega

/-! ## The matcher: what is read and what is captured -/

theorem starRun_length (step : MState → List MState)
    (hstep : ∀ st r, r ∈ step st → r.1.length ≤ st.1.length) (fuel : Nat) :
    ∀ st r, r ∈ starRun step fuel st → r.1.length ≤ st.1.length := by
  induction fuel with
  | zero =>
    intro st r hr
    rw [starRun, List.mem_singleton] at hr
    rw [hr]
  | succ fuel ih =>
    intro st r hr
    rw [starRun, List.mem_append, List.mem_flatMap] at hr
    rcases hr with ⟨mid, hmid, hr⟩ | hr
    · have h1 := hstep st mid (List.mem_filter.1 hmid).1
      exact Nat.le_trans (ih mid r hr) h1
    · rw [List.mem_singleton.1 hr]

theorem starRun_capture (step : MState → List MState)
    (hstep : ∀ st r, r ∈ step st → r.2 = st.2) (fuel : Nat) :
    ∀ st r, r ∈ starRun step fuel st → r.2 = st.2 := by
  induction fuel with
  | zero =>
    intro st r hr
    rw [starRun, List.mem_singleton] at hr
    rw [hr]
  | succ fuel ih =>
    intro st r hr
    rw [starRun, List.mem_append, List.mem_flatMap] at hr
    rcases hr with ⟨mid, hmid, hr⟩ | hr
    · rw [ih mid r hr, hstep st mid (List.mem_filter.1 hmid).1]
    · rw [List.mem_singleton.1 hr]

theorem Re.run_length (a : Re) : ∀ st r, r ∈ a.run st → r.1.length ≤ st.1.length := by
  induction a with
  | cls p =>
    intro st r hr
    rcases st with ⟨s, c⟩
    cases s with
    | nil => simp [Re.run] at hr
    | cons x xs =>
      by_cases hp : p x = true
      · simp [Re.run, hp] at hr
        rw [hr]
        simp
      · simp [Re.run, hp] at hr
  | seq a b iha ihb =>
    intro st r hr
    rw [Re.run, List.mem_flatMap] at hr
    obtain ⟨mid, hmid, hr⟩ := hr
    exact Nat.le_trans (ihb mid r hr) (iha st mid hmid)
  | opt a iha =>
    intro st r hr
    rw [Re.run, List.mem_append] at hr
    rcases hr with hr | hr
    · exact iha st r hr
    · rw [List.mem_singleton.1 hr]
  | star a iha =>
    intro st r hr
    rw [Re.run] at hr
    exact starRun_length a.run iha _ st r hr
  | plus a iha =>
    intro st r hr
    rw [Re.run, List.mem_flatMap] at hr
    obtain ⟨mid, hmid, hr⟩ := hr
    exact Nat.le_trans (starRun_length a.run iha _ mid r hr) (iha st mid hmid)
  | group a iha =>
    intro st r hr
    rw [Re.run, List.mem_map] at hr
    obtain ⟨mid, hmid, rfl⟩ := hr
    exact iha st mid hmid

theorem Re.run_consuming (a : Re) (h : a.consuming = true) :
    ∀ st r, r ∈ a.run st → r.1.length < st.1.length := by
  induction a with
  | cls p =>
    intro st r hr
    rcases st with ⟨s, c⟩
    cases s with
    | nil => simp [Re.run] at hr
    | cons x xs =>
      by_cases hp : p x = true
      · simp [Re.run, hp] at hr
        rw [hr]
        simp
      · simp [Re.run, hp] at hr
  | seq a b iha ihb =>
    intro st r hr
    rw [Re.run, List.mem_flatMap] at hr
    obtain ⟨mid, hmid, hr⟩ := hr
    simp only [Re.consuming, Bool.or_eq_true] at h
    rcases h with h | h
    · exact Nat.lt_of_le_of_lt (b.run_length mid r hr) (iha h st mid hmid)
    · exact Nat.lt_of_lt_of_le (ihb h mid r hr) (a.run_length st mid hmid)
  | opt a _ => simp [Re.consuming] at h
  | star a _ => simp [Re.consuming] at h
  | plus a iha =>
    intro st r hr
    rw [Re.run, List.mem_flatMap] at hr
    obtain ⟨mid, hmid, hr⟩ := hr
    simp only [Re.consuming] at h
    exact Nat.lt_of_le_of_lt (starRun_length a.run a.run_length _ mid r hr) (iha h st mid hmid)
  | group a iha =>
    intro st r hr
    rw [Re.run, List.mem_map] at hr
    obtain ⟨mid, hmid, rfl⟩ := hr
    simp only [Re.consuming] at h
    exact iha h st mid hmid

theorem Re.run_groupFree (a : Re) (h : a.groupFree = true) :
    ∀ st r, r ∈ a.run st → r.2 = st.2 := by
  induction a with
  | cls p =>
    intro st r hr
    rcases st with ⟨s, c⟩
    cases s with
    | nil => simp [Re.run] at hr
    | cons x xs =>
      by_cases hp : p x = true
      · simp [Re.run, hp] at hr
        rw [hr]
      · simp [Re.run, hp] at hr
  | seq a b iha ihb =>
    intro st r hr
    rw [Re.run, List.mem_flatMap] at hr
    obtain ⟨mid, hmid, hr⟩ := hr
    simp only [Re.groupFree, Bool.and_eq_true] at h
    rw [ihb h.2 mid r hr, iha h.1 st mid hmid]
  | opt a iha =>
    intro st r hr
    rw [Re.run, List.mem_append] at hr
    simp only [Re.groupFree] at h
    rcases hr with hr | hr
    · exact iha h st r hr
    · rw [List.mem_singleton.1 hr]
  | star a iha =>
    intro st r hr
    rw [Re.run] at hr
    simp only [Re.groupFree] at h
    exact starRun_capture a.run (iha h) _ st r hr
  | plus a iha =>
    intro st r hr
    rw [Re.run, List.mem_flatMap] at hr
    obtain ⟨mid, hmid, hr⟩ := hr
    simp only [Re.groupFree] at h
    rw [starRun_capture a.run (iha h) _ mid r hr, iha h st mid hmid]
  | group a _ => simp [Re.groupFree] at h

theorem Re.run_captures (a : Re) (h : a.captures = true) :
    ∀ st r, r ∈ a.run st → ∃ n, r.2 = some n ∧ n ≠ [] := by
  induction a with
  | cls p => simp [Re.captures] at h
  | seq a b iha ihb =>
    intro st r hr
    rw [Re.run, List.mem_flatMap] at hr
    obtain ⟨mid, hmid, hr⟩ := hr
    simp only [Re.captures, Bool.or_eq_true, Bool.and_eq_true] at h
    rcases h with ⟨h1, h2⟩ | h
    · rw [b.run_groupFree h2 mid r hr]
      exact iha h1 st mid hmid
    · exact ihb h mid r hr
  | opt a _ => simp [Re.captures] at h
  | star a _ => simp [Re.captures] at h
  | plus a _ => simp [Re.captures] at h
  | group a _ =>
    intro st r hr
    rw [Re.run, List.mem_map] at hr
    obtain ⟨mid, hmid, rfl⟩ := hr
    simp only [Re.captures] at h
    have hlt := a.run_consuming h st mid hmid
    refine ⟨_, rfl, ?_⟩
    intro hnil
    have := congrArg List.length hnil
    simp at this
    omega

theorem sectionPatterns_capture : ∀ r ∈ sectionPatterns, r.captures = true := by
  intro r hr
  simp only [sectionPatterns, List.mem_cons, List.mem_singleton, List.not_mem_nil,
    or_false] at hr
  rcases hr with rfl | rfl | rfl | rfl | rfl <;> rfl

/-- A section number that is extracted is never the empty string. -/
theorem extractSectionNumber_ne_nil (text num : Str)
    (h : extractSectionNumber text = some num) : num ≠ [] := by
  unfold extractSectionNumber at h
  split at h
  · simp at h
  · cases hf : sectionPatterns.findSome? (fun r => r.exec (trim text)) with
    | none => rw [hf] at h; simp at h
    | some c =>
      rw [hf] at h
      obtain ⟨r, hr, hexec⟩ := List.exists_of_findSome?_eq_some hf
      unfold Re.exec at hexec
      cases hh : (r.run (trim text, none)).head? with
      | none => rw [hh] at hexec; simp at hexec
      | some st =>
        rw [hh] at hexec
        have hmem : st ∈ r.run (trim text, none) := List.mem_of_mem_head? hh
        obtain ⟨n, hn, hne⟩ := r.run_captures (sectionPatterns_capture r hr) _ st hmem
        simp only [Option.map_some'] at hexec
        have hc : c = some n := by rw [← Option.some.inj hexec, hn]
        rw [hc] at h
        simp at h
        rw [← h]
        exact hne

theorem sectionKey_eq_some (text : Str) (key : NumKey) :
    sectionKey text = some key ↔
      ∃ num, extractSectionNumber text = some num ∧ normalizeNumber num = key := by
  unfold sectionKey
  cases h : extractSectionNumber text with
  | none => simp
  | some num =>
    have := extractSectionNumber_ne_nil text num h
    simp [this]

theorem sectionKey_eq_none (text : Str) :
    sectionKey text = none ↔ extractSectionNumber text = none := by
  unfold sectionKey
  cases h : extractSectionNumber text with
  | none => simp
  | some num =>
    have := extractSectionNumber_ne_nil text num h
    simp [this]

/-! ## Production order -/

theorem pairwise_lt_concat (l : List Nat) (k : Nat) (h : l.Pairwise (· < ·))
    (hb : ∀ x ∈ l, x < k) : (l ++ [k]).Pairwise (· < ·) := by
  rw [List.pairwise_append]
  refine ⟨h, List.pairwise_singleton _ _, ?_⟩
  intro a ha b hb'
  rw [List.mem_singleton.1 hb']
  exact hb a ha

theorem tier1After_scan (L R : List Paragraph) (k : Nat) (hk : k ≤ L.length) :
    (∀ pr ∈ (tier1After L R k).pairs, ∃ i p j q, pr = numberPair i p j q) ∧
    ((tier1After L R k).pairs.filterMap (fun pr => pr.leftIdx)).Pairwise (· < ·) := by
  induction k with
  | zero => simp [tier1After, MatchState.init]
  | succ k ih =>
    have hlt : k < L.length := hk
    obtain ⟨h1, h2⟩ := ih (Nat.le_of_lt hlt)
    obtain ⟨hg, hb⟩ := tier1After_good L R k (Nat.le_of_lt hlt)
    rw [tier1After_succ L R k hlt]
    rcases tier1Step_cases R (tier1After L R k) (k, L[k]) with h | ⟨key, jq, _, _, h⟩
    · rw [h]
      exact ⟨h1, h2⟩
    · rw [h]
      constructor
      · intro pr hpr
        rcases List.mem_append.1 hpr with hpr | hpr
        · exact h1 pr hpr
        · exact ⟨k, L[k], jq.1, jq.2, List.mem_singleton.1 hpr⟩
      · rw [List.filterMap_append]
        exact pairwise_lt_concat _ k h2 (fun x hx => hb x ((hg.m1 x).2 hx))

theorem tier2After_split (L R : List Paragraph) (k : Nat) (hk : k ≤ L.length) :
    ∃ new, (tier2After L R k).pairs = (tier1 L R).pairs ++ new ∧
      (∀ pr ∈ new, ∃ i p j q s, pr = similarityPair i p j q s ∧ SIMILARITY_THRESHOLD < s) ∧
      (new.filterMap (fun pr => pr.leftIdx)).Pairwise (· < ·) ∧
      (∀ x ∈ new.filterMap (fun pr => pr.leftIdx), x < k) ∧
      (∀ x, x ∈ (tier2After L R k).matched1 ↔
        x ∈ (tier1 L R).matched1 ∨ x ∈ new.filterMap (fun pr => pr.leftIdx)) := by
  induction k with
  | zero => exact ⟨[], by simp [tier2After]⟩
  | succ k ih =>
    have hlt : k < L.length := hk
    obtain ⟨new, h1, h2, h3, h4, h5⟩ := ih (Nat.le_of_lt hlt)
    rw [tier2After_succ L R k hlt]
    rcases tier2Step_cases R (tier2After L R k) (k, L[k]) with ⟨h, _⟩ | ⟨jq, _, hb, h⟩
    · rw [h]
      exact ⟨new, h1, h2, h3, fun x hx => Nat.lt_succ_of_lt (h4 x hx), h5⟩
    · rw [h]
      obtain ⟨_, _, e3, e4, _, _⟩ := tier2Best_some R _ L[k] jq hb
      refine ⟨new ++ [similarityPair k L[k] jq.1 jq.2
        (tier2Best R (tier2After L R k).matched2 L[k]).2], ?_, ?_, ?_, ?_, ?_⟩
      · simp only [h1, List.append_assoc]
      · intro pr hpr
        rcases List.mem_append.1 hpr with hpr | hpr
        · exact h2 pr hpr
        · exact ⟨k, L[k], jq.1, jq.2, _, List.mem_singleton.1 hpr, by rw [e3]; exact e4⟩
      · rw [List.filterMap_append]
        exact pairwise_lt_concat _ k h3 h4
      · intro x hx
        rw [List.filterMap_append, List.mem_append] at hx
        rcases hx with hx | hx
        · exact Nat.lt_succ_of_lt (h4 x hx)
        · have : x = k := by simpa [similarityPair] using hx
          rw [this]
          exact Nat.lt_succ_self k
      · intro x
        simp only [mem_setAdd, h5 x, List.filterMap_append, List.mem_append]
        simp [similarityPair, or_assoc, eq_comm]

theorem tier2_pairs_eq (L R : List Paragraph) :
    (tier2 L R).pairs = (tier1 L R).pairs ++ tier2Pairs L R := by
  obtain ⟨new, h1, _⟩ := tier2After_split L R L.length (Nat.le_refl _)
  rw [tier2After_length] at h1
  unfold tier2Pairs
  rw [h1, List.drop_left]

theorem tier2Pairs_scan (L R : List Paragraph) :
    (∀ pr ∈ tier2Pairs L R, ∃ i p j q s,
      pr = similarityPair i p j q s ∧ SIMILARITY_THRESHOLD < s) ∧
    ((tier2Pairs L R).filterMap (fun pr => pr.leftIdx)).Pairwise (· < ·) := by
  obtain ⟨new, h1, h2, h3, _⟩ := tier2After_split L R L.length (Nat.le_refl _)
  rw [tier2After_length] at h1
  have e : tier2Pairs L R = new := by
    unfold tier2Pairs
    rw [h1, List.drop_left]
  rw [e]
  exact ⟨h2, h3⟩

theorem tier1_scan (L R : List Paragraph) :
    (∀ pr ∈ (tier1 L R).pairs, ∃ i p j q, pr = numberPair i p j q) ∧
    ((tier1 L R).pairs.filterMap (fun pr => pr.leftIdx)).Pairwise (· < ·) := by
  rw [← tier1After_length]
  exact tier1After_scan L R L.length (Nat.le_refl _)

theorem tier2After_matched1 (L R : List Paragraph) (k : Nat) (hk : k ≤ L.length) :
    k ∈ (tier2After L R k).matched1 ↔ k ∈ (tier1 L R).matched1 := by
  obtain ⟨new, _, _, _, h4, h5⟩ := tier2After_split L R k hk
  rw [h5]
  constructor
  · rintro (h | h)
    · exact h
    · exact absurd (h4 k h) (Nat.lt_irrefl k)
  · exact Or.inl

theorem enum_fst_pairwise (L : List Paragraph) (f : Nat × Paragraph → Bool) :
    ((L.enum.filter f).map Prod.fst).Pairwise (· < ·) := by
  have hsub : ((L.enum.filter f).map Prod.fst).Sublist (List.range L.length) := by
    rw [← List.enum_map_fst]
    exact List.Sublist.map _ (List.filter_sublist _)
  exact List.Pairwise.sublist hsub (List.pairwise_lt_range _)

/-! ## The final sort -/

theorem filter_orderedInsert (a : AlignedPair) (l : List AlignedPair) (k : Int) :
    (l.orderedInsert (fun x y => pageKey x ≤ pageKey y) a).filter
        (fun x => decide (pageKey x = k)) =
      (a :: l).filter (fun x => decide (pageKey x = k)) := by
  induction l with
  | nil => rfl
  | cons b l ih =>
    rw [List.orderedInsert]
    by_cases h : pageKey a ≤ pageKey b
    · rw [if_pos h]
    · rw [if_neg h, List.filter_cons, ih]
      have hne : pageKey a ≠ pageKey b := fun e => h (le_of_eq e)
      by_cases ha : pageKey a = k
      · have hb : pageKey b ≠ k := fun e => hne (ha.trans e.symm)
        simp [List.filter_cons, ha, hb]
      · simp [List.filter_cons, ha]

theorem filter_insertionSort (l : List AlignedPair) (k : Int) :
    (l.insertionSort (fun x y => pageKey x ≤ pageKey y)).filter
        (fun x => decide (pageKey x = k)) =
      l.filter (fun x => decide (pageKey x = k)) := by
  induction l with
  | nil => rfl
  | cons a l ih =>
    rw [List.insertionSort, filter_orderedInsert, List.filter_cons, List.filter_cons, ih]

theorem sorted_smartMatchParagraphs (L R : List Paragraph) :
    (smartMatchParagraphs L R).Pairwise (fun a b => pageKey a ≤ pageKey b) := by
  haveI : IsTotal AlignedPair (fun a b => pageKey a ≤ pageKey b) :=
    ⟨fun a b => le_total (pageKey a) (pageKey b)⟩
  haveI : IsTrans AlignedPair (fun a b => pageKey a ≤ pageKey b) :=
    ⟨fun _ _ _ h1 h2 => le_trans h1 h2⟩
  exact List.sorted_insertionSort (fun a b => pageKey a ≤ pageKey b) (producedPairs L R)

/-! ## One iteration of Tier 1 and of Tier 2 -/

theorem tier1Step_of_none (R : List Paragraph) (st : MatchState) (ip : Nat × Paragraph)
    (h : sectionKey ip.2.text = none) : tier1Step R st ip = st := by
  simp only [tier1Step, h]

theorem tier1Step_of_no_candidate (R : List Paragraph) (st : MatchState)
    (ip : Nat × Paragraph) (key : NumKey) (h : sectionKey ip.2.text = some key)
    (hno : ∀ j q, R[j]? = some q → ¬ (j ∉ st.matched2 ∧ sectionKey q.text = some key)) :
    tier1Step R st ip = st := by
  have hf : R.enum.find? (tier1Candidate st.matched2 key) = none := by
    rw [List.find?_eq_none]
    intro x hx hc
    exact hno x.1 x.2 (List.mem_enum_iff_getElem?.1 hx) ((tier1Candidate_iff _ _ _).1 hc)
  simp only [tier1Step, h, hf]

theorem tier1Step_of_first (R : List Paragraph) (st : MatchState) (ip : Nat × Paragraph)
    (key : NumKey) (h : sectionKey ip.2.text = some key) (j : Nat) (q : Paragraph)
    (hq : R[j]? = some q) (hj : j ∉ st.matched2) (hk : sectionKey q.text = some key)
    (hmin : ∀ j' q', R[j']? = some q' → j' < j →
      ¬ (j' ∉ st.matched2 ∧ sectionKey q'.text = some key)) :
    tier1Step R st ip =
      { matched1 := setAdd st.matched1 ip.1, matched2 := setAdd st.matched2 j,
        pairs := st.pairs ++ [numberPair ip.1 ip.2 j q] } := by
  have hf := tier1Find_eq R st.matched2 key j q hq hj hk hmin
  simp only [tier1Step, h, hf]

theorem tier2Best_eq (R : List Paragraph) (matched2 : List Nat) (p : Paragraph) (j : Nat)
    (q : Paragraph) (hq : R[j]? = some q) (hj : j ∉ matched2)
    (hgt : SIMILARITY_THRESHOLD < calculateSimilarity p.text q.text)
    (hmax : ∀ j' q', R[j']? = some q' → j' ∉ matched2 →
      calculateSimilarity p.text q'.text ≤ calculateSimilarity p.text q.text)
    (hfirst : ∀ j' q', j' < j → R[j']? = some q' → j' ∉ matched2 →
      calculateSimilarity p.text q'.text < calculateSimilarity p.text q.text) :
    tier2Best R matched2 p = (some (j, q), calculateSimilarity p.text q.text) := by
  rcases hb : tier2Best R matched2 p with ⟨_ | jq, s⟩
  · have h1 : (tier2Best R matched2 p).1 = none := by rw [hb]
    exact absurd (tier2Best_none R matched2 p h1 j q hq hj) (not_le.2 hgt)
  · have h1 : (tier2Best R matched2 p).1 = some jq := by rw [hb]
    obtain ⟨e1, e2, e3, _, e5, e6⟩ := tier2Best_some R matched2 p jq h1
    have hs : s = calculateSimilarity p.text jq.2.text := by rw [← e3, hb]
    have heq : calculateSimilarity p.text jq.2.text = calculateSimilarity p.text q.text :=
      le_antisymm (hmax jq.1 jq.2 e1 e2) (e5 j q hq hj)
    have h2 : ¬ jq.1 < j := by
      intro hlt
      have := hfirst jq.1 jq.2 hlt e1 e2
      rw [heq] at this
      exact lt_irrefl _ this
    have h3 : ¬ j < jq.1 := by
      intro hlt
      have := e6 j q hq hj hlt
      rw [heq] at this
      exact lt_irrefl _ this
    have e : jq.1 = j := by omega
    have e' : jq.2 = q := by
      rw [e, hq] at e1
      exact (Option.some.inj e1).symm
    rw [hs, heq]
    congr 2
    exact Prod.ext e e'

theorem tier2Step_of_matched (R : List Paragraph) (st : MatchState) (ip : Nat × Paragraph)
    (h : ip.1 ∈ st.matched1) : tier2Step R st ip = st := by
  simp only [tier2Step, if_pos h]

theorem tier2Step_of_no_candidate (R : List Paragraph) (st : MatchState)
    (ip : Nat × Paragraph)
    (hno : ∀ j q, R[j]? = some q → j ∉ st.matched2 →
      calculateSimilarity ip.2.text q.text ≤ SIMILARITY_THRESHOLD) :
    tier2Step R st ip = st := by
  rcases tier2Step_cases R st ip with ⟨h, _⟩ | ⟨jq, _, hb, _⟩
  · exact h
  · obtain ⟨e1, e2, _, e4, _, _⟩ := tier2Best_some R st.matched2 ip.2 jq hb
    exact absurd (hno jq.1 jq.2 e1 e2) (not_le.2 e4)

theorem tier2Step_of_best (R : List Paragraph) (st : MatchState) (ip : Nat × Paragraph)
    (hi : ip.1 ∉ st.matched1) (j : Nat) (q : Paragraph)
    (hq : R[j]? = some q) (hj : j ∉ st.matched2)
    (hgt : SIMILARITY_THRESHOLD < calculateSimilarity ip.2.text q.text)
    (hmax : ∀ j' q', R[j']? = some q' → j' ∉ st.matched2 →
      calculateSimilarity ip.2.text q'.text ≤ calculateSimilarity ip.2.text q.text)
    (hfirst : ∀ j' q', j' < j → R[j']? = some q' → j' ∉ st.matched2 →
      calculateSimilarity ip.2.text q'.text < calculateSimilarity ip.2.text q.text) :
    tier2Step R st ip =
      { matched1 := setAdd st.matched1 ip.1, matched2 := setAdd st.matched2 j,
        pairs := st.pairs ++
          [similarityPair ip.1 ip.2 j q (calculateSimilarity ip.2.text q.text)] } := by
  have hb := tier2Best_eq R st.matched2 ip.2 j q hq hj hgt hmax hfirst
  simp only [tier2Step, if_neg hi, hb]

theorem tier1After_pairs_mono (L R : List Paragraph) (n k : Nat) (hkn : k ≤ n)
    (hn : n ≤ L.length) (pr : AlignedPair) (h : pr ∈ (tier1After L R k).pairs) :
    pr ∈ (tier1After L R n).pairs := by
  induction n with
  | zero =>
    have : k = 0 := by omega
    rw [this] at h
    exact h
  | succ n ih =>
    by_cases hk : k = n + 1
    · rw [hk] at h
      exact h
    · have hlt : n < L.length := hn
      have := ih (by omega) (Nat.le_of_lt hlt)
      rw [tier1After_succ L R n hlt]
      rcases tier1Step_cases R (tier1After L R n) (n, L[n]) with e | ⟨_, _, _, _, e⟩
      · rw [e]
        exact this
      · rw [e]
        exact List.mem_append_left _ this

theorem tier2After_pairs_mono (L R : List Paragraph) (n k : Nat) (hkn : k ≤ n)
    (hn : n ≤ L.length) (pr : AlignedPair) (h : pr ∈ (tier2After L R k).pairs) :
    pr ∈ (tier2After L R n).pairs := by
  induction n with
  | zero =>
    have : k = 0 := by omega
    rw [this] at h
    exact h
  | succ n ih =>
    by_cases hk : k = n + 1
    · rw [hk] at h
      exact h
    · have hlt : n < L.length := hn
      have := ih (by omega) (Nat.le_of_lt hlt)
      rw [tier2After_succ L R n hlt]
      rcases tier2Step_cases R (tier2After L R n) (n, L[n]) with ⟨e, _⟩ | ⟨_, _, _, e⟩
      · rw [e]
        exact this
      · rw [e]
        exact List.mem_append_left _ this

theorem mem_smartMatchParagraphs_of_tier2 (L R : List Paragraph) (pr : AlignedPair)
    (h : pr ∈ (tier2 L R).pairs) : pr ∈ smartMatchParagraphs L R := by
  rw [mem_smartMatchParagraphs, producedPairs_eq]
  exact List.mem_append_left _ (List.mem_append_left _ h)

theorem mem_smartMatchParagraphs_of_tier1 (L R : List Paragraph) (pr : AlignedPair)
    (h : pr ∈ (tier1 L R).pairs) : pr ∈ smartMatchParagraphs L R := by
  apply mem_smartMatchParagraphs_of_tier2
  rw [tier2_pairs_eq]
  exact List.mem_append_left _ h

theorem mem_filterMap_rightIdx (l : List AlignedPair) (j : Nat) :
    j ∈ l.filterMap (fun pr => pr.rightIdx) ↔ ∃ pr ∈ l, pr.rightIdx = some j := by
  simp [List.mem_filterMap]

theorem mem_filterMap_leftIdx (l : List AlignedPair) (i : Nat) :
    i ∈ l.filterMap (fun pr => pr.leftIdx) ↔ ∃ pr ∈ l, pr.leftIdx = some i := by
  simp [List.mem_filterMap]

theorem lt_length_of_getElem? {L : List Paragraph} {i : Nat} {p : Paragraph}
    (h : L[i]? = some p) : ∃ hlt : i < L.length, L[i] = p :=
  List.getElem?_eq_some_iff.1 h

/-! ## Leftovers -/

theorem filter_eq_singleton_of_nodup (f : AlignedPair → Option Nat) (l : List AlignedPair)
    (hnd : (l.filterMap f).Nodup) (x : AlignedPair) (i : Nat) (hx : x ∈ l)
    (hfx : f x = some i) : l.filter (fun pr => decide (f pr = some i)) = [x] := by
  induction l with
  | nil => cases hx
  | cons a l ih =>
    cases hfa : f a with
    | none =>
      have hxa : x ≠ a := by
        intro e
        rw [e, hfa] at hfx
        cases hfx
      have hx' : x ∈ l := (List.mem_cons.1 hx).resolve_left hxa
      rw [List.filterMap_cons_none hfa] at hnd
      rw [List.filter_cons_of_neg (by simp [hfa])]
      exact ih hnd hx'
    | some k =>
      rw [List.filterMap_cons_some hfa, List.nodup_cons] at hnd
      by_cases hk : k = i
      · subst hk
        have hxa : x = a := by
          rcases List.mem_cons.1 hx with e | hx'
          · exact e
          · exact absurd (List.mem_filterMap.2 ⟨x, hx', hfx⟩) hnd.1
        have hnil : l.filter (fun pr => decide (f pr = some k)) = [] := by
          rw [List.filter_eq_nil_iff]
          intro y hy hfy
          exact hnd.1 (List.mem_filterMap.2 ⟨y, hy, by simpa using hfy⟩)
        rw [List.filter_cons_of_pos (by simp [hfa]), hnil, hxa]
      · have hxa : x ≠ a := by
          intro e
          rw [e, hfa] at hfx
          exact hk (Option.some.inj hfx)
        have hx' : x ∈ l := (List.mem_cons.1 hx).resolve_left hxa
        rw [List.filter_cons_of_neg (by simp [hfa, hk])]
        exact ih hnd.2 hx'

theorem leftOnlyPair_mem (L R : List Paragraph) (i : Nat) (p : Paragraph)
    (hp : L[i]? = some p) (hi : i ∉ (tier2 L R).matched1) :
    leftOnlyPair i p ∈ producedPairs L R := by
  rw [producedPairs_eq]
  apply List.mem_append_left
  apply List.mem_append_right
  unfold leftLeftovers
  exact List.mem_map.2 ⟨(i, p), List.mem_filter.2
    ⟨List.mem_enum_iff_getElem?.2 hp, by simpa using hi⟩, rfl⟩

theorem rightOnlyPair_mem (L R : List Paragraph) (j : Nat) (q : Paragraph)
    (hq : R[j]? = some q) (hj : j ∉ (tier2 L R).matched2) :
    rightOnlyPair j q ∈ producedPairs L R := by
  rw [producedPairs_eq]
  apply List.mem_append_right
  unfold rightLeftovers
  exact List.mem_map.2 ⟨(j, q), List.mem_filter.2
    ⟨List.mem_enum_iff_getElem?.2 hq, by simpa using hj⟩, rfl⟩

theorem filter_leftIdx_smartMatchParagraphs (L R : List Paragraph) (x : AlignedPair)
    (i : Nat) (hx : x ∈ producedPairs L R) (hfx : x.leftIdx = some i) :
    (smartMatchParagraphs L R).filter (fun pr => decide (pr.leftIdx = some i)) = [x] := by
  have hperm := smartMatchParagraphs_perm L R
  have h := filter_eq_singleton_of_nodup (fun pr => pr.leftIdx) (producedPairs L R)
    ((producedPairs_leftIdx_perm L R).nodup_iff.2 (List.nodup_range _)) x i hx hfx
  have := hperm.filter (fun pr => decide (pr.leftIdx = some i))
  rw [h] at this
  exact List.perm_singleton.1 this

theorem filter_rightIdx_smartMatchParagraphs (L R : List Paragraph) (x : AlignedPair)
    (j : Nat) (hx : x ∈ producedPairs L R) (hfx : x.rightIdx = some j) :
    (smartMatchParagraphs L R).filter (fun pr => decide (pr.rightIdx = some j)) = [x] := by
  have hperm := smartMatchParagraphs_perm L R
  have h := filter_eq_singleton_of_nodup (fun pr => pr.rightIdx) (producedPairs L R)
    ((producedPairs_rightIdx_perm L R).nodup_iff.2 (List.nodup_range _)) x j hx hfx
  have := hperm.filter (fun pr => decide (pr.rightIdx = some j))
  rw [h] at this
  exact List.perm_singleton.1 this

theorem producedPairs_order (L R : List Paragraph) :
    producedPairs L R =
      (tier1 L R).pairs ++ tier2Pairs L R ++ leftLeftovers L (tier2 L R).matched1 ++
        rightLeftovers R (tier2 L R).matched2 := by
  rw [producedPairs_eq, tier2_pairs_eq]

theorem map_sides_diffs (computeDiff : Str → Str → List DiffOp)
    (l : List AlignedPair) :
    (l.map (diffPair computeDiff)).map (fun d => (d.left, d.right, d.leftIdx, d.rightIdx)) =
      l.map (fun pr => (pr.left, pr.right, pr.leftIdx, pr.rightIdx)) := by
  rw [List.map_map]
  apply List.map_congr_left
  intro pr _
  simp only [Function.comp, diffPair]
  split <;> rfl

/-! ## Properties of the aligner and of the similarity -/

/-- C1 (coverage). Counting by index, every `L[i]` is the left side of exactly one
pair of `smartMatchParagraphs L R` and every `R[j]` the right side of exactly one
pair: the left indices of the output are a permutation of `0 .. |L| - 1` and the
right indices a permutation of `0 .. |R| - 1`. Every pair has at least one real
side, a real side is the paragraph of that index, and a side that is not real is
the empty placeholder (empty text, page index of the other side).
`computeParagraphDiffs` keeps the sides of every pair, in the same order. -/
theorem C1_coverage (computeDiff : Str → Str → List DiffOp) (L R : List Paragraph) :
    ((smartMatchParagraphs L R).filterMap (fun pr => pr.leftIdx)).Perm
      (List.range L.length) ∧
    ((smartMatchParagraphs L R).filterMap (fun pr => pr.rightIdx)).Perm
      (List.range R.length) ∧
    (∀ pr ∈ smartMatchParagraphs L R,
      (pr.leftIdx ≠ none ∨ pr.rightIdx ≠ none) ∧
      (∀ i, pr.leftIdx = some i → L[i]? = some pr.left) ∧
      (∀ j, pr.rightIdx = some j → R[j]? = some pr.right) ∧
      (pr.leftIdx = none →
        pr.left = { text := [], type := none, pageIdx := pr.right.pageIdx }) ∧
      (pr.rightIdx = none →
        pr.right = { text := [], type := none, pageIdx := pr.left.pageIdx })) ∧
    (computeParagraphDiffs computeDiff L R).map
        (fun d => (d.left, d.right, d.leftIdx, d.rightIdx)) =
      (smartMatchParagraphs L R).map
        (fun pr => (pr.left, pr.right, pr.leftIdx, pr.rightIdx)) := by
  refine ⟨?_, ?_, ?_, ?_⟩
  · exact ((smartMatchParagraphs_perm L R).filterMap _).trans
      (producedPairs_leftIdx_perm L R)
  · exact ((smartMatchParagraphs_perm L R).filterMap _).trans
      (producedPairs_rightIdx_perm L R)
  · intro pr hpr
    exact (producedPairs_shape L R pr ((mem_smartMatchParagraphs L R pr).1 hpr)).sides
  · exact map_sides_diffs computeDiff _

/-- C2 (self-alignment). `smartMatchParagraphs P P` has exactly `|P|` pairs; every
pair joins `P[i]` with `P[i]` itself, at the same index on both sides, with
similarity 1, and every index occurs once; `computeParagraphDiffs P P` reports
`hasDiff = false` for every pair, whatever the text-diff primitive. -/
theorem C2_self_alignment (computeDiff : Str → Str → List DiffOp) (P : List Paragraph) :
    (smartMatchParagraphs P P).length = P.length ∧
    ((smartMatchParagraphs P P).filterMap (fun pr => pr.leftIdx)).Perm
      (List.range P.length) ∧
    (∀ pr ∈ smartMatchParagraphs P P, ∃ i,
      pr.leftIdx = some i ∧ pr.rightIdx = some i ∧ P[i]? = some pr.left ∧
      pr.right = pr.left ∧ pr.similarity = 1) ∧
    (∀ d ∈ computeParagraphDiffs computeDiff P P, d.hasDiff = false) := by
  have hshape : ∀ pr ∈ smartMatchParagraphs P P, ∃ i,
      pr.leftIdx = some i ∧ pr.rightIdx = some i ∧ P[i]? = some pr.left ∧
      pr.right = pr.left ∧ pr.similarity = 1 := by
    intro pr hpr
    rw [mem_smartMatchParagraphs, self_producedPairs, List.mem_append] at hpr
    rcases hpr with hpr | hpr
    · obtain ⟨ip, hip, rfl⟩ := List.mem_map.1 hpr
      exact ⟨ip.1, rfl, rfl, ((mem_numbered P _ ip).1 hip).2.1, rfl,
        calculateSimilarity_self _⟩
    · obtain ⟨ip, hip, rfl⟩ := List.mem_map.1 hpr
      exact ⟨ip.1, rfl, rfl, ((mem_unnumbered P _ ip).1 hip).2.1, rfl, rfl⟩
  refine ⟨?_, ?_, hshape, ?_⟩
  · rw [(smartMatchParagraphs_perm P P).length_eq, self_producedPairs, List.length_append,
      List.length_map, List.length_map]
    exact length_numbered_add_unnumbered P P.length (Nat.le_refl _)
  · exact ((smartMatchParagraphs_perm P P).filterMap _).trans
      (producedPairs_leftIdx_perm P P)
  · intro d hd
    unfold computeParagraphDiffs at hd
    obtain ⟨pr, hpr, rfl⟩ := List.mem_map.1 hd
    obtain ⟨i, _, _, _, h4, _⟩ := hshape pr hpr
    simp [diffPair, h4]

/-- C3 (Tier 1 is first-fit). At the start of iteration `i` of Tier 1 the set
`matched2` holds exactly the right indices of the pairs made so far. If `L[i]` has
no extractable number, or no unmatched `R[j]` has a number with the same normal
form, the iteration makes no pair. Otherwise the lowest unmatched index `j` whose
`normalizeNumber (extractSectionNumber text)` equals that of `L[i]` is taken,
whatever the texts: `i` and `j` become matched and the pair pushed joins `L[i]`
and `R[j]`, records `calculateSimilarity` of the two texts and is part of the
output. The loop starts from the empty state and its pairs reach the output. -/
theorem C3_tier1_first_fit (L R : List Paragraph) (i : Nat) (p : Paragraph)
    (hp : L[i]? = some p) :
    (∀ j, j ∈ (tier1After L R i).matched2 ↔
      ∃ pr ∈ (tier1After L R i).pairs, pr.rightIdx = some j) ∧
    (extractSectionNumber p.text = none → tier1After L R (i + 1) = tier1After L R i) ∧
    (∀ num, extractSectionNumber p.text = some num →
      (∀ j q m, R[j]? = some q → j ∉ (tier1After L R i).matched2 →
        extractSectionNumber q.text = some m → normalizeNumber m ≠ normalizeNumber num) →
      tier1After L R (i + 1) = tier1After L R i) ∧
    (∀ num j q m, extractSectionNumber p.text = some num → R[j]? = some q →
      j ∉ (tier1After L R i).matched2 → extractSectionNumber q.text = some m →
      normalizeNumber m = normalizeNumber num →
      (∀ j' q' m', j' < j → R[j']? = some q' → j' ∉ (tier1After L R i).matched2 →
        extractSectionNumber q'.text = some m' → normalizeNumber m' ≠ normalizeNumber num) →
      tier1After L R (i + 1) =
        { matched1 := setAdd (tier1After L R i).matched1 i,
          matched2 := setAdd (tier1After L R i).matched2 j,
          pairs := (tier1After L R i).pairs ++ [numberPair i p j q] } ∧
      (numberPair i p j q).similarity = calculateSimilarity p.text q.text ∧
      numberPair i p j q ∈ smartMatchParagraphs L R) ∧
    tier1After L R 0 = MatchState.init ∧ tier1After L R L.length = tier1 L R ∧
    (∀ pr ∈ (tier1 L R).pairs, pr ∈ smartMatchParagraphs L R) := by
  obtain ⟨hlt, rfl⟩ := lt_length_of_getElem? hp
  have hg := (tier1After_good L R i (Nat.le_of_lt hlt)).1
  refine ⟨?_, ?_, ?_, ?_, rfl, tier1After_length L R,
    mem_smartMatchParagraphs_of_tier1 L R⟩
  · intro j
    rw [hg.m2 j, mem_filterMap_rightIdx]
  · intro hnone
    rw [tier1After_succ L R i hlt]
    exact tier1Step_of_none R _ _ ((sectionKey_eq_none _).2 hnone)
  · intro num hnum hno
    rw [tier1After_succ L R i hlt]
    apply tier1Step_of_no_candidate R _ _ (normalizeNumber num)
      ((sectionKey_eq_some _ _).2 ⟨num, hnum, rfl⟩)
    rintro j q hq ⟨hj, hk⟩
    obtain ⟨m, hm, hmk⟩ := (sectionKey_eq_some _ _).1 hk
    exact hno j q m hq hj hm hmk
  · intro num j q m hnum hq hj hm hmk hmin
    have hstep : tier1After L R (i + 1) =
        { matched1 := setAdd (tier1After L R i).matched1 i,
          matched2 := setAdd (tier1After L R i).matched2 j,
          pairs := (tier1After L R i).pairs ++ [numberPair i L[i] j q] } := by
      rw [tier1After_succ L R i hlt]
      apply tier1Step_of_first R _ (i, L[i]) (normalizeNumber num)
        ((sectionKey_eq_some _ _).2 ⟨num, hnum, rfl⟩) j q hq hj
        ((sectionKey_eq_some _ _).2 ⟨m, hm, hmk⟩)
      rintro j' q' hq' hlt' ⟨hj', hk'⟩
      obtain ⟨m', hm', hmk'⟩ := (sectionKey_eq_some _ _).1 hk'
      exact hmin j' q' m' hlt' hq' hj' hm' hmk'
    refine ⟨hstep, rfl, ?_⟩
    apply mem_smartMatchParagraphs_of_tier1
    rw [← tier1After_length]
    apply tier1After_pairs_mono L R L.length (i + 1) hlt (Nat.le_refl _)
    rw [hstep]
    exact List.mem_append_right _ (List.mem_singleton_self _)

/-- C3, a run of the first fit: `第三条 违约责任` is paired with `（三）保密`, the first
right paragraph numbered 3, although the unnumbered `违约责任` before it and the
paragraph `3. 违约责任` after it are textually closer. -/
theorem C3_tier1_first_fit_witness :
    [para "第三条 违约责任"][0]? = some (para "第三条 违约责任") ∧
    tier1After [para "第三条 违约责任"]
        [para "违约责任", para "（三）保密", para "3. 违约责任"] (0 + 1) =
      { matched1 := setAdd (tier1After [para "第三条 违约责任"]
          [para "违约责任", para "（三）保密", para "3. 违约责任"] 0).matched1 0,
        matched2 := setAdd (tier1After [para "第三条 违约责任"]
          [para "违约责任", para "（三）保密", para "3. 违约责任"] 0).matched2 1,
        pairs := (tier1After [para "第三条 违约责任"]
          [para "违约责任", para "（三）保密", para "3. 违约责任"] 0).pairs ++
          [numberPair 0 (para "第三条 违约责任") 1 (para "（三）保密")] } ∧
    (numberPair 0 (para "第三条 违约责任") 1 (para "（三）保密")).similarity =
      calculateSimilarity (para "第三条 违约责任").text (para "（三）保密").text ∧
    numberPair 0 (para "第三条 违约责任") 1 (para "（三）保密") ∈
      smartMatchParagraphs [para "第三条 违约责任"]
        [para "违约责任", para "（三）保密", para "3. 违约责任"] :=
  ⟨by decide,
    (C3_tier1_first_fit [para "第三条 违约责任"]
      [para "违约责任", para "（三）保密", para "3. 违约责任"] 0 (para "第三条 违约责任")
      (by decide)).2.2.2.1 (js "三") 1 (para "（三）保密") (js "三")
      (by decide) (by decide) (by decide) (by decide) (by decide)
      (by
        intro j' q' m' hlt hq _ hm
        have hj : j' = 0 := by omega
        subst hj
        have hq' : q' = para "违约责任" := by simpa using hq.symm
        subst hq'
        have hnone : extractSectionNumber (para "违约责任").text = none := by decide
        rw [hnone] at hm
        cases hm)⟩

/-- C4 (Tier 2 takes the best candidate above the threshold). At the start of
iteration `i` of Tier 2, `i` is matched exactly when Tier 1 matched it and
`matched2` holds the right indices of the pairs made so far. An `L[i]` matched by
Tier 1 is skipped. An unmatched `L[i]` for which no unmatched `R[j]` scores
strictly above 0.85 (a score of exactly 0.85 does not qualify) gets no pair.
Otherwise the partner is the unmatched `R[j]` of maximal `calculateSimilarity`,
the lowest such `j`; the pair records that maximum and is part of the output. -/
theorem C4_tier2_best_fit (L R : List Paragraph) (i : Nat) (p : Paragraph)
    (hp : L[i]? = some p) :
    (i ∈ (tier2After L R i).matched1 ↔ i ∈ (tier1 L R).matched1) ∧
    (∀ j, j ∈ (tier2After L R i).matched2 ↔
      ∃ pr ∈ (tier2After L R i).pairs, pr.rightIdx = some j) ∧
    (i ∈ (tier1 L R).matched1 → tier2After L R (i + 1) = tier2After L R i) ∧
    (i ∉ (tier1 L R).matched1 →
      (∀ j q, R[j]? = some q → j ∉ (tier2After L R i).matched2 →
        calculateSimilarity p.text q.text ≤ SIMILARITY_THRESHOLD) →
      tier2After L R (i + 1) = tier2After L R i) ∧
    (∀ j q, i ∉ (tier1 L R).matched1 → R[j]? = some q →
      j ∉ (tier2After L R i).matched2 →
      SIMILARITY_THRESHOLD < calculateSimilarity p.text q.text →
      (∀ j' q', R[j']? = some q' → j' ∉ (tier2After L R i).matched2 →
        calculateSimilarity p.text q'.text ≤ calculateSimilarity p.text q.text) →
      (∀ j' q', j' < j → R[j']? = some q' → j' ∉ (tier2After L R i).matched2 →
        calculateSimilarity p.text q'.text < calculateSimilarity p.text q.text) →
      tier2After L R (i + 1) =
        { matched1 := setAdd (tier2After L R i).matched1 i,
          matched2 := setAdd (tier2After L R i).matched2 j,
          pairs := (tier2After L R i).pairs ++
            [similarityPair i p j q (calculateSimilarity p.text q.text)] } ∧
      (similarityPair i p j q (calculateSimilarity p.text q.text)).similarity =
        calculateSimilarity p.text q.text ∧
      similarityPair i p j q (calculateSimilarity p.text q.text) ∈
        smartMatchParagraphs L R) ∧
    SIMILARITY_THRESHOLD = 85 / 100 ∧
    tier2After L R 0 = tier1 L R ∧ tier2After L R L.length = tier2 L R ∧
    (∀ pr ∈ (tier2 L R).pairs, pr ∈ smartMatchParagraphs L R) := by
  obtain ⟨hlt, rfl⟩ := lt_length_of_getElem? hp
  have hg := tier2After_good L R i (Nat.le_of_lt hlt)
  have hm1 := tier2After_matched1 L R i (Nat.le_of_lt hlt)
  refine ⟨hm1, ?_, ?_, ?_, ?_, ?_, rfl, tier2After_length L R,
    mem_smartMatchParagraphs_of_tier2 L R⟩
  · intro j
    rw [hg.m2 j, mem_filterMap_rightIdx]
  · intro hin
    rw [tier2After_succ L R i hlt]
    exact tier2Step_of_matched R _ (i, L[i]) (hm1.2 hin)
  · intro _ hno
    rw [tier2After_succ L R i hlt]
    exact tier2Step_of_no_candidate R _ (i, L[i]) hno
  · intro j q hnin hq hj hgt hmax hfirst
    have hstep : tier2After L R (i + 1) =
        { matched1 := setAdd (tier2After L R i).matched1 i,
          matched2 := setAdd (tier2After L R i).matched2 j,
          pairs := (tier2After L R i).pairs ++
            [similarityPair i L[i] j q (calculateSimilarity L[i].text q.text)] } := by
      rw [tier2After_succ L R i hlt]
      exact tier2Step_of_best R _ (i, L[i]) (fun h => hnin (hm1.1 h)) j q hq hj hgt hmax hfirst
    refine ⟨hstep, rfl, ?_⟩
    apply mem_smartMatchParagraphs_of_tier2
    rw [← tier2After_length]
    apply tier2After_pairs_mono L R L.length (i + 1) hlt (Nat.le_refl _)
    rw [hstep]
    exact List.mem_append_right _ (List.mem_singleton_self _)
  · rw [SIMILARITY_THRESHOLD, Rat.mkRat_eq_div]
    norm_num

/-- C4, a run of the best fit: for `abab` the candidates `abcd` (score 1/4), `aba`
(score 1) and `abab` (score 1) are all unmatched; the first of the two maxima,
`aba` at index 1, is taken and the pair records the score 1. -/
theorem C4_tier2_best_fit_witness :
    [para "abab"][0]? = some (para "abab") ∧
    tier2After [para "abab"] [para "abcd", para "aba", para "abab"] (0 + 1) =
      { matched1 := setAdd (tier2After [para "abab"]
          [para "abcd", para "aba", para "abab"] 0).matched1 0,
        matched2 := setAdd (tier2After [para "abab"]
          [para "abcd", para "aba", para "abab"] 0).matched2 1,
        pairs := (tier2After [para "abab"]
          [para "abcd", para "aba", para "abab"] 0).pairs ++
          [similarityPair 0 (para "abab") 1 (para "aba")
            (calculateSimilarity (para "abab").text (para "aba").text)] } ∧
    (similarityPair 0 (para "abab") 1 (para "aba")
        (calculateSimilarity (para "abab").text (para "aba").text)).similarity =
      calculateSimilarity (para "abab").text (para "aba").text ∧
    similarityPair 0 (para "abab") 1 (para "aba")
        (calculateSimilarity (para "abab").text (para "aba").text) ∈
      smartMatchParagraphs [para "abab"] [para "abcd", para "aba", para "abab"] :=
  ⟨by decide,
    (C4_tier2_best_fit [para "abab"] [para "abcd", para "aba", para "abab"] 0 (para "abab")
      (by decide)).2.2.2.2.1 1 (para "aba")
      (by decide) (by decide) (by decide) (by decide)
      (by
        intro j' q' _ _
        have h1 : calculateSimilarity (para "abab").text (para "aba").text = 1 := by decide
        rw [h1]
        exact (calculateSimilarity_bounds _ _).2)
      (by
        intro j' q' hlt hq _
        have hj : j' = 0 := by omega
        subst hj
        have hq' : q' = para "abcd" := by simpa using hq.symm
        subst hq'
        decide)⟩

/-- C5 (Tier 3, leftovers). The indices matched after Tier 2 are exactly those used
by the pairs of Tier 1 and Tier 2. Every `L[i]` that is not among them is the left
side of exactly one pair of the output, the pair `(L[i], empty)` with similarity
0, and every `R[j]` that is not among them is the right side of exactly one pair,
`(empty, R[j])` with similarity 0; the empty side has the text `''`, no type, and
the page index of the paragraph on the other side. -/
theorem C5_leftovers (L R : List Paragraph) :
    (∀ i, i ∈ (tier2 L R).matched1 ↔ ∃ pr ∈ (tier2 L R).pairs, pr.leftIdx = some i) ∧
    (∀ j, j ∈ (tier2 L R).matched2 ↔ ∃ pr ∈ (tier2 L R).pairs, pr.rightIdx = some j) ∧
    (tier2 L R).pairs = (tier1 L R).pairs ++ tier2Pairs L R ∧
    (∀ i p, L[i]? = some p → i ∉ (tier2 L R).matched1 →
      (smartMatchParagraphs L R).filter (fun pr => decide (pr.leftIdx = some i)) =
        [{ left := p, right := { text := [], type := none, pageIdx := p.pageIdx },
           similarity := 0, isMatch := false, matchType := none,
           leftIdx := some i, rightIdx := none }]) ∧
    (∀ j q, R[j]? = some q → j ∉ (tier2 L R).matched2 →
      (smartMatchParagraphs L R).filter (fun pr => decide (pr.rightIdx = some j)) =
        [{ left := { text := [], type := none, pageIdx := q.pageIdx }, right := q,
           similarity := 0, isMatch := false, matchType := none,
           leftIdx := none, rightIdx := some j }]) := by
  have hg := tier2_good L R
  refine ⟨?_, ?_, tier2_pairs_eq L R, ?_, ?_⟩
  · intro i
    rw [hg.m1 i, mem_filterMap_leftIdx]
  · intro j
    rw [hg.m2 j, mem_filterMap_rightIdx]
  · intro i p hp hi
    exact filter_leftIdx_smartMatchParagraphs L R (leftOnlyPair i p) i
      (leftOnlyPair_mem L R i p hp hi) rfl
  · intro j q hq hj
    exact filter_rightIdx_smartMatchParagraphs L R (rightOnlyPair j q) j
      (rightOnlyPair_mem L R j q hq hj) rfl

/-- C6 (final ordering). The pairs are produced in the order: Tier 1 pairs, Tier 2
pairs, left leftovers, right leftovers, each group by increasing index of the
scan. The list returned by `smartMatchParagraphs` is the stable sort of that list
by the key `max (left.pageIdx or 0) (right.pageIdx or 0)`: it is a permutation of
the produced pairs, its keys are non-decreasing, and for every key the pairs with
that key come in their production order. -/
theorem C6_final_ordering (L R : List Paragraph) :
    producedPairs L R =
      (tier1 L R).pairs ++ tier2Pairs L R ++ leftLeftovers L (tier2 L R).matched1 ++
        rightLeftovers R (tier2 L R).matched2 ∧
    ((tier1 L R).pairs.filterMap (fun pr => pr.leftIdx)).Pairwise (· < ·) ∧
    ((tier2Pairs L R).filterMap (fun pr => pr.leftIdx)).Pairwise (· < ·) ∧
    ((leftLeftovers L (tier2 L R).matched1).filterMap
      (fun pr => pr.leftIdx)).Pairwise (· < ·) ∧
    ((rightLeftovers R (tier2 L R).matched2).filterMap
      (fun pr => pr.rightIdx)).Pairwise (· < ·) ∧
    (smartMatchParagraphs L R).Perm (producedPairs L R) ∧
    (smartMatchParagraphs L R).Pairwise (fun a b => pageKey a ≤ pageKey b) ∧
    (∀ k : Int, (smartMatchParagraphs L R).filter (fun a => decide (pageKey a = k)) =
      (producedPairs L R).filter (fun a => decide (pageKey a = k))) ∧
    (∀ a : AlignedPair,
      pageKey a = max (a.left.pageIdx.getD 0) (a.right.pageIdx.getD 0)) := by
  refine ⟨producedPairs_order L R, (tier1_scan L R).2, (tier2Pairs_scan L R).2, ?_, ?_,
    smartMatchParagraphs_perm L R, sorted_smartMatchParagraphs L R, ?_, fun _ => rfl⟩
  · rw [filterMap_leftIdx_leftLeftovers]
    exact enum_fst_pairwise L _
  · rw [filterMap_rightIdx_rightLeftovers]
    exact enum_fst_pairwise R _
  · intro k
    exact filter_insertionSort (producedPairs L R) k

/-- C7, refuted as stated. The paragraph `abc` has no section number; aligned with
itself it is paired by Tier 2 and the pair has no `matchType` (not `'similarity'`);
aligned with an empty document it is a leftover and the pair has no `matchType`
(not `'none'`). -/
theorem C7_counterexample :
    extractSectionNumber (para "abc").text = none ∧
    smartMatchParagraphs [para "abc"] [para "abc"] =
      [{ left := para "abc", right := para "abc", similarity := 1, isMatch := true,
         matchType := none, leftIdx := some 0, rightIdx := some 0 }] ∧
    smartMatchParagraphs [para "abc"] [] =
      [{ left := para "abc", right := { text := [], type := none, pageIdx := some 0 },
         similarity := 0, isMatch := false, matchType := none,
         leftIdx := some 0, rightIdx := none }] ∧
    ¬ (∀ pr ∈ smartMatchParagraphs [para "abc"] [para "abc"],
        pr.matchType = some (js "similarity")) ∧
    ¬ (∀ pr ∈ smartMatchParagraphs [para "abc"] [],
        pr.matchType = some (js "none")) := by
  refine ⟨by decide, by decide, by decide, ?_, ?_⟩
  · intro h
    have h1 : smartMatchParagraphs [para "abc"] [para "abc"] =
        [similarityPair 0 (para "abc") 0 (para "abc") 1] := by decide
    have := h (similarityPair 0 (para "abc") 0 (para "abc") 1) (by rw [h1]; simp)
    simp [similarityPair] at this
  · intro h
    have h1 : smartMatchParagraphs [para "abc"] [] = [leftOnlyPair 0 (para "abc")] := by
      decide
    have := h (leftOnlyPair 0 (para "abc")) (by rw [h1]; simp)
    simp [leftOnlyPair] at this

/-- C7, as the code has it. Only a pair made in Tier 1 carries a `matchType`, and
it is `'number'`; a pair made in Tier 2 and a leftover pair have no `matchType`,
and are told apart by `isMatch`, true for Tier 2 and false for a leftover. In
particular, aligning a list with itself gives `matchType` `'number'` to the pair
of a paragraph with an extractable section number and no `matchType` to the pair
of a paragraph without one. -/
theorem C7_match_type (L R P : List Paragraph) :
    producedPairs L R =
      (tier1 L R).pairs ++ tier2Pairs L R ++ leftLeftovers L (tier2 L R).matched1 ++
        rightLeftovers R (tier2 L R).matched2 ∧
    (smartMatchParagraphs L R).Perm (producedPairs L R) ∧
    (∀ pr ∈ (tier1 L R).pairs, pr.matchType = some (js "number") ∧ pr.isMatch = true) ∧
    (∀ pr ∈ tier2Pairs L R, pr.matchType = none ∧ pr.isMatch = true) ∧
    (∀ pr ∈ leftLeftovers L (tier2 L R).matched1 ++ rightLeftovers R (tier2 L R).matched2,
      pr.matchType = none ∧ pr.isMatch = false) ∧
    (∀ pr ∈ smartMatchParagraphs P P,
      (extractSectionNumber pr.left.text ≠ none → pr.matchType = some (js "number")) ∧
      (extractSectionNumber pr.left.text = none → pr.matchType = none)) := by
  refine ⟨producedPairs_order L R, smartMatchParagraphs_perm L R, ?_, ?_, ?_, ?_⟩
  · intro pr hpr
    obtain ⟨i, p, j, q, rfl⟩ := (tier1_scan L R).1 pr hpr
    exact ⟨rfl, rfl⟩
  · intro pr hpr
    obtain ⟨i, p, j, q, s, rfl, hs⟩ := (tier2Pairs_scan L R).1 pr hpr
    exact ⟨rfl, by simp [similarityPair, le_of_lt hs]⟩
  · intro pr hpr
    rcases List.mem_append.1 hpr with h | h
    · unfold leftLeftovers at h
      obtain ⟨ip, _, rfl⟩ := List.mem_map.1 h
      exact ⟨rfl, rfl⟩
    · unfold rightLeftovers at h
      obtain ⟨jq, _, rfl⟩ := List.mem_map.1 h
      exact ⟨rfl, rfl⟩
  · intro pr hpr
    rw [mem_smartMatchParagraphs, self_producedPairs, List.mem_append] at hpr
    rcases hpr with hpr | hpr
    · obtain ⟨ip, hip, rfl⟩ := List.mem_map.1 hpr
      refine ⟨fun _ => rfl, fun hnone => ?_⟩
      have h3 := ((mem_numbered P _ ip).1 hip).2.2
      have : sectionKey ip.2.text = none := (sectionKey_eq_none _).2 hnone
      rw [this] at h3
      simp at h3
    · obtain ⟨ip, hip, rfl⟩ := List.mem_map.1 hpr
      refine ⟨fun hsome => ?_, fun _ => rfl⟩
      have h3 := ((mem_unnumbered P _ ip).1 hip).2.2
      have : sectionKey ip.2.text = none := by
        cases hs : sectionKey ip.2.text with
        | none => rfl
        | some k => rw [hs] at h3; simp at h3
      exact absurd ((sectionKey_eq_none _).1 this) hsome

/-- C8. `calculateSimilarity` is the reference definition `similaritySpec`: with
`s1`, `s2` the normal forms, 1 when `s1 = s2`, 0 when exactly one is empty, 1 when
they differ and both have length 1, and otherwise the size of the intersection
of the two bigram sets over the size of their union, where the bigram set of `s`
holds exactly the substrings of `s` of length 2. In particular the similarity of
`''` and `''` is 1, that of `'x'` and `''` is 0 and that of `'a'` and `'b'` is 1. -/
theorem C8_similarity_reference (a b : Str) :
    calculateSimilarity a b = similaritySpec a b ∧
    (∀ s t : Str, t ∈ bigramSet s ↔ t.length = 2 ∧ t <:+: s) ∧
    calculateSimilarity (js "") (js "") = 1 ∧
    calculateSimilarity (js "x") (js "") = 0 ∧
    calculateSimilarity (js "a") (js "b") = 1 :=
  ⟨calculateSimilarity_eq_similaritySpec a b, mem_bigramSet, by decide, by decide, by decide⟩

/-- C9 (similarity bounds). `0 ≤ calculateSimilarity a b ≤ 1` as an exact rational,
and every similarity recorded on a pair of `smartMatchParagraphs L R` lies in
`[0, 1]`. -/
theorem C9_similarity_bounds (a b : Str) (L R : List Paragraph) :
    (0 ≤ calculateSimilarity a b ∧ calculateSimilarity a b ≤ 1) ∧
    ∀ pr ∈ smartMatchParagraphs L R, 0 ≤ pr.similarity ∧ pr.similarity ≤ 1 :=
  ⟨calculateSimilarity_bounds a b, fun pr hpr =>
    (producedPairs_shape L R pr ((mem_smartMatchParagraphs L R pr).1 hpr)).similarity_bounds⟩

/-- C10 (symmetric similarity). `calculateSimilarity a b = calculateSimilarity b a`. -/
theorem C10_similarity_symmetric (a b : Str) :
    calculateSimilarity a b = calculateSimilarity b a := by
  rw [calculateSimilarity_eq_similaritySpec, calculateSimilarity_eq_similaritySpec,
    similaritySpec_comm]

/-! ## Normalisation: the steps before the case conversion -/

theorem js_classes :
    js "，," = [0xFF0C, 0x2C] ∧ js "。." = [0x3002, 0x2E] ∧ js "：:" = [0xFF1A, 0x3A] ∧
    js "；;" = [0xFF1B, 0x3B] ∧ js "（(" = [0xFF08, 0x28] ∧ js "）)" = [0xFF09, 0x29] ∧
    js "【[" = [0x3010, 0x5B] ∧ js "】]" = [0x3011, 0x5D] ∧ js "—-" = [0x2014, 0x2D] := by
  decide

theorem normalizeText_eq (t : Str) : normalizeText t = toLowerCase (cleanText t) := by
  unfold normalizeText cleanText
  by_cases h : t = []
  · subst h
    rfl
  · rw [if_neg h]

theorem cleanText_append (a b : Str) : cleanText (a ++ b) = cleanText a ++ cleanText b := by
  simp [cleanText, removeClass, replaceClass]

theorem cleanText_cons (c : Nat) (s : Str) : cleanText (c :: s) = cleanText [c] ++ cleanText s :=
  cleanText_append [c] s

theorem cleanText_whiteSpace (c : Nat) (h : isWhiteSpace c = true) : cleanText [c] = [] := by
  simp [cleanText, removeClass, replaceClass, h]

theorem cleanText_zeroWidth (c : Nat) (h : isZeroWidth c = true) : cleanText [c] = [] := by
  simp only [isZeroWidth, Bool.or_eq_true, beq_iff_eq] at h
  rcases h with ((h | h) | h) | h <;> subst h <;> decide

theorem cleanText_blank (s : Str)
    (h : ∀ c ∈ s, isWhiteSpace c = true ∨ isZeroWidth c = true) : cleanText s = [] := by
  induction s with
  | nil => rfl
  | cons c s ih =>
    rw [cleanText_cons, ih (fun x hx => h x (List.mem_cons_of_mem _ hx))]
    rcases h c (List.mem_cons_self _ _) with hc | hc
    · rw [cleanText_whiteSpace c hc]
      rfl
    · rw [cleanText_zeroWidth c hc]
      rfl

theorem codePoints_eq_nil (s : Str) : codePoints s = [] ↔ s = [] := by
  cases s with
  | nil => simp [codePoints]
  | cons x s =>
    cases s with
    | nil => simp [codePoints]
    | cons y s =>
      simp only [codePoints]
      split_ifs <;> simp

theorem lowerCodePoint_ne_nil (before after : List Nat) (c : Nat) :
    lowerCodePoint before after c ≠ [] := by
  unfold lowerCodePoint
  split_ifs <;> simp

theorem lowerCodePoints_eq_nil (before l : List Nat) : lowerCodePoints before l = [] ↔ l = [] := by
  cases l with
  | nil => simp [lowerCodePoints]
  | cons c rest =>
    simp only [lowerCodePoints, List.append_eq_nil, reduceCtorEq, iff_false, not_and]
    intro h
    exact absurd h (lowerCodePoint_ne_nil _ _ _)

theorem codeUnits_ne_nil (c : Nat) : codeUnits c ≠ [] := by
  unfold codeUnits
  split_ifs <;> simp

theorem toLowerCase_eq_nil (s : Str) : toLowerCase s = [] ↔ s = [] := by
  unfold toLowerCase
  rw [List.flatMap_eq_nil_iff]
  constructor
  · intro h
    cases hl : lowerCodePoints [] (codePoints s) with
    | nil => exact (codePoints_eq_nil s).1 ((lowerCodePoints_eq_nil _ _).1 hl)
    | cons c l =>
      rw [hl] at h
      exact absurd (h c (List.mem_cons_self _ _)) (codeUnits_ne_nil c)
  · intro h
    subst h
    intro c hc
    simp [codePoints, lowerCodePoints] at hc

theorem normalizeText_eq_nil (t : Str) : normalizeText t = [] ↔ cleanText t = [] := by
  rw [normalizeText_eq, toLowerCase_eq_nil]

theorem normalizeText_whiteSpace (c : Nat) (h : isWhiteSpace c = true) :
    normalizeText [c] = [] :=
  (normalizeText_eq_nil _).2 (cleanText_whiteSpace c h)

theorem normalizeText_zeroWidth (c : Nat) (h : isZeroWidth c = true) :
    normalizeText [c] = [] :=
  (normalizeText_eq_nil _).2 (cleanText_zeroWidth c h)

theorem normalizeText_blank (s : Str)
    (h : ∀ c ∈ s, isWhiteSpace c = true ∨ isZeroWidth c = true) : normalizeText s = [] :=
  (normalizeText_eq_nil _).2 (cleanText_blank s h)

/-! ## Normalisation and section numbers -/

/-- C13, on the code. The character class of `app.js:419` holds the two ASCII quotes
only, so the curly quotes U+201C, U+201D, U+2018, U+2019 are kept as they are:
`“x”` and `"x"` have different normal forms, while the ASCII apostrophe is turned
into the ASCII double quote. -/
theorem C13_curly_quotes_kept :
    normalizeText [0x201C, 0x78, 0x201D] = [0x201C, 0x78, 0x201D] ∧
    normalizeText [0x22, 0x78, 0x22] = [0x22, 0x78, 0x22] ∧
    normalizeText [0x201C, 0x78, 0x201D] ≠ normalizeText [0x22, 0x78, 0x22] ∧
    normalizeText [0x2018, 0x2019] = [0x2018, 0x2019] ∧
    normalizeText [0x27] = [0x22] := by
  decide

/-- C14, on the code. For `1.2 付款方式` the first pattern needs one of `.`, `、`, `）`,
`)` after the captured hierarchy; the `2` is followed by a space, so the match
backtracks to the hierarchy `1` followed by `.` and the number returned is `1`,
not `1.2`. The number of `1.2. 付款方式` is `1.2`. -/
theorem C14_dotted_number_cut :
    extractSectionNumber (js "1.2 付款方式") = some (js "1") ∧
    extractSectionNumber (js "1.2 付款方式") ≠ some (js "1.2") ∧
    extractSectionNumber (js "1.2. 付款方式") = some (js "1.2") ∧
    sectionKey (js "1.2 付款方式") = sectionKey (js "1.3 违约责任") := by
  decide

/-- C15. The section-number examples: `第三条 违约责任` gives `三`, normalised to `3`;
`（一）定义` gives `一`, normalised to `1`; `a) scope` gives `a`, normalised to `a`; and
`第三条`, `（三）`, `三、` and `3.` all carry the normalised number `3`. -/
theorem C15_section_number_examples :
    extractSectionNumber (js "第三条 违约责任") = some (js "三") ∧
    normalizeNumber (js "三") = NumKey.str (js "3") ∧
    extractSectionNumber (js "（一）定义") = some (js "一") ∧
    normalizeNumber (js "一") = NumKey.str (js "1") ∧
    extractSectionNumber (js "a) scope") = some (js "a") ∧
    normalizeNumber (js "a") = NumKey.str (js "a") ∧
    sectionKey (js "第三条") = some (NumKey.str (js "3")) ∧
    sectionKey (js "（三）") = some (NumKey.str (js "3")) ∧
    sectionKey (js "三、") = some (NumKey.str (js "3")) ∧
    sectionKey (js "3.") = some (NumKey.str (js "3")) := by
  decide

/-! ## The cross-page merge -/

theorem joinRun_nil (p : Paragraph) : joinRun p [] = p := by
  simp [joinRun]

theorem joinRun_cons (p q : Paragraph) (r : List Paragraph) :
    joinRun p (q :: r) = joinRun { p with text := p.text ++ q.text } r := by
  simp [joinRun, List.append_assoc]

theorem mergeFrom_runs (rest : List Paragraph) :
    ∀ current : Paragraph, ∃ (r0 : List Paragraph) (runs : List (Paragraph × List Paragraph)),
      rest = r0 ++ runs.flatMap runItems ∧
      mergeFrom current rest = joinRun current r0 :: runs.map (fun r => joinRun r.1 r.2) ∧
      List.Chain' (fun r s => shouldMergeParagraphs (joinRun r.1 r.2) s.1 = false)
        ((current, r0) :: runs) := by
  induction rest with
  | nil =>
    intro current
    exact ⟨[], [], rfl, by simp [mergeFrom, joinRun_nil], List.chain'_singleton _⟩
  | cons next rest ih =>
    intro current
    by_cases hm : shouldMergeParagraphs current next = true
    · obtain ⟨r0, runs, h1, h2, h3⟩ := ih { current with text := current.text ++ next.text }
      refine ⟨next :: r0, runs, by rw [h1]; rfl, ?_, ?_⟩
      · rw [mergeFrom, if_pos hm, h2, joinRun_cons]
      · rw [List.chain'_cons'] at h3 ⊢
        refine ⟨?_, h3.2⟩
        intro y hy
        have := h3.1 y hy
        rw [joinRun_cons]
        exact this
    · obtain ⟨r0, runs, h1, h2, h3⟩ := ih next
      refine ⟨[], (next, r0) :: runs, ?_, ?_, ?_⟩
      · rw [h1]
        simp [runItems]
      · rw [mergeFrom, if_neg hm, h2]
        simp [joinRun_nil]
      · rw [List.chain'_cons']
        refine ⟨?_, h3⟩
        intro y hy
        simp only [List.head?_cons, Option.mem_def, Option.some.injEq] at hy
        rw [← hy, joinRun_nil]
        simpa using hm

theorem mergeCrossPageParagraphs_runs (ps : List Paragraph) :
    ∃ runs : List (Paragraph × List Paragraph),
      runs.flatMap runItems = ps ∧
      mergeCrossPageParagraphs ps = runs.map (fun r => joinRun r.1 r.2) ∧
      List.Chain' (fun r s => shouldMergeParagraphs (joinRun r.1 r.2) s.1 = false) runs := by
  cases ps with
  | nil => exact ⟨[], rfl, rfl, List.chain'_nil⟩
  | cons p rest =>
    obtain ⟨r0, runs, h1, h2, h3⟩ := mergeFrom_runs rest p
    refine ⟨(p, r0) :: runs, ?_, ?_, h3⟩
    · rw [h1]
      simp [runItems]
    · cases rest with
      | nil =>
        have e : mergeCrossPageParagraphs [p] = mergeFrom p [] := by
          simp [mergeCrossPageParagraphs, mergeFrom]
        rw [e, h2]
        rfl
      | cons q rest =>
        have e : mergeCrossPageParagraphs (p :: q :: rest) = mergeFrom p (q :: rest) := by
          simp [mergeCrossPageParagraphs]
        rw [e, h2]
        rfl

theorem length_flatMap_runItems (runs : List (Paragraph × List Paragraph)) :
    runs.length ≤ (runs.flatMap runItems).length := by
  induction runs with
  | nil => simp
  | cons r runs ih =>
    simp only [List.flatMap_cons, List.length_append, List.length_cons, runItems]
    omega

theorem join_text_runs (runs : List (Paragraph × List Paragraph)) :
    ((runs.map (fun r => joinRun r.1 r.2)).map (fun p => p.text)).flatten =
      ((runs.flatMap runItems).map (fun p => p.text)).flatten := by
  induction runs with
  | nil => rfl
  | cons r runs ih =>
    rw [List.map_cons, List.map_cons, List.flatten_cons, ih, List.flatMap_cons, List.map_append,
      List.flatten_append]
    simp [runItems, joinRun]

theorem shouldMergeParagraphs_iff (prev cur : Paragraph) :
    shouldMergeParagraphs prev cur = true ↔
      prev.text ≠ [] ∧ endsWithTerminator (trim prev.text) = false ∧
        beginsWithSectionNumber (trim cur.text) = false := by
  have hnil : beginsWithSectionNumber (trim []) = false := by decide
  unfold shouldMergeParagraphs endsWithCompleteSentence startsWithSectionNumber
  by_cases hp : prev.text = []
  · simp [hp]
  · by_cases hc : cur.text = []
    · simp only [hp, hc, hnil, if_false, if_true]
      cases endsWithTerminator (trim prev.text) <;> simp [hp]
    · simp only [hp, hc, if_false]
      cases endsWithTerminator (trim prev.text) <;>
        cases beginsWithSectionNumber (trim cur.text) <;> simp [hp]

theorem head?_dropWhile (p : Nat → Bool) (l : List Nat) :
    (l.dropWhile p).head? = l.find? (fun c => !p c) := by
  induction l with
  | nil => rfl
  | cons a l ih =>
    by_cases h : p a = true
    · simp [List.dropWhile, List.find?, h, ih]
    · simp [List.dropWhile, List.find?, h]

theorem getLast?_trim (t : Str) :
    (trim t).getLast? = t.reverse.find? (fun c => !isWhiteSpace c) := by
  unfold trim
  rw [List.getLast?_reverse, head?_dropWhile]
  conv_rhs => rw [← List.takeWhile_append_dropWhile isWhiteSpace t]
  rw [List.reverse_append, List.find?_append]
  have hnone : (List.takeWhile isWhiteSpace t).reverse.find? (fun c => !isWhiteSpace c) =
      none := by
    rw [List.find?_eq_none]
    intro x hx
    have := List.mem_takeWhile_imp (List.mem_reverse.1 hx)
    simp [this]
  rw [hnone]
  simp

theorem endsWithTerminator_trim_append (a b : Str)
    (ha : endsWithTerminator (trim a) = false) (hb : endsWithTerminator (trim b) = false) :
    endsWithTerminator (trim (a ++ b)) = false := by
  unfold endsWithTerminator at ha hb ⊢
  rw [getLast?_trim] at ha hb ⊢
  rw [List.reverse_append, List.find?_append]
  cases hfb : b.reverse.find? (fun c => !isWhiteSpace c) with
  | none =>
    rw [hfb] at hb
    simpa using ha
  | some c =>
    rw [hfb] at hb
    simpa using hb

theorem mergeFrom_chain (rest : List Paragraph) :
    ∀ current : Paragraph, current.text ≠ [] →
      (rest ≠ [] → endsWithTerminator (trim current.text) = false) →
      (∀ p ∈ rest, p.text ≠ []) →
      (∀ p ∈ rest.dropLast, endsWithTerminator (trim p.text) = false) →
      (∀ p ∈ rest, beginsWithSectionNumber (trim p.text) = false) →
      mergeFrom current rest = [joinRun current rest] := by
  induction rest with
  | nil =>
    intro current _ _ _ _ _
    rw [mergeFrom, joinRun_nil]
  | cons next rest ih =>
    intro current hcur hend hne hends hbeg
    have hm : shouldMergeParagraphs current next = true :=
      (shouldMergeParagraphs_iff current next).2
        ⟨hcur, hend (List.cons_ne_nil _ _), hbeg next (List.mem_cons_self _ _)⟩
    rw [mergeFrom, if_pos hm, joinRun_cons]
    apply ih
    · intro h
      exact hcur (List.append_eq_nil.1 h).1
    · intro hrest
      apply endsWithTerminator_trim_append _ _ (hend (List.cons_ne_nil _ _))
      apply hends next
      cases rest with
      | nil => exact absurd rfl hrest
      | cons q rest => simp [List.dropLast]
    · intro p hp
      exact hne p (List.mem_cons_of_mem _ hp)
    · intro p hp
      apply hends p
      cases rest with
      | nil => simp at hp
      | cons q rest =>
        rw [List.dropLast_cons₂]
        exact List.mem_cons_of_mem _ hp
    · intro p hp
      exact hbeg p (List.mem_cons_of_mem _ hp)

/-- C17, refuted as stated. With an empty `prev.text` nothing is merged, although
the empty text ends with no mark; white space is trimmed before both tests, so
`甲方同意。` followed by a space counts as ended by `。`, and ` 1. 乙方` counts as
beginning with a section number. -/
theorem C17_counterexample :
    (shouldMergeParagraphs (para "") (para "乙方") = false ∧
      endsWithTerminator (para "").text = false ∧
      beginsWithSectionNumber (para "乙方").text = false) ∧
    (shouldMergeParagraphs (para "甲方同意。 ") (para "乙方") = false ∧
      endsWithTerminator (para "甲方同意。 ").text = false) ∧
    (shouldMergeParagraphs (para "甲方") (para " 1. 乙方") = false ∧
      endsWithTerminator (para "甲方").text = false ∧
      beginsWithSectionNumber (para " 1. 乙方").text = false) ∧
    ¬ (∀ prev cur : Paragraph, shouldMergeParagraphs prev cur = true ↔
        (endsWithTerminator prev.text = false ∧
          beginsWithSectionNumber cur.text = false)) := by
  refine ⟨by decide, by decide, by decide, ?_⟩
  intro h
  have h1 := (h (para "") (para "乙方")).2 (by decide)
  revert h1
  decide

/-- C17, as the code has it. Whatever the page indices, `shouldMergeParagraphs prev
cur` is true if and only if `prev.text` is not empty, `prev.text` with the
surrounding white space trimmed does not end with one of `。！？.!?；;：:`, and
`cur.text` with the surrounding white space trimmed does not begin with a
section-number pattern. -/
theorem C17_merge_rule (prev cur : Paragraph) :
    (shouldMergeParagraphs prev cur = true ↔
      prev.text ≠ [] ∧ endsWithTerminator (trim prev.text) = false ∧
        beginsWithSectionNumber (trim cur.text) = false) ∧
    sentenceEndings = [0x3002, 0xFF01, 0xFF1F, 0x2E, 0x21, 0x3F, 0xFF1B, 0x3B, 0xFF1A, 0x3A] :=
  ⟨shouldMergeParagraphs_iff prev cur, by decide⟩

/-- C18. The output of `mergeCrossPageParagraphs` is, in order, one paragraph per run
of a division of the input into consecutive non-empty runs: its text is the
concatenation of the texts of the run, its type and page index are those of the
first paragraph of the run. The output is never longer than the input and the
concatenation of all texts is unchanged. `本协议包含` on page 0 followed by `以下条款。`
on page 1 is merged into `本协议包含以下条款。` on page 0. -/
theorem C18_merge_runs (ps : List Paragraph) :
    (∃ runs : List (Paragraph × List Paragraph),
      runs.flatMap runItems = ps ∧
      mergeCrossPageParagraphs ps = runs.map (fun r => joinRun r.1 r.2)) ∧
    (∀ (first : Paragraph) (rest : List Paragraph),
      (joinRun first rest).text = first.text ++ (rest.map (fun p => p.text)).flatten ∧
      (joinRun first rest).type = first.type ∧
      (joinRun first rest).pageIdx = first.pageIdx) ∧
    (∀ r : Paragraph × List Paragraph, runItems r = r.1 :: r.2) ∧
    (mergeCrossPageParagraphs ps).length ≤ ps.length ∧
    ((mergeCrossPageParagraphs ps).map (fun p => p.text)).flatten =
      (ps.map (fun p => p.text)).flatten ∧
    mergeCrossPageParagraphs
        [{ text := js "本协议包含", type := none, pageIdx := some 0 },
         { text := js "以下条款。", type := none, pageIdx := some 1 }] =
      [{ text := js "本协议包含以下条款。", type := none, pageIdx := some 0 }] := by
  obtain ⟨runs, h1, h2, _⟩ := mergeCrossPageParagraphs_runs ps
  refine ⟨⟨runs, h1, h2⟩, fun _ _ => ⟨rfl, rfl, rfl⟩, fun _ => rfl, ?_, ?_, by decide⟩
  · rw [h2, List.length_map, ← h1]
    exact length_flatMap_runItems runs
  · rw [h2, ← h1]
    exact join_text_runs runs

/-- The chain merge with the two tests as the code applies them, on the trimmed
texts. -/
theorem chain_merge_of_trimmed_tests (first : Paragraph) (rest ps : List Paragraph)
    (hn : rest ≠ [])
    (hne : ∀ p ∈ first :: rest, p.text ≠ [])
    (hend : ∀ p ∈ (first :: rest).dropLast, endsWithTerminator (trim p.text) = false)
    (hbeg : ∀ p ∈ rest, beginsWithSectionNumber (trim p.text) = false) :
    mergeCrossPageParagraphs (first :: rest) = [joinRun first rest] ∧
    (joinRun first rest).text = first.text ++ (rest.map (fun p => p.text)).flatten ∧
    (joinRun first rest).pageIdx = first.pageIdx ∧
    (joinRun first rest).type = first.type ∧
    ∃ runs : List (Paragraph × List Paragraph),
      runs.flatMap runItems = ps ∧
      mergeCrossPageParagraphs ps = runs.map (fun r => joinRun r.1 r.2) ∧
      List.Chain' (fun r s => shouldMergeParagraphs (joinRun r.1 r.2) s.1 = false) runs := by
  refine ⟨?_, rfl, rfl, rfl, mergeCrossPageParagraphs_runs ps⟩
  cases rest with
  | nil => exact absurd rfl hn
  | cons q rest =>
    have e : mergeCrossPageParagraphs (first :: q :: rest) = mergeFrom first (q :: rest) := by
      simp [mergeCrossPageParagraphs]
    rw [e]
    apply mergeFrom_chain (q :: rest) first (hne first (List.mem_cons_self _ _))
    · intro _
      exact hend first (by simp [List.dropLast])
    · intro p hp
      exact hne p (List.mem_cons_of_mem _ hp)
    · intro p hp
      apply hend p
      rw [List.dropLast_cons₂]
      exact List.mem_cons_of_mem _ hp
    · exact hbeg

/-! ## The extraction of paragraphs -/

theorem addSpan_eq (t : Str) (s : Span) : addSpan t s = t ++ s.content.getD [] := by
  unfold addSpan
  cases hc : s.content with
  | none => simp
  | some c =>
    by_cases h : c = []
    · simp [h]
    · simp [h]

theorem foldl_addSpan (spans : List Span) (t : Str) :
    spans.foldl addSpan t = t ++ spans.flatMap (fun s => s.content.getD []) := by
  induction spans generalizing t with
  | nil => simp
  | cons s spans ih => rw [List.foldl_cons, ih, addSpan_eq, List.flatMap_cons, List.append_assoc]

theorem foldl_addLine (lines : List Line) (t : Str) :
    lines.foldl addLine t =
      t ++ lines.flatMap (fun l => (l.spans.getD []).flatMap (fun s => s.content.getD [])) := by
  induction lines generalizing t with
  | nil => simp
  | cons l lines ih =>
    rw [List.foldl_cons, ih, addLine, foldl_addSpan, List.flatMap_cons, List.append_assoc]

theorem addLines_eq (t : Str) (lines : Option (List Line)) :
    addLines t lines = t ++ blockContent lines := by
  unfold addLines blockContent
  exact foldl_addLine _ t

theorem blockStep_leaf (pageIdx : Option Int) (ps : List Paragraph) (b : Block)
    (h : b.blocks = none) :
    blockStep pageIdx ps b = ps ++ (leafParagraph pageIdx b).toList := by
  unfold blockStep leafParagraph
  rw [h, addLines_eq, List.nil_append]
  by_cases hc : blockContent b.lines = []
  · simp [hc]
  · simp [hc]

theorem foldl_blockStep_leaf (pageIdx : Option Int) (blocks : List Block)
    (h : ∀ b ∈ blocks, b.blocks = none) (ps : List Paragraph) :
    blocks.foldl (blockStep pageIdx) ps = ps ++ blocks.filterMap (leafParagraph pageIdx) := by
  induction blocks generalizing ps with
  | nil => simp
  | cons b blocks ih =>
    rw [List.foldl_cons, ih (fun x hx => h x (List.mem_cons_of_mem _ hx)),
      blockStep_leaf pageIdx ps b (h b (List.mem_cons_self _ _)), List.append_assoc]
    congr 1
    cases hl : leafParagraph pageIdx b with
    | none => simp [List.filterMap_cons, hl]
    | some p => simp [List.filterMap_cons, hl]

theorem foldl_pageStep_leaf (pages : List Page)
    (h : ∀ page ∈ pages, ∀ b ∈ page.para_blocks.getD [], b.blocks = none)
    (ps : List Paragraph) :
    pages.foldl pageStep ps =
      ps ++ pages.flatMap
        (fun page => (page.para_blocks.getD []).filterMap (leafParagraph page.page_idx)) := by
  induction pages generalizing ps with
  | nil => simp
  | cons page pages ih =>
    rw [List.foldl_cons, ih (fun x hx => h x (List.mem_cons_of_mem _ hx)), pageStep,
      foldl_blockStep_leaf _ _ (h page (List.mem_cons_self _ _)), List.flatMap_cons,
      List.append_assoc]

/-- C20, refuted as stated. The block has the line `条款` and an empty list of nested
blocks, so it has no nested child block; the code takes the branch of the nested
blocks for it, which emits nothing, and its own text is lost. -/
theorem C20_counterexample :
    (∀ page ∈ sampleEmptyNestedDoc.pdf_info.getD [],
        ∀ b ∈ page.para_blocks.getD [], b.blocks.getD [] = []) ∧
    extractParagraphs sampleEmptyNestedDoc = [] ∧
    leafParagraphs sampleEmptyNestedDoc = [para "条款"] ∧
    extractParagraphs sampleEmptyNestedDoc ≠ leafParagraphs sampleEmptyNestedDoc := by
  refine ⟨?_, by decide, by decide, by decide⟩
  intro page hp b hb
  simp only [sampleEmptyNestedDoc, onePage, Option.getD_some, List.mem_singleton] at hp
  subst hp
  simp only [Option.getD_some, List.mem_singleton] at hb
  subst hb
  rfl

/-- C20, as the code has it. For every document in which no block has a `blocks`
field, the paragraphs built before the merge are, in page order and then in
block order, one paragraph per block whose concatenated span contents (lines in
order, spans in order, a missing content counted as empty) are not empty, with
that concatenation trimmed as text, the type of the block and the `page_idx` of
the page; `parseContractJSON` returns the merge of that list. -/
theorem C20_leaf_extraction (json : Doc)
    (h : ∀ page ∈ json.pdf_info.getD [], ∀ b ∈ page.para_blocks.getD [], b.blocks = none) :
    extractParagraphs json = leafParagraphs json ∧
    parseContractJSON json = mergeCrossPageParagraphs (leafParagraphs json) ∧
    (∀ (pageIdx : Option Int) (b : Block),
      leafParagraph pageIdx b =
        if blockContent b.lines = [] then none
        else some { text := trim (blockContent b.lines), type := b.type,
                    pageIdx := pageIdx }) := by
  have e : extractParagraphs json = leafParagraphs json := by
    unfold extractParagraphs leafParagraphs
    rw [foldl_pageStep_leaf _ h, List.nil_append]
  exact ⟨e, by rw [parseContractJSON, e], fun _ _ => rfl⟩

/-- C20 on an example: two pages, the second block of the first page is empty. -/
theorem C20_leaf_extraction_witness :
    (∀ page ∈ sampleLeafDoc.pdf_info.getD [],
        ∀ b ∈ page.para_blocks.getD [], b.blocks = none) ∧
    extractParagraphs sampleLeafDoc =
      [{ text := js "合同", type := some (js "title"), pageIdx := some 0 },
       { text := js "甲方", type := some (js "text"), pageIdx := some 1 }] :=
  have hleaf : ∀ page ∈ sampleLeafDoc.pdf_info.getD [],
      ∀ b ∈ page.para_blocks.getD [], b.blocks = none := by
    intro page hp b hb
    simp only [sampleLeafDoc, Option.getD_some, List.mem_cons, List.mem_singleton,
      List.not_mem_nil, or_false] at hp
    rcases hp with rfl | rfl
    · simp only [Option.getD_some, List.mem_cons, List.mem_singleton, List.not_mem_nil,
        or_false] at hb
      rcases hb with rfl | rfl <;> rfl
    · simp only [Option.getD_some, List.mem_singleton] at hb
      subst hb
      rfl
  ⟨hleaf, (C20_leaf_extraction _ hleaf).1.trans (by decide)⟩

/-! ## The diff computer -/

theorem diffPair_hasDiff (computeDiff : Str → Str → List DiffOp) (pair : AlignedPair) :
    (diffPair computeDiff pair).hasDiff =
      if normalizeText pair.left.text = normalizeText pair.right.text then false
      else hasRealDiff (computeDiff pair.left.text pair.right.text) := by
  unfold diffPair hasRealDiff
  split <;> rfl

theorem cleanText_flatMap (l : List DiffOp) :
    cleanText (l.flatMap (fun d => d.2)) = l.flatMap (fun d => cleanText d.2) := by
  induction l with
  | nil => rfl
  | cons d l ih => rw [List.flatMap_cons, cleanText_append, ih, List.flatMap_cons]

theorem cleanText_sideText (kind : Int) (script : List DiffOp)
    (h : ∀ d ∈ script, d.1 ≠ 0 → cleanText d.2 = []) :
    cleanText (sideText kind script) =
      script.flatMap (fun d => if d.1 = 0 then cleanText d.2 else []) := by
  unfold sideText
  rw [cleanText_flatMap]
  induction script with
  | nil => rfl
  | cons d script ih =>
    have ih' := ih (fun x hx => h x (List.mem_cons_of_mem _ hx))
    have hd := h d (List.mem_cons_self _ _)
    by_cases h0 : d.1 = 0
    · simp [List.filter_cons, h0, ih']
    · by_cases hk : d.1 = kind
      · simp [List.filter_cons, h0, hk, ih', hd h0]
      · simp [List.filter_cons, h0, hk, ih']

/-- An edit script that reconstructs two texts with different normal forms has an
operation that is not equal and whose normal form is not empty. -/
theorem hasRealDiff_of_reconstructs (script : List DiffOp) (left right : Str)
    (hr : Reconstructs script left right) (hne : normalizeText left ≠ normalizeText right) :
    hasRealDiff script = true := by
  by_contra hfalse
  apply hne
  have hall : ∀ d ∈ script, d.1 ≠ 0 → normalizeText d.2 = [] := by
    intro d hd h0
    by_contra hn
    apply hfalse
    unfold hasRealDiff
    rw [List.any_eq_true]
    refine ⟨d, hd, ?_⟩
    rw [if_neg h0]
    simpa [List.length_pos] using hn
  have hall2 : ∀ d ∈ script, d.1 ≠ 0 → cleanText d.2 = [] :=
    fun d hd h0 => (normalizeText_eq_nil _).1 (hall d hd h0)
  rw [← hr.1, ← hr.2, normalizeText_eq, normalizeText_eq, cleanText_sideText _ _ hall2,
    cleanText_sideText _ _ hall2]

/-- C21, on the code. The only block of the document holds one space: its
concatenated text is not empty, so a paragraph is pushed, and the text of that
paragraph, trimmed, is empty; `parseContractJSON` returns it. -/
theorem C21_blank_block_paragraph :
    extractParagraphs sampleBlankDoc =
      [{ text := [], type := some (js "text"), pageIdx := some 0 }] ∧
    parseContractJSON sampleBlankDoc =
      [{ text := [], type := some (js "text"), pageIdx := some 0 }] ∧
    ¬ (∀ p ∈ parseContractJSON sampleBlankDoc, p.text ≠ []) := by
  decide

/-- C22 (equal branch). For a pair whose two texts have the same normal form the
result does not depend on the text-diff primitive: `hasDiff` is false and the
only operation is an equal operation carrying `left.text` when it is not empty
and `right.text` otherwise. -/
theorem C22_equal_branch (computeDiff computeDiff2 : Str → Str → List DiffOp)
    (pair : AlignedPair)
    (h : normalizeText pair.left.text = normalizeText pair.right.text) :
    (diffPair computeDiff pair).hasDiff = false ∧
    (diffPair computeDiff pair).diffs =
      [(0, if pair.left.text = [] then pair.right.text else pair.left.text)] ∧
    (diffPair computeDiff pair).left = pair.left ∧
    (diffPair computeDiff pair).right = pair.right ∧
    diffPair computeDiff pair = diffPair computeDiff2 pair ∧
    (∀ L R : List Paragraph, computeParagraphDiffs computeDiff L R =
      (smartMatchParagraphs L R).map (diffPair computeDiff)) := by
  simp [diffPair, h, computeParagraphDiffs]

/-- C22 on the example: the paragraph `甲方：张三` against itself gives `hasDiff = false`
and the single equal operation `甲方：张三`. -/
theorem C22_equal_branch_witness :
    normalizeText (numberPair 0 (para "甲方：张三") 0 (para "甲方：张三")).left.text =
      normalizeText (numberPair 0 (para "甲方：张三") 0 (para "甲方：张三")).right.text ∧
    (diffPair (fun _ _ => []) (numberPair 0 (para "甲方：张三") 0 (para "甲方：张三"))).hasDiff =
      false ∧
    (diffPair (fun _ _ => []) (numberPair 0 (para "甲方：张三") 0 (para "甲方：张三"))).diffs =
      [(0, js "甲方：张三")] :=
  have h := C22_equal_branch (fun _ _ => []) (fun _ _ => [])
    (numberPair 0 (para "甲方：张三") 0 (para "甲方：张三")) rfl
  ⟨rfl, h.1, h.2.1.trans (by decide)⟩

/-- C23, on the code. `1. 甲方,乙方` and `1. 甲方乙方` are paired by their number; the edit
script deletes the comma and nothing else; the normal form of `,` is `,`, of
length 1, so `hasDiff` is true. An operation made of white space or zero-width
characters only has an empty normal form and does not count. -/
theorem C23_punctuation_counts :
    Reconstructs commaScript (js "1. 甲方,乙方") (js "1. 甲方乙方") ∧
    normalizeText (js ",") = js "," ∧
    (computeParagraphDiffs (fun _ _ => commaScript) [para "1. 甲方,乙方"]
      [para "1. 甲方乙方"]).map (fun d => (d.diffs, d.hasDiff)) = [(commaScript, true)] ∧
    (∀ script : List DiffOp,
      (∀ d ∈ script, d.1 ≠ 0 →
        ∀ c ∈ d.2, isWhiteSpace c = true ∨ isZeroWidth c = true) →
      hasRealDiff script = false) := by
  refine ⟨⟨by decide, by decide⟩, by decide, by decide, ?_⟩
  intro script h
  unfold hasRealDiff
  rw [List.any_eq_false]
  intro d hd
  by_cases h0 : d.1 = 0
  · simp [h0]
  · simp [h0, normalizeText_blank d.2 (h d hd h0)]

/-- C24 (end-to-end scenario). `1. 甲方应于30日内付款。` and `1. 甲方应于60日内付款。` both have
the number `1` and are paired by Tier 1 with `matchType` `number`; their normal
forms differ, and for every text-diff primitive whose edit script for the two
texts reconstructs both of them `hasDiff` is true. -/
theorem C24_payment_scenario (computeDiff : Str → Str → List DiffOp)
    (h : Reconstructs (computeDiff (js "1. 甲方应于30日内付款。") (js "1. 甲方应于60日内付款。"))
      (js "1. 甲方应于30日内付款。") (js "1. 甲方应于60日内付款。")) :
    sectionKey (js "1. 甲方应于30日内付款。") = some (NumKey.str (js "1")) ∧
    sectionKey (js "1. 甲方应于60日内付款。") = some (NumKey.str (js "1")) ∧
    smartMatchParagraphs [para "1. 甲方应于30日内付款。"] [para "1. 甲方应于60日内付款。"] =
      [numberPair 0 (para "1. 甲方应于30日内付款。") 0 (para "1. 甲方应于60日内付款。")] ∧
    (numberPair 0 (para "1. 甲方应于30日内付款。") 0 (para "1. 甲方应于60日内付款。")).matchType =
      some (js "number") ∧
    normalizeText (js "1. 甲方应于30日内付款。") ≠ normalizeText (js "1. 甲方应于60日内付款。") ∧
    (computeParagraphDiffs computeDiff [para "1. 甲方应于30日内付款。"]
      [para "1. 甲方应于60日内付款。"]).map (fun d => (d.diffs, d.hasDiff)) =
      [(computeDiff (js "1. 甲方应于30日内付款。") (js "1. 甲方应于60日内付款。"), true)] := by
  have hsm : smartMatchParagraphs [para "1. 甲方应于30日内付款。"] [para "1. 甲方应于60日内付款。"] =
      [numberPair 0 (para "1. 甲方应于30日内付款。") 0 (para "1. 甲方应于60日内付款。")] := by decide
  have hne : normalizeText (js "1. 甲方应于30日内付款。") ≠
      normalizeText (js "1. 甲方应于60日内付款。") := by decide
  refine ⟨by decide, by decide, hsm, rfl, hne, ?_⟩
  have hreal := hasRealDiff_of_reconstructs _ _ _ h hne
  have hne' : ¬ normalizeText (numberPair 0 (para "1. 甲方应于30日内付款。") 0
      (para "1. 甲方应于60日内付款。")).left.text = normalizeText (numberPair 0
      (para "1. 甲方应于30日内付款。") 0 (para "1. 甲方应于60日内付款。")).right.text := hne
  rw [computeParagraphDiffs, hsm]
  simp only [List.map_cons, List.map_nil, diffPair_hasDiff, if_neg hne']
  simp only [diffPair, if_neg hne']
  simp [numberPair, para, hreal]

/-- C24 with the script that deletes `30` and inserts `60`. -/
theorem C24_payment_scenario_witness :
    Reconstructs paymentScript (js "1. 甲方应于30日内付款。") (js "1. 甲方应于60日内付款。") ∧
    (computeParagraphDiffs (fun _ _ => paymentScript) [para "1. 甲方应于30日内付款。"]
      [para "1. 甲方应于60日内付款。"]).map (fun d => (d.diffs, d.hasDiff)) =
      [(paymentScript, true)] :=
  ⟨⟨by decide, by decide⟩,
    (C24_payment_scenario (fun _ _ => paymentScript) ⟨by decide, by decide⟩).2.2.2.2.2⟩

theorem contig_append (a b : List IndexBlock) (o m o' : Nat) (ha : Contig o a m)
    (hb : Contig m b o') : Contig o (a ++ b) o' := by
  induction a generalizing o with
  | nil =>
    simp only [Contig] at ha
    subst ha
    exact hb
  | cons x a ih =>
    obtain ⟨h1, h2, h3, h4⟩ := ha
    exact ⟨h1, h2, h3, ih _ h4⟩

theorem foldl_contig {α : Type} (f : Nat × List IndexBlock → α → Nat × List IndexBlock)
    (h : ∀ st x, ∃ new, (f st x).2 = st.2 ++ new ∧ Contig st.1 new (f st x).1)
    (xs : List α) :
    ∀ st, ∃ new, (xs.foldl f st).2 = st.2 ++ new ∧ Contig st.1 new (xs.foldl f st).1 := by
  induction xs with
  | nil =>
    intro st
    exact ⟨[], by simp, rfl⟩
  | cons x xs ih =>
    intro st
    obtain ⟨n1, e1, c1⟩ := h st x
    obtain ⟨n2, e2, c2⟩ := ih (f st x)
    refine ⟨n1 ++ n2, ?_, ?_⟩
    · rw [List.foldl_cons, e2, e1, List.append_assoc]
    · rw [List.foldl_cons]
      exact contig_append n1 n2 _ _ _ c1 c2

theorem processBlock_contig (pageIdx : Option Int) (pageSize : List ℚ)
    (lines : Option (List Line)) (bbox parentBbox : Option BBox) (st : Nat × List IndexBlock) :
    ∃ new, (processBlock pageIdx pageSize lines bbox parentBbox st).2 = st.2 ++ new ∧
      Contig st.1 new (processBlock pageIdx pageSize lines bbox parentBbox st).1 := by
  unfold processBlock
  by_cases h : (indexLines st.1 lines).1 = []
  · rw [if_pos h]
    exact ⟨[], by simp, rfl⟩
  · rw [if_neg h]
    exact ⟨_, rfl, rfl, rfl, List.length_pos.2 h, rfl⟩

theorem indexBlockStep_contig (pageIdx : Option Int) (pageSize : List ℚ)
    (st : Nat × List IndexBlock) (block : Block) :
    ∃ new, (indexBlockStep pageIdx pageSize st block).2 = st.2 ++ new ∧
      Contig st.1 new (indexBlockStep pageIdx pageSize st block).1 := by
  unfold indexBlockStep
  cases block.blocks with
  | none => exact processBlock_contig _ _ _ _ _ st
  | some subBlocks =>
    exact foldl_contig _ (fun st sub => processBlock_contig _ _ _ _ _ st) subBlocks st

theorem foldl_indexPageStep_contig (pages : List Page) :
    ∀ st : Nat × List IndexPage, ∃ new : List IndexPage,
      (pages.foldl indexPageStep st).2 = st.2 ++ new ∧
      Contig st.1 (new.flatMap (fun page => page.blocks)) (pages.foldl indexPageStep st).1 := by
  induction pages with
  | nil =>
    intro st
    exact ⟨[], by simp, rfl⟩
  | cons page pages ih =>
    intro st
    obtain ⟨n1, e1, c1⟩ := foldl_contig _
      (indexBlockStep_contig page.page_idx (pageSizeOf page)) (page.para_blocks.getD [])
      (st.1, [])
    obtain ⟨n2, e2, c2⟩ := ih (indexPageStep st page)
    refine ⟨{ pageIdx := page.page_idx, pageSize := pageSizeOf page, blocks := n1 } :: n2,
      ?_, ?_⟩
    · rw [List.foldl_cons, e2]
      simp only [indexPageStep, e1, List.nil_append, List.append_assoc, List.singleton_append]
    · rw [List.foldl_cons, List.flatMap_cons]
      apply contig_append _ _ _ _ _ _ c2
      simpa [indexPageStep] using c1

theorem buildCharacterIndex_contig (json : Doc) :
    Contig 0 (buildCharacterIndex json).allBlocks (buildCharacterIndex json).totalChars := by
  obtain ⟨new, e, c⟩ := foldl_indexPageStep_contig (json.pdf_info.getD []) (0, [])
  unfold CharIndex.allBlocks buildCharacterIndex
  simp only [e, List.nil_append]
  exact c

theorem contig_head (bs : List IndexBlock) (o o' : Nat) (h : Contig o bs o') :
    ∀ b, bs.head? = some b → b.charStart = o := by
  intro b hb
  cases bs with
  | nil => cases hb
  | cons x bs =>
    simp only [List.head?_cons, Option.some.injEq] at hb
    rw [← hb]
    exact h.1

theorem contig_chain (bs : List IndexBlock) (o o' : Nat) (h : Contig o bs o') :
    List.Chain' (fun a b => b.charStart = a.charEnd) bs := by
  induction bs generalizing o with
  | nil => exact List.chain'_nil
  | cons x bs ih =>
    obtain ⟨_, _, _, h4⟩ := h
    rw [List.chain'_cons']
    exact ⟨fun y hy => contig_head bs _ _ h4 y hy, ih _ h4⟩

theorem contig_mem (bs : List IndexBlock) (o o' : Nat) (h : Contig o bs o') :
    ∀ b ∈ bs, b.charEnd = b.charStart + b.text.length ∧ 0 < b.text.length := by
  induction bs generalizing o with
  | nil => intro b hb; cases hb
  | cons x bs ih =>
    obtain ⟨h1, h2, h3, h4⟩ := h
    intro b hb
    rcases List.mem_cons.1 hb with rfl | hb
    · exact ⟨by rw [h2, h1], h3⟩
    · exact ih _ h4 b hb

theorem contig_last (bs : List IndexBlock) (o o' : Nat) (h : Contig o bs o') :
    o' = (bs.getLast?.map (fun b => b.charEnd)).getD o := by
  induction bs generalizing o with
  | nil => exact h
  | cons x bs ih =>
    obtain ⟨_, _, _, h4⟩ := h
    have := ih _ h4
    cases bs with
    | nil => simpa using this
    | cons y bs => simpa [List.getLast?_cons_cons] using this

/-- C27. The character offsets are global and contiguous: taking the blocks of
`buildCharacterIndex` in traversal order across all pages, the first block has
`charStart = 0`, each later block starts where the previous one ends, every
block has `charEnd = charStart + length of its text` with a non-empty text, and
`totalChars` is the `charEnd` of the last block, 0 when there is no block. -/
theorem C27_global_offsets (json : Doc) :
    (∀ b, (buildCharacterIndex json).allBlocks.head? = some b → b.charStart = 0) ∧
    List.Chain' (fun a b : IndexBlock => b.charStart = a.charEnd)
      (buildCharacterIndex json).allBlocks ∧
    (∀ b ∈ (buildCharacterIndex json).allBlocks,
      b.charEnd = b.charStart + b.text.length ∧ b.charEnd - b.charStart = b.text.length ∧
        0 < b.text.length) ∧
    (buildCharacterIndex json).totalChars =
      ((buildCharacterIndex json).allBlocks.getLast?.map (fun b => b.charEnd)).getD 0 ∧
    (buildCharacterIndex json).allBlocks =
      (buildCharacterIndex json).pages.flatMap (fun page => page.blocks) := by
  have h := buildCharacterIndex_contig json
  refine ⟨contig_head _ _ _ h, contig_chain _ _ _ h, ?_, contig_last _ _ _ h, rfl⟩
  intro b hb
  obtain ⟨h1, h2⟩ := contig_mem _ _ _ h b hb
  exact ⟨h1, by omega, h2⟩

/-- C28, on the code. The block has the spans `甲方`, with a `bbox`, and `乙方`, without
one. In `processBlock` the text of a span is appended inside the test
`span.content && span.bbox`, so `乙方` is left out: the block of the index has the
text `甲方` and `totalChars` is 2, while the extracted paragraph is `甲方乙方`, of
length 4. -/
theorem C28_span_without_bbox_dropped :
    buildCharacterIndex sampleNoBboxDoc =
      { pages := [{ pageIdx := some 0, pageSize := [595, 842],
                    blocks := [{ text := js "甲方", bbox := some [0, 0, 100, 20],
                                 spans := [{ text := js "甲方", bbox := [0, 0, 50, 20],
                                             charStart := 0, charEnd := 2 }],
                                 charStart := 0, charEnd := 2, pageIdx := some 0,
                                 pageSize := [595, 842] }] }],
        totalChars := 2 } ∧
    extractParagraphs sampleNoBboxDoc = [para "甲方乙方"] ∧
    (buildCharacterIndex sampleNoBboxDoc).totalChars = 2 ∧
    ((extractParagraphs sampleNoBboxDoc).map (fun p => p.text.length)).sum = 4 := by
  decide

theorem foldl_hitSpanStep (block : IndexBlock) (s e : Nat) (spans : List IndexSpan) :
    ∀ st : List BBoxHit × Bool,
      spans.foldl (hitSpanStep block s e) st =
        (st.1 ++ (spans.filter (fun span => overlapsRange span.charStart span.charEnd s e)).map
            (spanHit block),
          st.2 || !((spans.filter
            (fun span => overlapsRange span.charStart span.charEnd s e)).map
            (spanHit block)).isEmpty) := by
  induction spans with
  | nil => intro st; simp
  | cons span spans ih =>
    intro st
    rw [List.foldl_cons, ih]
    by_cases h : span.charEnd ≤ s ∨ span.charStart ≥ e
    · have ho : overlapsRange span.charStart span.charEnd s e = false := by
        simp only [overlapsRange, decide_eq_false_iff_not]
        omega
      simp only [hitSpanStep, if_pos h, List.filter_cons, ho]
      simp
    · have ho : overlapsRange span.charStart span.charEnd s e = true := by
        simp only [overlapsRange, decide_eq_true_eq]
        omega
      simp only [hitSpanStep, if_neg h, List.filter_cons, ho]
      simp [spanHit]

theorem hitBlockStep_eq (s e : Nat) (results : List BBoxHit) (block : IndexBlock) :
    hitBlockStep s e results block = results ++ blockHits block s e := by
  unfold hitBlockStep blockHits
  by_cases h : block.charEnd ≤ s ∨ block.charStart ≥ e
  · have ho : overlapsRange block.charStart block.charEnd s e = false := by
      simp only [overlapsRange, decide_eq_false_iff_not]
      omega
    simp [if_pos h, ho]
  · have ho : overlapsRange block.charStart block.charEnd s e = true := by
      simp only [overlapsRange, decide_eq_true_eq]
      omega
    rw [if_neg h, foldl_hitSpanStep, if_pos ho]
    unfold spanHits blockHit
    by_cases hs : (block.spans.filter
        (fun span => overlapsRange span.charStart span.charEnd s e)).map (spanHit block) = []
    · rw [hs, if_pos rfl]
      cases block.bbox <;> simp
    · rw [if_neg hs]
      have : ((block.spans.filter
          (fun span => overlapsRange span.charStart span.charEnd s e)).map
          (spanHit block)).isEmpty = false := by
        cases hl : (block.spans.filter
          (fun span => overlapsRange span.charStart span.charEnd s e)).map (spanHit block) with
        | nil => exact absurd hl hs
        | cons _ _ => rfl
      rw [this]
      cases block.bbox <;> simp

theorem foldl_hitBlockStep (s e : Nat) (blocks : List IndexBlock) :
    ∀ results, blocks.foldl (hitBlockStep s e) results =
      results ++ blocks.flatMap (fun b => blockHits b s e) := by
  induction blocks with
  | nil => intro results; simp
  | cons b blocks ih =>
    intro results
    rw [List.foldl_cons, ih, hitBlockStep_eq, List.flatMap_cons, List.append_assoc]

theorem findBboxForCharRange_eq (index : CharIndex) (s e : Nat) :
    findBboxForCharRange index s e = index.allBlocks.flatMap (fun b => blockHits b s e) := by
  unfold findBboxForCharRange CharIndex.allBlocks
  suffices h : ∀ (pages : List IndexPage) (results : List BBoxHit),
      pages.foldl (fun results page => page.blocks.foldl (hitBlockStep s e) results) results =
        results ++ (pages.flatMap (fun page => page.blocks)).flatMap
          (fun b => blockHits b s e) by
    simpa using h index.pages []
  intro pages
  induction pages with
  | nil => intro results; simp
  | cons page pages ih =>
    intro results
    rw [List.foldl_cons, ih, foldl_hitBlockStep, List.flatMap_cons, List.flatMap_append,
      List.append_assoc]

theorem lookup_map_push {κ β : Type} [BEq κ] [LawfulBEq κ] [DecidableEq κ]
    (m : List (κ × List β)) (k k' : κ) (a : β) :
    (m.map (fun e => if e.1 = k then (e.1, e.2 ++ [a]) else e)).lookup k' =
      (m.lookup k').map (fun v => if k' = k then v ++ [a] else v) := by
  induction m with
  | nil => rfl
  | cons e m ih =>
    obtain ⟨ek, ev⟩ := e
    rw [List.map_cons]
    by_cases h1 : k' = ek
    · subst h1
      by_cases h2 : k' = k
      · simp [List.lookup_cons, h2]
      · simp [List.lookup_cons, h2]
    · have hb : (k' == ek) = false := by simpa using h1
      by_cases h2 : ek = k
      · simp only [h2, if_true, List.lookup_cons]
        rw [← h2, hb]
        simpa [h2] using ih
      · simp only [h2, if_false, List.lookup_cons, hb]
        exact ih

theorem lookup_append_single {κ β : Type} [BEq κ] [LawfulBEq κ] [DecidableEq κ]
    (m : List (κ × List β)) (k k' : κ) (v : List β) :
    (m ++ [(k, v)]).lookup k' =
      match m.lookup k' with
      | some x => some x
      | none => if k' = k then some v else none := by
  induction m with
  | nil =>
    by_cases h : k' = k
    · simp [List.lookup_cons, h]
    · have hb : (k' == k) = false := by simpa using h
      simp [List.lookup_cons, h, hb]
  | cons e m ih =>
    obtain ⟨ek, ev⟩ := e
    rw [List.cons_append]
    by_cases h1 : k' = ek
    · subst h1
      simp [List.lookup_cons]
    · have hb : (k' == ek) = false := by simpa using h1
      simp only [List.lookup_cons, hb]
      exact ih

theorem lookup_of_any {κ β : Type} [BEq κ] [LawfulBEq κ] [DecidableEq κ]
    (m : List (κ × List β)) (k : κ) :
    (m.lookup k).isSome = m.any (fun e => decide (e.1 = k)) := by
  induction m with
  | nil => rfl
  | cons e m ih =>
    obtain ⟨ek, ev⟩ := e
    by_cases h1 : k = ek
    · subst h1
      simp [List.lookup_cons]
    · have hb : (k == ek) = false := by simpa using h1
      have h2 : ¬ ek = k := fun h => h1 h.symm
      simp only [List.lookup_cons, hb, List.any_cons, h2, decide_False, Bool.false_or]
      exact ih

/-- Pushing `a` under the key `k` of a map of arrays adds `a` at the end of the
array of `k` and leaves the other arrays as they are. -/
theorem lookup_push {κ β : Type} [BEq κ] [LawfulBEq κ] [DecidableEq κ]
    (m : List (κ × List β)) (k k' : κ) (a : β) :
    ((if m.any (fun e => decide (e.1 = k)) then
        m.map (fun e => if e.1 = k then (e.1, e.2 ++ [a]) else e)
      else m ++ [(k, [a])]).lookup k').getD [] =
      (m.lookup k').getD [] ++ if k' = k then [a] else [] := by
  have hany := lookup_of_any m k
  by_cases h : m.any (fun e => decide (e.1 = k)) = true
  · rw [if_pos h, lookup_map_push]
    cases hl : m.lookup k' with
    | some v =>
      by_cases hk : k' = k
      · simp [hk]
      · simp [hk]
    | none =>
      have hk : ¬ k' = k := by
        intro hk
        rw [hk] at hl
        rw [hl, h] at hany
        cases hany
      simp [hk]
  · rw [if_neg h, lookup_append_single]
    cases hl : m.lookup k' with
    | some v =>
      have hk : ¬ k' = k := by
        intro hk
        rw [hk] at hl
        rw [hl] at hany
        exact h hany.symm
      simp [hk]
    | none =>
      by_cases hk : k' = k
      · simp [hk]
      · simp [hk]

theorem annGet_annPush (anns : AnnMap) (k k' : Option Int) (a : Annotation) :
    annGet (annPush anns k a) k' = annGet anns k' ++ if k' = k then [a] else [] := by
  unfold annGet annPush
  exact lookup_push anns k k' a

theorem annGet_foldl_annPush {α : Type} (key : α → Option Int) (f : α → Annotation)
    (items : List α) (k : Option Int) :
    ∀ anns : AnnMap,
      annGet (items.foldl (fun anns item => annPush anns (key item) (f item)) anns) k =
        annGet anns k ++ (items.filter (fun item => decide (key item = k))).map f := by
  induction items with
  | nil => intro anns; simp
  | cons item items ih =>
    intro anns
    rw [List.foldl_cons, ih, annGet_annPush, List.filter_cons]
    by_cases h : key item = k
    · simp [h]
    · have h2 : ¬ k = key item := fun e => h e.symm
      simp [h, h2]

theorem take_snoc_of_le (diffs : List DiffOp) (d : DiffOp) (i : Nat) (h : i ≤ diffs.length) :
    (diffs ++ [d]).take i = diffs.take i := by
  rw [List.take_append_of_le_length h]

theorem leftStartSpec_snoc (diffs : List DiffOp) (d : DiffOp) (i : Nat)
    (h : i ≤ diffs.length) : leftStartSpec (diffs ++ [d]) i = leftStartSpec diffs i := by
  unfold leftStartSpec
  rw [take_snoc_of_le diffs d i h]

theorem rightStartSpec_snoc (diffs : List DiffOp) (d : DiffOp) (i : Nat)
    (h : i ≤ diffs.length) : rightStartSpec (diffs ++ [d]) i = rightStartSpec diffs i := by
  unfold rightStartSpec
  rw [take_snoc_of_le diffs d i h]

theorem pairIdSpec_snoc (diffs : List DiffOp) (d : DiffOp) (i : Nat)
    (h : i ≤ diffs.length) : pairIdSpec (diffs ++ [d]) i = pairIdSpec diffs i := by
  unfold pairIdSpec
  rw [take_snoc_of_le diffs d i h]

theorem leftStartSpec_full (diffs : List DiffOp) (d : DiffOp) :
    leftStartSpec (diffs ++ [d]) (diffs.length + 1) =
      leftStartSpec diffs diffs.length + if d.1 = 0 ∨ d.1 = -1 then d.2.length else 0 := by
  unfold leftStartSpec
  have : (diffs ++ [d]).take (diffs.length + 1) = diffs ++ [d] := by
    apply List.take_of_length_le
    simp
  rw [this, List.take_length, List.filter_append, List.map_append, List.sum_append]
  by_cases h : d.1 = 0 ∨ d.1 = -1
  · simp [List.filter_cons, h]
  · simp [List.filter_cons, h]

theorem rightStartSpec_full (diffs : List DiffOp) (d : DiffOp) :
    rightStartSpec (diffs ++ [d]) (diffs.length + 1) =
      rightStartSpec diffs diffs.length + if d.1 = 0 ∨ d.1 = 1 then d.2.length else 0 := by
  unfold rightStartSpec
  have : (diffs ++ [d]).take (diffs.length + 1) = diffs ++ [d] := by
    apply List.take_of_length_le
    simp
  rw [this, List.take_length, List.filter_append, List.map_append, List.sum_append]
  by_cases h : d.1 = 0 ∨ d.1 = 1
  · simp [List.filter_cons, h]
  · simp [List.filter_cons, h]

theorem pairIdSpec_full (diffs : List DiffOp) (d : DiffOp) :
    pairIdSpec (diffs ++ [d]) (diffs.length + 1) =
      pairIdSpec diffs diffs.length + if d.1 = -1 ∨ d.1 = 1 then 1 else 0 := by
  unfold pairIdSpec
  have : (diffs ++ [d]).take (diffs.length + 1) = diffs ++ [d] := by
    apply List.take_of_length_le
    simp
  rw [this, List.take_length, List.filter_append, List.length_append]
  by_cases h : d.1 = -1 ∨ d.1 = 1
  · simp [List.filter_cons, h]
  · simp [List.filter_cons, h]

theorem flatMap_congr_mem {α β : Type} (xs : List α) (f g : α → List β)
    (h : ∀ x ∈ xs, f x = g x) : xs.flatMap f = xs.flatMap g := by
  induction xs with
  | nil => rfl
  | cons x xs ih =>
    rw [List.flatMap_cons, List.flatMap_cons, h x (List.mem_cons_self _ _),
      ih (fun y hy => h y (List.mem_cons_of_mem _ hy))]

theorem removedSpec_snoc (leftIndex : CharIndex) (diffs : List DiffOp) (d : DiffOp)
    (k : Option Int) :
    removedSpec leftIndex (diffs ++ [d]) k =
      removedSpec leftIndex diffs k ++
        if d.1 = -1 then
          opAnnotations leftIndex (leftStartSpec diffs diffs.length) (js "removed") d
            (pairIdSpec diffs diffs.length) k
        else [] := by
  unfold removedSpec
  rw [List.enum_append, List.flatMap_append]
  congr 1
  · apply flatMap_congr_mem
    intro p hp
    have hlt : p.1 < diffs.length := List.fst_lt_of_mem_enum hp
    rw [leftStartSpec_snoc diffs d p.1 (Nat.le_of_lt hlt),
      pairIdSpec_snoc diffs d p.1 (Nat.le_of_lt hlt)]
  · simp only [List.enumFrom_cons, List.enumFrom_nil, List.flatMap_cons, List.flatMap_nil,
      List.append_nil]
    rw [leftStartSpec_snoc diffs d _ (Nat.le_refl _), pairIdSpec_snoc diffs d _ (Nat.le_refl _)]

theorem addedSpec_snoc (rightIndex : CharIndex) (diffs : List DiffOp) (d : DiffOp)
    (k : Option Int) :
    addedSpec rightIndex (diffs ++ [d]) k =
      addedSpec rightIndex diffs k ++
        if d.1 = 1 then
          opAnnotations rightIndex (rightStartSpec diffs diffs.length) (js "added") d
            (pairIdSpec diffs diffs.length) k
        else [] := by
  unfold addedSpec
  rw [List.enum_append, List.flatMap_append]
  congr 1
  · apply flatMap_congr_mem
    intro p hp
    have hlt : p.1 < diffs.length := List.fst_lt_of_mem_enum hp
    rw [rightStartSpec_snoc diffs d p.1 (Nat.le_of_lt hlt),
      pairIdSpec_snoc diffs d p.1 (Nat.le_of_lt hlt)]
  · simp only [List.enumFrom_cons, List.enumFrom_nil, List.flatMap_cons, List.flatMap_nil,
      List.append_nil]
    rw [rightStartSpec_snoc diffs d _ (Nat.le_refl _),
      pairIdSpec_snoc diffs d _ (Nat.le_refl _)]

/-- The state of the loop of `mapDiffToBbox` after the whole script. -/
theorem mapDiff_invariant (leftIndex rightIndex : CharIndex) (diffs : List DiffOp) :
    (diffs.foldl (mapDiffStep leftIndex rightIndex) MapState.init).leftCharPos =
        leftStartSpec diffs diffs.length ∧
    (diffs.foldl (mapDiffStep leftIndex rightIndex) MapState.init).rightCharPos =
        rightStartSpec diffs diffs.length ∧
    (diffs.foldl (mapDiffStep leftIndex rightIndex) MapState.init).pairId =
        pairIdSpec diffs diffs.length ∧
    (∀ k, annGet (diffs.foldl (mapDiffStep leftIndex rightIndex) MapState.init).leftAnns k =
        removedSpec leftIndex diffs k) ∧
    (∀ k, annGet (diffs.foldl (mapDiffStep leftIndex rightIndex) MapState.init).rightAnns k =
        addedSpec rightIndex diffs k) := by
  induction diffs using List.reverseRecOn with
  | nil => exact ⟨rfl, rfl, rfl, fun _ => rfl, fun _ => rfl⟩
  | append_singleton diffs d ih =>
    obtain ⟨h1, h2, h3, h4, h5⟩ := ih
    rw [List.foldl_append, List.foldl_cons, List.foldl_nil, List.length_append,
      List.length_singleton, leftStartSpec_full, rightStartSpec_full, pairIdSpec_full]
    generalize diffs.foldl (mapDiffStep leftIndex rightIndex) MapState.init = st at h1 h2 h3 h4 h5
    by_cases e0 : d.1 = 0
    · have e1 : ¬ d.1 = -1 := by omega
      have e2 : ¬ d.1 = 1 := by omega
      have a1 : d.1 = 0 ∨ d.1 = -1 := Or.inl e0
      have a2 : d.1 = 0 ∨ d.1 = 1 := Or.inl e0
      have a3 : ¬ (d.1 = -1 ∨ d.1 = 1) := by omega
      simp only [mapDiffStep, if_pos e0, if_pos a1, if_pos a2, if_neg a3, if_neg e1, if_neg e2,
        removedSpec_snoc, addedSpec_snoc, List.append_nil, Nat.add_zero]
      exact ⟨by rw [h1], by rw [h2], h3, h4, h5⟩
    · by_cases e1 : d.1 = -1
      · have e2 : ¬ d.1 = 1 := by omega
        have a1 : d.1 = 0 ∨ d.1 = -1 := Or.inr e1
        have a2 : ¬ (d.1 = 0 ∨ d.1 = 1) := by omega
        have a3 : d.1 = -1 ∨ d.1 = 1 := Or.inl e1
        simp only [mapDiffStep, if_neg e0, if_pos e1, if_pos a1, if_neg a2, if_pos a3,
          if_neg e2, removedSpec_snoc, addedSpec_snoc, List.append_nil, Nat.add_zero]
        refine ⟨by rw [h1], h2, by rw [h3], ?_, h5⟩
        intro k
        rw [annGet_foldl_annPush (fun item : BBoxHit => item.pageIdx), h4 k, h1, h3]
        rfl
      · by_cases e2 : d.1 = 1
        · have a1 : ¬ (d.1 = 0 ∨ d.1 = -1) := by omega
          have a2 : d.1 = 0 ∨ d.1 = 1 := Or.inr e2
          have a3 : d.1 = -1 ∨ d.1 = 1 := Or.inr e2
          simp only [mapDiffStep, if_neg e0, if_neg e1, if_pos e2, if_neg a1, if_pos a2,
            if_pos a3, removedSpec_snoc, addedSpec_snoc, List.append_nil, Nat.add_zero]
          refine ⟨h1, by rw [h2], by rw [h3], h4, ?_⟩
          intro k
          rw [annGet_foldl_annPush (fun item : BBoxHit => item.pageIdx), h5 k, h2, h3]
          rfl
        · have a1 : ¬ (d.1 = 0 ∨ d.1 = -1) := by omega
          have a2 : ¬ (d.1 = 0 ∨ d.1 = 1) := by omega
          have a3 : ¬ (d.1 = -1 ∨ d.1 = 1) := by omega
          simp only [mapDiffStep, if_neg e0, if_neg e1, if_neg e2, if_neg a1, if_neg a2,
            if_neg a3, removedSpec_snoc, addedSpec_snoc, List.append_nil, Nat.add_zero]
          exact ⟨h1, h2, h3, h4, h5⟩

theorem pairIdSpec_lt (diffs : List DiffOp) (i j : Nat) (d : DiffOp) (hij : i < j)
    (hd : diffs[i]? = some d) (hne : d.1 = -1 ∨ d.1 = 1) :
    pairIdSpec diffs i < pairIdSpec diffs j := by
  unfold pairIdSpec
  have hi : i < diffs.length := by
    rcases Nat.lt_or_ge i diffs.length with h | h
    · exact h
    · rw [List.getElem?_eq_none h] at hd
      cases hd
  have hsub : (diffs.take (i + 1)).Sublist (diffs.take j) := by
    have : diffs.take (i + 1) = (diffs.take j).take (i + 1) := by
      rw [List.take_take, Nat.min_eq_left hij]
    rw [this]
    exact List.take_sublist _ _
  have hlen := (hsub.filter (fun d : DiffOp => decide (d.1 = -1 ∨ d.1 = 1))).length_le
  have hstep : (diffs.take (i + 1)).filter (fun d : DiffOp => decide (d.1 = -1 ∨ d.1 = 1)) =
      (diffs.take i).filter (fun d : DiffOp => decide (d.1 = -1 ∨ d.1 = 1)) ++ [d] := by
    rw [List.take_succ, hd, List.filter_append]
    simp [List.filter_cons, hne]
  rw [hstep, List.length_append, List.length_singleton] at hlen
  omega
theorem annPush_keys (anns : AnnMap) (k : Option Int) (a : Annotation)
    (h : (anns.map Prod.fst).Nodup) : ((annPush anns k a).map Prod.fst).Nodup := by
  unfold annPush
  by_cases hany : anns.any (fun e => decide (e.1 = k)) = true
  · rw [if_pos hany]
    have : (anns.map (fun e => if e.1 = k then (e.1, e.2 ++ [a]) else e)).map Prod.fst =
        anns.map Prod.fst := by
      rw [List.map_map]
      apply List.map_congr_left
      intro e _
      by_cases he : e.1 = k
      · simp [he]
      · simp [he]
    rw [this]
    exact h
  · rw [if_neg hany, List.map_append, List.map_singleton]
    apply List.Nodup.append h (List.nodup_singleton _)
    intro x hx hx2
    rw [List.mem_singleton] at hx2
    subst hx2
    apply hany
    rw [List.any_eq_true]
    obtain ⟨e, he, rfl⟩ := List.mem_map.1 hx
    exact ⟨e, he, by simp⟩

theorem foldl_annPush_keys {α : Type} (key : α → Option Int) (f : α → Annotation)
    (items : List α) :
    ∀ anns : AnnMap, (anns.map Prod.fst).Nodup →
      ((items.foldl (fun anns item => annPush anns (key item) (f item)) anns).map
        Prod.fst).Nodup := by
  induction items with
  | nil => intro anns h; exact h
  | cons item items ih =>
    intro anns h
    rw [List.foldl_cons]
    exact ih _ (annPush_keys anns _ _ h)

theorem mapDiff_keys (leftIndex rightIndex : CharIndex) (diffs : List DiffOp) :
    ∀ st : MapState, (st.leftAnns.map Prod.fst).Nodup → (st.rightAnns.map Prod.fst).Nodup →
      ((diffs.foldl (mapDiffStep leftIndex rightIndex) st).leftAnns.map Prod.fst).Nodup ∧
      ((diffs.foldl (mapDiffStep leftIndex rightIndex) st).rightAnns.map Prod.fst).Nodup := by
  induction diffs with
  | nil => intro st h1 h2; exact ⟨h1, h2⟩
  | cons d diffs ih =>
    intro st h1 h2
    rw [List.foldl_cons]
    apply ih
    · unfold mapDiffStep
      split_ifs
      · exact h1
      · exact foldl_annPush_keys _ _ _ _ h1
      · exact h1
      · exact h1
    · unfold mapDiffStep
      split_ifs
      · exact h2
      · exact h2
      · exact foldl_annPush_keys _ _ _ _ h2
      · exact h2

/-- C25. For every edit script and every pair of character indexes, the annotations
that `mapDiffToBbox` files under a page index are, on the left, those of the
delete ops in script order: one of type `removed` for each result of
`findBboxForCharRange(leftIndex, a, a + |t|)` with that page index, with the
result's `bbox` and `pageSize`, where `a` is the total length of the preceding
equal and delete ops; on the right, those of the insert ops, of type `added`,
from `findBboxForCharRange(rightIndex, b, b + |t|)`, where `b` is the total
length of the preceding equal and insert ops. An equal op emits nothing. The
annotations of one op carry the `pairId` numbered by the count of the preceding
delete and insert ops, which is smaller than that of every later op. Each page
index is one key of the result. On a span with the bbox `[10, 20, 100, 40]`
covering `[5, 15)` on page 2, a delete that covers `[5, 10)` gives exactly one
`removed` annotation, with that bbox, on page 2. -/
theorem C25_map_diff_reference (diffs : List DiffOp) (leftIndex rightIndex : CharIndex) :
    (∀ k, annGet (mapDiffToBbox diffs leftIndex rightIndex).1 k =
      removedSpec leftIndex diffs k) ∧
    (∀ k, annGet (mapDiffToBbox diffs leftIndex rightIndex).2 k =
      addedSpec rightIndex diffs k) ∧
    (∀ i j d, i < j → diffs[i]? = some d → (d.1 = -1 ∨ d.1 = 1) →
      pairIdSpec diffs i < pairIdSpec diffs j) ∧
    ((mapDiffToBbox diffs leftIndex rightIndex).1.map Prod.fst).Nodup ∧
    ((mapDiffToBbox diffs leftIndex rightIndex).2.map Prod.fst).Nodup ∧
    mapDiffToBbox [(0, js "abcde"), (-1, js "fghij")] sampleSpanIndex sampleSpanIndex =
      ([(some 2, [{ bbox := some [10, 20, 100, 40], pageSize := [595, 842],
                    type := js "removed", text := js "fghij", pairId := some 0 }])], []) := by
  obtain ⟨_, _, _, h4, h5⟩ := mapDiff_invariant leftIndex rightIndex diffs
  obtain ⟨k1, k2⟩ := mapDiff_keys leftIndex rightIndex diffs MapState.init List.nodup_nil
    List.nodup_nil
  exact ⟨h4, h5, fun i j d hij hd hne => pairIdSpec_lt diffs i j d hij hd hne, k1, k2,
    by decide⟩

theorem blockMapGet_blockMapStep (m : BlockMap) (block : BoxedBlock) (t : Str) :
    blockMapGet (blockMapStep m block) t =
      blockMapGet m t ++
        if 0 < (normalizeText block.text).length ∧ normalizeText block.text = t then [block]
        else [] := by
  unfold blockMapGet blockMapStep
  by_cases h : (normalizeText block.text).length > 0
  · rw [if_pos h, lookup_push]
    by_cases ht : t = normalizeText block.text
    · have : 0 < (normalizeText block.text).length ∧ normalizeText block.text = t :=
        ⟨h, ht.symm⟩
      rw [if_pos ht, if_pos this]
    · have : ¬ (0 < (normalizeText block.text).length ∧ normalizeText block.text = t) :=
        fun c => ht c.2.symm
      rw [if_neg ht, if_neg this]
  · have : ¬ (0 < (normalizeText block.text).length ∧ normalizeText block.text = t) :=
      fun c => h c.1
    rw [if_neg h, if_neg this, List.append_nil]

theorem blockMapGet_foldl (blocks : List BoxedBlock) (t : Str) :
    ∀ m : BlockMap, blockMapGet (blocks.foldl blockMapStep m) t =
      blockMapGet m t ++ blocks.filter (fun block =>
        decide (0 < (normalizeText block.text).length ∧ normalizeText block.text = t)) := by
  induction blocks with
  | nil => intro m; simp
  | cons b blocks ih =>
    intro m
    rw [List.foldl_cons, ih, blockMapGet_blockMapStep, List.filter_cons]
    by_cases h : 0 < (normalizeText b.text).length ∧ normalizeText b.text = t
    · rw [if_pos h, if_pos (decide_eq_true h), List.append_assoc]
      rfl
    · rw [if_neg h, if_neg (fun c => h (of_decide_eq_true c)), List.append_nil]

theorem blockMapGet_eq_spec (blocks : List BoxedBlock) (text : Str) :
    blockMapGet (blocks.foldl blockMapStep []) (normalizeText text) =
      matchingBlocksSpec blocks text := by
  rw [blockMapGet_foldl]
  rfl

theorem annGet_pushBlocks (anns : AnnMap) (blocks : List BoxedBlock) (type text : Str)
    (k : Option Int) :
    annGet (pushBlocks anns blocks type text) k =
      annGet anns k ++ (blocks.filter (fun block => decide (block.pageIdx = k))).map
        (blockAnn type text) := by
  unfold pushBlocks
  exact annGet_foldl_annPush (fun block : BoxedBlock => block.pageIdx)
    (blockAnn type text) blocks k anns

theorem annotateStep_left (leftBlocks rightBlocks : List BoxedBlock) (st : AnnMap × AnnMap)
    (result : ParagraphDiff) (k : Option Int) :
    annGet (annotateStep (leftBlocks.foldl blockMapStep []) (rightBlocks.foldl blockMapStep [])
        st result).1 k =
      annGet st.1 k ++ leftAnnotationsSpec leftBlocks result k := by
  unfold annotateStep leftAnnotationsSpec
  by_cases hd : result.hasDiff = false
  · have : ¬ (result.hasDiff = true ∧ 0 < (trim result.left.text).length) := by
      simp [hd]
    rw [if_pos hd, if_neg this, List.append_nil]
  · have hd2 : result.hasDiff = true := by simpa using hd
    rw [if_neg hd]
    by_cases hl : (trim result.left.text).length > 0
    · have h1 : result.hasDiff = true ∧ 0 < (trim result.left.text).length := ⟨hd2, hl⟩
      rw [if_pos h1]
      by_cases hr : (trim result.right.text).length > 0
      · have c1 : ¬ ((trim result.left.text).length > 0 ∧
            ¬ (trim result.right.text).length > 0) := fun c => c.2 hr
        have c2 : ¬ (¬ (trim result.left.text).length > 0 ∧
            (trim result.right.text).length > 0) := fun c => c.1 hl
        have c3 : (trim result.left.text).length > 0 ∧ (trim result.right.text).length > 0 :=
          ⟨hl, hr⟩
        rw [if_neg c1, if_neg c2, if_pos c3, if_pos hr, annGet_pushBlocks,
          blockMapGet_eq_spec]
      · have c1 : (trim result.left.text).length > 0 ∧
            ¬ (trim result.right.text).length > 0 := ⟨hl, hr⟩
        rw [if_pos c1, if_neg hr, annGet_pushBlocks, blockMapGet_eq_spec]
    · have h1 : ¬ (result.hasDiff = true ∧ 0 < (trim result.left.text).length) :=
        fun c => hl c.2
      have c1 : ¬ ((trim result.left.text).length > 0 ∧
          ¬ (trim result.right.text).length > 0) := fun c => hl c.1
      have c3 : ¬ ((trim result.left.text).length > 0 ∧
          (trim result.right.text).length > 0) := fun c => hl c.1
      rw [if_neg h1, if_neg c1, if_neg c3, List.append_nil]
      split_ifs <;> rfl

theorem annotateStep_right (leftBlocks rightBlocks : List BoxedBlock) (st : AnnMap × AnnMap)
    (result : ParagraphDiff) (k : Option Int) :
    annGet (annotateStep (leftBlocks.foldl blockMapStep []) (rightBlocks.foldl blockMapStep [])
        st result).2 k =
      annGet st.2 k ++ rightAnnotationsSpec rightBlocks result k := by
  unfold annotateStep rightAnnotationsSpec
  by_cases hd : result.hasDiff = false
  · have : ¬ (result.hasDiff = true ∧ 0 < (trim result.right.text).length) := by
      simp [hd]
    rw [if_pos hd, if_neg this, List.append_nil]
  · have hd2 : result.hasDiff = true := by simpa using hd
    rw [if_neg hd]
    by_cases hr : (trim result.right.text).length > 0
    · have h1 : result.hasDiff = true ∧ 0 < (trim result.right.text).length := ⟨hd2, hr⟩
      rw [if_pos h1]
      by_cases hl : (trim result.left.text).length > 0
      · have c1 : ¬ ((trim result.left.text).length > 0 ∧
            ¬ (trim result.right.text).length > 0) := fun c => c.2 hr
        have c2 : ¬ (¬ (trim result.left.text).length > 0 ∧
            (trim result.right.text).length > 0) := fun c => c.1 hl
        have c3 : (trim result.left.text).length > 0 ∧ (trim result.right.text).length > 0 :=
          ⟨hl, hr⟩
        rw [if_neg c1, if_neg c2, if_pos c3, if_pos hl, annGet_pushBlocks,
          blockMapGet_eq_spec]
      · have c1 : ¬ ((trim result.left.text).length > 0 ∧
            ¬ (trim result.right.text).length > 0) := fun c => hl c.1
        have c2 : ¬ (trim result.left.text).length > 0 ∧
            (trim result.right.text).length > 0 := ⟨hl, hr⟩
        rw [if_neg c1, if_pos c2, if_neg hl, annGet_pushBlocks, blockMapGet_eq_spec]
    · have h1 : ¬ (result.hasDiff = true ∧ 0 < (trim result.right.text).length) :=
        fun c => hr c.2
      have c2 : ¬ (¬ (trim result.left.text).length > 0 ∧
          (trim result.right.text).length > 0) := fun c => hr c.2
      have c3 : ¬ ((trim result.left.text).length > 0 ∧
          (trim result.right.text).length > 0) := fun c => hr c.2
      rw [if_neg h1, if_neg c2, if_neg c3, List.append_nil]
      split_ifs <;> rfl

theorem annotate_foldl (leftBlocks rightBlocks : List BoxedBlock)
    (diffs : List ParagraphDiff) (k : Option Int) :
    ∀ st : AnnMap × AnnMap,
      annGet (diffs.foldl (annotateStep (leftBlocks.foldl blockMapStep [])
          (rightBlocks.foldl blockMapStep [])) st).1 k =
        annGet st.1 k ++ diffs.flatMap (fun result => leftAnnotationsSpec leftBlocks result k) ∧
      annGet (diffs.foldl (annotateStep (leftBlocks.foldl blockMapStep [])
          (rightBlocks.foldl blockMapStep [])) st).2 k =
        annGet st.2 k ++
          diffs.flatMap (fun result => rightAnnotationsSpec rightBlocks result k) := by
  induction diffs with
  | nil => intro st; simp
  | cons r diffs ih =>
    intro st
    rw [List.foldl_cons, (ih _).1, (ih _).2, annotateStep_left, annotateStep_right,
      List.flatMap_cons, List.flatMap_cons, List.append_assoc, List.append_assoc]
    exact ⟨rfl, rfl⟩

theorem head?_flatMap {α β : Type} (xs : List α) (f : α → List β) (x : α)
    (hx : xs.head? = some x) (hf : f x ≠ []) : (xs.flatMap f).head? = (f x).head? := by
  cases xs with
  | nil => cases hx
  | cons y ys =>
    simp only [List.head?_cons, Option.some.injEq] at hx
    subst hx
    rw [List.flatMap_cons]
    cases h : f y with
    | nil => exact absurd h hf
    | cons a as => rfl

theorem starRun_ne_nil (step : MState → List MState) (fuel : Nat) (st : MState) :
    starRun step fuel st ≠ [] := by
  cases fuel with
  | zero => simp [starRun]
  | succ fuel => simp [starRun]

/-- A greedy `p*` reads the longest run of characters of the class first. -/
theorem starRun_cls_head (p : Nat → Bool) :
    ∀ (fuel : Nat) (s : Str) (c : Option Str), s.length ≤ fuel →
      (starRun (Re.cls p).run fuel (s, c)).head? = some (s.dropWhile p, c) := by
  intro fuel
  induction fuel with
  | zero =>
    intro s c hs
    have : s = [] := List.length_eq_zero.1 (Nat.le_zero.1 hs)
    subst this
    rfl
  | succ fuel ih =>
    intro s c hs
    cases s with
    | nil => simp [starRun, Re.run]
    | cons x xs =>
      by_cases hx : p x = true
      · have hlen : xs.length ≤ fuel := by simpa using hs
        have hrun : (Re.cls p).run (x :: xs, c) = [(xs, c)] := by simp [Re.run, hx]
        simp only [starRun, hrun, List.dropWhile_cons, hx, if_true]
        simp only [List.filter_cons, List.length_cons, Nat.lt_succ_self, decide_True, if_true,
          List.filter_nil, List.flatMap_cons, List.flatMap_nil, List.append_nil]
        rw [List.head?_append_of_ne_nil _ (starRun_ne_nil _ _ _)]
        exact ih xs c hlen
      · have hrun : (Re.cls p).run (x :: xs, c) = [] := by simp [Re.run, hx]
        simp [starRun, hrun, List.dropWhile_cons, hx]

theorem plus_cls_head (p : Nat → Bool) (x : Nat) (s : Str) (c : Option Str)
    (hx : p x = true) :
    ((Re.plus (Re.cls p)).run (x :: s, c)).head? = some (s.dropWhile p, c) := by
  have hrun : (Re.cls p).run (x :: s, c) = [(s, c)] := by simp [Re.run, hx]
  rw [Re.run, hrun, List.flatMap_cons, List.flatMap_nil, List.append_nil]
  exact starRun_cls_head p _ s c (Nat.le_refl _)

theorem dropWhile_append_of_all (p : Nat → Bool) (d rest : Str)
    (hd : ∀ c ∈ d, p c = true) (hr : ∀ c, rest.head? = some c → p c = false) :
    (d ++ rest).dropWhile p = rest := by
  induction d with
  | nil =>
    cases rest with
    | nil => rfl
    | cons y r =>
      have := hr y rfl
      simp [List.dropWhile_cons, this]
  | cons x d ih =>
    rw [List.cons_append, List.dropWhile_cons, hd x (List.mem_cons_self _ _)]
    exact ih (fun c hc => hd c (List.mem_cons_of_mem _ hc))

/-- One iteration of `(?:\.\d+)` fails on an input that does not begin with a dot
and a digit. -/
theorem dotStep_nil (rest : Str) (c : Option Str)
    (h : ∀ x s, rest = 0x2E :: x :: s → isDigit x = false) :
    (Re.seq (Re.oneOf (js ".")) (Re.plus (Re.cls isDigit))).run (rest, c) = [] := by
  cases rest with
  | nil => simp [Re.run, Re.oneOf]
  | cons y r =>
    by_cases hy : y = 0x2E
    · subst hy
      cases r with
      | nil =>
        have : decide (0x2E ∈ js ".") = true := by decide
        simp [Re.run, Re.oneOf, this]
      | cons x s =>
        have hx := h x s rfl
        have : decide (0x2E ∈ js ".") = true := by decide
        simp [Re.run, Re.oneOf, this, hx]
    · have : decide (y ∈ js ".") = false := by
        have hjs : js "." = [0x2E] := by decide
        rw [hjs]
        simpa using hy
      simp [Re.run, Re.oneOf, this]

/-- One iteration of `(?:\.\d+)` on a dot and a digit reads the dot and the longest
run of digits first. -/
theorem dotStep_head (x : Nat) (s : Str) (c : Option Str) (hx : isDigit x = true) :
    ((Re.seq (Re.oneOf (js ".")) (Re.plus (Re.cls isDigit))).run (0x2E :: x :: s, c)).head? =
      some (s.dropWhile isDigit, c) := by
  have hdot : (Re.oneOf (js ".")).run (0x2E :: x :: s, c) = [(x :: s, c)] := by
    have : decide (0x2E ∈ js ".") = true := by decide
    simp [Re.run, Re.oneOf, this]
  rw [Re.run, hdot, List.flatMap_cons, List.flatMap_nil, List.append_nil]
  exact plus_cls_head isDigit x s c hx

theorem head_dotted (ds : List Str) (rest : Str)
    (hr : ∀ c, rest.head? = some c → isDigit c = false) :
    ∀ c, (ds.flatMap (fun e => 0x2E :: e) ++ rest).head? = some c → isDigit c = false := by
  cases ds with
  | nil => simpa using hr
  | cons d ds =>
    intro c hc
    simp only [List.flatMap_cons, List.cons_append, List.head?_cons, Option.some.injEq] at hc
    rw [← hc]
    decide

/-- The greedy `(?:\.\d+)*` reads all the groups of a dotted tail first. -/
theorem starRun_dotted (ds : List Str) (rest : Str) (c : Option Str)
    (hd : ∀ e ∈ ds, e ≠ [] ∧ ∀ x ∈ e, isDigit x = true)
    (hr : ∀ x, rest.head? = some x → isDigit x = false)
    (hr2 : ∀ x s, rest = 0x2E :: x :: s → isDigit x = false) :
    ∀ fuel, (ds.flatMap (fun e => 0x2E :: e) ++ rest).length ≤ fuel →
      (starRun (Re.seq (Re.oneOf (js ".")) (Re.plus (Re.cls isDigit))).run fuel
        (ds.flatMap (fun e => 0x2E :: e) ++ rest, c)).head? = some (rest, c) := by
  induction ds with
  | nil =>
    intro fuel _
    cases fuel with
    | zero => rfl
    | succ fuel =>
      simp only [List.flatMap_nil, List.nil_append, starRun, dotStep_nil rest c hr2,
        List.filter_nil, List.head?_cons]
  | cons d ds ih =>
    intro fuel hfuel
    obtain ⟨hne, hdig⟩ := hd d (List.mem_cons_self _ _)
    have hd' : ∀ e ∈ ds, e ≠ [] ∧ ∀ x ∈ e, isDigit x = true :=
      fun e he => hd e (List.mem_cons_of_mem _ he)
    cases d with
    | nil => exact absurd rfl hne
    | cons x d =>
      have hx : isDigit x = true := hdig x (List.mem_cons_self _ _)
      have hrest2 := head_dotted ds rest hr
      have hdrop : (d ++ (ds.flatMap (fun e => 0x2E :: e) ++ rest)).dropWhile isDigit =
          ds.flatMap (fun e => 0x2E :: e) ++ rest :=
        dropWhile_append_of_all isDigit d _
          (fun y hy => hdig y (List.mem_cons_of_mem _ hy)) hrest2
      have hs : ((x :: d) :: ds).flatMap (fun e => 0x2E :: e) ++ rest =
          0x2E :: x :: (d ++ (ds.flatMap (fun e => 0x2E :: e) ++ rest)) := by
        simp
      rw [hs] at hfuel ⊢
      cases fuel with
      | zero => simp at hfuel
      | succ fuel =>
        have hhead := dotStep_head x (d ++ (ds.flatMap (fun e => 0x2E :: e) ++ rest)) c hx
        rw [hdrop] at hhead
        rw [starRun]
        cases hrun : (Re.seq (Re.oneOf (js ".")) (Re.plus (Re.cls isDigit))).run
            (0x2E :: x :: (d ++ (ds.flatMap (fun e => 0x2E :: e) ++ rest)), c) with
        | nil => rw [hrun] at hhead; cases hhead
        | cons r rs =>
          rw [hrun] at hhead
          simp only [List.head?_cons, Option.some.injEq] at hhead
          subst hhead
          have hlt : (ds.flatMap (fun e => 0x2E :: e) ++ rest).length <
              (0x2E :: x :: (d ++ (ds.flatMap (fun e => 0x2E :: e) ++ rest))).length := by
            simp only [List.length_cons, List.length_append]
            omega
          rw [List.filter_cons, if_pos (by simpa using hlt), List.flatMap_cons,
            List.append_assoc, List.head?_append_of_ne_nil _ (starRun_ne_nil _ _ _)]
          apply ih hd'
          simp only [List.length_cons, List.length_append] at hfuel hlt ⊢
          omega
theorem terminator_not_digit (t : Nat) (ht : t ∈ js ".、）)") : isDigit t = false := by
  have hjs : js ".、）)" = [0x2E, 0x3001, 0xFF09, 0x29] := by decide
  rw [hjs] at ht
  simp only [List.mem_cons, List.mem_singleton, List.not_mem_nil, or_false] at ht
  rcases ht with rfl | rfl | rfl | rfl <;> decide

/-- The first pattern on a terminated hierarchy: the match found first captures
the whole hierarchy. -/
theorem pattern1_exec (d : Str) (ds : List Str) (t : Nat) (rest : Str)
    (hd : ∀ e ∈ d :: ds, e ≠ [] ∧ ∀ c ∈ e, isDigit c = true)
    (ht : t ∈ js ".、）)")
    (hmax : t = 0x2E → ∀ c, rest.head? = some c → isDigit c = false) :
    (Re.seq (Re.group (Re.seq (Re.plus (Re.cls isDigit))
            (Re.star (Re.seq (Re.oneOf (js ".")) (Re.plus (Re.cls isDigit))))))
      (Re.seq (Re.oneOf (js ".、）)")) (Re.star (Re.cls isWhiteSpace)))).exec
        (hierarchy d ds ++ t :: rest) = some (some (hierarchy d ds)) := by
  have htd := terminator_not_digit t ht
  obtain ⟨hne, hdig⟩ := hd d (List.mem_cons_self _ _)
  have hds : ∀ e ∈ ds, e ≠ [] ∧ ∀ x ∈ e, isDigit x = true :=
    fun e he => hd e (List.mem_cons_of_mem _ he)
  have hr : ∀ x, (t :: rest).head? = some x → isDigit x = false := by
    intro x hx
    simp only [List.head?_cons, Option.some.injEq] at hx
    rw [← hx]
    exact htd
  have hr2 : ∀ x s, t :: rest = 0x2E :: x :: s → isDigit x = false := by
    intro x s h
    simp only [List.cons.injEq] at h
    exact hmax h.1 x (by rw [h.2]; rfl)
  cases d with
  | nil => exact absurd rfl hne
  | cons x d =>
    have hx : isDigit x = true := hdig x (List.mem_cons_self _ _)
    have hs : hierarchy (x :: d) ds ++ t :: rest =
        x :: (d ++ (ds.flatMap (fun e => 0x2E :: e) ++ t :: rest)) := by
      simp [hierarchy]
    -- `\d+` reads `d1`
    have hplus : ((Re.plus (Re.cls isDigit)).run
        (hierarchy (x :: d) ds ++ t :: rest, none)).head? =
        some (ds.flatMap (fun e => 0x2E :: e) ++ t :: rest, none) := by
      rw [hs, plus_cls_head isDigit x _ none hx,
        dropWhile_append_of_all isDigit d _
          (fun y hy => hdig y (List.mem_cons_of_mem _ hy)) (head_dotted ds _ hr)]
    -- `(?:\.\d+)*` reads the rest of the hierarchy
    have hstar : ((Re.star (Re.seq (Re.oneOf (js ".")) (Re.plus (Re.cls isDigit)))).run
        (ds.flatMap (fun e => 0x2E :: e) ++ t :: rest, none)).head? =
        some (t :: rest, none) := by
      rw [Re.run]
      exact starRun_dotted ds (t :: rest) none hds hr hr2 _ (Nat.le_refl _)
    have hinner : ((Re.seq (Re.plus (Re.cls isDigit))
        (Re.star (Re.seq (Re.oneOf (js ".")) (Re.plus (Re.cls isDigit))))).run
        (hierarchy (x :: d) ds ++ t :: rest, none)).head? = some (t :: rest, none) := by
      rw [Re.run, head?_flatMap _ _ _ hplus, hstar]
      intro h
      rw [h] at hstar
      cases hstar
    have htake : (hierarchy (x :: d) ds ++ t :: rest).take
        ((hierarchy (x :: d) ds ++ t :: rest).length - (t :: rest).length) =
        hierarchy (x :: d) ds := by
      rw [List.length_append, Nat.add_sub_cancel, List.take_left]
    have hgroup : ((Re.group (Re.seq (Re.plus (Re.cls isDigit))
        (Re.star (Re.seq (Re.oneOf (js ".")) (Re.plus (Re.cls isDigit)))))).run
        (hierarchy (x :: d) ds ++ t :: rest, none)).head? =
        some (t :: rest, some (hierarchy (x :: d) ds)) := by
      rw [Re.run, List.head?_map, hinner]
      simp only [Option.map_some', htake]
    have hterm : (Re.oneOf (js ".、）)")).run (t :: rest, some (hierarchy (x :: d) ds)) =
        [(rest, some (hierarchy (x :: d) ds))] := by
      have : decide (t ∈ js ".、）)") = true := decide_eq_true ht
      simp only [Re.oneOf, Re.run, this, if_true]
    have htail : ((Re.seq (Re.oneOf (js ".、）)")) (Re.star (Re.cls isWhiteSpace))).run
        (t :: rest, some (hierarchy (x :: d) ds))).head? =
        some (rest.dropWhile isWhiteSpace, some (hierarchy (x :: d) ds)) := by
      rw [Re.run, hterm, List.flatMap_cons, List.flatMap_nil, List.append_nil, Re.run]
      exact starRun_cls_head isWhiteSpace _ rest _ (Nat.le_refl _)
    rw [Re.exec, Re.run, head?_flatMap _ _ _ hgroup, htail]
    · rfl
    · intro h
      rw [h] at htail
      cases htail

theorem exec_ne_some_none (r : Re) (hr : r ∈ sectionPatterns) (s : Str) :
    r.exec s ≠ some none := by
  intro hexec
  unfold Re.exec at hexec
  cases hh : (r.run (s, none)).head? with
  | none => rw [hh] at hexec; cases hexec
  | some st =>
    rw [hh] at hexec
    have hmem : st ∈ r.run (s, none) := List.mem_of_mem_head? hh
    obtain ⟨n, hn, _⟩ := r.run_captures (sectionPatterns_capture r hr) _ st hmem
    simp only [Option.map_some', Option.some.injEq] at hexec
    rw [hn] at hexec
    cases hexec

theorem extractSectionNumber_eq_none (text : Str) :
    extractSectionNumber text = none ↔ ∀ r ∈ sectionPatterns, r.exec (trim text) = none := by
  unfold extractSectionNumber
  by_cases h : text = []
  · subst h
    simp only [if_true, true_iff]
    decide
  · rw [if_neg h]
    cases hf : sectionPatterns.findSome? (fun r => r.exec (trim text)) with
    | none =>
      have hj : (none : Option (Option Str)).join = none := rfl
      rw [hj]
      exact ⟨fun _ => List.findSome?_eq_none_iff.1 hf, fun _ => rfl⟩
    | some c =>
      obtain ⟨r, hr, hexec⟩ := List.exists_of_findSome?_eq_some hf
      cases c with
      | none => exact absurd hexec (exec_ne_some_none r hr _)
      | some n =>
        have hj : (some (some n) : Option (Option Str)).join = some n := rfl
        rw [hj]
        constructor
        · intro hc
          cases hc
        · intro hall
          rw [hall r hr] at hexec
          cases hexec

/-- C30. When the trimmed text is a dotted hierarchy `d1.d2.….dk` of non-empty digit
strings, followed by one of `.`, `、`, `）`, `)`, and the hierarchy is maximal (after a
terminating dot no digit follows), `extractSectionNumber` returns the whole
hierarchy `d1.d2.….dk`. For every text, `extractSectionNumber` returns `null`
exactly when none of the five patterns matches the trimmed text. The number of
`1.1.1、总则` is `1.1.1`. -/
theorem C30_terminated_hierarchy (text d : Str) (ds : List Str) (t : Nat) (rest : Str)
    (hd : ∀ e ∈ d :: ds, e ≠ [] ∧ ∀ c ∈ e, isDigit c = true)
    (ht : t ∈ js ".、）)")
    (hmax : t = 0x2E → ∀ c, rest.head? = some c → isDigit c = false)
    (htext : trim text = hierarchy d ds ++ t :: rest) :
    extractSectionNumber text = some (hierarchy d ds) ∧
    (∀ text2 : Str, extractSectionNumber text2 = none ↔
      ∀ r ∈ sectionPatterns, r.exec (trim text2) = none) ∧
    sectionPatterns.length = 5 ∧
    extractSectionNumber (js "1.1.1、总则") = some (js "1.1.1") := by
  refine ⟨?_, extractSectionNumber_eq_none, rfl, by decide⟩
  have hne : text ≠ [] := by
    intro h
    rw [h] at htext
    have h0 : trim [] = [] := rfl
    rw [h0] at htext
    have hlen := congrArg List.length htext
    simp only [List.length_nil, List.length_append, List.length_cons] at hlen
    omega
  have hexec := pattern1_exec d ds t rest hd ht hmax
  unfold extractSectionNumber
  rw [if_neg hne, htext]
  unfold sectionPatterns
  rw [List.findSome?_cons, hexec]
  rfl

/-- C30 at `1.1.1、总则`: the hierarchy is `1`, `1`, `1`, the terminator `、`. -/
theorem C30_terminated_hierarchy_witness :
    trim (js "1.1.1、总则") = hierarchy (js "1") [js "1", js "1"] ++ 0x3001 :: js "总则" ∧
    extractSectionNumber (js "1.1.1、总则") = some (hierarchy (js "1") [js "1", js "1"]) :=
  ⟨by decide,
    (C30_terminated_hierarchy (js "1.1.1、总则") (js "1") [js "1", js "1"] 0x3001 (js "总则")
      (by decide) (by decide) (fun h => absurd h (by decide)) (by decide)).1⟩

theorem foldl_invariant {σ α : Type} (P : σ → Prop) (f : σ → α → σ)
    (h : ∀ s a, P s → P (f s a)) : ∀ (xs : List α) (s : σ), P s → P (xs.foldl f s) := by
  intro xs
  induction xs with
  | nil => intro s hs; exact hs
  | cons x xs ih => intro s hs; exact ih _ (h s x hs)

theorem indexSpanStep_inside (o : Nat) (st : Str × List IndexSpan) (span : Span)
    (h : ∀ sp ∈ st.2, o ≤ sp.charStart ∧ sp.charEnd ≤ o + st.1.length) :
    ∀ sp ∈ (indexSpanStep o st span).2,
      o ≤ sp.charStart ∧ sp.charEnd ≤ o + (indexSpanStep o st span).1.length := by
  unfold indexSpanStep
  cases span.content with
  | none => exact h
  | some content =>
    cases span.bbox with
    | none => exact h
    | some bbox =>
      by_cases hc : content = []
      · simp only [if_pos hc]
        exact h
      · simp only [if_neg hc]
        intro sp hsp
        rw [List.mem_append, List.mem_singleton] at hsp
        rw [List.length_append]
        rcases hsp with hsp | rfl
        · have := h sp hsp
          omega
        · simp only
          omega

theorem indexLines_inside (o : Nat) (lines : Option (List Line)) :
    ∀ sp ∈ (indexLines o lines).2,
      o ≤ sp.charStart ∧ sp.charEnd ≤ o + (indexLines o lines).1.length := by
  unfold indexLines
  apply foldl_invariant
    (fun st : Str × List IndexSpan =>
      ∀ sp ∈ st.2, o ≤ sp.charStart ∧ sp.charEnd ≤ o + st.1.length)
  · intro st line hst
    exact foldl_invariant
      (fun st : Str × List IndexSpan =>
        ∀ sp ∈ st.2, o ≤ sp.charStart ∧ sp.charEnd ≤ o + st.1.length)
      (indexSpanStep o) (fun s a hs => indexSpanStep_inside o s a hs) _ st hst
  · intro sp hsp
    cases hsp

theorem processBlock_inside (pageIdx : Option Int) (pageSize : List ℚ)
    (lines : Option (List Line)) (bbox parentBbox : Option BBox) (st : Nat × List IndexBlock)
    (h : ∀ b ∈ st.2, SpansInside b) :
    ∀ b ∈ (processBlock pageIdx pageSize lines bbox parentBbox st).2, SpansInside b := by
  unfold processBlock
  by_cases he : (indexLines st.1 lines).1 = []
  · rw [if_pos he]
    exact h
  · rw [if_neg he]
    intro b hb
    rw [List.mem_append, List.mem_singleton] at hb
    rcases hb with hb | rfl
    · exact h b hb
    · exact indexLines_inside st.1 lines

theorem indexBlockStep_inside (pageIdx : Option Int) (pageSize : List ℚ)
    (st : Nat × List IndexBlock) (block : Block) (h : ∀ b ∈ st.2, SpansInside b) :
    ∀ b ∈ (indexBlockStep pageIdx pageSize st block).2, SpansInside b := by
  unfold indexBlockStep
  cases block.blocks with
  | none => exact processBlock_inside _ _ _ _ _ st h
  | some subBlocks =>
    exact foldl_invariant (fun st : Nat × List IndexBlock => ∀ b ∈ st.2, SpansInside b) _
      (fun s a hs => processBlock_inside _ _ _ _ _ s hs) subBlocks st h

theorem buildCharacterIndex_inside (json : Doc) :
    ∀ b ∈ (buildCharacterIndex json).allBlocks, SpansInside b := by
  have h : ∀ page ∈ ((json.pdf_info.getD []).foldl indexPageStep (0, [])).2,
      ∀ b ∈ page.blocks, SpansInside b := by
    apply foldl_invariant
      (fun st : Nat × List IndexPage => ∀ page ∈ st.2, ∀ b ∈ page.blocks, SpansInside b)
    · intro st page hst p hp
      unfold indexPageStep at hp
      rw [List.mem_append, List.mem_singleton] at hp
      rcases hp with hp | rfl
      · exact hst p hp
      · exact foldl_invariant (fun st : Nat × List IndexBlock => ∀ b ∈ st.2, SpansInside b) _
          (fun s a hs => indexBlockStep_inside _ _ s a hs) _ (st.1, [])
          (fun b hb => by cases hb)
    · intro page hp
      cases hp
  intro b hb
  unfold CharIndex.allBlocks buildCharacterIndex at hb
  obtain ⟨page, hpage, hb⟩ := List.mem_flatMap.1 hb
  exact h page hpage b hb

theorem blockHits_eq_literal (block : IndexBlock) (s e : Nat) (h : SpansInside block) : blockHits block s e = blockHitsLiteral block s e := by
  unfold blockHits blockHitsLiteral
  by_cases ho : overlapsRange block.charStart block.charEnd s e = true
  · rw [if_pos ho, if_pos ho]
  · have hnil : spanHits block s e = [] := by
      unfold spanHits
      rw [List.map_eq_nil_iff, List.filter_eq_nil_iff]
      intro span hspan hov
      apply ho
      obtain ⟨h1, h2⟩ := h span hspan
      simp only [overlapsRange, decide_eq_true_eq] at hov ⊢
      omega
    rw [if_neg ho, if_pos hnil, if_neg ho]

theorem subBlockStep_clean (block : Block) (pageIdx : Option Int) (ps : List Paragraph)
    (subBlock : SubBlock) :
    subBlockStep block pageIdx ([], ps) subBlock =
      ([], ps ++ (childParagraph block pageIdx subBlock).toList) := by
  unfold subBlockStep childParagraph
  simp only [addLines_eq, List.nil_append]
  by_cases h : blockContent subBlock.lines = []
  · simp [h]
  · simp [h]

theorem foldl_subBlockStep_clean (block : Block) (pageIdx : Option Int)
    (subBlocks : List SubBlock) :
    ∀ ps, subBlocks.foldl (subBlockStep block pageIdx) ([], ps) =
      ([], ps ++ subBlocks.filterMap (childParagraph block pageIdx)) := by
  induction subBlocks with
  | nil => intro ps; simp
  | cons sb subBlocks ih =>
    intro ps
    rw [List.foldl_cons, subBlockStep_clean, ih, List.filterMap_cons]
    cases childParagraph block pageIdx sb <;> simp

/-- C31, on the code. The block has the line `标题` of its own and the nested blocks
`条款一` and `条款二`. `blockText` already holds `标题` when the loop over the nested
blocks starts, so the paragraph of the first nested block is `标题条款一`, not `条款一`;
the second is `条款二`. With one nested block without text, a paragraph `标题` is
pushed for it. `extractBlocksWithBbox` starts each nested block from an empty
text and gives `条款一`. When the lines of the parent carry no text, the paragraphs
are one per nested block with non-empty text, in order, each with the nested
block's own text trimmed. -/
theorem C31_parent_text_leaks :
    (extractParagraphs sampleNestedDoc).map (fun p => p.text) = [js "标题条款一", js "条款二"] ∧
    (extractParagraphs sampleNestedDoc).map (fun p => p.text) ≠ [js "条款一", js "条款二"] ∧
    (extractParagraphs sampleNestedEmptyChildDoc).map (fun p => p.text) = [js "标题"] ∧
    (extractBlocksWithBbox sampleNestedDoc).map (fun b => b.text) = [js "条款一", js "条款二"] ∧
    (∀ (block : Block) (subBlocks : List SubBlock) (pageIdx : Option Int)
        (paragraphs : List Paragraph),
      block.blocks = some subBlocks → blockContent block.lines = [] →
      blockStep pageIdx paragraphs block =
        paragraphs ++ subBlocks.filterMap (childParagraph block pageIdx)) := by
  refine ⟨by decide, by decide, by decide, by decide, ?_⟩
  intro block subBlocks pageIdx paragraphs hb hc
  unfold blockStep
  rw [hb]
  simp only [addLines_eq, List.nil_append, hc, foldl_subBlockStep_clean]

theorem dropWhile_concat_of_not (p : Nat → Bool) (l : Str) (a : Nat) (ha : p a = false) :
    (l ++ [a]).dropWhile p = l.dropWhile p ++ [a] := by
  induction l with
  | nil => simp [List.dropWhile, ha]
  | cons x l ih =>
    by_cases hx : p x = true
    · simp only [List.cons_append, List.dropWhile_cons, hx, if_true]
      exact ih
    · simp [List.dropWhile_cons, hx]

theorem head?_trim (t : Str) : (trim t).head? = t.find? (fun c => !isWhiteSpace c) := by
  rw [← head?_dropWhile]
  unfold trim
  cases hu : t.dropWhile isWhiteSpace with
  | nil => rfl
  | cons a u =>
    have ha : isWhiteSpace a = false := by
      have := List.head_dropWhile_not isWhiteSpace t (by rw [hu]; simp)
      simpa [hu] using this
    rw [List.reverse_cons, dropWhile_concat_of_not isWhiteSpace _ a ha, List.reverse_append]
    rfl

theorem noEdgeSpace_trim (t : Str) : NoEdgeSpace (trim t) := by
  constructor
  · intro c hc
    rw [head?_trim] at hc
    simpa using List.find?_some hc
  · intro c hc
    rw [getLast?_trim] at hc
    simpa using List.find?_some hc

theorem noEdgeSpace_append (a b : Str) (ha : NoEdgeSpace a) (hb : NoEdgeSpace b) :
    NoEdgeSpace (a ++ b) := by
  constructor
  · intro c hc
    cases a with
    | nil => exact hb.1 c hc
    | cons x a => exact ha.1 c hc
  · intro c hc
    by_cases hbn : b = []
    · subst hbn
      rw [List.append_nil] at hc
      exact ha.2 c hc
    · rw [List.getLast?_append_of_ne_nil _ hbn] at hc
      exact hb.2 c hc

theorem trim_eq_of_noEdgeSpace (s : Str) (h : NoEdgeSpace s) : trim s = s := by
  unfold trim
  cases s with
  | nil => rfl
  | cons a s =>
    have ha : isWhiteSpace a = false := h.1 a rfl
    have h1 : (a :: s).dropWhile isWhiteSpace = a :: s := by
      simp [List.dropWhile_cons, ha]
    rw [h1]
    cases hr : (a :: s).reverse with
    | nil => simp at hr
    | cons b r =>
      have hlast : (a :: s).getLast? = some b := by
        rw [← List.head?_reverse, hr]
        rfl
      have hb : isWhiteSpace b = false := h.2 b hlast
      have h2 : (b :: r).dropWhile isWhiteSpace = b :: r := by
        simp [List.dropWhile_cons, hb]
      rw [h2, ← hr, List.reverse_reverse]

theorem subBlockStep_noEdge (block : Block) (pageIdx : Option Int)
    (st : Str × List Paragraph) (subBlock : SubBlock)
    (h : ∀ p ∈ st.2, NoEdgeSpace p.text) :
    ∀ p ∈ (subBlockStep block pageIdx st subBlock).2, NoEdgeSpace p.text := by
  unfold subBlockStep
  split_ifs
  · exact h
  · intro p hp
    rw [List.mem_append, List.mem_singleton] at hp
    rcases hp with hp | rfl
    · exact h p hp
    · exact noEdgeSpace_trim _

theorem blockStep_noEdge (pageIdx : Option Int) (paragraphs : List Paragraph) (block : Block)
    (h : ∀ p ∈ paragraphs, NoEdgeSpace p.text) :
    ∀ p ∈ blockStep pageIdx paragraphs block, NoEdgeSpace p.text := by
  unfold blockStep
  cases block.blocks with
  | some subBlocks =>
    exact foldl_invariant (fun st : Str × List Paragraph => ∀ p ∈ st.2, NoEdgeSpace p.text) _
      (fun s a hs => subBlockStep_noEdge block pageIdx s a hs) subBlocks _ h
  | none =>
    simp only
    split_ifs
    · exact h
    · intro p hp
      rw [List.mem_append, List.mem_singleton] at hp
      rcases hp with hp | rfl
      · exact h p hp
      · exact noEdgeSpace_trim _

theorem extractParagraphs_noEdge (json : Doc) :
    ∀ p ∈ extractParagraphs json, NoEdgeSpace p.text := by
  unfold extractParagraphs
  apply foldl_invariant (fun ps : List Paragraph => ∀ p ∈ ps, NoEdgeSpace p.text)
  · intro ps page hps
    exact foldl_invariant (fun ps : List Paragraph => ∀ p ∈ ps, NoEdgeSpace p.text) _
      (fun s a hs => blockStep_noEdge page.page_idx s a hs) _ ps hps
  · intro p hp
    cases hp

theorem mergeFrom_noEdge (rest : List Paragraph) :
    ∀ current : Paragraph, NoEdgeSpace current.text → (∀ p ∈ rest, NoEdgeSpace p.text) →
      ∀ q ∈ mergeFrom current rest, NoEdgeSpace q.text := by
  induction rest with
  | nil =>
    intro current hc _ q hq
    rw [mergeFrom, List.mem_singleton] at hq
    rw [hq]
    exact hc
  | cons next rest ih =>
    intro current hc hrest q hq
    have hn := hrest next (List.mem_cons_self _ _)
    have hr : ∀ p ∈ rest, NoEdgeSpace p.text := fun p hp => hrest p (List.mem_cons_of_mem _ hp)
    rw [mergeFrom] at hq
    split_ifs at hq
    · exact ih _ (noEdgeSpace_append _ _ hc hn) hr q hq
    · rcases List.mem_cons.1 hq with rfl | hq
      · exact hc
      · exact ih next hn hr q hq

theorem mergeCrossPageParagraphs_noEdge (ps : List Paragraph)
    (h : ∀ p ∈ ps, NoEdgeSpace p.text) :
    ∀ q ∈ mergeCrossPageParagraphs ps, NoEdgeSpace q.text := by
  unfold mergeCrossPageParagraphs
  split_ifs
  · exact h
  · cases ps with
    | nil => intro q hq; cases hq
    | cons first rest =>
      exact mergeFrom_noEdge rest first (h first (List.mem_cons_self _ _))
        (fun p hp => h p (List.mem_cons_of_mem _ hp))

/-- C32. For every document, every paragraph returned by `parseContractJSON`, after
the merge, has a text without leading and without trailing white space: its first
and its last character, when it has one, are not white space, and trimming the
text leaves it as it is. -/
theorem C32_trimmed_after_merge (json : Doc) :
    ∀ p ∈ parseContractJSON json,
      (∀ c, p.text.head? = some c → isWhiteSpace c = false) ∧
      (∀ c, p.text.getLast? = some c → isWhiteSpace c = false) ∧
      trim p.text = p.text := by
  intro p hp
  have h := mergeCrossPageParagraphs_noEdge _ (extractParagraphs_noEdge json) p hp
  exact ⟨h.1, h.2, trim_eq_of_noEdgeSpace _ h⟩

/-- C32 on the document of two pages whose title ` 合同 ` and text `甲方` are merged into
`合同甲方`. -/
theorem C32_trimmed_after_merge_witness :
    ({ text := js "合同甲方", type := some (js "title"), pageIdx := some 0 } : Paragraph) ∈
      parseContractJSON sampleLeafDoc ∧
    trim (js "合同甲方") = js "合同甲方" :=
  ⟨by decide,
    (C32_trimmed_after_merge sampleLeafDoc
      { text := js "合同甲方", type := some (js "title"), pageIdx := some 0 } (by decide)).2.2⟩

theorem startPatterns_eq_erase : startPatterns = sectionPatterns.map Re.erase := rfl

theorem flatMap_fst_congr (f g : MState → List MState)
    (h : ∀ s c c2, (f (s, c)).map Prod.fst = (g (s, c2)).map Prod.fst) :
    ∀ l1 l2 : List MState, l1.map Prod.fst = l2.map Prod.fst →
      (l1.flatMap f).map Prod.fst = (l2.flatMap g).map Prod.fst := by
  intro l1
  induction l1 with
  | nil =>
    intro l2 hl
    cases l2 with
    | nil => rfl
    | cons y l2 => cases hl
  | cons x l1 ih =>
    intro l2 hl
    cases l2 with
    | nil => cases hl
    | cons y l2 =>
      simp only [List.map_cons, List.cons.injEq] at hl
      obtain ⟨x1, x2⟩ := x
      obtain ⟨y1, y2⟩ := y
      simp only at hl
      obtain ⟨hxy, htl⟩ := hl
      subst hxy
      rw [List.flatMap_cons, List.flatMap_cons, List.map_append, List.map_append,
        h x1 x2 y2, ih l2 htl]

theorem filter_fst_congr (q : Str → Bool) :
    ∀ l1 l2 : List MState, l1.map Prod.fst = l2.map Prod.fst →
      (l1.filter (fun r => q r.1)).map Prod.fst = (l2.filter (fun r => q r.1)).map Prod.fst := by
  intro l1
  induction l1 with
  | nil =>
    intro l2 hl
    cases l2 with
    | nil => rfl
    | cons y l2 => cases hl
  | cons x l1 ih =>
    intro l2 hl
    cases l2 with
    | nil => cases hl
    | cons y l2 =>
      simp only [List.map_cons, List.cons.injEq] at hl
      obtain ⟨hxy, htl⟩ := hl
      rw [List.filter_cons, List.filter_cons, ← hxy]
      by_cases hq : q x.1 = true
      · rw [if_pos hq, if_pos hq, List.map_cons, List.map_cons, ih l2 htl, hxy]
      · rw [if_neg hq, if_neg hq, ih l2 htl]

theorem starRun_fst_congr (f g : MState → List MState)
    (h : ∀ s c c2, (f (s, c)).map Prod.fst = (g (s, c2)).map Prod.fst) :
    ∀ (n : Nat) (s : Str) (c c2 : Option Str),
      (starRun f n (s, c)).map Prod.fst = (starRun g n (s, c2)).map Prod.fst := by
  intro n
  induction n with
  | zero => intro s c c2; rfl
  | succ n ih =>
    intro s c c2
    simp only [starRun, List.map_append, List.map_cons, List.map_nil]
    congr 1
    apply flatMap_fst_congr _ _ ih
    exact filter_fst_congr (fun t => decide (t.length < s.length)) _ _ (h s c c2)

/-- Erasing the capture groups of a pattern does not change the inputs that its
matches leave, nor their order. -/
theorem Re.run_erase (r : Re) :
    ∀ s c c2, (r.erase.run (s, c)).map Prod.fst = (r.run (s, c2)).map Prod.fst := by
  induction r with
  | cls p =>
    intro s c c2
    cases s with
    | nil => rfl
    | cons x xs =>
      simp only [Re.erase, Re.run]
      split_ifs <;> rfl
  | seq a b iha ihb =>
    intro s c c2
    simp only [Re.erase, Re.run]
    exact flatMap_fst_congr _ _ ihb _ _ (iha s c c2)
  | opt a iha =>
    intro s c c2
    simp only [Re.erase, Re.run, List.map_append, List.map_cons, List.map_nil]
    rw [iha s c c2]
  | star a iha =>
    intro s c c2
    simp only [Re.erase, Re.run]
    exact starRun_fst_congr _ _ iha _ s c c2
  | plus a iha =>
    intro s c c2
    simp only [Re.erase, Re.run]
    apply flatMap_fst_congr _ _ _ _ _ (iha s c c2)
    intro s1 c1 c3
    exact starRun_fst_congr _ _ iha _ s1 c1 c3
  | group a iha =>
    intro s c c2
    simp only [Re.erase, Re.run, List.map_map]
    rw [iha s c c2]
    rfl

theorem Re.test_erase (r : Re) (s : Str) : r.erase.test s = (r.exec s).isSome := by
  unfold Re.test Re.exec
  have h := Re.run_erase r s none none
  cases h1 : r.erase.run (s, none) with
  | nil =>
    rw [h1] at h
    cases h2 : r.run (s, none) with
    | nil => rfl
    | cons y l => rw [h2] at h; cases h
  | cons x l =>
    rw [h1] at h
    cases h2 : r.run (s, none) with
    | nil => rw [h2] at h; cases h
    | cons y l => rfl

theorem startsWithSectionNumber_iff (t : Str) :
    startsWithSectionNumber t = true ↔ extractSectionNumber t ≠ none := by
  rw [Ne, extractSectionNumber_eq_none]
  unfold startsWithSectionNumber beginsWithSectionNumber
  by_cases ht : t = []
  · subst ht
    simp only [if_true, Bool.false_eq_true, false_iff, not_not]
    decide
  · rw [if_neg ht, startPatterns_eq_erase, List.any_map, List.any_eq_true]
    constructor
    · rintro ⟨r, hr, htest⟩ hall
      simp only [Function.comp, Re.test_erase, hall r hr] at htest
      cases htest
    · intro hex
      by_contra hno
      apply hex
      intro r hr
      by_contra hne
      apply hno
      refine ⟨r, hr, ?_⟩
      simp only [Function.comp, Re.test_erase]
      cases hx : r.exec (trim t) with
      | none => exact absurd hx hne
      | some v => rfl

/-- C33. The two recognisers of section numbers agree: for every string `t`,
`startsWithSectionNumber(t)` is true if and only if `extractSectionNumber(t)` is
not `null`, if and only if the text has a key for Tier 1; a token that is
extracted is never empty. The patterns of `startsWithSectionNumber` are those of
`extractSectionNumber` without the capture groups. -/
theorem C33_recognisers_agree (t : Str) :
    (startsWithSectionNumber t = true ↔ extractSectionNumber t ≠ none) ∧
    (∀ num, extractSectionNumber t = some num → num ≠ []) ∧
    (startsWithSectionNumber t = true ↔ sectionKey t ≠ none) ∧
    startPatterns = sectionPatterns.map Re.erase := by
  refine ⟨startsWithSectionNumber_iff t, fun num h => extractSectionNumber_ne_nil t num h, ?_,
    rfl⟩
  rw [startsWithSectionNumber_iff, Ne, Ne, sectionKey_eq_none]

theorem starRun_self_mem (step : MState → List MState) (n : Nat) (st : MState) :
    st ∈ starRun step n st := by
  cases n with
  | zero => simp [starRun]
  | succ n => simp [starRun]

theorem starRun_extend (v : Str) (f g : MState → List MState)
    (h : ∀ s c c2 x, x ∈ f (s, c) → ∃ y ∈ g (s ++ v, c2), y.1 = x.1 ++ v) :
    ∀ (n : Nat) (s : Str) (c c2 : Option Str) (x : MState), x ∈ starRun f n (s, c) →
      ∀ m, n ≤ m → ∃ y ∈ starRun g m (s ++ v, c2), y.1 = x.1 ++ v := by
  intro n
  induction n with
  | zero =>
    intro s c c2 x hx m _
    simp only [starRun, List.mem_singleton] at hx
    subst hx
    exact ⟨(s ++ v, c2), starRun_self_mem g m _, rfl⟩
  | succ n ih =>
    intro s c c2 x hx m hm
    cases m with
    | zero => omega
    | succ m =>
      simp only [starRun, List.mem_append, List.mem_singleton, List.mem_flatMap,
        List.mem_filter, decide_eq_true_eq] at hx
      rcases hx with ⟨z, ⟨hz, hlen⟩, hxz⟩ | rfl
      · obtain ⟨z2, hz2, hz2v⟩ := h s c c2 z hz
        obtain ⟨y, hy, hyv⟩ := ih z.1 z.2 z2.2 x hxz m (by omega)
        refine ⟨y, ?_, hyv⟩
        simp only [starRun, List.mem_append, List.mem_flatMap, List.mem_filter,
          decide_eq_true_eq]
        left
        refine ⟨z2, ⟨hz2, ?_⟩, ?_⟩
        · rw [hz2v, List.length_append, List.length_append]
          omega
        · have : z2 = (z.1 ++ v, z2.2) := by rw [← hz2v]
          rw [this]
          exact hy
      · exact ⟨(s ++ v, c2), starRun_self_mem g _ _, rfl⟩

/-- A pattern that matches a prefix of a text matches a prefix of every extension
of the text, leaving the added part unread. -/
theorem Re.run_extend (v : Str) (r : Re) :
    ∀ s c c2 x, x ∈ r.run (s, c) → ∃ y ∈ r.run (s ++ v, c2), y.1 = x.1 ++ v := by
  induction r with
  | cls p =>
    intro s c c2 x hx
    cases s with
    | nil => simp [Re.run] at hx
    | cons a s =>
      simp only [Re.run] at hx ⊢
      by_cases hp : p a = true
      · simp only [hp, if_true, List.mem_singleton] at hx
        subst hx
        exact ⟨(s ++ v, c2), by simp [hp], rfl⟩
      · simp [hp] at hx
  | seq a b iha ihb =>
    intro s c c2 x hx
    simp only [Re.run, List.mem_flatMap] at hx ⊢
    obtain ⟨m, hm, hxm⟩ := hx
    obtain ⟨m2, hm2, hm2v⟩ := iha s c c2 m hm
    obtain ⟨y, hy, hyv⟩ := ihb m.1 m.2 m2.2 x hxm
    refine ⟨y, ⟨m2, hm2, ?_⟩, hyv⟩
    have : m2 = (m.1 ++ v, m2.2) := by rw [← hm2v]
    rw [this]
    exact hy
  | opt a iha =>
    intro s c c2 x hx
    simp only [Re.run, List.mem_append, List.mem_singleton] at hx ⊢
    rcases hx with hx | rfl
    · obtain ⟨y, hy, hyv⟩ := iha s c c2 x hx
      exact ⟨y, Or.inl hy, hyv⟩
    · exact ⟨(s ++ v, c2), Or.inr rfl, rfl⟩
  | star a iha =>
    intro s c c2 x hx
    simp only [Re.run] at hx ⊢
    exact starRun_extend v _ _ iha _ s c c2 x hx _ (by simp)
  | plus a iha =>
    intro s c c2 x hx
    simp only [Re.run, List.mem_flatMap] at hx ⊢
    obtain ⟨m, hm, hxm⟩ := hx
    obtain ⟨m2, hm2, hm2v⟩ := iha s c c2 m hm
    obtain ⟨y, hy, hyv⟩ := starRun_extend v _ _ iha _ m.1 m.2 m2.2 x hxm (m.1 ++ v).length
      (by simp)
    refine ⟨y, ⟨m2, hm2, ?_⟩, hyv⟩
    have : m2 = (m.1 ++ v, m2.2) := by rw [← hm2v]
    rw [this]
    exact hy
  | group a iha =>
    intro s c c2 x hx
    simp only [Re.run, List.mem_map] at hx ⊢
    obtain ⟨m, hm, rfl⟩ := hx
    obtain ⟨m2, hm2, hm2v⟩ := iha s c c2 m hm
    exact ⟨_, ⟨m2, hm2, rfl⟩, hm2v⟩

theorem Re.test_extend (r : Re) (u v : Str) (h : r.test u = true) : r.test (u ++ v) = true := by
  unfold Re.test at h ⊢
  cases hr : r.run (u, none) with
  | nil => rw [hr] at h; cases h
  | cons x l =>
    obtain ⟨y, hy, _⟩ := Re.run_extend v r u none none x (by rw [hr]; exact List.mem_cons_self _ _)
    cases hr2 : r.run (u ++ v, none) with
    | nil => rw [hr2] at hy; cases hy
    | cons z l2 => rfl

theorem beginsWithSectionNumber_extend (u v : Str) (h : beginsWithSectionNumber u = true) :
    beginsWithSectionNumber (u ++ v) = true := by
  unfold beginsWithSectionNumber at h ⊢
  rw [List.any_eq_true] at h ⊢
  obtain ⟨r, hr, ht⟩ := h
  exact ⟨r, hr, Re.test_extend r u v ht⟩
/-- The trimmed text is a prefix of the trimmed form of every extension, unless it is
empty. -/
theorem trim_append_prefix (a b : Str) (h : trim a ≠ []) :
    ∃ v, trim (a ++ b) = trim a ++ v := by
  unfold trim at h ⊢
  have hu : a.dropWhile isWhiteSpace ≠ [] := by
    intro hu
    rw [hu] at h
    exact h rfl
  have hdrop : (a ++ b).dropWhile isWhiteSpace = a.dropWhile isWhiteSpace ++ b := by
    rw [List.dropWhile_append]
    cases hd : a.dropWhile isWhiteSpace with
    | nil => exact absurd hd hu
    | cons x l => rfl
  rw [hdrop, List.reverse_append, List.dropWhile_append]
  by_cases he : (b.reverse.dropWhile isWhiteSpace).isEmpty = true
  · rw [if_pos he]
    exact ⟨[], by rw [List.append_nil]⟩
  · rw [if_neg he, List.reverse_append, List.reverse_reverse]
    obtain ⟨t, ht⟩ := List.dropWhile_suffix (l := (a.dropWhile isWhiteSpace).reverse) isWhiteSpace
    have hrev : a.dropWhile isWhiteSpace =
        ((a.dropWhile isWhiteSpace).reverse.dropWhile isWhiteSpace).reverse ++ t.reverse := by
      rw [← List.reverse_append, ht, List.reverse_reverse]
    refine ⟨t.reverse ++ (b.reverse.dropWhile isWhiteSpace).reverse, ?_⟩
    rw [← List.append_assoc, ← hrev]

theorem startsWithSectionNumber_extend (a b : Str) (h : startsWithSectionNumber a = true) :
    startsWithSectionNumber (a ++ b) = true := by
  unfold startsWithSectionNumber at h ⊢
  by_cases ha : a = []
  · rw [if_pos ha] at h
    cases h
  · rw [if_neg ha] at h
    have hab : a ++ b ≠ [] := by
      intro hab
      exact ha (List.append_eq_nil.1 hab).1
    rw [if_neg hab]
    have hne : trim a ≠ [] := by
      intro hnil
      rw [hnil] at h
      have : beginsWithSectionNumber [] = false := by decide
      rw [this] at h
      cases h
    obtain ⟨v, hv⟩ := trim_append_prefix a b hne
    rw [hv]
    exact beginsWithSectionNumber_extend _ v h

theorem shouldMergeParagraphs_extend (prev next : Paragraph) (x : Str)
    (h : shouldMergeParagraphs prev next = false) :
    shouldMergeParagraphs prev { next with text := next.text ++ x } = false := by
  unfold shouldMergeParagraphs at h ⊢
  by_cases h1 : endsWithCompleteSentence prev.text = true
  · simp [h1]
  · by_cases h2 : startsWithSectionNumber next.text = true
    · have := startsWithSectionNumber_extend next.text x h2
      simp [this]
    · simp [h1, h2] at h

theorem mergeFrom_fixed (rest : List Paragraph) :
    ∀ current : Paragraph,
      List.Chain' (fun a b => shouldMergeParagraphs a b = false) (current :: rest) →
      mergeFrom current rest = current :: rest := by
  induction rest with
  | nil => intro current _; rfl
  | cons next rest ih =>
    intro current hc
    rw [List.chain'_cons] at hc
    rw [mergeFrom, hc.1, ih next hc.2]
    rfl

theorem mergeCrossPageParagraphs_fixed (ps : List Paragraph)
    (h : List.Chain' (fun a b => shouldMergeParagraphs a b = false) ps) :
    mergeCrossPageParagraphs ps = ps := by
  unfold mergeCrossPageParagraphs
  split_ifs
  · rfl
  · cases ps with
    | nil => rfl
    | cons first rest => exact mergeFrom_fixed rest first h

theorem mergeCrossPageParagraphs_chain (ps : List Paragraph) :
    List.Chain' (fun a b => shouldMergeParagraphs a b = false)
      (mergeCrossPageParagraphs ps) := by
  obtain ⟨runs, _, h2, h3⟩ := mergeCrossPageParagraphs_runs ps
  rw [h2, List.chain'_map]
  apply List.Chain'.imp _ h3
  intro r s hrs
  exact shouldMergeParagraphs_extend _ s.1 _ hrs

/-- C34. `mergeCrossPageParagraphs` is idempotent: for every list of paragraphs,
merging the merged list gives the merged list again, with the same texts, types
and page indices, and no two adjacent paragraphs of the merged list satisfy the
merge rule. -/
theorem C34_merge_idempotent (ps : List Paragraph) :
    mergeCrossPageParagraphs (mergeCrossPageParagraphs ps) = mergeCrossPageParagraphs ps ∧
    List.Chain' (fun a b => shouldMergeParagraphs a b = false)
      (mergeCrossPageParagraphs ps) :=
  ⟨mergeCrossPageParagraphs_fixed _ (mergeCrossPageParagraphs_chain ps),
    mergeCrossPageParagraphs_chain ps⟩

theorem replaceAllDiff_reconstructs (left right : Str) :
    Reconstructs (replaceAllDiff left right) left right := by
  constructor
  · simp [sideText, replaceAllDiff, List.filter_cons]
  · simp [sideText, replaceAllDiff, List.filter_cons]

theorem diffPair_hasDiff_iff (computeDiff : Str → Str → List DiffOp) (pair : AlignedPair)
    (h : Reconstructs (computeDiff pair.left.text pair.right.text) pair.left.text
      pair.right.text) :
    (diffPair computeDiff pair).hasDiff = true ↔
      normalizeText pair.left.text ≠ normalizeText pair.right.text := by
  rw [diffPair_hasDiff]
  by_cases hn : normalizeText pair.left.text = normalizeText pair.right.text
  · rw [if_pos hn]
    simp [hn]
  · rw [if_neg hn, hasRealDiff_of_reconstructs _ _ _ h hn]
    simp [hn]

theorem diffPair_sides (computeDiff : Str → Str → List DiffOp) (pair : AlignedPair) :
    (diffPair computeDiff pair).left = pair.left ∧
    (diffPair computeDiff pair).right = pair.right := by
  unfold diffPair
  split <;> exact ⟨rfl, rfl⟩

/-- C36. The output order can differ from the document order without any duplicate.
With `L = R = [总则说明, 1. 甲方义务]`, both paragraphs on page 0, no text and no section
number repeated, the pair of the numbered paragraph, of index 1, comes before
the pair of the unnumbered one, of index 0. In general, among the pairs of one
page key, the pairs of Tier 1, which all carry `matchType` `number`, come first,
then the pairs of Tier 2, then the leftovers. -/
theorem C36_order_inversion (L R : List Paragraph) :
    smartMatchParagraphs [para "总则说明", para "1. 甲方义务"] [para "总则说明", para "1. 甲方义务"] =
      [numberPair 1 (para "1. 甲方义务") 1 (para "1. 甲方义务"),
       similarityPair 0 (para "总则说明") 0 (para "总则说明") 1] ∧
    (smartMatchParagraphs [para "总则说明", para "1. 甲方义务"]
      [para "总则说明", para "1. 甲方义务"]).map (fun pr => pr.leftIdx) = [some 1, some 0] ∧
    [para "总则说明", para "1. 甲方义务"].map (fun p => p.pageIdx) = [some 0, some 0] ∧
    [para "总则说明", para "1. 甲方义务"].map (fun p => sectionKey p.text) =
      [none, some (NumKey.str (js "1"))] ∧
    (para "总则说明").text ≠ (para "1. 甲方义务").text ∧
    (∀ k : Int, (smartMatchParagraphs L R).filter (fun a => decide (pageKey a = k)) =
      (tier1 L R).pairs.filter (fun a => decide (pageKey a = k)) ++
      (tier2Pairs L R).filter (fun a => decide (pageKey a = k)) ++
      (leftLeftovers L (tier2 L R).matched1).filter (fun a => decide (pageKey a = k)) ++
      (rightLeftovers R (tier2 L R).matched2).filter (fun a => decide (pageKey a = k))) ∧
    (∀ pr ∈ (tier1 L R).pairs, pr.matchType = some (js "number")) ∧
    (∀ pr ∈ tier2Pairs L R ++ leftLeftovers L (tier2 L R).matched1 ++
      rightLeftovers R (tier2 L R).matched2, pr.matchType = none) := by
  refine ⟨by decide, by decide, by decide, by decide, by decide, ?_, ?_, ?_⟩
  · intro k
    unfold smartMatchParagraphs
    rw [filter_insertionSort, producedPairs_order, List.filter_append, List.filter_append,
      List.filter_append]
  · intro pr hpr
    obtain ⟨i, p, j, q, rfl⟩ := (tier1_scan L R).1 pr hpr
    rfl
  · intro pr hpr
    rw [List.mem_append, List.mem_append] at hpr
    rcases hpr with (h | h) | h
    · obtain ⟨i, p, j, q, s, rfl, _⟩ := (tier2Pairs_scan L R).1 pr h
      rfl
    · unfold leftLeftovers at h
      obtain ⟨ip, _, rfl⟩ := List.mem_map.1 h
      rfl
    · unfold rightLeftovers at h
      obtain ⟨jq, _, rfl⟩ := List.mem_map.1 h
      rfl

theorem spanContig_append (a b : List IndexSpan) (o m o' : Nat) (ha : SpanContig o a m)
    (hb : SpanContig m b o') : SpanContig o (a ++ b) o' := by
  induction a generalizing o with
  | nil =>
    simp only [SpanContig] at ha
    subst ha
    exact hb
  | cons x a ih =>
    obtain ⟨h1, h2, h3, h4⟩ := ha
    exact ⟨h1, h2, h3, ih _ h4⟩

theorem indexSpanStep_tiled (o : Nat) (st : Str × List IndexSpan) (span : Span)
    (h : SpanContig o st.2 (o + st.1.length)) :
    SpanContig o (indexSpanStep o st span).2 (o + (indexSpanStep o st span).1.length) := by
  unfold indexSpanStep
  cases span.content with
  | none => exact h
  | some content =>
    cases span.bbox with
    | none => exact h
    | some bbox =>
      by_cases hc : content = []
      · simp only [if_pos hc]
        exact h
      · simp only [if_neg hc]
        apply spanContig_append _ _ _ _ _ h
        refine ⟨rfl, rfl, List.length_pos.2 hc, ?_⟩
        simp only [SpanContig, List.length_append]
        omega

theorem indexLines_tiled (o : Nat) (lines : Option (List Line)) :
    SpanContig o (indexLines o lines).2 (o + (indexLines o lines).1.length) := by
  unfold indexLines
  apply foldl_invariant
    (fun st : Str × List IndexSpan => SpanContig o st.2 (o + st.1.length))
  · intro st line hst
    exact foldl_invariant
      (fun st : Str × List IndexSpan => SpanContig o st.2 (o + st.1.length))
      (indexSpanStep o) (fun s a hs => indexSpanStep_tiled o s a hs) _ st hst
  · rfl

theorem processBlock_tiled (pageIdx : Option Int) (pageSize : List ℚ)
    (lines : Option (List Line)) (bbox parentBbox : Option BBox) (st : Nat × List IndexBlock)
    (h : ∀ b ∈ st.2, Tiled b) :
    ∀ b ∈ (processBlock pageIdx pageSize lines bbox parentBbox st).2, Tiled b := by
  unfold processBlock
  by_cases he : (indexLines st.1 lines).1 = []
  · rw [if_pos he]
    exact h
  · rw [if_neg he]
    intro b hb
    rw [List.mem_append, List.mem_singleton] at hb
    rcases hb with hb | rfl
    · exact h b hb
    · refine ⟨indexLines_tiled st.1 lines, ?_⟩
      have := List.length_pos.2 he
      simp only
      omega

theorem indexBlockStep_tiled (pageIdx : Option Int) (pageSize : List ℚ)
    (st : Nat × List IndexBlock) (block : Block) (h : ∀ b ∈ st.2, Tiled b) :
    ∀ b ∈ (indexBlockStep pageIdx pageSize st block).2, Tiled b := by
  unfold indexBlockStep
  cases block.blocks with
  | none => exact processBlock_tiled _ _ _ _ _ st h
  | some subBlocks =>
    exact foldl_invariant (fun st : Nat × List IndexBlock => ∀ b ∈ st.2, Tiled b) _
      (fun s a hs => processBlock_tiled _ _ _ _ _ s hs) subBlocks st h

theorem buildCharacterIndex_tiled (json : Doc) :
    ∀ b ∈ (buildCharacterIndex json).allBlocks, Tiled b := by
  have h : ∀ page ∈ ((json.pdf_info.getD []).foldl indexPageStep (0, [])).2,
      ∀ b ∈ page.blocks, Tiled b := by
    apply foldl_invariant
      (fun st : Nat × List IndexPage => ∀ page ∈ st.2, ∀ b ∈ page.blocks, Tiled b)
    · intro st page hst p hp
      unfold indexPageStep at hp
      rw [List.mem_append, List.mem_singleton] at hp
      rcases hp with hp | rfl
      · exact hst p hp
      · exact foldl_invariant (fun st : Nat × List IndexBlock => ∀ b ∈ st.2, Tiled b) _
          (fun s a hs => indexBlockStep_tiled _ _ s a hs) _ (st.1, [])
          (fun b hb => by cases hb)
    · intro page hp
      cases hp
  intro b hb
  unfold CharIndex.allBlocks buildCharacterIndex at hb
  obtain ⟨page, hpage, hb⟩ := List.mem_flatMap.1 hb
  exact h page hpage b hb

theorem spanContig_head (sps : List IndexSpan) (o o' : Nat) (h : SpanContig o sps o') :
    ∀ sp, sps.head? = some sp → sp.charStart = o := by
  intro sp hsp
  cases sps with
  | nil => cases hsp
  | cons x sps =>
    simp only [List.head?_cons, Option.some.injEq] at hsp
    rw [← hsp]
    exact h.1

theorem spanContig_chain (sps : List IndexSpan) (o o' : Nat) (h : SpanContig o sps o') :
    List.Chain' (fun a b : IndexSpan => b.charStart = a.charEnd) sps := by
  induction sps generalizing o with
  | nil => exact List.chain'_nil
  | cons x sps ih =>
    obtain ⟨_, _, _, h4⟩ := h
    rw [List.chain'_cons']
    exact ⟨fun y hy => spanContig_head sps _ _ h4 y hy, ih _ h4⟩

theorem spanContig_mem (sps : List IndexSpan) (o o' : Nat) (h : SpanContig o sps o') :
    ∀ sp ∈ sps, sp.charEnd = sp.charStart + sp.text.length ∧ 0 < sp.text.length := by
  induction sps generalizing o with
  | nil => intro sp hsp; cases hsp
  | cons x sps ih =>
    obtain ⟨h1, h2, h3, h4⟩ := h
    intro sp hsp
    rcases List.mem_cons.1 hsp with rfl | hsp
    · exact ⟨by rw [h2, h1], h3⟩
    · exact ih _ h4 sp hsp

theorem spanContig_last (sps : List IndexSpan) (o o' : Nat) (h : SpanContig o sps o') :
    ∀ sp, sps.getLast? = some sp → sp.charEnd = o' := by
  induction sps generalizing o with
  | nil => intro sp hsp; cases hsp
  | cons x sps ih =>
    obtain ⟨_, _, _, h4⟩ := h
    intro sp hsp
    cases sps with
    | nil =>
      simp only [List.getLast?_singleton, Option.some.injEq] at hsp
      rw [← hsp]
      exact h4.symm
    | cons y sps =>
      rw [List.getLast?_cons_cons] at hsp
      exact ih _ h4 sp hsp

/-- A range that meets the range tiled by contiguous spans meets one of the spans. -/
theorem spanContig_overlap (sps : List IndexSpan) (s e : Nat) (hse : s < e) :
    ∀ o o', SpanContig o sps o' → o < o' → o < e → s < o' →
      ∃ sp ∈ sps, sp.charStart < e ∧ sp.charEnd > s := by
  induction sps with
  | nil =>
    intro o o' h hoo _ _
    simp only [SpanContig] at h
    omega
  | cons x sps ih =>
    intro o o' h hoo hoe hso
    obtain ⟨h1, h2, h3, h4⟩ := h
    by_cases hx : x.charEnd > s
    · exact ⟨x, List.mem_cons_self _ _, by omega, hx⟩
    · obtain ⟨sp, hsp, hov⟩ := ih x.charEnd o' h4 (by omega) (by omega) hso
      exact ⟨sp, List.mem_cons_of_mem _ hsp, hov⟩

theorem spanHits_ne_nil (block : IndexBlock) (s e : Nat) (hse : s < e) (ht : Tiled block)
    (ho : overlapsRange block.charStart block.charEnd s e = true) :
    spanHits block s e ≠ [] := by
  simp only [overlapsRange, decide_eq_true_eq] at ho
  obtain ⟨sp, hsp, hov⟩ := spanContig_overlap block.spans s e hse _ _ ht.1 ht.2 ho.1 ho.2
  unfold spanHits
  intro hnil
  rw [List.map_eq_nil_iff, List.filter_eq_nil_iff] at hnil
  apply hnil sp hsp
  simp only [overlapsRange, decide_eq_true_eq]
  exact hov

/-- C37. In every index built by `buildCharacterIndex` the spans of a block tile the
block: the first span starts at the block's `charStart`, each later span starts
where the previous one ends, the last ends at the block's `charEnd`, there is at
least one span, and every span has `charEnd = charStart + length of its text`
with a non-empty text. Consequently, for every range with `startChar < endChar`,
every block that meets the range has a span that meets it, and the result of
`findBboxForCharRange` is made of the entries of the spans only: the fallback to
the block's `bbox` is never taken. -/
theorem C37_spans_tile_block (json : Doc) (startChar endChar : Nat)
    (h : startChar < endChar) :
    (∀ b ∈ (buildCharacterIndex json).allBlocks,
      b.spans ≠ [] ∧
      (∀ sp, b.spans.head? = some sp → sp.charStart = b.charStart) ∧
      List.Chain' (fun x y : IndexSpan => y.charStart = x.charEnd) b.spans ∧
      (∀ sp, b.spans.getLast? = some sp → sp.charEnd = b.charEnd) ∧
      (∀ sp ∈ b.spans, sp.charEnd = sp.charStart + sp.text.length ∧
        sp.charEnd - sp.charStart = sp.text.length ∧ 0 < sp.text.length)) ∧
    (∀ b ∈ (buildCharacterIndex json).allBlocks,
      (b.charStart < endChar ∧ b.charEnd > startChar) →
      ∃ sp ∈ b.spans, sp.charStart < endChar ∧ sp.charEnd > startChar) ∧
    findBboxForCharRange (buildCharacterIndex json) startChar endChar =
      (buildCharacterIndex json).allBlocks.flatMap
        (fun b => spanHits b startChar endChar) ∧
    (∀ hit ∈ findBboxForCharRange (buildCharacterIndex json) startChar endChar,
      ∃ b ∈ (buildCharacterIndex json).allBlocks, ∃ sp ∈ b.spans,
        (sp.charStart < endChar ∧ sp.charEnd > startChar) ∧ hit = spanHit b sp) := by
  have htiled := buildCharacterIndex_tiled json
  have hflat : findBboxForCharRange (buildCharacterIndex json) startChar endChar =
      (buildCharacterIndex json).allBlocks.flatMap
        (fun b => spanHits b startChar endChar) := by
    rw [findBboxForCharRange_eq]
    apply flatMap_congr_mem
    intro b hb
    rw [blockHits_eq_literal b startChar endChar (buildCharacterIndex_inside json b hb)]
    unfold blockHitsLiteral
    by_cases hs : spanHits b startChar endChar = []
    · rw [if_pos hs, hs]
      by_cases ho : overlapsRange b.charStart b.charEnd startChar endChar = true
      · exact absurd hs (spanHits_ne_nil b startChar endChar h (htiled b hb) ho)
      · rw [if_neg ho]
    · rw [if_neg hs]
  refine ⟨?_, ?_, hflat, ?_⟩
  · intro b hb
    obtain ⟨hc, hlt⟩ := htiled b hb
    refine ⟨?_, spanContig_head _ _ _ hc, spanContig_chain _ _ _ hc,
      spanContig_last _ _ _ hc, ?_⟩
    · intro hnil
      rw [hnil] at hc
      simp only [SpanContig] at hc
      omega
    · intro sp hsp
      obtain ⟨h1, h2⟩ := spanContig_mem _ _ _ hc sp hsp
      exact ⟨h1, by omega, h2⟩
  · intro b hb ho
    obtain ⟨hc, hlt⟩ := htiled b hb
    exact spanContig_overlap b.spans startChar endChar h _ _ hc hlt ho.1 ho.2
  · intro hit hhit
    rw [hflat, List.mem_flatMap] at hhit
    obtain ⟨b, hb, hmem⟩ := hhit
    unfold spanHits at hmem
    obtain ⟨sp, hsp, rfl⟩ := List.mem_map.1 hmem
    rw [List.mem_filter] at hsp
    refine ⟨b, hb, sp, hsp.1, ?_, rfl⟩
    simpa [overlapsRange] using hsp.2

/-- C37 on a block with the spans `甲方` and `乙方`: the range `[1, 3)` meets both spans
and the result is their two entries. -/
theorem C37_spans_tile_block_witness :
    (1 : Nat) < 3 ∧
    findBboxForCharRange (buildCharacterIndex sampleTwoSpanDoc) 1 3 =
      [{ bbox := some [0, 0, 50, 20], pageIdx := some 0, pageSize := [595, 842],
         text := js "甲方" },
       { bbox := some [50, 0, 100, 20], pageIdx := some 0, pageSize := [595, 842],
         text := js "乙方" }] :=
  ⟨by decide, (C37_spans_tile_block sampleTwoSpanDoc 1 3 (by decide)).2.2.1.trans (by decide)⟩

/-- C38. Similarity 1 does not imply equal text: `aba` and `abab` have different
normal forms, both of length at least 2, and the same bigrams, so their similarity
is 1. As unnumbered paragraphs they are paired by Tier 2 with similarity 1, and
`computeParagraphDiffs` takes the diff branch for the pair: the edit script is
the one of the text-diff primitive, and `hasDiff` is true as soon as it
reconstructs the two texts. -/
theorem C38_similarity_one_unequal (computeDiff : Str → Str → List DiffOp) :
    normalizeText (js "aba") ≠ normalizeText (js "abab") ∧
    2 ≤ (normalizeText (js "aba")).length ∧ 2 ≤ (normalizeText (js "abab")).length ∧
    ngrams (normalizeText (js "aba")) = [js "ab", js "ba"] ∧
    ngrams (normalizeText (js "abab")) = [js "ab", js "ba"] ∧
    calculateSimilarity (js "aba") (js "abab") = 1 ∧
    sectionKey (js "aba") = none ∧ sectionKey (js "abab") = none ∧
    smartMatchParagraphs [para "aba"] [para "abab"] =
      [similarityPair 0 (para "aba") 0 (para "abab") 1] ∧
    (computeParagraphDiffs computeDiff [para "aba"] [para "abab"]).map
        (fun d => (d.diffs, d.hasDiff)) =
      [(computeDiff (js "aba") (js "abab"), hasRealDiff (computeDiff (js "aba") (js "abab")))] ∧
    (Reconstructs (computeDiff (js "aba") (js "abab")) (js "aba") (js "abab") →
      (computeParagraphDiffs computeDiff [para "aba"] [para "abab"]).map
        (fun d => d.hasDiff) = [true]) := by
  have hsm : smartMatchParagraphs [para "aba"] [para "abab"] =
      [similarityPair 0 (para "aba") 0 (para "abab") 1] := by decide
  have hne : normalizeText (js "aba") ≠ normalizeText (js "abab") := by decide
  have hne2 : ¬ normalizeText (similarityPair 0 (para "aba") 0 (para "abab") 1).left.text =
      normalizeText (similarityPair 0 (para "aba") 0 (para "abab") 1).right.text := hne
  have hd : (computeParagraphDiffs computeDiff [para "aba"] [para "abab"]).map
        (fun d => (d.diffs, d.hasDiff)) =
      [(computeDiff (js "aba") (js "abab"),
        hasRealDiff (computeDiff (js "aba") (js "abab")))] := by
    rw [computeParagraphDiffs, hsm]
    simp only [List.map_cons, List.map_nil, diffPair_hasDiff, if_neg hne2]
    simp only [diffPair, if_neg hne2]
    rfl
  refine ⟨hne, by decide, by decide, by decide, by decide, by decide, by decide, by decide,
    hsm, hd, ?_⟩
  intro hr
  have hreal := hasRealDiff_of_reconstructs _ _ _ hr hne
  have := congrArg (List.map Prod.snd) hd
  simp only [List.map_map, List.map_cons, List.map_nil, hreal] at this
  exact this

/-- C39. A changed paragraph that the merger stitched together gets no annotation.
In the left document every block and span has a `bbox`; the blocks `1. 甲方应于30日内`
of page 0 and `付款。` of page 1 are merged into the paragraph `1. 甲方应于30日内付款。`. It is
paired with the right paragraph `1. 甲方应于60日内付款。` with `hasDiff = true`, and its
normal form is the normal form of no block of the left document, so
`prepareAnnotationsEnhanced` emits no left annotation; the right paragraph is
one block and gets its annotation. -/
theorem C39_merged_paragraph_unannotated :
    (extractParagraphs sampleSplitDoc).map (fun p => p.text) =
      [js "1. 甲方应于30日内", js "付款。"] ∧
    parseContractJSON sampleSplitDoc =
      [{ text := js "1. 甲方应于30日内付款。", type := some (js "text"), pageIdx := some 0 }] ∧
    (extractBlocksWithBbox sampleSplitDoc).map (fun b => b.text) =
      [js "1. 甲方应于30日内", js "付款。"] ∧
    (∀ b ∈ extractBlocksWithBbox sampleSplitDoc,
      normalizeText b.text ≠ normalizeText (js "1. 甲方应于30日内付款。")) ∧
    (computeParagraphDiffs (fun _ _ => paymentScript) (parseContractJSON sampleSplitDoc)
        (parseContractJSON sampleWholeDoc)).map (fun d => (d.left.text, d.right.text, d.hasDiff)) =
      [(js "1. 甲方应于30日内付款。", js "1. 甲方应于60日内付款。", true)] ∧
    prepareAnnotationsEnhanced (some sampleSplitDoc) (some sampleWholeDoc)
        (some (computeParagraphDiffs (fun _ _ => paymentScript)
          (parseContractJSON sampleSplitDoc) (parseContractJSON sampleWholeDoc))) =
      ([], [(some 0, [{ bbox := some [0, 700, 500, 720], pageSize := [595, 842],
                        type := js "added", text := js "修改: 1. 甲方应于60日内付款。...",
                        pairId := none }])]) := by
  refine ⟨by decide, by decide, by decide, by decide, by decide, by decide⟩

/-- C19. The merge test is applied again to the extended paragraph. The texts are
taken as `parseContractJSON` hands them to `mergeCrossPageParagraphs`, without
leading or trailing white space: every text that the extraction builds is a
trimmed text. If `n ≥ 2` such paragraphs have non-empty texts, none but the last
ends with a sentence terminator and none but the first begins with a section
number, they are merged into one paragraph with the concatenated text and the
type and page index of the first. For every input the runs of the division are
maximal: the paragraph built from a run and the first paragraph of the next run
fail the merge test. -/
theorem C19_chain_merge (first : Paragraph) (rest ps : List Paragraph) (hn : rest ≠ [])
    (htrim : ∀ p ∈ first :: rest, trim p.text = p.text)
    (hne : ∀ p ∈ first :: rest, p.text ≠ [])
    (hend : ∀ p ∈ (first :: rest).dropLast, endsWithTerminator p.text = false)
    (hbeg : ∀ p ∈ rest, beginsWithSectionNumber p.text = false) :
    mergeCrossPageParagraphs (first :: rest) = [joinRun first rest] ∧
    (joinRun first rest).text = first.text ++ (rest.map (fun p => p.text)).flatten ∧
    (joinRun first rest).pageIdx = first.pageIdx ∧
    (joinRun first rest).type = first.type ∧
    (∀ json : Doc, ∀ p ∈ extractParagraphs json, trim p.text = p.text) ∧
    (∀ json : Doc, extractParagraphs json = first :: rest →
      parseContractJSON json = [joinRun first rest]) ∧
    ∃ runs : List (Paragraph × List Paragraph),
      runs.flatMap runItems = ps ∧
      mergeCrossPageParagraphs ps = runs.map (fun r => joinRun r.1 r.2) ∧
      List.Chain' (fun r s => shouldMergeParagraphs (joinRun r.1 r.2) s.1 = false) runs := by
  have hend2 : ∀ p ∈ (first :: rest).dropLast, endsWithTerminator (trim p.text) = false := by
    intro p hp
    rw [htrim p (List.mem_of_mem_dropLast hp)]
    exact hend p hp
  have hbeg2 : ∀ p ∈ rest, beginsWithSectionNumber (trim p.text) = false := by
    intro p hp
    rw [htrim p (List.mem_cons_of_mem _ hp)]
    exact hbeg p hp
  obtain ⟨h1, h2, h3, h4, h5⟩ := chain_merge_of_trimmed_tests first rest ps hn hne hend2 hbeg2
  refine ⟨h1, h2, h3, h4, ?_, ?_, h5⟩
  · intro json p hp
    exact trim_eq_of_noEdgeSpace _ (extractParagraphs_noEdge json p hp)
  · intro json hjson
    unfold parseContractJSON
    rw [hjson]
    exact h1

/-- C19 on an example: the three fragments `本协议`, `包含`, `以下条款。` collapse into one
paragraph. -/
theorem C19_chain_merge_witness :
    [para "包含", para "以下条款。"] ≠ [] ∧
    mergeCrossPageParagraphs [para "本协议", para "包含", para "以下条款。"] =
      [joinRun (para "本协议") [para "包含", para "以下条款。"]] ∧
    (joinRun (para "本协议") [para "包含", para "以下条款。"]).text = js "本协议包含以下条款。" :=
  ⟨by decide,
    (C19_chain_merge (para "本协议") [para "包含", para "以下条款。"] [] (by decide)
      (by decide) (by decide) (by decide) (by decide)).1,
    by decide⟩

/-- C26. `findBboxForCharRange` returns exactly the overlapping regions. For every
index built by `buildCharacterIndex`, and for every index whose spans lie inside
the range of their block, as they do in a built index, the result lists for every
range, in page, block and span order, one entry for each span with
`charStart < endChar` and `charEnd > startChar`, carrying the span's `bbox` and
text and its block's `pageIdx` and `pageSize`, and, for each block that meets the
range, has no span that meets it and has a `bbox`, one entry with the block's
`bbox`. Every entry returned comes from a block that meets the range, and is the
entry of one of its spans that meets the range or the entry of the block itself,
none of whose spans then meets the range. -/
theorem C26_overlapping_regions (json : Doc) (index : CharIndex) (startChar endChar : Nat) :
    findBboxForCharRange (buildCharacterIndex json) startChar endChar =
      (buildCharacterIndex json).allBlocks.flatMap
        (fun block => blockHitsLiteral block startChar endChar) ∧
    (∀ block ∈ (buildCharacterIndex json).allBlocks, ∀ span ∈ block.spans,
      block.charStart ≤ span.charStart ∧ span.charEnd ≤ block.charEnd) ∧
    ((∀ block ∈ index.allBlocks, ∀ span ∈ block.spans,
        block.charStart ≤ span.charStart ∧ span.charEnd ≤ block.charEnd) →
      findBboxForCharRange index startChar endChar =
        index.allBlocks.flatMap (fun block => blockHitsLiteral block startChar endChar)) ∧
    (∀ block, blockHitsLiteral block startChar endChar =
      if (block.spans.filter
          (fun span => decide (span.charStart < endChar ∧ span.charEnd > startChar))) = []
      then
        if block.charStart < endChar ∧ block.charEnd > startChar then blockHit block else []
      else (block.spans.filter
          (fun span => decide (span.charStart < endChar ∧ span.charEnd > startChar))).map
        (spanHit block)) ∧
    (∀ hit ∈ findBboxForCharRange index startChar endChar,
      ∃ block ∈ index.allBlocks,
        (block.charStart < endChar ∧ block.charEnd > startChar) ∧
        hit.pageIdx = block.pageIdx ∧ hit.pageSize = block.pageSize ∧
        ((hit.bbox = block.bbox ∧ hit.text = block.text ∧
            ∀ span ∈ block.spans, ¬ (span.charStart < endChar ∧ span.charEnd > startChar)) ∨
          ∃ span ∈ block.spans, (span.charStart < endChar ∧ span.charEnd > startChar) ∧
            hit.bbox = some span.bbox ∧ hit.text = span.text)) := by
  have hb : ∀ block, blockHits block startChar endChar =
      if block.charStart < endChar ∧ block.charEnd > startChar then
        if (block.spans.filter
            (fun span => decide (span.charStart < endChar ∧ span.charEnd > startChar))) = []
        then blockHit block
        else (block.spans.filter
            (fun span => decide (span.charStart < endChar ∧ span.charEnd > startChar))).map
          (spanHit block)
      else [] := by
    intro block
    simp only [blockHits, spanHits, overlapsRange, decide_eq_true_eq, List.map_eq_nil_iff]
  have hgen : ∀ idx : CharIndex, (∀ block ∈ idx.allBlocks, SpansInside block) →
      findBboxForCharRange idx startChar endChar =
        idx.allBlocks.flatMap (fun block => blockHitsLiteral block startChar endChar) := by
    intro idx hin
    rw [findBboxForCharRange_eq]
    apply flatMap_congr_mem
    intro block hblock
    exact blockHits_eq_literal block startChar endChar (hin block hblock)
  refine ⟨hgen _ (buildCharacterIndex_inside json), buildCharacterIndex_inside json,
    hgen index, ?_, ?_⟩
  · intro block
    simp only [blockHitsLiteral, spanHits, overlapsRange, decide_eq_true_eq,
      List.map_eq_nil_iff]
  intro hit hhit
  rw [findBboxForCharRange_eq, List.mem_flatMap] at hhit
  obtain ⟨block, hblock, hmem⟩ := hhit
  rw [hb] at hmem
  by_cases ho : block.charStart < endChar ∧ block.charEnd > startChar
  · rw [if_pos ho] at hmem
    refine ⟨block, hblock, ho, ?_⟩
    by_cases hs : (block.spans.filter
        (fun span => decide (span.charStart < endChar ∧ span.charEnd > startChar))) = []
    · rw [if_pos hs] at hmem
      unfold blockHit at hmem
      cases hbb : block.bbox with
      | none => rw [hbb] at hmem; cases hmem
      | some bbox =>
        rw [hbb] at hmem
        rw [List.mem_singleton] at hmem
        subst hmem
        refine ⟨rfl, rfl, Or.inl ⟨rfl, rfl, ?_⟩⟩
        intro span hspan hov
        have : span ∈ block.spans.filter
            (fun span => decide (span.charStart < endChar ∧ span.charEnd > startChar)) :=
          List.mem_filter.2 ⟨hspan, by simpa using hov⟩
        rw [hs] at this
        cases this
    · rw [if_neg hs, List.mem_map] at hmem
      obtain ⟨span, hspan, rfl⟩ := hmem
      rw [List.mem_filter] at hspan
      exact ⟨rfl, rfl, Or.inr ⟨span, hspan.1, by simpa using hspan.2, rfl, rfl⟩⟩
  · rw [if_neg ho] at hmem
    cases hmem

theorem lowerCaseTable_entries : ∀ e ∈ lowerCaseTable, lowerEntryOk e = true := by
  decide!

theorem lowerCaseTable_pairs :
    ∀ e ∈ lowerCaseTable, ∀ f ∈ lowerCaseTable, lowerPairOk e f = true := by
  decide!

theorem lowerLookup_cases (l : List (Nat × Nat × Nat × Nat)) (c : Nat) :
    lowerLookup l c = c ∨
    ∃ e ∈ l, e.1 ≤ c ∧ c ≤ e.2.1 ∧ (c - e.1) % e.2.2.1 = 0 ∧
      lowerLookup l c = e.2.2.2 + (c - e.1) := by
  induction l with
  | nil => exact Or.inl rfl
  | cons e rest ih =>
    unfold lowerLookup
    by_cases h1 : c < e.1
    · rw [if_pos h1]
      exact Or.inl rfl
    · rw [if_neg h1]
      by_cases h2 : c ≤ e.2.1 ∧ (c - e.1) % e.2.2.1 = 0
      · rw [if_pos h2]
        exact Or.inr ⟨e, List.mem_cons_self _ _, by omega, h2.1, h2.2, rfl⟩
      · rw [if_neg h2]
        rcases ih with h | ⟨f, hf, h3⟩
        · exact Or.inl h
        · exact Or.inr ⟨f, List.mem_cons_of_mem _ hf, h3⟩

theorem lowerLookup_eq_self (l : List (Nat × Nat × Nat × Nat)) (c : Nat)
    (h : ∀ e ∈ l, ¬ (e.1 ≤ c ∧ c ≤ e.2.1 ∧ (c - e.1) % e.2.2.1 = 0)) :
    lowerLookup l c = c := by
  rcases lowerLookup_cases l c with h1 | ⟨e, he, h2, h3, h4, _⟩
  · exact h1
  · exact absurd ⟨h2, h3, h4⟩ (h e he)

theorem inRanges_of_inside (ranges : List (Nat × Nat)) (a b c : Nat)
    (h : insideRanges ranges a b = true) (ha : a ≤ c) (hb : c ≤ b) :
    inRanges ranges c = true := by
  unfold insideRanges at h
  unfold inRanges
  rw [List.any_eq_true] at h ⊢
  obtain ⟨r, hr, h1⟩ := h
  simp only [Bool.and_eq_true, decide_eq_true_eq] at h1
  exact ⟨r, hr, by simp only [Bool.and_eq_true, decide_eq_true_eq]; omega⟩

theorem not_inRanges_of_outside (ranges : List (Nat × Nat)) (a b c : Nat)
    (h : outsideRanges ranges a b = true) (ha : a ≤ c) (hb : c ≤ b) :
    inRanges ranges c = false := by
  unfold outsideRanges at h
  unfold inRanges
  rw [List.all_eq_true] at h
  rw [List.any_eq_false]
  intro r hr
  have h1 := h r hr
  simp only [Bool.or_eq_true, decide_eq_true_eq] at h1
  simp only [Bool.and_eq_true, decide_eq_true_eq, not_and]
  omega

/-- What the table gives for a code point that the simple mapping changes. -/
theorem simpleLowerCase_image (c : Nat) (h : simpleLowerCase c ≠ c) :
    LowerStable (simpleLowerCase c) ∧
    isDirty c = false ∧ isDirty (simpleLowerCase c) = false ∧
    isCasedLetter c = true ∧ isCasedLetter (simpleLowerCase c) = true ∧
    (c < 0xD800 ∨ 0xDFFF < c) ∧ (simpleLowerCase c < 0xD800 ∨ 0xDFFF < simpleLowerCase c) ∧
    c < 0x110000 ∧ simpleLowerCase c < 0x110000 ∧
    (c < 0x10000 ↔ simpleLowerCase c < 0x10000) ∧ c ≠ 0x130 := by
  unfold simpleLowerCase at h ⊢
  rcases lowerLookup_cases lowerCaseTable c with h1 | ⟨e, he, h2, h3, h4, h5⟩
  · exact absurd h1 h
  · rw [h5]
    have hok := lowerCaseTable_entries e he
    simp only [lowerEntryOk, Bool.and_eq_true, Bool.or_eq_true, decide_eq_true_eq] at hok
    obtain ⟨⟨⟨⟨⟨⟨⟨⟨k1, k2⟩, k3⟩, k4⟩, k5⟩, k6⟩, k7⟩, k8⟩, k9⟩ := hok
    have hle : c - e.1 ≤ e.2.1 - e.1 := by omega
    have himg1 : e.2.2.2 ≤ e.2.2.2 + (c - e.1) := by omega
    have himg2 : e.2.2.2 + (c - e.1) ≤ e.2.2.2 + (e.2.1 - e.1) := by omega
    have s1 := not_inRanges_of_outside _ _ _ _ k7 himg1 himg2
    have s2 := not_inRanges_of_outside _ _ _ _ k8 h2 h3
    simp only [inRanges, List.any_cons, List.any_nil, Bool.or_false, Bool.or_eq_false_iff,
      Bool.and_eq_false_iff, decide_eq_false_iff_not] at s1 s2
    have hfix : lowerLookup lowerCaseTable (e.2.2.2 + (c - e.1)) = e.2.2.2 + (c - e.1) := by
      apply lowerLookup_eq_self
      intro f hf
      have hp := lowerCaseTable_pairs e he f hf
      simp only [lowerPairOk, Bool.and_eq_true, Bool.or_eq_true, decide_eq_true_eq] at hp
      rcases k2 with k2 | k2
      · rcases hp with (hp | hp) | ⟨⟨hp1, hp2⟩, hp3⟩
        · omega
        · omega
        · rcases hp2 with hp2 | hp2
          · omega
          · rw [hp1]
            omega
      · rcases hp with (hp | hp) | ⟨⟨hp1, hp2⟩, hp3⟩
        · omega
        · omega
        · rw [k2] at h4
          rw [hp1]
          omega
    refine ⟨⟨by omega, by omega, hfix⟩, ?_, ?_, ?_, ?_, by omega, by omega, by omega, by omega,
      by omega, by omega⟩
    · exact not_inRanges_of_outside _ _ _ _ k5 h2 h3
    · exact not_inRanges_of_outside _ _ _ _ k6 himg1 himg2
    · exact inRanges_of_inside _ _ _ _ k3 h2 h3
    · exact inRanges_of_inside _ _ _ _ k4 himg1 himg2

theorem isDirty_eq_false (u : Nat) :
    isDirty u = false ↔
      isWhiteSpace u = false ∧ isZeroWidth u = false ∧
        u ∉ [0xFF0C, 0x3002, 0xFF1A, 0xFF1B, 0xFF08, 0xFF09, 0x27, 0x3010, 0x3011, 0x2014] := by
  simp only [isDirty, inRanges, dirtyRanges, isWhiteSpace, isZeroWidth, List.any_cons,
    List.any_nil, Bool.or_false, Bool.or_eq_false_iff, Bool.and_eq_false_iff,
    decide_eq_false_iff_not, beq_eq_false_iff_ne, ne_eq, List.mem_cons, List.mem_singleton,
    List.not_mem_nil, or_false, not_or, Bool.and_eq_true, decide_eq_true_eq, not_and]
  omega

theorem isDirty_surrogate (u : Nat) (h1 : 0xD800 ≤ u) (h2 : u ≤ 0xDFFF) : isDirty u = false := by
  simp only [isDirty, inRanges, dirtyRanges, List.any_cons, List.any_nil, Bool.or_false,
    Bool.or_eq_false_iff, Bool.and_eq_false_iff, decide_eq_false_iff_not]
  omega

theorem isWhiteSpace_of_clean (u : Nat) (h : isDirty u = false) : isWhiteSpace u = false :=
  ((isDirty_eq_false u).1 h).1

theorem cleanText_plain (c : Nat) (hws : isWhiteSpace c = false)
    (hsp : c ∉ punctuationUnits) (hzw : isZeroWidth c = false) :
    cleanText [c] = [c] := by
  obtain ⟨h1, h2, h3, h4, h5, h6, h7, h8, h9⟩ := js_classes
  simp only [punctuationUnits, List.mem_cons, List.mem_singleton, List.not_mem_nil,
    or_false, not_or] at hsp
  obtain ⟨k1, k2, k3, k4, k5, k6, k7, k8, k9, k10, k11, k12, k13, k14, k15, k16, k17, k18,
    k19, k20⟩ := hsp
  simp only [cleanText, h1, h2, h3, h4, h5, h6, h7, h8, h9, removeClass, replaceClass,
    List.filter, hws, hzw, Bool.not_false, List.map, List.mem_cons,
    List.mem_singleton, List.not_mem_nil, or_false, k1, k2, k3, k4, k5, k6, k7, k8, k9,
    k10, k11, k12, k13, k14, k15, k16, k17, k18, k19, k20, or_self, if_false]

/-- A character that the steps before the case conversion do not touch. -/
theorem cleanText_of_clean_unit (c : Nat) (h : isDirty c = false) : cleanText [c] = [c] := by
  obtain ⟨hws, hzw, hsrc⟩ := (isDirty_eq_false c).1 h
  by_cases hsp : c ∈ punctuationUnits
  · have hall : ∀ c ∈ punctuationUnits, isDirty c = false → cleanText [c] = [c] := by decide
    exact hall c hsp h
  · exact cleanText_plain c hws hsp hzw

/-- What the steps before the case conversion make of one character: nothing, or
one character that they do not touch. -/
theorem cleanText_unit (c : Nat) :
    cleanText [c] = [] ∨
    ∃ d, cleanText [c] = [d] ∧ isDirty d = false ∧ (d = c ∨ d < 0x80) := by
  by_cases hws : isWhiteSpace c = true
  · exact Or.inl (cleanText_whiteSpace c hws)
  by_cases hsp : c ∈ punctuationUnits
  · have hall : ∀ c ∈ punctuationUnits,
        cleanText [c] = [(cleanText [c]).headD 0] ∧
        isDirty ((cleanText [c]).headD 0) = false ∧ (cleanText [c]).headD 0 < 0x80 := by
      decide
    obtain ⟨a1, a2, a3⟩ := hall c hsp
    exact Or.inr ⟨_, a1, a2, Or.inr a3⟩
  by_cases hzw : isZeroWidth c = true
  · exact Or.inl (cleanText_zeroWidth c hzw)
  have hws2 : isWhiteSpace c = false := by simpa using hws
  have hzw2 : isZeroWidth c = false := by simpa using hzw
  refine Or.inr ⟨c, cleanText_plain c hws2 hsp hzw2, ?_, Or.inl rfl⟩
  rw [isDirty_eq_false]
  refine ⟨hws2, hzw2, ?_⟩
  intro hmem
  apply hsp
  simp only [List.mem_cons, List.mem_singleton, List.not_mem_nil, or_false] at hmem
  simp only [punctuationUnits, List.mem_cons, List.mem_singleton, List.not_mem_nil, or_false]
  omega

theorem cleanText_mem (s : Str) :
    ∀ u ∈ cleanText s, isDirty u = false ∧ (u ∈ s ∨ u < 0x80) := by
  induction s with
  | nil =>
    intro u hu
    have : cleanText [] = [] := rfl
    rw [this] at hu
    cases hu
  | cons c s ih =>
    intro u hu
    rw [cleanText_cons, List.mem_append] at hu
    rcases hu with hu | hu
    · rcases cleanText_unit c with h | ⟨d, h1, h2, h3⟩
      · rw [h] at hu
        cases hu
      · rw [h1, List.mem_singleton] at hu
        subst hu
        refine ⟨h2, ?_⟩
        rcases h3 with h3 | h3
        · exact Or.inl (h3 ▸ List.mem_cons_self _ _)
        · exact Or.inr h3
    · obtain ⟨a1, a2⟩ := ih u hu
      exact ⟨a1, a2.imp (List.mem_cons_of_mem _) id⟩

theorem cleanText_of_clean (s : Str) (h : ∀ u ∈ s, isDirty u = false) : cleanText s = s := by
  induction s with
  | nil => rfl
  | cons c s ih =>
    rw [cleanText_cons, cleanText_of_clean_unit c (h c (List.mem_cons_self _ _)),
      ih (fun u hu => h u (List.mem_cons_of_mem _ hu))]
    rfl

theorem cleanText_idempotent (s : Str) : cleanText (cleanText s) = cleanText s :=
  cleanText_of_clean _ (fun u hu => (cleanText_mem s u hu).1)

theorem codePoints_cons (c : Nat) (X : Str)
    (h : 0xD800 ≤ c ∧ c ≤ 0xDBFF → ∀ d, X.head? = some d → ¬ (0xDC00 ≤ d ∧ d ≤ 0xDFFF)) :
    codePoints (c :: X) = c :: codePoints X := by
  cases X with
  | nil => simp [codePoints]
  | cons y X =>
    rw [codePoints]
    split_ifs with hp
    · exact absurd ⟨hp.2.2.1, hp.2.2.2⟩ (h ⟨hp.1, hp.2.1⟩ y rfl)
    · rfl

theorem codePoints_pair (x y : Nat) (X : Str) (hx : 0xD800 ≤ x ∧ x ≤ 0xDBFF)
    (hy : 0xDC00 ≤ y ∧ y ≤ 0xDFFF) :
    codePoints (x :: y :: X) = (0x10000 + (x - 0xD800) * 0x400 + (y - 0xDC00)) :: codePoints X := by
  rw [codePoints, if_pos ⟨hx.1, hx.2, hy.1, hy.2⟩]

theorem codeUnits_astral (c : Nat) (h1 : 0x10000 ≤ c) (h2 : c < 0x110000) :
    ∃ x y, codeUnits c = [x, y] ∧ (0xD800 ≤ x ∧ x ≤ 0xDBFF) ∧ (0xDC00 ≤ y ∧ y ≤ 0xDFFF) ∧
      0x10000 + (x - 0xD800) * 0x400 + (y - 0xDC00) = c := by
  have h3 : ¬ c < 0x10000 := by omega
  refine ⟨0xD800 + (c - 0x10000) / 0x400, 0xDC00 + (c - 0x10000) % 0x400, ?_, ?_, ?_, ?_⟩
  · unfold codeUnits
    rw [if_neg h3]
  · omega
  · omega
  · omega

theorem codePoints_codeUnits (c : Nat) (X : Str) (h1 : 0x10000 ≤ c) (h2 : c < 0x110000) :
    codePoints (codeUnits c ++ X) = c :: codePoints X := by
  obtain ⟨x, y, e, hx, hy, hc⟩ := codeUnits_astral c h1 h2
  rw [e, List.cons_append, List.cons_append, List.nil_append, codePoints_pair x y X hx hy, hc]

theorem codePoints_append (A X : Str)
    (h : ∀ d, X.head? = some d → ¬ (0xDC00 ≤ d ∧ d ≤ 0xDFFF)) :
    codePoints (A ++ X) = codePoints A ++ codePoints X := by
  induction A using codePoints.induct with
  | case1 => rfl
  | case2 x =>
    have e : codePoints [x] = [x] := by simp [codePoints]
    rw [e]
    exact codePoints_cons x X (fun _ => h)
  | case3 x y rest hp ih =>
    rw [List.cons_append, List.cons_append, codePoints_pair x y _ ⟨hp.1, hp.2.1⟩ hp.2.2,
      codePoints_pair x y _ ⟨hp.1, hp.2.1⟩ hp.2.2, ih]
    rfl
  | case4 x y rest hp ih =>
    have e1 : codePoints (x :: y :: rest) = x :: codePoints (y :: rest) := by
      rw [codePoints, if_neg hp]
    have e2 : codePoints (x :: y :: (rest ++ X)) = x :: codePoints (y :: (rest ++ X)) := by
      rw [codePoints, if_neg hp]
    rw [List.cons_append, List.cons_append, e2, e1, ← List.cons_append, ih]
    rfl

theorem codePoints_head (s : Str) :
    ∀ d, (codePoints s).head? = some d → s.head? = some d ∨ 0x10000 ≤ d := by
  intro d hd
  cases s with
  | nil => simp [codePoints] at hd
  | cons x s =>
    cases s with
    | nil =>
      simp only [codePoints, List.head?_cons, Option.some.injEq] at hd
      exact Or.inl (by rw [hd]; rfl)
    | cons y s =>
      rw [codePoints] at hd
      split_ifs at hd with hp
      · simp only [List.head?_cons, Option.some.injEq] at hd
        right
        omega
      · simp only [List.head?_cons, Option.some.injEq] at hd
        exact Or.inl (by rw [hd]; rfl)

theorem codePoints_mem (s : Str) :
    ∀ c ∈ codePoints s, c ∈ s ∨ (0x10000 ≤ c ∧ c < 0x110000) := by
  induction s using codePoints.induct with
  | case1 => intro c hc; simp [codePoints] at hc
  | case2 x =>
    intro c hc
    simp only [codePoints, List.mem_singleton] at hc
    exact Or.inl (by rw [hc]; exact List.mem_singleton_self _)
  | case3 x y rest hp ih =>
    intro c hc
    simp only [codePoints, if_pos hp, List.mem_cons] at hc
    rcases hc with hc | hc
    · right
      omega
    · exact (ih c hc).imp (fun h => List.mem_cons_of_mem _ (List.mem_cons_of_mem _ h)) id
  | case4 x y rest hp ih =>
    intro c hc
    simp only [codePoints, if_neg hp, List.mem_cons] at hc
    rcases hc with hc | hc
    · exact Or.inl (by rw [hc]; exact List.mem_cons_self _ _)
    · rcases ih c hc with h | h
      · exact Or.inl (List.mem_cons_of_mem _ (by simpa using h))
      · exact Or.inr h

theorem codePoints_wellPaired (s : Str) (hs : ∀ u ∈ s, u < 0x10000) :
    WellPaired (codePoints s) := by
  induction s using codePoints.induct with
  | case1 => simp [codePoints, WellPaired]
  | case2 x =>
    have := hs x (List.mem_singleton_self _)
    simp only [codePoints, WellPaired, List.head?_nil, reduceCtorEq, false_implies,
      implies_true, and_true]
    omega
  | case3 x y rest hp ih =>
    simp only [codePoints, if_pos hp, WellPaired]
    refine ⟨by omega, fun h => by omega, ?_⟩
    exact ih (fun u hu => hs u (List.mem_cons_of_mem _ (List.mem_cons_of_mem _ hu)))
  | case4 x y rest hp ih =>
    simp only [codePoints, if_neg hp, WellPaired]
    have hx := hs x (List.mem_cons_self _ _)
    refine ⟨by omega, ?_, ih (fun u hu => hs u (List.mem_cons_of_mem _ hu))⟩
    intro hhigh d hd
    rcases codePoints_head (y :: rest) d hd with h | h
    · simp only [List.head?_cons, Option.some.injEq] at h
      subst h
      intro hlow
      exact hp ⟨hhigh.1, hhigh.2, hlow.1, hlow.2⟩
    · omega

theorem flatMap_codeUnits_head (m : List Nat) :
    ∀ u, (m.flatMap codeUnits).head? = some u →
      m.head? = some u ∨ (0xD800 ≤ u ∧ ∀ c, m.head? = some c → u ≤ 0xD800 + (c - 0x10000) / 0x400) := by
  intro u hu
  cases m with
  | nil => simp at hu
  | cons c m =>
    rw [List.flatMap_cons] at hu
    unfold codeUnits at hu
    split_ifs at hu with hc
    · simp only [List.singleton_append, List.head?_cons, Option.some.injEq] at hu
      exact Or.inl (by rw [hu]; rfl)
    · simp only [List.cons_append, List.head?_cons, Option.some.injEq] at hu
      right
      refine ⟨by omega, ?_⟩
      intro c2 hc2
      simp only [List.head?_cons, Option.some.injEq] at hc2
      subst hc2
      omega

theorem wellPaired_head_not_low (m : List Nat) (hm : WellPaired m) (c : Nat)
    (hc : 0xD800 ≤ c ∧ c ≤ 0xDBFF →
      ∀ d, m.head? = some d → ¬ (0xDC00 ≤ d ∧ d ≤ 0xDFFF)) :
    0xD800 ≤ c ∧ c ≤ 0xDBFF →
      ∀ u, (m.flatMap codeUnits).head? = some u → ¬ (0xDC00 ≤ u ∧ u ≤ 0xDFFF) := by
  intro hhigh u hu
  rcases flatMap_codeUnits_head m u hu with h | ⟨h1, h2⟩
  · exact hc hhigh u h
  · cases m with
    | nil => simp at hu
    | cons d m =>
      have := h2 d rfl
      have hd := hm.1
      omega

/-- Encoding a well-paired list of code points and decoding it gives the list back. -/
theorem codePoints_flatMap_codeUnits (m : List Nat) (hm : WellPaired m) :
    codePoints (m.flatMap codeUnits) = m := by
  induction m with
  | nil => rfl
  | cons c m ih =>
    obtain ⟨h1, h2, h3⟩ := hm
    rw [List.flatMap_cons]
    by_cases hc : c < 0x10000
    · have e : codeUnits c = [c] := by simp [codeUnits, hc]
      rw [e, List.singleton_append,
        codePoints_cons c _ (wellPaired_head_not_low m h3 c h2), ih h3]
    · rw [codePoints_codeUnits c _ (by omega) h1, ih h3]

theorem lowerStable_image (c : Nat) (h1 : c ≠ 0x3A3) (h2 : c ≠ 0x130) :
    LowerStable (simpleLowerCase c) := by
  by_cases h : simpleLowerCase c = c
  · rw [h]
    exact ⟨h1, h2, h⟩
  · exact (simpleLowerCase_image c h).1

theorem lowerCodePoint_of_stable (before after : List Nat) (c : Nat) (h : LowerStable c) :
    lowerCodePoint before after c = [c] := by
  unfold lowerCodePoint
  rw [if_neg h.1, if_neg h.2.1, h.2.2]

theorem lowerCodePoints_of_stable (l : List Nat) (h : ∀ c ∈ l, LowerStable c) :
    ∀ before, lowerCodePoints before l = l := by
  induction l with
  | nil => intro before; rfl
  | cons c l ih =>
    intro before
    rw [lowerCodePoints, lowerCodePoint_of_stable _ _ c (h c (List.mem_cons_self _ _)),
      ih (fun d hd => h d (List.mem_cons_of_mem _ hd))]
    rfl

theorem lowerStable_samples :
    LowerStable 0x3C2 ∧ LowerStable 0x3C3 ∧ LowerStable 0x69 ∧ LowerStable 0x307 := by
  unfold LowerStable
  decide

/-- What the case conversion makes of one code point: the code point itself, or code
points that the conversion leaves as they are, that are not surrogates and that
the steps before the case conversion do not touch. -/
theorem lowerCodePoint_cases (before after : List Nat) (c : Nat) :
    (∀ d ∈ lowerCodePoint before after c, LowerStable d) ∧
    (lowerCodePoint before after c = [c] ∨
      ∀ d ∈ lowerCodePoint before after c,
        isDirty d = false ∧ (d < 0xD800 ∨ 0xDFFF < d) ∧ d < 0x110000) := by
  obtain ⟨s1, s2, s3, s4⟩ := lowerStable_samples
  unfold lowerCodePoint
  by_cases h1 : c = 0x3A3
  · rw [if_pos h1]
    split_ifs
    · refine ⟨fun d hd => ?_, Or.inr (fun d hd => ?_)⟩
      · rw [List.mem_singleton.1 hd]
        exact s1
      · rw [List.mem_singleton.1 hd]
        decide
    · refine ⟨fun d hd => ?_, Or.inr (fun d hd => ?_)⟩
      · rw [List.mem_singleton.1 hd]
        exact s2
      · rw [List.mem_singleton.1 hd]
        decide
  · rw [if_neg h1]
    by_cases h2 : c = 0x130
    · rw [if_pos h2]
      refine ⟨fun d hd => ?_, Or.inr (fun d hd => ?_)⟩
      · simp only [List.mem_cons, List.mem_singleton, List.not_mem_nil, or_false] at hd
        rcases hd with rfl | rfl
        · exact s3
        · exact s4
      · simp only [List.mem_cons, List.mem_singleton, List.not_mem_nil, or_false] at hd
        rcases hd with rfl | rfl <;> decide
    · rw [if_neg h2]
      refine ⟨fun d hd => ?_, ?_⟩
      · rw [List.mem_singleton.1 hd]
        exact lowerStable_image c h1 h2
      · by_cases h : simpleLowerCase c = c
        · exact Or.inl (by rw [h])
        · right
          intro d hd
          rw [List.mem_singleton.1 hd]
          obtain ⟨_, _, a3, _, _, _, a7, _, a9, _, _⟩ := simpleLowerCase_image c h
          exact ⟨a3, a7, a9⟩

theorem lowerCodePoints_stable (l : List Nat) :
    ∀ before, ∀ d ∈ lowerCodePoints before l, LowerStable d := by
  induction l with
  | nil => intro before d hd; simp [lowerCodePoints] at hd
  | cons c l ih =>
    intro before d hd
    rw [lowerCodePoints, List.mem_append] at hd
    rcases hd with hd | hd
    · exact (lowerCodePoint_cases before l c).1 d hd
    · exact ih _ d hd

/-- The case conversion of a list of code points is a fixed point of the case
conversion. -/
theorem lowerCodePoints_idempotent (l before before2 : List Nat) :
    lowerCodePoints before2 (lowerCodePoints before l) = lowerCodePoints before l :=
  lowerCodePoints_of_stable _ (lowerCodePoints_stable l before) before2

theorem lowerCodePoints_head (l : List Nat) (before : List Nat) :
    ∀ d, (lowerCodePoints before l).head? = some d →
      l.head? = some d ∨ (d < 0xD800 ∨ 0xDFFF < d) := by
  intro d hd
  cases l with
  | nil => simp [lowerCodePoints] at hd
  | cons c l =>
    rw [lowerCodePoints] at hd
    rcases (lowerCodePoint_cases before l c).2 with h | h
    · rw [h] at hd
      simp only [List.singleton_append, List.head?_cons, Option.some.injEq] at hd
      exact Or.inl (by rw [hd]; rfl)
    · cases ho : lowerCodePoint before l c with
      | nil => exact absurd ho (lowerCodePoint_ne_nil _ _ _)
      | cons o os =>
        rw [ho] at hd h
        simp only [List.cons_append, List.head?_cons, Option.some.injEq] at hd
        subst hd
        exact Or.inr (h o (List.mem_cons_self _ _)).2.1

theorem wellPaired_append (a b : List Nat) (ha : WellPaired a) (hb : WellPaired b)
    (h : ∀ c, a.getLast? = some c → 0xD800 ≤ c ∧ c ≤ 0xDBFF →
      ∀ d, b.head? = some d → ¬ (0xDC00 ≤ d ∧ d ≤ 0xDFFF)) :
    WellPaired (a ++ b) := by
  induction a with
  | nil => exact hb
  | cons x a ih =>
    obtain ⟨h1, h2, h3⟩ := ha
    cases a with
    | nil =>
      refine ⟨h1, ?_, hb⟩
      intro hx d hd
      exact h x rfl hx d hd
    | cons y a =>
      refine ⟨h1, ?_, ?_⟩
      · intro hx d hd
        exact h2 hx d hd
      · apply ih h3
        intro c hc
        exact h c (by rw [List.getLast?_cons_cons]; exact hc)

theorem lowerCodePoints_wellPaired (l : List Nat) (hl : WellPaired l) :
    ∀ before, WellPaired (lowerCodePoints before l) := by
  induction l with
  | nil => intro before; exact hl
  | cons c l ih =>
    intro before
    obtain ⟨h1, h2, h3⟩ := hl
    rw [lowerCodePoints]
    have hrest := ih h3 (c :: before)
    rcases (lowerCodePoint_cases before l c).2 with h | h
    · rw [h]
      refine ⟨h1, ?_, hrest⟩
      intro hc d hd
      rcases lowerCodePoints_head l (c :: before) d hd with hd2 | hd2
      · exact h2 hc d hd2
      · omega
    · apply wellPaired_append _ _ _ hrest
      · intro x hx hhigh
        have := (h x (List.mem_of_mem_getLast? hx)).2.1
        omega
      · generalize lowerCodePoint before l c = os at h
        induction os with
        | nil => trivial
        | cons o os iho =>
          refine ⟨(h o (List.mem_cons_self _ _)).2.2, ?_,
            iho (fun d hd => h d (List.mem_cons_of_mem _ hd))⟩
          intro ho
          have := (h o (List.mem_cons_self _ _)).2.1
          omega

/-- The case conversion of a string is a fixed point of the case conversion. -/
theorem toLowerCase_idempotent (s : Str) (hs : ∀ u ∈ s, u < 0x10000) :
    toLowerCase (toLowerCase s) = toLowerCase s := by
  unfold toLowerCase
  rw [codePoints_flatMap_codeUnits _
    (lowerCodePoints_wellPaired _ (codePoints_wellPaired s hs) []),
    lowerCodePoints_idempotent]

theorem lowerCodePoints_mem (l : List Nat) :
    ∀ before, ∀ d ∈ lowerCodePoints before l,
      d ∈ l ∨ (isDirty d = false ∧ (d < 0xD800 ∨ 0xDFFF < d) ∧ d < 0x110000) := by
  induction l with
  | nil => intro before d hd; simp [lowerCodePoints] at hd
  | cons c l ih =>
    intro before d hd
    rw [lowerCodePoints, List.mem_append] at hd
    rcases hd with hd | hd
    · rcases (lowerCodePoint_cases before l c).2 with h | h
      · rw [h, List.mem_singleton] at hd
        exact Or.inl (by rw [hd]; exact List.mem_cons_self _ _)
      · exact Or.inr (h d hd)
    · rcases ih _ d hd with h | h
      · exact Or.inl (List.mem_cons_of_mem _ h)
      · exact Or.inr h

theorem codeUnits_clean (d : Nat) (h1 : d < 0x10000 → isDirty d = false) (h2 : d < 0x110000) :
    ∀ u ∈ codeUnits d, isDirty u = false ∧ u < 0x10000 := by
  intro u hu
  by_cases hd : d < 0x10000
  · unfold codeUnits at hu
    rw [if_pos hd, List.mem_singleton] at hu
    rw [hu]
    exact ⟨h1 hd, hd⟩
  · obtain ⟨x, y, e, hx, hy, _⟩ := codeUnits_astral d (by omega) h2
    rw [e] at hu
    simp only [List.mem_cons, List.mem_singleton, List.not_mem_nil, or_false] at hu
    rcases hu with rfl | rfl
    · exact ⟨isDirty_surrogate _ hx.1 (by omega), by omega⟩
    · exact ⟨isDirty_surrogate _ (by omega) hy.2, by omega⟩

/-- The case conversion of a text that the steps before it leave as it is, is such
a text again. -/
theorem toLowerCase_clean (t : Str) (ht : ∀ u ∈ t, isDirty u = false ∧ u < 0x10000) :
    ∀ u ∈ toLowerCase t, isDirty u = false ∧ u < 0x10000 := by
  intro u hu
  unfold toLowerCase at hu
  obtain ⟨d, hd, hu⟩ := List.mem_flatMap.1 hu
  rcases lowerCodePoints_mem _ _ d hd with h | ⟨h1, _, h3⟩
  · rcases codePoints_mem t d h with h | ⟨h1, h2⟩
    · exact codeUnits_clean d (fun _ => (ht d h).1) (by have := (ht d h).2; omega) u hu
    · exact codeUnits_clean d (fun hlt => by omega) h2 u hu
  · exact codeUnits_clean d (fun _ => h1) h3 u hu

theorem cleanText_units (x : Str) (hx : ∀ u ∈ x, u < 0x10000) :
    ∀ u ∈ cleanText x, isDirty u = false ∧ u < 0x10000 := by
  intro u hu
  obtain ⟨h1, h2⟩ := cleanText_mem x u hu
  refine ⟨h1, ?_⟩
  rcases h2 with h | h
  · exact hx u h
  · omega

theorem normalizeText_units (x : Str) (hx : ∀ u ∈ x, u < 0x10000) :
    ∀ u ∈ normalizeText x, isDirty u = false ∧ u < 0x10000 := by
  rw [normalizeText_eq]
  exact toLowerCase_clean _ (cleanText_units x hx)

/-- Normalising twice is normalising once. -/
theorem normalizeText_idempotent (x : Str) (hx : ∀ u ∈ x, u < 0x10000) :
    normalizeText (normalizeText x) = normalizeText x := by
  rw [normalizeText_eq (normalizeText x),
    cleanText_of_clean _ (fun u hu => (normalizeText_units x hx u hu).1), normalizeText_eq,
    toLowerCase_idempotent _ (fun u hu => (cleanText_units x hx u hu).2)]

/-- The code points of a normal form are code points that the case conversion
leaves as they are. -/
theorem normalizeText_lowerStable (x : Str) (hx : ∀ u ∈ x, u < 0x10000) :
    ∀ d ∈ codePoints (normalizeText x), LowerStable d := by
  rw [normalizeText_eq]
  unfold toLowerCase
  rw [codePoints_flatMap_codeUnits _ (lowerCodePoints_wellPaired _
    (codePoints_wellPaired _ (fun u hu => (cleanText_units x hx u hu).2)) [])]
  exact lowerCodePoints_stable _ _

theorem cleanText_eq_nil (t : Str) :
    cleanText t = [] ↔ ∀ c ∈ t, isWhiteSpace c = true ∨ isZeroWidth c = true := by
  constructor
  · intro h
    induction t with
    | nil => intro c hc; cases hc
    | cons a t ih =>
      rw [cleanText_cons, List.append_eq_nil] at h
      intro c hc
      rcases List.mem_cons.1 hc with rfl | hc
      · by_contra hn
        rw [not_or, Bool.not_eq_true, Bool.not_eq_true] at hn
        by_cases hsp : c ∈ punctuationUnits
        · have hall : ∀ c ∈ punctuationUnits, cleanText [c] ≠ [] := by decide
          exact hall c hsp h.1
        · rw [cleanText_plain c hn.1 hsp hn.2] at h
          cases h.1
      · exact ih h.2 c hc
  · exact cleanText_blank t

theorem nextIsCased_cons (d : Nat) (l : List Nat) :
    nextIsCased (d :: l) = if isCaseIgnorable d = true then nextIsCased l else isCasedLetter d := by
  unfold nextIsCased
  rw [List.find?_cons]
  cases h : isCaseIgnorable d <;> simp

theorem nextIsCased_congr (l m : List Nat) (h : List.Forall₂ SameCaseClass l m) :
    nextIsCased l = nextIsCased m := by
  induction h with
  | nil => rfl
  | cons hd _ ih =>
    rw [nextIsCased_cons, nextIsCased_cons, ih, hd.1, hd.2]

theorem sameCaseClass_refl (l : List Nat) : List.Forall₂ SameCaseClass l l := by
  induction l with
  | nil => exact List.Forall₂.nil
  | cons a l ih => exact List.Forall₂.cons ⟨rfl, rfl⟩ ih

theorem lowerCodePoint_congr (B B2 A A2 : List Nat) (c : Nat)
    (hB : List.Forall₂ SameCaseClass B B2) (hA : List.Forall₂ SameCaseClass A A2) :
    lowerCodePoint B A c = lowerCodePoint B2 A2 c := by
  unfold lowerCodePoint isFinalSigma
  rw [nextIsCased_congr B B2 hB, nextIsCased_congr A A2 hA]

theorem lowerCodePoints_congr (Q : List Nat) :
    ∀ B B2, List.Forall₂ SameCaseClass B B2 → lowerCodePoints B Q = lowerCodePoints B2 Q := by
  induction Q with
  | nil => intro B B2 _; rfl
  | cons q Q ih =>
    intro B B2 h
    rw [lowerCodePoints, lowerCodePoints, lowerCodePoint_congr B B2 Q Q q h (sameCaseClass_refl Q),
      ih (q :: B) (q :: B2) (List.Forall₂.cons ⟨rfl, rfl⟩ h)]

theorem lowerCodePoints_replace (P Q : List Nat) (c d : Nat) (hS : SameCaseClass c d)
    (hc : ∀ B A, lowerCodePoint B A c = lowerCodePoint B A d) :
    ∀ B, lowerCodePoints B (P ++ c :: Q) = lowerCodePoints B (P ++ d :: Q) := by
  induction P with
  | nil =>
    intro B
    rw [List.nil_append, List.nil_append, lowerCodePoints, lowerCodePoints, hc,
      lowerCodePoints_congr Q (c :: B) (d :: B) (List.Forall₂.cons hS (sameCaseClass_refl B))]
  | cons p P ih =>
    intro B
    have hA : List.Forall₂ SameCaseClass (P ++ c :: Q) (P ++ d :: Q) :=
      List.rel_append (sameCaseClass_refl P) (List.Forall₂.cons hS (sameCaseClass_refl Q))
    rw [List.cons_append, List.cons_append, lowerCodePoints, lowerCodePoints,
      lowerCodePoint_congr B B _ _ p (sameCaseClass_refl B) hA, ih]

theorem codePoints_insert (X Y : Str) (c : Nat) (h1 : c < 0xD800 ∨ 0xDFFF < c)
    (h2 : c < 0x110000) :
    codePoints (X ++ codeUnits c ++ Y) = codePoints X ++ c :: codePoints Y := by
  rw [List.append_assoc]
  by_cases hc : c < 0x10000
  · have e : codeUnits c = [c] := by unfold codeUnits; rw [if_pos hc]
    rw [e, codePoints_append X _ (by
      intro d hd
      simp only [List.singleton_append, List.head?_cons, Option.some.injEq] at hd
      omega)]
    rw [List.singleton_append, codePoints_cons c Y (by intro h; omega)]
  · obtain ⟨x, y, e, hx, hy, _⟩ := codeUnits_astral c (by omega) h2
    rw [codePoints_append X _ (by
      intro d hd
      rw [e] at hd
      simp only [List.cons_append, List.head?_cons, Option.some.injEq] at hd
      omega)]
    rw [codePoints_codeUnits c Y (by omega) h2]

/-- Replacing a letter other than `Σ` and `İ` by its lower-case form does not
change the normal form. -/
theorem normalizeText_letterCase (a b : Str) (c : Nat) (h1 : c ≠ 0x3A3) (h2 : c ≠ 0x130) :
    normalizeText (a ++ codeUnits c ++ b) =
      normalizeText (a ++ codeUnits (simpleLowerCase c) ++ b) := by
  by_cases h : simpleLowerCase c = c
  · rw [h]
  · obtain ⟨hst, k2, k3, k4, k5, k6, k7, k8, k9, k10, _⟩ := simpleLowerCase_image c h
    have hclean : ∀ d, isDirty d = false → (d < 0xD800 ∨ 0xDFFF < d) → d < 0x110000 →
        cleanText (codeUnits d) = codeUnits d := by
      intro d g1 g2 g3
      exact cleanText_of_clean _ (fun u hu => (codeUnits_clean d (fun _ => g1) g3 u hu).1)
    rw [normalizeText_eq, normalizeText_eq, cleanText_append, cleanText_append,
      cleanText_append, cleanText_append, hclean c k2 k6 k8, hclean _ k3 k7 k9]
    unfold toLowerCase
    rw [codePoints_insert _ _ c k6 k8, codePoints_insert _ _ _ k7 k9,
      lowerCodePoints_replace _ _ c (simpleLowerCase c) ⟨by rw [k4, k5], by
        unfold isCaseIgnorable
        rw [k4, k5, Bool.not_true, Bool.false_and, Bool.false_and]⟩
        (fun B A => by
          rw [lowerCodePoint_of_stable B A _ hst]
          unfold lowerCodePoint
          rw [if_neg h1, if_neg h2])]

theorem formatVariant_normalizeText {a b : Str} (h : FormatVariant a b) :
    normalizeText a = normalizeText b := by
  induction h with
  | refl a => rfl
  | symm _ ih => exact ih.symm
  | trans _ _ ih1 ih2 => exact ih1.trans ih2
  | blank a b c hc =>
    have hnil : cleanText [c] = [] := by
      rcases hc with hc | hc
      · exact cleanText_whiteSpace c hc
      · exact cleanText_zeroWidth c hc
    rw [normalizeText_eq, normalizeText_eq, cleanText_append, cleanText_append,
      cleanText_cons c, hnil, List.nil_append]
  | letterCase a b c h1 h2 => exact normalizeText_letterCase a b c h1 h2
  | width a b w hw =>
    have hall : ∀ w ∈ widthPairs, cleanText [w.1] = cleanText [w.2] := by decide
    rw [normalizeText_eq, normalizeText_eq, cleanText_append, cleanText_append,
      cleanText_cons w.1, cleanText_cons w.2, hall w hw]

/-- C11. `normalizeText (normalizeText x) = normalizeText x` for every string `x`, a
string being a list of 16-bit code units. -/
theorem C11_normalize_idempotent (x : Str) (hx : ∀ u ∈ x, u < 0x10000) :
    normalizeText (normalizeText x) = normalizeText x :=
  normalizeText_idempotent x hx

/-- C11 on `Ａ， ΑΣ` followed by a zero-width space: the normal form is `ａ,ας`, and
normalising it again gives `ａ,ας`. -/
theorem C11_normalize_idempotent_witness :
    normalizeText [0xFF21, 0xFF0C, 0x20, 0x391, 0x3A3, 0x200B] = [0xFF41, 0x2C, 0x3B1, 0x3C2] ∧
    normalizeText (normalizeText [0xFF21, 0xFF0C, 0x20, 0x391, 0x3A3, 0x200B]) =
      normalizeText [0xFF21, 0xFF0C, 0x20, 0x391, 0x3A3, 0x200B] :=
  ⟨by decide, C11_normalize_idempotent _ (by decide)⟩

/-- C12, on the code. `ασ` is `ΑΣ` with the case of its two letters changed, but the
normal form of `ΑΣ` is `ας`, with the final sigma U+03C2, and the normal form of `ασ`
is `ασ`: the case conversion of `Σ` depends on the letters around it. And the
upper-case letter `ϒ` (U+03D2), which has no lower-case form, is kept in the
output. -/
theorem C12_counterexample :
    (codePoints (js "ΑΣ")).map simpleLowerCase = codePoints (js "ασ") ∧
    normalizeText (js "ΑΣ") = js "ας" ∧
    normalizeText (js "ασ") = js "ασ" ∧
    normalizeText (js "ΑΣ") ≠ normalizeText (js "ασ") ∧
    normalizeText [0x3D2] = [0x3D2] := by
  decide

/-- C12, amended. If `b` is obtained from `a` by inserting or deleting white space or
zero-width characters (U+200B, U+200C, U+200D, U+FEFF), by replacing a letter other
than `Σ` (U+03A3) and `İ` (U+0130) by its lower-case form or back, or by exchanging
the full-width and the half-width form of a comma, period, colon, semicolon,
parenthesis, bracket or dash, then `normalizeText a = normalizeText b`; and the output
of `normalizeText` on a string of 16-bit code units contains no white space and no
character that has a lower-case form of its own. -/
theorem C12_normalize_variants (a b x : Str) (h : FormatVariant a b)
    (hx : ∀ u ∈ x, u < 0x10000) :
    normalizeText a = normalizeText b ∧
    (∀ u ∈ normalizeText x, isWhiteSpace u = false) ∧
    (∀ d ∈ codePoints (normalizeText x),
      d ≠ 0x3A3 ∧ d ≠ 0x130 ∧ simpleLowerCase d = d) :=
  ⟨formatVariant_normalizeText h,
    fun u hu => isWhiteSpace_of_clean u (normalizeText_units x hx u hu).1,
    normalizeText_lowerStable x hx⟩

/-- C12 on an example: `é,b` and `É， b` with a zero-width space have the same normal
form, `é,b`. -/
theorem C12_normalize_variants_witness :
    FormatVariant [0xE9, 0x2C, 0x62] [0xC9, 0xFF0C, 0x20, 0x200B, 0x62] ∧
    (∀ u ∈ [0xC9, 0xFF0C, 0x20, 0x200B, 0x62], u < 0x10000) ∧
    normalizeText [0xE9, 0x2C, 0x62] = normalizeText [0xC9, 0xFF0C, 0x20, 0x200B, 0x62] ∧
    (∀ u ∈ normalizeText [0xC9, 0xFF0C, 0x20, 0x200B, 0x62], isWhiteSpace u = false) ∧
    (∀ d ∈ codePoints (normalizeText [0xC9, 0xFF0C, 0x20, 0x200B, 0x62]),
      d ≠ 0x3A3 ∧ d ≠ 0x130 ∧ simpleLowerCase d = d) :=
  have hv : FormatVariant [0xE9, 0x2C, 0x62] [0xC9, 0xFF0C, 0x20, 0x200B, 0x62] :=
    FormatVariant.trans
      (FormatVariant.symm (FormatVariant.letterCase [] [0x2C, 0x62] 0xC9 (by decide)
        (by decide)))
      (FormatVariant.trans
        (FormatVariant.symm (FormatVariant.width [0xC9] [0x62] (0xFF0C, 0x2C) (by decide)))
        (FormatVariant.trans
          (FormatVariant.blank [0xC9, 0xFF0C] [0x62] 0x200B (Or.inr (by decide)))
          (FormatVariant.blank [0xC9, 0xFF0C] [0x200B, 0x62] 0x20 (Or.inl (by decide)))))
  ⟨hv, by decide, C12_normalize_variants _ _ [0xC9, 0xFF0C, 0x20, 0x200B, 0x62] hv (by decide)⟩

/-- C35, on the code. `normalizeText` does not distribute over concatenation: the
normal form of `ΑΣ` is `ας`, with the final sigma U+03C2, and the normal forms of `Α`
and of `Σ`, concatenated, are `ασ`. The case conversion of `Σ` depends on the letters
around it. -/
theorem C35_counterexample :
    normalizeText (js "Α" ++ js "Σ") = js "ας" ∧
    normalizeText (js "Α") ++ normalizeText (js "Σ") = js "ασ" ∧
    normalizeText (js "Α" ++ js "Σ") ≠ normalizeText (js "Α") ++ normalizeText (js "Σ") ∧
    toLowerCase (js "Α" ++ js "Σ") ≠ toLowerCase (js "Α") ++ toLowerCase (js "Σ") := by
  decide

/-- C35, amended. The steps of `normalizeText` before the case conversion (white
space and zero-width characters removed, punctuation unified) distribute over
concatenation, `normalizeText` is these steps followed by `toLowerCase`, and a normal
form is empty exactly when the result of these steps is empty; and for every
text-diff primitive whose edit script reconstructs both of its inputs, every
result of `computeParagraphDiffs` has `hasDiff = true` exactly when the normal forms
of its two texts differ. -/
theorem C35_has_diff_iff_normal_forms_differ (computeDiff : Str → Str → List DiffOp)
    (h : ∀ left right, Reconstructs (computeDiff left right) left right) :
    (∀ a b, cleanText (a ++ b) = cleanText a ++ cleanText b) ∧
    (∀ t, normalizeText t = toLowerCase (cleanText t)) ∧
    (∀ t, normalizeText t = [] ↔ cleanText t = []) ∧
    (∀ pair : AlignedPair, (diffPair computeDiff pair).hasDiff = true ↔
      normalizeText pair.left.text ≠ normalizeText pair.right.text) ∧
    (∀ L R : List Paragraph, ∀ d ∈ computeParagraphDiffs computeDiff L R,
      d.hasDiff = true ↔ normalizeText d.left.text ≠ normalizeText d.right.text) := by
  refine ⟨cleanText_append, normalizeText_eq, normalizeText_eq_nil,
    fun pair => diffPair_hasDiff_iff computeDiff pair (h _ _), ?_⟩
  intro L R d hd
  unfold computeParagraphDiffs at hd
  obtain ⟨pair, _, rfl⟩ := List.mem_map.1 hd
  rw [(diffPair_sides computeDiff pair).1, (diffPair_sides computeDiff pair).2]
  exact diffPair_hasDiff_iff computeDiff pair (h _ _)

/-- C35 with the primitive that deletes the left text and inserts the right one, on
`1. 甲方,乙方` against `1. 甲方乙方`. -/
theorem C35_has_diff_iff_normal_forms_differ_witness :
    Reconstructs (replaceAllDiff (js "1. 甲方,乙方") (js "1. 甲方乙方")) (js "1. 甲方,乙方")
      (js "1. 甲方乙方") ∧
    ((diffPair replaceAllDiff
        (numberPair 0 (para "1. 甲方,乙方") 0 (para "1. 甲方乙方"))).hasDiff = true ↔
      normalizeText (js "1. 甲方,乙方") ≠ normalizeText (js "1. 甲方乙方")) :=
  ⟨replaceAllDiff_reconstructs _ _,
    (C35_has_diff_iff_normal_forms_differ replaceAllDiff replaceAllDiff_reconstructs).2.2.2.1
      (numberPair 0 (para "1. 甲方,乙方") 0 (para "1. 甲方乙方"))⟩

theorem starRun_prefix (step : MState → List MState) (q : Nat → Bool)
    (hstep : ∀ st r, r ∈ step st → ∃ pre, st.1 = pre ++ r.1 ∧ ∀ c ∈ pre, q c = true)
    (fuel : Nat) :
    ∀ st r, r ∈ starRun step fuel st → ∃ pre, st.1 = pre ++ r.1 ∧ ∀ c ∈ pre, q c = true := by
  induction fuel with
  | zero =>
    intro st r hr
    rw [starRun, List.mem_singleton] at hr
    rw [hr]
    exact ⟨[], rfl, by simp⟩
  | succ fuel ih =>
    intro st r hr
    rw [starRun, List.mem_append, List.mem_flatMap] at hr
    rcases hr with ⟨mid, hmid, hr⟩ | hr
    · obtain ⟨p1, e1, h1⟩ := hstep st mid (List.mem_filter.1 hmid).1
      obtain ⟨p2, e2, h2⟩ := ih mid r hr
      refine ⟨p1 ++ p2, by rw [e1, e2, List.append_assoc], ?_⟩
      intro c hc
      rcases List.mem_append.1 hc with hc | hc
      · exact h1 c hc
      · exact h2 c hc
    · rw [List.mem_singleton] at hr
      rw [hr]
      exact ⟨[], rfl, by simp⟩

/-- What a match reads is a prefix of the input made of characters that the
classes of the pattern admit. -/
theorem Re.run_prefix (a : Re) :
    ∀ st r, r ∈ a.run st → ∃ pre, st.1 = pre ++ r.1 ∧ ∀ c ∈ pre, a.accepts c = true := by
  induction a with
  | cls p =>
    intro st r hr
    rcases st with ⟨s, c⟩
    cases s with
    | nil => simp [Re.run] at hr
    | cons x xs =>
      by_cases hp : p x = true
      · simp [Re.run, hp] at hr
        rw [hr]
        refine ⟨[x], rfl, ?_⟩
        intro c hc
        rw [List.mem_singleton.1 hc]
        exact hp
      · simp [Re.run, hp] at hr
  | seq a b iha ihb =>
    intro st r hr
    rw [Re.run, List.mem_flatMap] at hr
    obtain ⟨mid, hmid, hr⟩ := hr
    obtain ⟨p1, e1, h1⟩ := iha st mid hmid
    obtain ⟨p2, e2, h2⟩ := ihb mid r hr
    refine ⟨p1 ++ p2, by rw [e1, e2, List.append_assoc], ?_⟩
    intro c hc
    simp only [Re.accepts, Bool.or_eq_true]
    rcases List.mem_append.1 hc with hc | hc
    · exact Or.inl (h1 c hc)
    · exact Or.inr (h2 c hc)
  | opt a iha =>
    intro st r hr
    rw [Re.run, List.mem_append, List.mem_singleton] at hr
    rcases hr with hr | hr
    · exact iha st r hr
    · rw [hr]
      exact ⟨[], rfl, by simp⟩
  | star a iha =>
    intro st r hr
    rw [Re.run] at hr
    exact starRun_prefix a.run a.accepts iha _ st r hr
  | plus a iha =>
    intro st r hr
    rw [Re.run, List.mem_flatMap] at hr
    obtain ⟨mid, hmid, hr⟩ := hr
    obtain ⟨p1, e1, h1⟩ := iha st mid hmid
    obtain ⟨p2, e2, h2⟩ := starRun_prefix a.run a.accepts iha _ mid r hr
    refine ⟨p1 ++ p2, by rw [e1, e2, List.append_assoc], ?_⟩
    intro c hc
    rcases List.mem_append.1 hc with hc | hc
    · exact h1 c hc
    · exact h2 c hc
  | group a iha =>
    intro st r hr
    rw [Re.run, List.mem_map] at hr
    obtain ⟨mid, hmid, rfl⟩ := hr
    exact iha st mid hmid

/-- The text that a match leaves in the capture group is made of characters that
the classes inside the group admit. -/
theorem Re.run_captured (a : Re) (h : a.captures = true) :
    ∀ st r, r ∈ a.run st → ∃ n, r.2 = some n ∧ ∀ c ∈ n, a.groupAccepts c = true := by
  induction a with
  | cls p => simp [Re.captures] at h
  | seq a b iha ihb =>
    intro st r hr
    rw [Re.run, List.mem_flatMap] at hr
    obtain ⟨mid, hmid, hr⟩ := hr
    simp only [Re.captures, Bool.or_eq_true, Bool.and_eq_true] at h
    rcases h with ⟨h1, h2⟩ | h
    · rw [b.run_groupFree h2 mid r hr]
      obtain ⟨n, e, hn⟩ := iha h1 st mid hmid
      exact ⟨n, e, fun c hc => by simp only [Re.groupAccepts, hn c hc, Bool.true_or]⟩
    · obtain ⟨n, e, hn⟩ := ihb h mid r hr
      exact ⟨n, e, fun c hc => by simp only [Re.groupAccepts, hn c hc, Bool.or_true]⟩
  | opt a _ => simp [Re.captures] at h
  | star a _ => simp [Re.captures] at h
  | plus a _ => simp [Re.captures] at h
  | group a _ =>
    intro st r hr
    rw [Re.run, List.mem_map] at hr
    obtain ⟨mid, hmid, rfl⟩ := hr
    obtain ⟨pre, e, hpre⟩ := a.run_prefix st mid hmid
    refine ⟨_, rfl, ?_⟩
    intro c hc
    have : st.1.take (st.1.length - mid.1.length) = pre := by
      rw [e, List.length_append, Nat.add_sub_cancel, List.take_left]
    rw [this] at hc
    exact hpre c hc

theorem exec_mem_run (r : Re) (s : Str) (n : Option Str) (h : r.exec s = some n) :
    ∃ st ∈ r.run (s, none), st.2 = n := by
  unfold Re.exec at h
  cases hh : (r.run (s, none)).head? with
  | none => rw [hh] at h; cases h
  | some st =>
    rw [hh] at h
    simp only [Option.map_some', Option.some.injEq] at h
    exact ⟨st, List.mem_of_mem_head? hh, h⟩

/-- The letter pattern captures one character. -/
theorem letterPattern_capture (s n : Str)
    (h : (Re.seq (.group (.cls isAsciiLetter))
      (.seq (Re.oneOf (js ".）)")) (.star (.cls isWhiteSpace)))).exec s = some (some n)) :
    n.length = 1 := by
  obtain ⟨st, hst, e⟩ := exec_mem_run _ _ _ h
  rw [Re.run, List.mem_flatMap] at hst
  obtain ⟨mid, hmid, hst⟩ := hst
  have hfree := Re.run_groupFree (Re.seq (Re.oneOf (js ".）)")) (.star (.cls isWhiteSpace)))
    rfl mid st hst
  rw [Re.run, List.mem_map] at hmid
  obtain ⟨r0, hr0, rfl⟩ := hmid
  cases s with
  | nil => simp [Re.run] at hr0
  | cons x xs =>
    by_cases hp : isAsciiLetter x = true
    · simp [Re.run, hp] at hr0
      rw [hfree, hr0] at e
      simp at e
      rw [← e]
      rfl
    · simp [Re.run, hp] at hr0

/-- A number that a section pattern extracts is made of digits, dots and Chinese
digits, or is a single character. -/
theorem sectionPatterns_token (r : Re) (hr : r ∈ sectionPatterns) (s n : Str)
    (h : r.exec s = some (some n)) :
    (∀ c ∈ n, isDigit c = true ∨ c = 0x2E ∨ c ∈ chineseDigits) ∨ n.length = 1 := by
  have hcap : ∀ r ∈ sectionPatterns, ∀ s n, r.exec s = some (some n) →
      ∀ c ∈ n, r.groupAccepts c = true := by
    intro r hr s n h c hc
    obtain ⟨st, hst, e⟩ := exec_mem_run _ _ _ h
    obtain ⟨m, e2, hm⟩ := r.run_captured (sectionPatterns_capture r hr) _ st hst
    rw [e2, Option.some.injEq] at e
    rw [← e] at hc
    exact hm c hc
  have hcap := hcap r hr s n h
  simp only [sectionPatterns, List.mem_cons, List.mem_singleton, List.not_mem_nil,
    or_false] at hr
  rcases hr with rfl | rfl | rfl | rfl | rfl
  · left
    intro c hc
    have := hcap c hc
    simp only [Re.groupAccepts, Re.accepts, Re.oneOf, Bool.or_eq_true, Bool.or_false,
      Bool.false_or, decide_eq_true_eq] at this
    rcases this with h | h | h
    · exact Or.inl h
    · have e : js "." = [0x2E] := by decide
      rw [e, List.mem_singleton] at h
      exact Or.inr (Or.inl h)
    · exact Or.inl h
  · left
    intro c hc
    have := hcap c hc
    simp only [Re.groupAccepts, Re.accepts, Re.oneOf, Bool.or_eq_true, Bool.or_false,
      Bool.false_or, decide_eq_true_eq] at this
    exact Or.inr (Or.inr this)
  · left
    intro c hc
    have := hcap c hc
    simp only [Re.groupAccepts, Re.accepts, Re.oneOf, Bool.or_eq_true, Bool.or_false,
      Bool.false_or, decide_eq_true_eq] at this
    rcases this with h | h
    · exact Or.inr (Or.inr h)
    · exact Or.inl h
  · left
    intro c hc
    have := hcap c hc
    simp only [Re.groupAccepts, Re.accepts, Re.oneOf, Bool.or_eq_true, Bool.or_false,
      Bool.false_or, decide_eq_true_eq] at this
    exact Or.inl this
  · exact Or.inr (letterPattern_capture s n h)

theorem extractSectionNumber_token (text tok : Str) (h : extractSectionNumber text = some tok) :
    (∀ c ∈ tok, isDigit c = true ∨ c = 0x2E ∨ c ∈ chineseDigits) ∨ tok.length = 1 := by
  unfold extractSectionNumber at h
  split at h
  · cases h
  · cases hf : sectionPatterns.findSome? (fun r => r.exec (trim text)) with
    | none => rw [hf] at h; cases h
    | some c =>
      rw [hf] at h
      obtain ⟨r, hr, hexec⟩ := List.exists_of_findSome?_eq_some hf
      have hc : c = some tok := h
      rw [hc] at hexec
      exact sectionPatterns_token r hr _ _ hexec

/-- A number that `extractSectionNumber` returns is never the name of a member of
`Object.prototype`. -/
theorem extractSectionNumber_not_inherited (text tok : Str)
    (h : extractSectionNumber text = some tok) : tok ∉ objectPrototypeNames := by
  intro hmem
  have hall : ∀ name ∈ objectPrototypeNames, name.length ≠ 1 ∧
      ∃ c ∈ name, ¬ (isDigit c = true ∨ c = 0x2E ∨ c ∈ chineseDigits) := by decide
  obtain ⟨h1, c, hc, h2⟩ := hall tok hmem
  rcases extractSectionNumber_token text tok h with h3 | h3
  · exact h2 (h3 c hc)
  · exact h1 h3

/-- C16. The table holds the fifteen numerals `一` .. `十五` with the values `1` .. `15`,
and a token of the table is replaced by its value. A token that
`extractSectionNumber` returns, the only tokens that the program passes to
`normalizeNumber`, is made of digits, dots and Chinese digits or is one letter: when
it is not in the table it is returned lower-cased, never anything else. In
particular `十六` and `二十一` are returned as they are, as for the text `十六、其他`,
`A` gives `a`, and the empty token gives `''`. -/
theorem C16_normalize_number (text tok : Str) :
    chineseNums.map (fun e => e.1) =
      [js "一", js "二", js "三", js "四", js "五", js "六", js "七", js "八", js "九", js "十",
       js "十一", js "十二", js "十三", js "十四", js "十五"] ∧
    chineseNums.map (fun e => e.2) =
      [js "1", js "2", js "3", js "4", js "5", js "6", js "7", js "8", js "9", js "10",
       js "11", js "12", js "13", js "14", js "15"] ∧
    (∀ v, chineseNums.lookup tok = some v → normalizeNumber tok = NumKey.str v) ∧
    (extractSectionNumber text = some tok → chineseNums.lookup tok = none →
      normalizeNumber tok = NumKey.str (toLowerCase tok)) ∧
    (chineseNums.lookup tok = none → tok ∉ objectPrototypeNames →
      normalizeNumber tok = NumKey.str (toLowerCase tok)) ∧
    (extractSectionNumber text = some tok → tok ∉ objectPrototypeNames) ∧
    extractSectionNumber (js "十六、其他") = some (js "十六") ∧
    normalizeNumber (js "十六") = NumKey.str (js "十六") ∧
    normalizeNumber (js "二十一") = NumKey.str (js "二十一") ∧
    normalizeNumber (js "A") = NumKey.str (js "a") ∧
    normalizeNumber [] = NumKey.str [] := by
  have hgen : chineseNums.lookup tok = none → tok ∉ objectPrototypeNames →
      normalizeNumber tok = NumKey.str (toLowerCase tok) := by
    intro hnone hnot
    by_cases hne : tok = []
    · subst hne
      rfl
    · simp only [normalizeNumber, if_neg hne, hnone, if_neg hnot]
  refine ⟨by decide, by decide, ?_, ?_, hgen, extractSectionNumber_not_inherited text tok,
    by decide, by decide, by decide, by decide, by decide⟩
  · intro v hv
    have hne : tok ≠ [] := by
      intro e
      rw [e] at hv
      have hnil : chineseNums.lookup ([] : Str) = none := by decide
      rw [hnil] at hv
      cases hv
    simp only [normalizeNumber, if_neg hne, hv]
  · intro h hnone
    exact hgen hnone (extractSectionNumber_not_inherited text tok h)

theorem sectionPatterns_consuming : ∀ r ∈ sectionPatterns, r.consuming = true := by
  intro r hr
  simp only [sectionPatterns, List.mem_cons, List.mem_singleton, List.not_mem_nil,
    or_false] at hr
  rcases hr with rfl | rfl | rfl | rfl | rfl <;> rfl

/-- A text with a section number has a normal form that is not empty: the number
starts at the first character that is not white space, and no pattern starts
with a zero-width character. -/
theorem sectionKey_normal_form (text : Str) (h : sectionKey text ≠ none) :
    normalizeText text ≠ [] := by
  intro hnil
  rw [normalizeText_eq_nil, cleanText_eq_nil] at hnil
  apply h
  rw [sectionKey_eq_none, extractSectionNumber_eq_none]
  intro r hr
  cases hexec : r.exec (trim text) with
  | none => rfl
  | some n =>
    exfalso
    obtain ⟨st, hst, _⟩ := exec_mem_run _ _ _ hexec
    obtain ⟨pre, e, hpre⟩ := r.run_prefix _ st hst
    have hlt := r.run_consuming (sectionPatterns_consuming r hr) _ st hst
    cases pre with
    | nil =>
      have : (trim text).length = st.1.length := by
        have e1 : trim text = st.1 := e
        rw [e1]
      have hlt1 : st.1.length < (trim text).length := hlt
      omega
    | cons c pre =>
      have hacc := hpre c (List.mem_cons_self _ _)
      have e1 : trim text = c :: (pre ++ st.1) := e
      have hhead : (trim text).head? = some c := by rw [e1]; rfl
      have hws : isWhiteSpace c = false := (noEdgeSpace_trim text).1 c hhead
      rw [head?_trim] at hhead
      have hmem : c ∈ text := List.mem_of_find?_eq_some hhead
      rcases hnil c hmem with hb | hb
      · rw [hws] at hb
        cases hb
      · have hz : c = 0x200B ∨ c = 0x200C ∨ c = 0x200D := by
          simp only [isZeroWidth, Bool.or_eq_true, beq_iff_eq] at hb
          rcases hb with ((hb | hb) | hb) | hb
          · exact Or.inl hb
          · exact Or.inr (Or.inl hb)
          · exact Or.inr (Or.inr hb)
          · subst hb
            revert hws
            decide
        have hall : ∀ r ∈ sectionPatterns, ∀ c ∈ [0x200B, 0x200C, 0x200D],
            r.accepts c = false := by decide
        have hc : c ∈ [0x200B, 0x200C, 0x200D] := by
          simp only [List.mem_cons, List.mem_singleton, List.not_mem_nil, or_false]
          exact hz
        rw [hall r hr c hc] at hacc
        cases hacc

/-- The two paragraphs of a pair of Tier 1 carry a section number. -/
theorem tier1_keys (L R : List Paragraph) :
    ∀ pr ∈ (tier1 L R).pairs,
      sectionKey pr.left.text ≠ none ∧ sectionKey pr.right.text ≠ none := by
  unfold tier1
  apply foldl_invariant (fun st : MatchState => ∀ pr ∈ st.pairs,
    sectionKey pr.left.text ≠ none ∧ sectionKey pr.right.text ≠ none)
  · intro st ip hst
    rcases tier1Step_cases R st ip with h | ⟨key, jq, hkey, hfind, h⟩
    · rw [h]
      exact hst
    · rw [h]
      intro pr hpr
      rcases List.mem_append.1 hpr with hpr | hpr
      · exact hst pr hpr
      · rw [List.mem_singleton.1 hpr]
        have hcand := List.find?_some hfind
        simp only [tier1Candidate, Bool.and_eq_true, decide_eq_true_eq] at hcand
        constructor
        · show sectionKey ip.2.text ≠ none
          rw [hkey]
          exact Option.some_ne_none _
        · show sectionKey jq.2.text ≠ none
          rw [hcand.2]
          exact Option.some_ne_none _
  · intro pr hpr
    cases hpr

/-- In a pair of the aligner whose two normal forms differ, a side that is not
blank has a normal form that is not empty. -/
theorem smartMatchParagraphs_normal_forms (L R : List Paragraph) (pr : AlignedPair)
    (hpr : pr ∈ smartMatchParagraphs L R)
    (hne : normalizeText pr.left.text ≠ normalizeText pr.right.text) :
    (0 < (trim pr.left.text).length → normalizeText pr.left.text ≠ []) ∧
    (0 < (trim pr.right.text).length → normalizeText pr.right.text ≠ []) := by
  rw [mem_smartMatchParagraphs, producedPairs_order, List.mem_append, List.mem_append,
    List.mem_append] at hpr
  rcases hpr with ((h | h) | h) | h
  · obtain ⟨h1, h2⟩ := tier1_keys L R pr h
    exact ⟨fun _ => sectionKey_normal_form _ h1, fun _ => sectionKey_normal_form _ h2⟩
  · obtain ⟨i, p, j, q, s, e, hs⟩ := (tier2Pairs_scan L R).1 pr h
    have hmem : pr ∈ (tier2 L R).pairs := by
      rw [tier2_pairs_eq]
      exact List.mem_append_right _ h
    obtain ⟨ip, _, jq, _, hshape⟩ := (tier2_good L R).shape pr hmem
    rcases hshape with hshape | ⟨hshape, hgt⟩
    · rw [hshape] at e
      have := congrArg (fun a => a.matchType) e
      simp [numberPair, similarityPair] at this
    · have hl : pr.left = ip.2 := by rw [hshape]; rfl
      have hr : pr.right = jq.2 := by rw [hshape]; rfl
      rw [← hl, ← hr] at hgt
      have hpos : (0 : ℚ) ≤ SIMILARITY_THRESHOLD := by decide
      have hzero : normalizeText pr.left.text = [] ∨ normalizeText pr.right.text = [] →
          calculateSimilarity pr.left.text pr.right.text = 0 := by
        intro h0
        unfold calculateSimilarity
        simp only [if_neg hne, if_pos h0]
      constructor
      · intro _ h0
        rw [hzero (Or.inl h0)] at hgt
        exact absurd hgt (not_lt.2 hpos)
      · intro _ h0
        rw [hzero (Or.inr h0)] at hgt
        exact absurd hgt (not_lt.2 hpos)
  · unfold leftLeftovers at h
    obtain ⟨ip, _, rfl⟩ := List.mem_map.1 h
    have hr : normalizeText (leftOnlyPair ip.1 ip.2).right.text = [] := by
      show normalizeText [] = []
      decide
    constructor
    · intro _ h0
      exact hne (by rw [h0, hr])
    · intro hlen
      simp [leftOnlyPair, trim] at hlen
  · unfold rightLeftovers at h
    obtain ⟨jq, _, rfl⟩ := List.mem_map.1 h
    have hl : normalizeText (rightOnlyPair jq.1 jq.2).left.text = [] := by
      show normalizeText [] = []
      decide
    constructor
    · intro hlen
      simp [rightOnlyPair, trim] at hlen
    · intro _ h0
      exact hne (by rw [h0, hl])

/-- In a result of `computeParagraphDiffs` with `hasDiff = true`, a side that is not
blank has a normal form that is not empty. -/
theorem computeParagraphDiffs_normal_forms (computeDiff : Str → Str → List DiffOp)
    (L R : List Paragraph) (d : ParagraphDiff) (hd : d ∈ computeParagraphDiffs computeDiff L R)
    (hdiff : d.hasDiff = true) :
    (0 < (trim d.left.text).length → normalizeText d.left.text ≠ []) ∧
    (0 < (trim d.right.text).length → normalizeText d.right.text ≠ []) := by
  unfold computeParagraphDiffs at hd
  obtain ⟨pair, hpair, rfl⟩ := List.mem_map.1 hd
  rw [diffPair_hasDiff] at hdiff
  have hne : normalizeText pair.left.text ≠ normalizeText pair.right.text := by
    intro e
    rw [if_pos e] at hdiff
    cases hdiff
  rw [(diffPair_sides computeDiff pair).1, (diffPair_sides computeDiff pair).2]
  exact smartMatchParagraphs_normal_forms L R pair hpair hne

theorem matchingBlocksSpec_eq_literal (blocks : List BoxedBlock) (text : Str)
    (h : normalizeText text ≠ []) :
    matchingBlocksSpec blocks text = matchingBlocksLiteral blocks text := by
  unfold matchingBlocksSpec matchingBlocksLiteral
  apply List.filter_congr
  intro block _
  by_cases e : normalizeText block.text = normalizeText text
  · have hpos : 0 < (normalizeText block.text).length := by
      rw [e]
      exact List.length_pos.2 h
    simp [e, hpos, List.length_pos.2 h]
  · simp [e]

theorem leftAnnotationsSpec_eq_literal (leftBlocks : List BoxedBlock) (result : ParagraphDiff)
    (k : Option Int)
    (h : result.hasDiff = true → 0 < (trim result.left.text).length →
      normalizeText result.left.text ≠ []) :
    leftAnnotationsSpec leftBlocks result k = leftAnnotationsLiteral leftBlocks result k := by
  unfold leftAnnotationsSpec leftAnnotationsLiteral
  by_cases hc : result.hasDiff = true ∧ 0 < (trim result.left.text).length
  · rw [if_pos hc, if_pos hc, matchingBlocksSpec_eq_literal _ _ (h hc.1 hc.2)]
  · rw [if_neg hc, if_neg hc]

theorem rightAnnotationsSpec_eq_literal (rightBlocks : List BoxedBlock)
    (result : ParagraphDiff) (k : Option Int)
    (h : result.hasDiff = true → 0 < (trim result.right.text).length →
      normalizeText result.right.text ≠ []) :
    rightAnnotationsSpec rightBlocks result k = rightAnnotationsLiteral rightBlocks result k := by
  unfold rightAnnotationsSpec rightAnnotationsLiteral
  by_cases hc : result.hasDiff = true ∧ 0 < (trim result.right.text).length
  · rw [if_pos hc, if_pos hc, matchingBlocksSpec_eq_literal _ _ (h hc.1 hc.2)]
  · rw [if_neg hc, if_neg hc]

/-- C29. In `prepareAnnotationsEnhanced`, as a function of the two block lists and
of the paragraph diffs that `computeParagraphDiffs` produces, the annotations filed
under a page index are, pair after pair: nothing for a pair with `hasDiff = false`;
for a pair with `hasDiff = true` whose left text is not blank, one `removed`
annotation on the left for every left block of that page whose normalised text
equals `normalizeText(left.text)`; and, when its right text is not blank, one
`added` annotation on the right for every right block of that page whose normalised
text equals `normalizeText(right.text)`. Each annotation carries the block's `bbox`
and `pageSize`; its text is the clipped text of the side when the other side is
blank and the text prefixed with `修改: ` when both sides have content. The blocks
with an empty normalised text, which the lookup maps leave out, are never asked
for: in a pair with `hasDiff = true`, a side that is not blank has a normal form
that is not empty. -/
theorem C29_annotation_path (computeDiff : Str → Str → List DiffOp) (L R : List Paragraph)
    (leftBlocks rightBlocks : List BoxedBlock) (leftData rightData : Doc) :
    (∀ k, annGet (annotatePairs leftBlocks rightBlocks
        (computeParagraphDiffs computeDiff L R)).1 k =
      (computeParagraphDiffs computeDiff L R).flatMap
        (fun result => leftAnnotationsLiteral leftBlocks result k)) ∧
    (∀ k, annGet (annotatePairs leftBlocks rightBlocks
        (computeParagraphDiffs computeDiff L R)).2 k =
      (computeParagraphDiffs computeDiff L R).flatMap
        (fun result => rightAnnotationsLiteral rightBlocks result k)) ∧
    prepareAnnotationsEnhanced (some leftData) (some rightData)
        (some (computeParagraphDiffs computeDiff L R)) =
      annotatePairs (extractBlocksWithBbox leftData) (extractBlocksWithBbox rightData)
        (computeParagraphDiffs computeDiff L R) ∧
    (∀ (blocks : List BoxedBlock) (text : Str) (block : BoxedBlock),
      block ∈ matchingBlocksLiteral blocks text ↔
        block ∈ blocks ∧ normalizeText block.text = normalizeText text) ∧
    (∀ d ∈ computeParagraphDiffs computeDiff L R, d.hasDiff = true →
      (0 < (trim d.left.text).length → normalizeText d.left.text ≠ []) ∧
      (0 < (trim d.right.text).length → normalizeText d.right.text ≠ [])) := by
  refine ⟨fun k => ?_, fun k => ?_, rfl, ?_,
    fun d hd => computeParagraphDiffs_normal_forms computeDiff L R d hd⟩
  · rw [annotatePairs, (annotate_foldl leftBlocks rightBlocks _ k ([], [])).1]
    show [] ++ _ = _
    rw [List.nil_append]
    apply flatMap_congr_mem
    intro d hd
    exact leftAnnotationsSpec_eq_literal leftBlocks d k
      (fun h => (computeParagraphDiffs_normal_forms computeDiff L R d hd h).1)
  · rw [annotatePairs, (annotate_foldl leftBlocks rightBlocks _ k ([], [])).2]
    show [] ++ _ = _
    rw [List.nil_append]
    apply flatMap_congr_mem
    intro d hd
    exact rightAnnotationsSpec_eq_literal rightBlocks d k
      (fun h => (computeParagraphDiffs_normal_forms computeDiff L R d hd h).2)
  · intro blocks text block
    unfold matchingBlocksLiteral
    rw [List.mem_filter, decide_eq_true_eq]

end ContractDiff
